import Mathlib

/-!
# Othello engine (`my_player.c`): board model, move generator and search kernel

A shallow embedding of `src/proj2_2025_local_referee/src/my_player.c`.

* The global `int *board` (64 ints) is a `List Int`; every function that the C
  code runs against the global board takes the board (or the whole `World`) as
  an argument and returns the new one.
* C `int` values (cells, colours, coordinates, scores, bounds) are `Int`.  All
  arithmetic in the modelled code stays far below 2^31, so no wrap-around is
  modelled.  C `/` and `%` are `Int.tdiv` and `Int.tmod` (truncation).
* `while` loops carry a fuel argument and return `none` when it runs out; a
  read or write outside the 64-cell allocation also returns `none`.  A theorem
  of the form `f .. = some r` therefore states that the code terminates, stays
  inside the board array and produces `r`.
-/

namespace Othello

/-! ## Constants -/

abbrev BOARD_SIZE : Int := 8
abbrev EMPTY : Int := 0
abbrev BLACK : Int := 1
abbrev WHITE : Int := 2
abbrev MAX_MOVES : Nat := 64

/-- The global `int *board`: `BOARD_SIZE * BOARD_SIZE` cells, row major. -/
abbrev Board := List Int

/-- Read `board[k]`; `none` when `k` is outside the allocation. -/
def readCell (b : Board) (k : Int) : Option Int :=
  if 0 ≤ k then b.get? k.toNat else none

/-- Write `board[k] = v`; `none` when `k` is outside the allocation. -/
def writeCell (b : Board) (k : Int) (v : Int) : Option Board :=
  if 0 ≤ k ∧ k.toNat < b.length then some (b.set k.toNat v) else none

/-- The loop guard `i >= 0 && i < BOARD_SIZE && j >= 0 && j < BOARD_SIZE`. -/
def onBoard (i j : Int) : Bool :=
  decide (i ≥ 0) && decide (i < BOARD_SIZE) && decide (j ≥ 0) && decide (j < BOARD_SIZE)

/-- Values taken by the loop variables `i`, `j` of the row and column loops. -/
abbrev indices : List Int := [0, 1, 2, 3, 4, 5, 6, 7]

/-- Values taken by `dx` and `dy` in `for (dx = -1; dx <= 1; dx++)`. -/
abbrev deltas : List Int := [-1, 0, 1]

/-- Iteration bound handed to the direction walks: a walk from a board cell
along a non-zero direction visits at most 7 cells before it leaves the board,
and one more iteration sees the guard fail. -/
abbrev WALK_FUEL : Nat := 8

/-! ## Move generator -/

/-- The `while` loop of `check_direction`. -/
def check_direction_loop (b : Board) (dx dy my_colour opp_colour : Int) :
    Nat → Int → Int → Bool → Option Int
  | 0, _, _, _ => none
  | fuel + 1, i, j, found_opp =>
    if onBoard i j then
      match readCell b (i * BOARD_SIZE + j) with
      | none => none
      | some v =>
        if v = opp_colour then
          check_direction_loop b dx dy my_colour opp_colour fuel (i + dx) (j + dy) true
        else if v = my_colour ∧ found_opp = true then some 1
        else some 0
    else some 0

/-- `check_direction(x, y, dx, dy, my_colour, opp_colour)`. -/
def check_direction (b : Board) (x y dx dy my_colour opp_colour : Int) : Option Int :=
  check_direction_loop b dx dy my_colour opp_colour WALK_FUEL (x + dx) (y + dy) false

/-- Body of the `dy` loop of `legal_moves` for the cell `(i, j)`; the state is
the move buffer written so far and the flag `moveFound`. -/
def legal_moves_dy (b : Board) (my_colour opp_colour i j dx : Int)
    (st : List Int × Bool) (dy : Int) : Option (List Int × Bool) :=
  if st.2 = true then some st
  else if dx = 0 ∧ dy = 0 then some st
  else
    match check_direction b i j dx dy my_colour opp_colour with
    | none => none
    | some r => if r ≠ 0 then some (st.1 ++ [i * BOARD_SIZE + j], true) else some st

/-- Body of the `j` loop of `legal_moves`: one cell. -/
def legal_moves_cell (b : Board) (my_colour opp_colour i : Int)
    (moves : List Int) (j : Int) : Option (List Int) :=
  match readCell b (i * BOARD_SIZE + j) with
  | none => none
  | some v =>
    if v ≠ EMPTY then some moves
    else
      (deltas.foldlM
        (fun st dx => deltas.foldlM (legal_moves_dy b my_colour opp_colour i j dx) st)
        (moves, false)).map Prod.fst

/-- `legal_moves(moves, &number_of_moves, my_colour)`: the cells written to
`moves[0 .. number_of_moves - 1]`, in the order written. -/
def legal_moves (b : Board) (my_colour : Int) : Option (List Int) :=
  let opp_colour := if my_colour = WHITE then BLACK else WHITE
  indices.foldlM
    (fun moves i => indices.foldlM (legal_moves_cell b my_colour opp_colour i) moves) []

/-! ## Move application -/

/-- The `while` loop of `flip_direction`. -/
def flip_direction_loop (dx dy my_colour : Int) : Nat → Board → Int → Int → Option Board
  | 0, _, _, _ => none
  | fuel + 1, b, i, j =>
    if onBoard i j then
      match readCell b (i * BOARD_SIZE + j) with
      | none => none
      | some v =>
        if v ≠ my_colour then
          match writeCell b (i * BOARD_SIZE + j) my_colour with
          | none => none
          | some b1 => flip_direction_loop dx dy my_colour fuel b1 (i + dx) (j + dy)
        else some b
    else some b

/-- `flip_direction(x, y, dx, dy, my_colour)`. -/
def flip_direction (b : Board) (x y dx dy my_colour : Int) : Option Board :=
  flip_direction_loop dx dy my_colour WALK_FUEL b (x + dx) (y + dy)

/-- The inner `while` loop of `make_move` for one direction. -/
def make_move_scan (b : Board) (row col dx dy colour opp_colour : Int) :
    Nat → Int → Int → Bool → Option Board
  | 0, _, _, _ => none
  | fuel + 1, i, j, found_opp =>
    if onBoard i j then
      match readCell b (i * BOARD_SIZE + j) with
      | none => none
      | some v =>
        if v = opp_colour then
          make_move_scan b row col dx dy colour opp_colour fuel (i + dx) (j + dy) true
        else if v = colour ∧ found_opp = true then flip_direction b row col dx dy colour
        else some b
    else some b

/-- Body of the `dy` loop of `make_move`. -/
def make_move_dy (row col colour opp_colour dx : Int) (b : Board) (dy : Int) : Option Board :=
  if dx = 0 ∧ dy = 0 then some b
  else make_move_scan b row col dx dy colour opp_colour WALK_FUEL (row + dx) (col + dy) false

/-- `make_move(move, colour)`. -/
def make_move (move colour : Int) (b : Board) : Option Board :=
  let row := move.tdiv BOARD_SIZE
  let col := move.tmod BOARD_SIZE
  let opp_colour := if colour = WHITE then BLACK else WHITE
  match writeCell b (row * BOARD_SIZE + col) colour with
  | none => none
  | some b0 =>
    deltas.foldlM (fun b1 dx => deltas.foldlM (make_move_dy row col colour opp_colour dx) b1) b0

/-- `memset(board, EMPTY, sizeof(int) * BOARD_SIZE * BOARD_SIZE)`: the first 64
cells are overwritten; `none` when the allocation is shorter. -/
def memset_board (b : Board) : Option Board :=
  let n : Nat := (BOARD_SIZE * BOARD_SIZE).toNat
  if n ≤ b.length then some (List.replicate n EMPTY ++ b.drop n) else none

/-- The four assignments that place the opening pieces. -/
def place_opening (b : Board) : Option Board :=
  let mid : Int := BOARD_SIZE.tdiv 2
  (writeCell b (mid * BOARD_SIZE + mid) WHITE).bind fun b1 =>
  (writeCell b1 ((mid - 1) * BOARD_SIZE + (mid - 1)) WHITE).bind fun b2 =>
  (writeCell b2 (mid * BOARD_SIZE + (mid - 1)) BLACK).bind fun b3 =>
  writeCell b3 ((mid - 1) * BOARD_SIZE + mid) BLACK

/-- `initialise_board()`; `fresh` is the block returned by `malloc`, whose
contents are indeterminate. -/
def initialise_board (fresh : Board) : Option Board :=
  (memset_board fresh).bind place_opening

/-- `reset_board(fp)` run on the board `b` (the log output is not modelled). -/
def reset_board (b : Board) : Option Board :=
  (memset_board b).bind place_opening

/-- `make_temp_move(temp_move, player_colour)`: the return value and the board. -/
def make_temp_move (temp_move player_colour : Int) (b : Board) : Option (Int × Board) :=
  if temp_move ≥ 0 then (make_move temp_move player_colour b).map fun b1 => (1, b1)
  else some (0, b)

/-- `copy_curr_board()`: a fresh block holding the 64 cells of the board. -/
def copy_curr_board (b : Board) : Option Board :=
  let n : Nat := (BOARD_SIZE * BOARD_SIZE).toNat
  if n ≤ b.length then some (b.take n) else none

/-- `restore_board(curr_board_copy)`: the 64 cells of the copy overwrite the
board. -/
def restore_board (curr_board_copy : Board) (b : Board) : Option Board :=
  let n : Nat := (BOARD_SIZE * BOARD_SIZE).toNat
  if n ≤ curr_board_copy.length ∧ n ≤ b.length then
    some (curr_board_copy.take n ++ b.drop n)
  else none

/-! ## Static evaluation -/

/-- The six counters of the scan loop of `evaluate_board_state`. -/
structure Counts where
  my_player_pieces : Int
  opponent_pieces : Int
  my_player_edges : Int
  opponent_edges : Int
  my_player_corners : Int
  opponent_corners : Int
deriving DecidableEq, Repr

/-- Body of the inner scan loop of `evaluate_board_state` for the cell `(i, j)`. -/
def evaluate_cell (b : Board) (my_player_colour opponent_colour i : Int)
    (c : Counts) (j : Int) : Option Counts :=
  match readCell b (i * BOARD_SIZE + j) with
  | none => none
  | some v =>
    if v = my_player_colour then
      let c1 := { c with my_player_pieces := c.my_player_pieces + 1 }
      if (i = 0 ∨ i = BOARD_SIZE - 1) ∧ (j = 0 ∨ j = BOARD_SIZE - 1) then
        some { c1 with my_player_corners := c1.my_player_corners + 1 }
      else if i = 0 ∨ j = 0 ∨ i = BOARD_SIZE - 1 ∨ j = BOARD_SIZE - 1 then
        some { c1 with my_player_edges := c1.my_player_edges + 1 }
      else some c1
    else if v = opponent_colour then
      let c1 := { c with opponent_pieces := c.opponent_pieces + 1 }
      if (i = 0 ∨ i = BOARD_SIZE - 1) ∧ (j = 0 ∨ j = BOARD_SIZE - 1) then
        some { c1 with opponent_corners := c1.opponent_corners + 1 }
      else if i = 0 ∨ j = 0 ∨ i = BOARD_SIZE - 1 ∨ j = BOARD_SIZE - 1 then
        some { c1 with opponent_edges := c1.opponent_edges + 1 }
      else some c1
    else some c

/-- The scan loops of `evaluate_board_state`. -/
def evaluate_counts (b : Board) (my_player_colour opponent_colour : Int) : Option Counts :=
  indices.foldlM
    (fun c i => indices.foldlM (evaluate_cell b my_player_colour opponent_colour i) c)
    ⟨0, 0, 0, 0, 0, 0⟩

/-- A finite `double` constant of the source: the number `mant * 2 ^ (-exp)`,
with `mant < 2 ^ 53`. -/
structure Dbl where
  mant : Nat
  exp : Nat
deriving DecidableEq, Repr

/-- The rational number a `Dbl` stands for. -/
def Dbl.val (d : Dbl) : ℚ := (d.mant : ℚ) / 2 ^ d.exp

/-- The `double` nearest to 0.1, `0x1.999999999999ap-4`. -/
def D_0_1 : Dbl := ⟨3602879701896397, 55⟩

/-- The `double` 0.5. -/
def D_0_5 : Dbl := ⟨1, 1⟩

/-- The `double` 1.5. -/
def D_1_5 : Dbl := ⟨3, 1⟩

/-- The `double` nearest to 0.3, `0x1.3333333333333p-2`. -/
def D_0_3 : Dbl := ⟨5404319552844595, 54⟩

/-- Loop of `bit_length`; the first argument bounds the number of halvings. -/
def bit_length_loop : Nat → Nat → Nat
  | 0, _ => 0
  | fuel + 1, n => if n = 0 then 0 else bit_length_loop fuel (n / 2) + 1

/-- Number of binary digits of `n`. -/
def bit_length (n : Nat) : Nat := bit_length_loop n n

/-- Rounding of a natural number to 53 significant bits, ties to even: the
`double` nearest to `n * 2 ^ (-e)` is `round53 n * 2 ^ (-e)` (no overflow or
underflow occurs for the magnitudes of the evaluator). -/
def round53 (n : Nat) : Nat :=
  let len := bit_length n
  if len ≤ 53 then n
  else
    let s := len - 53
    let q := n / 2 ^ s
    let r := n % 2 ^ s
    let half := 2 ^ (s - 1)
    (if r > half ∨ (r = half ∧ q % 2 = 1) then q + 1 else q) * 2 ^ s

/-- The C assignment `x = x * d` for an `int` variable `x` and a `double`
constant `d`: the `int` is converted exactly, the product is rounded to the
nearest `double`, and the conversion back to `int` truncates toward zero. -/
def mul_double_to_int (x : Int) (d : Dbl) : Int :=
  if 0 ≤ x then ((round53 (x.toNat * d.mant) / 2 ^ d.exp : Nat) : Int)
  else -((round53 ((-x).toNat * d.mant) / 2 ^ d.exp : Nat) : Int)

/-- The phase weighting at the end of `evaluate_board_state`: in each phase
every component is scaled in place, by an `int` constant or by a `double`
constant, and the four scaled components are added. -/
def weighted_score (piece_score edge_score corner_score move_score num_empty_spaces : Int) :
    Int :=
  let num_spaces : Int := BOARD_SIZE * BOARD_SIZE
  if num_empty_spaces > (2 * num_spaces).tdiv 3 then
    mul_double_to_int piece_score D_0_1 + edge_score * 5 + corner_score * 25 + move_score * 3
  else if num_empty_spaces > (1 * num_spaces).tdiv 3 then
    mul_double_to_int piece_score D_0_5 + edge_score * 3 + corner_score * 15 + move_score * 2
  else
    piece_score * 2 + mul_double_to_int edge_score D_1_5 + corner_score * 10 +
      mul_double_to_int move_score D_0_3

/-- `evaluate_board_state(my_player_colour)`. -/
def evaluate_board_state (b : Board) (my_player_colour : Int) : Option Int :=
  let opponent_colour := (my_player_colour + 1).tmod 2
  match evaluate_counts b my_player_colour opponent_colour with
  | none => none
  | some c =>
    let piece_score := c.my_player_pieces - c.opponent_pieces
    let edge_score := c.my_player_edges - c.opponent_edges
    let corner_score := c.my_player_corners - c.opponent_corners
    match legal_moves b my_player_colour with
    | none => none
    | some my_player_moves =>
      match legal_moves b opponent_colour with
      | none => none
      | some opponent_moves =>
        let move_score : Int := (my_player_moves.length : Int) - (opponent_moves.length : Int)
        let num_spaces : Int := BOARD_SIZE * BOARD_SIZE
        let num_empty_spaces := num_spaces - c.my_player_pieces - c.opponent_pieces
        some (weighted_score piece_score edge_score corner_score move_score num_empty_spaces)

/-! ## Process state and the deadline -/

/-- The globals of one process that the search reads or writes, and the number
of `clock()` calls made so far. -/
structure World where
  board : Board
  start : Int
  time_limit : Int
  clock_calls : Nat
deriving DecidableEq, Repr

abbrev CLOCKS_PER_SEC : Int := 1000000

/-- `check_if_time_up()`.  `clk n` is the value returned by call number `n` of
`clock()`.  `time_limit` is a `double` that is only ever assigned from an `int`,
so the test `elapsed_time > time_limit - 1.0` is the integer comparison below. -/
def check_if_time_up (clk : Nat → Int) (w : World) : Bool × World :=
  let curr_time := clk w.clock_calls
  (decide (curr_time - w.start > (w.time_limit - 1) * CLOCKS_PER_SEC),
    { w with clock_calls := w.clock_calls + 1 })

/-! ## Search kernel -/

/-- The `for` loop of the maximizing branch of `minimax`; `child alpha beta w`
is the recursive call made after the move has been applied. -/
def minimax_max_loop (child : Int → Int → World → Option (Int × World)) (curr_colour : Int) :
    List Int → Int → Int → Int → World → Option (Int × World)
  | [], _, _, best_possible_score, w => some (best_possible_score, w)
  | m :: rest, alpha, beta, best_possible_score, w =>
    match copy_curr_board w.board with
    | none => none
    | some curr_board_copy =>
      match make_temp_move m curr_colour w.board with
      | none => none
      | some (_, b1) =>
        match child alpha beta { w with board := b1 } with
        | none => none
        | some (score, w2) =>
          match restore_board curr_board_copy w2.board with
          | none => none
          | some b3 =>
            let w3 : World := { w2 with board := b3 }
            let best1 := if score > best_possible_score then score else best_possible_score
            let alpha1 := if alpha < best1 then best1 else alpha
            if beta ≤ alpha1 then some (best1, w3)
            else minimax_max_loop child curr_colour rest alpha1 beta best1 w3

/-- The `for` loop of the minimizing branch of `minimax`. -/
def minimax_min_loop (child : Int → Int → World → Option (Int × World)) (curr_colour : Int) :
    List Int → Int → Int → Int → World → Option (Int × World)
  | [], _, _, best_possible_score, w => some (best_possible_score, w)
  | m :: rest, alpha, beta, best_possible_score, w =>
    match copy_curr_board w.board with
    | none => none
    | some curr_board_copy =>
      match make_temp_move m curr_colour w.board with
      | none => none
      | some (_, b1) =>
        match child alpha beta { w with board := b1 } with
        | none => none
        | some (score, w2) =>
          match restore_board curr_board_copy w2.board with
          | none => none
          | some b3 =>
            let w3 : World := { w2 with board := b3 }
            let best1 := if score < best_possible_score then score else best_possible_score
            let beta1 := if beta > best1 then best1 else beta
            if beta1 ≤ alpha then some (best1, w3)
            else minimax_min_loop child curr_colour rest alpha beta1 best1 w3

/-- The leaf value: `evaluate_board_state(player_colour)` on the current board. -/
def leaf_value (player_colour : Int) (w : World) : Option (Int × World) :=
  (evaluate_board_state w.board player_colour).map fun v => (v, w)

/-- `minimax(depth, alpha, beta, maximizing, player_colour, curr_colour)`.  The
first argument bounds the nesting of recursive calls. -/
def minimax (clk : Nat → Int) :
    Nat → Int → Int → Int → Bool → Int → Int → World → Option (Int × World)
  | 0, _, _, _, _, _, _, _ => none
  | fuel + 1, depth, alpha, beta, maximizing, player_colour, curr_colour, w =>
    if depth ≤ 0 ∨ depth > 10 then leaf_value player_colour w
    else
      let tw := check_if_time_up clk w
      if tw.1 = true then leaf_value player_colour tw.2
      else
        match legal_moves tw.2.board curr_colour with
        | none => none
        | some moves_available =>
          if (moves_available.length : Int) ≤ 0 then
            let opp_colour := (curr_colour + 1).tmod 2
            match legal_moves tw.2.board opp_colour with
            | none => none
            | some opp_moves_available =>
              if (opp_moves_available.length : Int) ≤ 0 then leaf_value player_colour tw.2
              else
                minimax clk fuel (depth - 1) alpha beta (!maximizing) player_colour opp_colour tw.2
          else if maximizing = true then
            minimax_max_loop
              (fun a b w1 =>
                minimax clk fuel (depth - 1) a b false player_colour ((curr_colour + 1).tmod 2) w1)
              curr_colour moves_available alpha beta (-9999999) tw.2
          else
            minimax_min_loop
              (fun a b w1 =>
                minimax clk fuel (depth - 1) a b true player_colour ((curr_colour + 1).tmod 2) w1)
              curr_colour moves_available alpha beta 9999999 tw.2

/-- Nesting bound handed to `minimax` by its callers: a call that recurses has
`depth` in 1..10, so at most 11 calls are nested. -/
abbrev SEARCH_FUEL : Nat := 11

/-- `evaluate_moves(move, player_colour, depth, alpha, beta)` (the debug output
on `stderr` is not modelled). -/
def evaluate_moves (clk : Nat → Int) (move player_colour depth alpha beta : Int) (w : World) :
    Option (Int × World) :=
  match copy_curr_board w.board with
  | none => none
  | some board_copy =>
    match make_temp_move move player_colour w.board with
    | none => none
    | some (_, b1) =>
      match minimax clk SEARCH_FUEL (depth - 1) alpha beta false player_colour
          ((player_colour + 1).tmod 2) { w with board := b1 } with
      | none => none
      | some (possible_score, w2) =>
        match restore_board board_copy w2.board with
        | none => none
        | some b3 => some (possible_score, { w2 with board := b3 })

/-- The `for` loop of `best_legal_move`. -/
def best_legal_move_loop (clk : Nat → Int) (my_player_colour depth beta : Int) :
    List Int → Int → Int → Int → World → Option (Int × World)
  | [], _, best_possible_move, _, w => some (best_possible_move, w)
  | m :: rest, alpha, best_possible_move, best_possible_score, w =>
    let tw := check_if_time_up clk w
    if tw.1 = true then some (best_possible_move, tw.2)
    else
      match copy_curr_board tw.2.board with
      | none => none
      | some curr_board_copy =>
        match make_temp_move m my_player_colour tw.2.board with
        | none => none
        | some (_, b1) =>
          match minimax clk SEARCH_FUEL (depth - 1) alpha beta false my_player_colour
              ((my_player_colour + 1).tmod 2) { tw.2 with board := b1 } with
          | none => none
          | some (score, w2) =>
            match restore_board curr_board_copy w2.board with
            | none => none
            | some b3 =>
              let w3 : World := { w2 with board := b3 }
              if score > best_possible_score then
                best_legal_move_loop clk my_player_colour depth beta rest
                  (if alpha < score then score else alpha) m score w3
              else
                best_legal_move_loop clk my_player_colour depth beta rest
                  alpha best_possible_move best_possible_score w3

/-- `best_legal_move(my_player_colour, depth, alpha, beta, time_limit)`; the
last parameter is not used by the C function. -/
def best_legal_move (clk : Nat → Int) (my_player_colour depth alpha beta : Int) (w : World) :
    Option (Int × World) :=
  match legal_moves w.board my_player_colour with
  | none => none
  | some moves_available =>
    if (moves_available.length : Int) ≤ 0 then some (-1, w)
    else
      best_legal_move_loop clk my_player_colour depth beta moves_available alpha
        (moves_available.headD 0) (-9999999) w

/-! ## Specification vocabulary -/

/-- Cell index reached after `k` steps from `(x, y)` along `(dx, dy)`. -/
def rayCell (x y dx dy : Int) (k : Nat) : Int :=
  (x + k * dx) * BOARD_SIZE + (y + k * dy)

/-- The cell reached after `k` steps is on the board. -/
def rayOn (x y dx dy : Int) (k : Nat) : Prop :=
  onBoard (x + k * dx) (y + k * dy) = true

/-- One of the 8 directions. -/
def IsDir (dx dy : Int) : Prop :=
  (dx = -1 ∨ dx = 0 ∨ dx = 1) ∧ (dy = -1 ∨ dy = 0 ∨ dy = 1) ∧ ¬(dx = 0 ∧ dy = 0)

/-- Along `(dx, dy)` from `(x, y)`: the first `n ≥ 1` cells are on the board and
hold `other`, and the next cell is on the board and holds `colour`. -/
def Brackets (b : Board) (colour other x y dx dy : Int) (n : Nat) : Prop :=
  1 ≤ n ∧
  (∀ k : Nat, 1 ≤ k → k ≤ n →
    rayOn x y dx dy k ∧ readCell b (rayCell x y dx dy k) = some other) ∧
  rayOn x y dx dy (n + 1) ∧ readCell b (rayCell x y dx dy (n + 1)) = some colour

/-- The direction `(dx, dy)` is valid for `colour` at `(x, y)`: walking from the
cell first crosses one or more `other` cells and then reaches a `colour` cell
before leaving the board. -/
def ValidDir (b : Board) (colour other x y dx dy : Int) : Prop :=
  ∃ n : Nat, Brackets b colour other x y dx dy n

/-- The cell `p` lies strictly between `(x, y)` and the bracketing `colour`
cell of the valid direction `(dx, dy)`. -/
def Flips (b : Board) (colour other x y dx dy p : Int) : Prop :=
  ∃ n k : Nat, Brackets b colour other x y dx dy n ∧ 1 ≤ k ∧ k ≤ n ∧
    p = rayCell x y dx dy k

/-- The cell with index `m` is a legal move for `colour`: it is an empty board
cell with at least one valid direction. -/
def LegalCell (b : Board) (colour other m : Int) : Prop :=
  ∃ x y : Int, onBoard x y = true ∧ m = x * BOARD_SIZE + y ∧ readCell b m = some EMPTY ∧
    ∃ dx dy : Int, IsDir dx dy ∧ ValidDir b colour other x y dx dy

/-- The nine `(dx, dy)` pairs in the order the nested direction loops visit them. -/
abbrev deltaPairs : List (Int × Int) :=
  [(-1, -1), (-1, 0), (-1, 1), (0, -1), (0, 0), (0, 1), (1, -1), (1, 0), (1, 1)]

/-- Whether `check_direction` reports the direction `d` from `(i, j)` valid. -/
def dirHit (b : Board) (my opp i j : Int) (d : Int × Int) : Bool :=
  !(decide (d.1 = 0 ∧ d.2 = 0)) && (check_direction b i j d.1 d.2 my opp == some 1)

/-- Whether the direction loops of `legal_moves` find a valid direction. -/
def anyDirection (b : Board) (my opp i j : Int) : Bool :=
  deltaPairs.any (dirHit b my opp i j)

/-- Whether `legal_moves` records the cell `(i, j)`. -/
def legalAt (b : Board) (my opp i j : Int) : Bool :=
  (readCell b (i * BOARD_SIZE + j) == some EMPTY) && anyDirection b my opp i j

/-- The buffer `legal_moves` fills, cell by cell in scan order. -/
def legalList (b : Board) (my opp : Int) : List Int :=
  indices.flatMap fun i => indices.flatMap fun j =>
    if legalAt b my opp i j = true then [i * BOARD_SIZE + j] else []

/-- State of the board while `make_move` works through its direction loops,
relative to the board `b` before the call: the cell `m` and the cells flipped
by the directions in `done` hold `c`, every other cell is as in `b`. -/
def MoveInv (b : Board) (c o row col m : Int) (done : List (Int × Int)) (bt : Board) : Prop :=
  bt.length = 64 ∧
  ∀ p : Int,
    ((p = m ∨ ∃ d ∈ done, IsDir d.1 d.2 ∧ Flips b c o row col d.1 d.2 p) →
      readCell bt p = some c) ∧
    (¬(p = m ∨ ∃ d ∈ done, IsDir d.1 d.2 ∧ Flips b c o row col d.1 d.2 p) →
      readCell bt p = readCell b p)

/-- The opening position: cells 27 and 36 White, 28 and 35 Black, the rest
Empty. -/
def opening_board : Board :=
  [0, 0, 0, 0, 0, 0, 0, 0,
   0, 0, 0, 0, 0, 0, 0, 0,
   0, 0, 0, 0, 0, 0, 0, 0,
   0, 0, 0, 2, 1, 0, 0, 0,
   0, 0, 0, 1, 2, 0, 0, 0,
   0, 0, 0, 0, 0, 0, 0, 0,
   0, 0, 0, 0, 0, 0, 0, 0,
   0, 0, 0, 0, 0, 0, 0, 0]

/-- All six counters lie between 0 and `k`. -/
def CountsBounded (k : Nat) (c : Counts) : Prop :=
  (0 ≤ c.my_player_pieces ∧ c.my_player_pieces ≤ k) ∧
  (0 ≤ c.opponent_pieces ∧ c.opponent_pieces ≤ k) ∧
  (0 ≤ c.my_player_edges ∧ c.my_player_edges ≤ k) ∧
  (0 ≤ c.opponent_edges ∧ c.opponent_edges ≤ k) ∧
  (0 ≤ c.my_player_corners ∧ c.my_player_corners ≤ k) ∧
  (0 ≤ c.opponent_corners ∧ c.opponent_corners ≤ k)

/-- The world `w1` has the board, `start` and `time_limit` of `w`; only the
count of `clock()` calls may differ. -/
def SameGlobals (w w1 : World) : Prop :=
  w1.board = w.board ∧ w1.start = w.start ∧ w1.time_limit = w.time_limit

/-- The board invariant: exactly 64 cells, each Empty, Black or White. -/
def BoardOK (b : Board) : Prop :=
  b.length = 64 ∧ ∀ v ∈ b, v = EMPTY ∨ v = BLACK ∨ v = WHITE

/-- A clock that never advances: every `clock()` call returns 0. -/
def frozen_clock : Nat → Int := fun _ => 0

/-- A board whose only piece is a White piece on the edge cell 1. -/
def lone_white_board : Board :=
  [0, 2, 0, 0, 0, 0, 0, 0,
   0, 0, 0, 0, 0, 0, 0, 0,
   0, 0, 0, 0, 0, 0, 0, 0,
   0, 0, 0, 0, 0, 0, 0, 0,
   0, 0, 0, 0, 0, 0, 0, 0,
   0, 0, 0, 0, 0, 0, 0, 0,
   0, 0, 0, 0, 0, 0, 0, 0,
   0, 0, 0, 0, 0, 0, 0, 0]

/-- A board with White on cells 0 and 2 and Black on cell 1: Black's only move
is cell 3, after which White (but not colour 0) has the move 4. -/
def row_board : Board :=
  [2, 1, 2, 0, 0, 0, 0, 0,
   0, 0, 0, 0, 0, 0, 0, 0,
   0, 0, 0, 0, 0, 0, 0, 0,
   0, 0, 0, 0, 0, 0, 0, 0,
   0, 0, 0, 0, 0, 0, 0, 0,
   0, 0, 0, 0, 0, 0, 0, 0,
   0, 0, 0, 0, 0, 0, 0, 0,
   0, 0, 0, 0, 0, 0, 0, 0]

/-- The deadline is never reached: no reading of `clock()` makes
`check_if_time_up` true. -/
def NeverUp (clk : Nat → Int) (w : World) : Prop :=
  ∀ n : Nat, ¬ (clk n - w.start > (w.time_limit - 1) * CLOCKS_PER_SEC)

/-- The `for` loop of the maximizing branch with the `beta <= alpha` cutoff
removed: every move is searched. -/
def plain_max_loop (child : Board → Option Int) (curr_colour : Int) (b : Board) :
    List Int → Int → Option Int
  | [], best_possible_score => some best_possible_score
  | m :: rest, best_possible_score =>
    match make_temp_move m curr_colour b with
    | none => none
    | some (_, b1) =>
      match child b1 with
      | none => none
      | some score =>
        plain_max_loop child curr_colour b rest
          (if score > best_possible_score then score else best_possible_score)

/-- The `for` loop of the minimizing branch with the cutoff removed. -/
def plain_min_loop (child : Board → Option Int) (curr_colour : Int) (b : Board) :
    List Int → Int → Option Int
  | [], best_possible_score => some best_possible_score
  | m :: rest, best_possible_score =>
    match make_temp_move m curr_colour b with
    | none => none
    | some (_, b1) =>
      match child b1 with
      | none => none
      | some score =>
        plain_min_loop child curr_colour b rest
          (if score < best_possible_score then score else best_possible_score)

/-- Plain minimax: the recursion of `minimax` with the `beta <= alpha` cutoff
removed and the deadline never reached, over the same move generator, move
application and evaluator.  Without the cutoff the window plays no role, and
since every applied move is undone the board is passed by value. -/
def plain_minimax : Nat → Bool → Int → Int → Board → Option Int
  | 0, _, player_colour, _, b => evaluate_board_state b player_colour
  | d + 1, maximizing, player_colour, curr_colour, b =>
    match legal_moves b curr_colour with
    | none => none
    | some moves_available =>
      if (moves_available.length : Int) ≤ 0 then
        let opp_colour := (curr_colour + 1).tmod 2
        match legal_moves b opp_colour with
        | none => none
        | some opp_moves_available =>
          if (opp_moves_available.length : Int) ≤ 0 then evaluate_board_state b player_colour
          else plain_minimax d (!maximizing) player_colour opp_colour b
      else if maximizing = true then
        plain_max_loop (plain_minimax d false player_colour ((curr_colour + 1).tmod 2))
          curr_colour b moves_available (-9999999)
      else
        plain_min_loop (plain_minimax d true player_colour ((curr_colour + 1).tmod 2))
          curr_colour b moves_available 9999999

/-- How a value `r` returned under the window `(al, be)` relates to the plain
value `v`: exact inside the window, at most `al` when `v ≤ al`, at least `be`
when `v ≥ be`. -/
def ABRel (al be v r : Int) : Prop :=
  (al < v ∧ v < be → r = v) ∧ (v ≤ al → r ≤ al) ∧ (be ≤ v → be ≤ r)

/-- State of the maximizing loop (`a` the current alpha, `best` the running
best score) against the plain loop (`pbest`), for the window `(al0, _)` the
loop was entered with. -/
def MaxInv (al0 a best pbest : Int) : Prop :=
  (best = -9999999 ∧ pbest = -9999999 ∧ a = al0) ∨
  (best ≤ a ∧ pbest ≤ a ∧ al0 ≤ a ∧ -2500 ≤ pbest ∧ pbest ≤ 2500 ∧ -2500 ≤ best ∧
    best ≤ 2500 ∧ (a = al0 ∨ (a = best ∧ a = pbest)))

/-- State of the minimizing loop, mirror image of `MaxInv`. -/
def MinInv (be0 b best pbest : Int) : Prop :=
  (best = 9999999 ∧ pbest = 9999999 ∧ b = be0) ∨
  (b ≤ best ∧ b ≤ pbest ∧ b ≤ be0 ∧ -2500 ≤ pbest ∧ pbest ≤ 2500 ∧ -2500 ≤ best ∧
    best ≤ 2500 ∧ (b = be0 ∨ (b = best ∧ b = pbest)))

/-! ## Iterative-deepening driver and coordinator -/

/-- The `MoveTask` record sent to a worker. -/
structure MoveTask where
  move : Int
  player_colour : Int
  depth : Int
  alpha : Int
  beta : Int
deriving DecidableEq, Repr

/-- The `MoveResult` record sent back by a worker. -/
structure MoveResult where
  move : Int
  score : Int
deriving DecidableEq, Repr

/-- A message the master hands to `MPI_Send`: one `int` under a tag (0 batch
size, 1 command, 5 alpha update), or one `MoveTask` (tag 2). -/
inductive Msg where
  | int (dest tag value : Int)
  | task (dest : Int) (t : MoveTask)
deriving DecidableEq, Repr

/-- What one `MPI_Iprobe(MPI_ANY_SOURCE, 3, ...)` of the collection loop finds:
`none` when no message is pending, `some (worker_id, results)` when a result
count from `worker_id` is pending; the count is the length of `results`, the
records that follow it under tag 4. -/
abbrev Poll := Option (Int × List MoveResult)

/-- The master process: its globals, the size of the communicator, what the
successive probes of the result channel will find, and two records kept for
the statements below: the messages sent so far, and the depths at which the
driver ran the root search. -/
structure Master where
  w : World
  size : Int
  polls : List Poll
  sent : List Msg
  searched : List Int
deriving DecidableEq, Repr

/-- The worker ranks `1 .. number_of_workers`, in loop order. -/
def worker_ranks (number_of_workers : Int) : List Int :=
  (List.range number_of_workers.toNat).map fun k => (k : Int) + 1

/-- The `for (j ...)` loop that sends the tasks of one batch: task `j` carries
`moves_available[num_tasks_sent + j]`. -/
def send_batch (moves_available : List Int) (worker my_player_colour depth alpha beta
    num_tasks_sent moves_to_be_sent : Int) : Option (List Msg) :=
  (List.range moves_to_be_sent.toNat).mapM fun j =>
    (readCell moves_available (num_tasks_sent + (j : Int))).map fun m =>
      Msg.task worker ⟨m, my_player_colour, depth, alpha, beta⟩

/-- The dispatch loop of `minimax_strategy` over the remaining worker ranks;
returns `num_tasks_sent` and the messages sent. -/
def dispatch_loop (moves_available : List Int) (my_player_colour depth alpha beta
    tasks_per_worker : Int) : List Int → Int → List Msg → Option (Int × List Msg)
  | [], num_tasks_sent, sent => some (num_tasks_sent, sent)
  | worker :: rest, num_tasks_sent, sent =>
    let number_of_moves : Int := (moves_available.length : Int)
    if num_tasks_sent < number_of_moves then
      let moves_to_be_sent :=
        if num_tasks_sent + tasks_per_worker ≤ number_of_moves then tasks_per_worker
        else number_of_moves - num_tasks_sent
      if moves_to_be_sent ≤ 0 then
        dispatch_loop moves_available my_player_colour depth alpha beta tasks_per_worker rest
          num_tasks_sent sent
      else
        match send_batch moves_available worker my_player_colour depth alpha beta
            num_tasks_sent moves_to_be_sent with
        | none => none
        | some tasks =>
          dispatch_loop moves_available my_player_colour depth alpha beta tasks_per_worker rest
            (num_tasks_sent + moves_to_be_sent)
            (sent ++ [Msg.int worker 0 moves_to_be_sent, Msg.int worker 1 0] ++ tasks)
    else some (num_tasks_sent, sent)

/-- Locals of the collection loop, with the messages sent so far. -/
structure Collect where
  curr_best_move : Int
  best_possible_score : Int
  alpha : Int
  tasks_compl : Int
  sent : List Msg
deriving DecidableEq, Repr

/-- The `for (j ...)` loop that receives the results of one worker. -/
def receive_results (number_of_workers : Int) : List MoveResult → Collect → Collect
  | [], s => s
  | results :: rest, s =>
    if results.score > s.best_possible_score then
      receive_results number_of_workers rest
        { curr_best_move := results.move
          best_possible_score := results.score
          alpha := results.score
          tasks_compl := s.tasks_compl + 1
          sent := s.sent ++ (worker_ranks number_of_workers).map fun k =>
            Msg.int k 5 results.score }
    else
      receive_results number_of_workers rest { s with tasks_compl := s.tasks_compl + 1 }

/-- The collection loop `while (tasks_compl < num_tasks_sent)`.  It has no
result when the probes run out while the loop is still polling. -/
def collect_loop (clk : Nat → Int) (number_of_workers num_tasks_sent : Int) :
    List Poll → Collect → World → Option (Collect × World × List Poll)
  | [], s, w =>
    if s.tasks_compl < num_tasks_sent then
      let tw := check_if_time_up clk w
      if tw.1 = true then some (s, tw.2, []) else none
    else some (s, w, [])
  | p :: rest, s, w =>
    if s.tasks_compl < num_tasks_sent then
      let tw := check_if_time_up clk w
      if tw.1 = true then some (s, tw.2, p :: rest)
      else
        match p with
        | none => collect_loop clk number_of_workers num_tasks_sent rest s tw.2
        | some (_, results) =>
          collect_loop clk number_of_workers num_tasks_sent rest
            (receive_results number_of_workers results s) tw.2
    else some (s, w, p :: rest)

/-- The `for (depth = 1; depth < 10; depth++)` loop of `minimax_strategy`;
returns `best_possible_move` and `max_depth_compl`.  The first argument bounds
the number of iterations. -/
def driver_loop (clk : Nat → Int) (my_player_colour : Int) (moves_available : List Int) :
    Nat → Int → Int → Int → Master → Option (Int × Int × Master)
  | 0, _, _, _, _ => none
  | fuel + 1, depth, best_possible_move, max_depth_compl, ms =>
    if depth < 10 then
      let tw := check_if_time_up clk ms.w
      if tw.1 = true then some (best_possible_move, max_depth_compl, { ms with w := tw.2 })
      else
        let number_of_workers := ms.size - 1
        let searched := ms.searched ++ [depth]
        if number_of_workers ≤ 0 then
          match best_legal_move clk my_player_colour depth (-999999) 999999 tw.2 with
          | none => none
          | some (move, w1) =>
            let tw1 := check_if_time_up clk w1
            if tw1.1 = false then
              driver_loop clk my_player_colour moves_available fuel (depth + 1) move depth
                { ms with w := tw1.2, searched := searched }
            else some (move, max_depth_compl, { ms with w := tw1.2, searched := searched })
        else
          let alpha : Int := -999999
          let beta : Int := 999999
          let number_of_moves : Int := (moves_available.length : Int)
          let tasks_per_worker :=
            (number_of_moves + number_of_workers - 1).tdiv number_of_workers
          match dispatch_loop moves_available my_player_colour depth alpha beta tasks_per_worker
              (worker_ranks number_of_workers) 0 ms.sent with
          | none => none
          | some (num_tasks_sent, sent1) =>
            match collect_loop clk number_of_workers num_tasks_sent ms.polls
                ⟨-1, -999999, alpha, 0, sent1⟩ tw.2 with
            | none => none
            | some (s, w1, polls1) =>
              let tw1 := check_if_time_up clk w1
              let ms1 : Master :=
                { ms with w := tw1.2, polls := polls1, sent := s.sent, searched := searched }
              if tw1.1 = false ∧ s.curr_best_move ≠ -1 then
                driver_loop clk my_player_colour moves_available fuel (depth + 1)
                  s.curr_best_move depth ms1
              else some (best_possible_move, max_depth_compl, ms1)
    else some (best_possible_move, max_depth_compl, ms)

/-- The closing loop of `minimax_strategy`: an empty batch (size 0, command 0)
for every worker. -/
def idle_round (size : Int) : List Msg :=
  (worker_ranks (size - 1)).flatMap fun worker => [Msg.int worker 0 0, Msg.int worker 1 0]

/-- Iteration bound handed to `driver_loop`: depths 1 to 9 and the final test. -/
abbrev DRIVER_FUEL : Nat := 10

/-- `minimax_strategy(my_player_colour, time, fp)` (the log file is not
modelled). -/
def minimax_strategy (clk : Nat → Int) (my_player_colour time : Int) (ms : Master) :
    Option (Int × Master) :=
  match legal_moves ms.w.board my_player_colour with
  | none => none
  | some moves_available =>
    if (moves_available.length : Int) ≤ 0 then some (-1, ms)
    else
      let w1 : World :=
        { ms.w with start := clk ms.w.clock_calls, time_limit := time,
                    clock_calls := ms.w.clock_calls + 1 }
      match readCell moves_available 0 with
      | none => none
      | some first_move =>
        match driver_loop clk my_player_colour moves_available DRIVER_FUEL 1 first_move 0
            { ms with w := w1 } with
        | none => none
        | some (best_possible_move, _, ms1) =>
          some (best_possible_move, { ms1 with sent := ms1.sent ++ idle_round ms1.size })

/-- A board on which Black, to move, has no legal move and White has one:
every cell is White except cell 0, which is Empty, and cell 1, which is
Black. -/
def pass_board : Board :=
  [0, 1, 2, 2, 2, 2, 2, 2,
   2, 2, 2, 2, 2, 2, 2, 2,
   2, 2, 2, 2, 2, 2, 2, 2,
   2, 2, 2, 2, 2, 2, 2, 2,
   2, 2, 2, 2, 2, 2, 2, 2,
   2, 2, 2, 2, 2, 2, 2, 2,
   2, 2, 2, 2, 2, 2, 2, 2,
   2, 2, 2, 2, 2, 2, 2, 2]

/-- A late position with White to move: every cell is White except cell 30,
which is Black, and cells 37 and 39, which are Empty. -/
def edge_board : Board :=
  [2, 2, 2, 2, 2, 2, 2, 2,
   2, 2, 2, 2, 2, 2, 2, 2,
   2, 2, 2, 2, 2, 2, 2, 2,
   2, 2, 2, 2, 2, 2, 1, 2,
   2, 2, 2, 2, 2, 0, 2, 0,
   2, 2, 2, 2, 2, 2, 2, 2,
   2, 2, 2, 2, 2, 2, 2, 2,
   2, 2, 2, 2, 2, 2, 2, 2]

/-- A late position with Black to move: every cell is Black except cells 10
and 55, which are White, and cells 18 and 19, which are Empty. -/
def reply_board : Board :=
  [1, 1, 1, 1, 1, 1, 1, 1,
   1, 1, 2, 1, 1, 1, 1, 1,
   1, 1, 0, 0, 1, 1, 1, 1,
   1, 1, 1, 1, 1, 1, 1, 1,
   1, 1, 1, 1, 1, 1, 1, 1,
   1, 1, 1, 1, 1, 1, 1, 1,
   1, 1, 1, 1, 1, 1, 1, 2,
   1, 1, 1, 1, 1, 1, 1, 1]

/-- A clock that reads 0 on its first `n` calls and 5 seconds afterwards. -/
def late_clock (n : Nat) : Nat → Int := fun k => if k < n then 0 else 5000000

/-- The depths `d, d + 1, ..., d + n - 1`. -/
def depths_from (d : Int) : Nat → List Int
  | 0 => []
  | n + 1 => d :: depths_from (d + 1) n

/-- The `gen_move` branch of the command loop of `run_master`: the chosen
move is applied to the master's board; on a pass every worker is sent one more
empty batch.  (The reply to the referee is not modelled.) -/
def gen_move (clk : Nat → Int) (my_colour time_limit : Int) (ms : Master) :
    Option (Int × Master) :=
  match minimax_strategy clk my_colour time_limit ms with
  | none => none
  | some (move, ms1) =>
    if move ≠ -1 then
      (make_move move my_colour ms1.w.board).map fun b =>
        (move, { ms1 with w := { ms1.w with board := b } })
    else some (move, { ms1 with sent := ms1.sent ++ idle_round ms1.size })

/-- The `play_move` branch of the command loop of `run_master` for the decoded
opponent move `opp_move`. -/
def play_move (opp_move my_colour : Int) (ms : Master) : Option Master :=
  if opp_move < 0 then some ms
  else
    (make_move opp_move ((my_colour + 1).tmod 2) ms.w.board).map fun b =>
      { ms with w := { ms.w with board := b } }

/-- The opening position after Black has played cell 19. -/
def after_19_board : Board :=
  [0, 0, 0, 0, 0, 0, 0, 0,
   0, 0, 0, 0, 0, 0, 0, 0,
   0, 0, 0, 1, 0, 0, 0, 0,
   0, 0, 0, 1, 1, 0, 0, 0,
   0, 0, 0, 1, 2, 0, 0, 0,
   0, 0, 0, 0, 0, 0, 0, 0,
   0, 0, 0, 0, 0, 0, 0, 0,
   0, 0, 0, 0, 0, 0, 0, 0]

/-- The results worker 1 sends for the three tasks of the first search from
`after_19_board`, one per legal White move. -/
def stale_batch : Poll := some (1, [⟨18, 0⟩, ⟨20, 0⟩, ⟨34, 0⟩])

/-- Clock readings of two successive searches with a budget of 2 seconds: in
the first the deadline passes while the master waits for results, in the
second it passes after depth 1. -/
def stale_clock : Nat → Int := fun n =>
  [0, 0, 2000000, 2000000, 2000000, 2000000, 2000000, 2000000].getD n 4000000

/-- Value of the root move `m` for colour `c` as the kernel computes it when
nothing is cut off: plain minimax at depth `d`, minimizing, of the position
after `m`, with colour `(c + 1) % 2` to move. -/
def root_move_value (c : Int) (d : Nat) (b : Board) (m : Int) : Option Int :=
  match make_temp_move m c b with
  | none => none
  | some (_, b1) => plain_minimax d false c ((c + 1).tmod 2) b1

/-- The move `r` is the earliest element of `l` whose value is maximal, and
this value is `v`. -/
def EarliestBest (value : Int → Option Int) (l : List Int) (r v : Int) : Prop :=
  ∃ i : Nat, l[i]? = some r ∧ value r = some v ∧
    (∀ m ∈ l, ∃ u, value m = some u ∧ u ≤ v) ∧
    (∀ (j : Nat) (m : Int), j < i → l[j]? = some m → ∃ u, value m = some u ∧ u < v)

/-! ## Worker process -/

/-- A message a worker hands to `MPI_Send`: the result count (tag 3) or one
`MoveResult` (tag 4). -/
inductive WorkerMsg where
  | count (number_of_results : Int)
  | result (r : MoveResult)
deriving DecidableEq, Repr

/-- A worker process: its globals, the loop flag `running`, what is pending on
its channels from the master (batch sizes under tag 0, commands under tag 1,
tasks under tag 2), what the successive `MPI_Iprobe(0, 5, ...)` calls find
(`none`, or the pending alpha update), and two records kept for the
statements below: the messages sent so far, and every call of
`evaluate_moves` with the task as passed and the board at the time of the
call. -/
structure Worker where
  w : World
  running : Int
  batch_sizes : List Int
  commands : List Int
  task_queue : List MoveTask
  alpha_probes : List (Option Int)
  sent : List WorkerMsg
  evaluated : List (MoveTask × Board)
deriving DecidableEq, Repr

/-- The probe and update at the head of the evaluation loop of `run_worker`:
the alpha of the task after `if (flag) { ...; if (new_alpha > tasks[i].alpha)
tasks[i].alpha = new_alpha; }`. -/
def refresh_alpha (task : MoveTask) (probe : Option Int) : MoveTask :=
  match probe with
  | none => task
  | some new_alpha => if new_alpha > task.alpha then { task with alpha := new_alpha } else task

/-- The evaluation loop of `run_worker` over the received tasks; returns the
results in order, the record of the calls, the globals and the remaining
probes.  When no probe outcome is left, no update is pending. -/
def worker_eval_loop (clk : Nat → Int) :
    List MoveTask → World → List (Option Int) → List MoveResult → List (MoveTask × Board) →
      Option (List MoveResult × List (MoveTask × Board) × World × List (Option Int))
  | [], w, probes, results, evaluated => some (results, evaluated, w, probes)
  | task :: rest, w, probes, results, evaluated =>
    let task1 := refresh_alpha task (probes.headD none)
    match evaluate_moves clk task1.move task1.player_colour task1.depth task1.alpha
        task1.beta w with
    | none => none
    | some (score, w1) =>
      worker_eval_loop clk rest w1 probes.tail (results ++ [⟨task1.move, score⟩])
        (evaluated ++ [(task1, w.board)])

/-- One iteration of the `while (running)` loop of `run_worker`.  It has no
result when a receive finds its channel empty (the worker blocks). -/
def worker_step (clk : Nat → Int) (wk : Worker) : Option Worker :=
  match wk.batch_sizes, wk.commands with
  | number_of_moves :: sizes, command :: commands =>
    let wk1 : Worker := { wk with batch_sizes := sizes, commands := commands }
    if command = -1 then some { wk1 with running := 0 }
    else if number_of_moves ≤ 0 then some wk1
    else if wk1.task_queue.length < number_of_moves.toNat then none
    else
      match worker_eval_loop clk (wk1.task_queue.take number_of_moves.toNat) wk1.w
          wk1.alpha_probes [] [] with
      | none => none
      | some (results, evaluated, w1, probes1) =>
        some { wk1 with
          w := w1
          task_queue := wk1.task_queue.drop number_of_moves.toNat
          alpha_probes := probes1
          sent := wk1.sent ++ [WorkerMsg.count (results.length : Int)] ++
            results.map WorkerMsg.result
          evaluated := wk1.evaluated ++ evaluated }
  | _, _ => none

/-- A clock that has advanced by one tick at every call. -/
def ticking_clock : Nat → Int := fun n => (n : Int) + 1

/-- The tasks of a batch as the evaluation loop of `run_worker` passes them to
`evaluate_moves`: task `i` refreshed by the outcome of probe `i`. -/
def refreshed_tasks : List MoveTask → List (Option Int) → List MoveTask
  | [], _ => []
  | task :: rest, probes =>
    refresh_alpha task (probes.headD none) :: refreshed_tasks rest probes.tail

/-- The result `r` is what a worker with the globals of `w` returns for the
task `t`: the move of the task and the score of `evaluate_moves` on it. -/
def ResultOf (clk : Nat → Int) (w : World) (t : MoveTask) (r : MoveResult) : Prop :=
  r.move = t.move ∧
  ∃ wi wj, SameGlobals w wi ∧
    evaluate_moves clk t.move t.player_colour t.depth t.alpha t.beta wi = some (r.score, wj)

/-- A worker as `main` starts it: the opening board, `start` and `time_limit`
zero (the worker never assigns them), nothing received or sent yet. -/
def fresh_worker (batch_sizes commands : List Int) (task_queue : List MoveTask)
    (alpha_probes : List (Option Int)) : Worker :=
  ⟨⟨opening_board, 0, 0, 0⟩, 1, batch_sizes, commands, task_queue, alpha_probes, [], []⟩

/-- The result records carried by a sequence of probe outcomes, in arrival
order. -/
def poll_results (polls : List Poll) : List MoveResult :=
  polls.flatMap fun p =>
    match p with
    | none => []
    | some (_, results) => results

/-- The alpha values sent to worker `k` under tag 5 among the messages `sent`,
in order. -/
def alphas_to (k : Int) (sent : List Msg) : List Int :=
  sent.filterMap fun m =>
    match m with
    | Msg.int dest tag value => if dest = k ∧ tag = 5 then some value else none
    | Msg.task _ _ => none

/-- The scores of the results that raise the running best score `best`, in
arrival order. -/
def improvements : List MoveResult → Int → List Int
  | [], _ => []
  | r :: rest, best =>
    if r.score > best then r.score :: improvements rest r.score else improvements rest best

/-- The slice `moves[(k-1)t .. min(kt, n) - 1]` of the root moves, `n` being
their number: the batch of worker `k` when every batch holds `t` tasks. -/
def move_slice (moves : List Int) (t k : Nat) : List Int :=
  (moves.drop ((k - 1) * t)).take t

/-- The messages that carry the batch `slice` to `worker`: nothing for an
empty batch, otherwise the batch size (tag 0), the run command (tag 1) and one
task per move. -/
def batch_messages (my_player_colour depth alpha beta worker : Int) (slice : List Int) :
    List Msg :=
  if slice = [] then []
  else
    [Msg.int worker 0 (slice.length : Int), Msg.int worker 1 0] ++
      slice.map fun m => Msg.task worker ⟨m, my_player_colour, depth, alpha, beta⟩

/-- The messages of the batches of the workers `ws`, the first of which starts
at offset `off` of the root moves. -/
def batches_from (moves : List Int) (my_player_colour depth alpha beta : Int) (t : Nat) :
    List Int → Nat → List Msg
  | [], _ => []
  | worker :: ws, off =>
    batch_messages my_player_colour depth alpha beta worker ((moves.drop off).take t) ++
      batches_from moves my_player_colour depth alpha beta t ws (off + t)

/-! ## Move strings and the command loop -/

/-- `get_loc(movestring)`.  The buffer is given as the list of its `char`
values (`'p'` is 112, `'0'` is 48); `none` stands for a read beyond the
buffer.  The warning written to `stderr` is not modelled. -/
def get_loc (movestring : List Int) : Option Int :=
  match readCell movestring 0 with
  | none => none
  | some c0 =>
    if c0 = 112 then some (-1)
    else
      match readCell movestring 1 with
      | none => none
      | some c1 =>
        let row := c0 - 48
        let col := c1 - 48
        let row := row - 1
        let col := col - 1
        if row < 0 ∨ row ≥ BOARD_SIZE ∨ col < 0 ∨ col ≥ BOARD_SIZE then some (-1)
        else some (row * BOARD_SIZE + col)

/-- Decimal digits of a natural number as `char` values, most significant
first; the first argument bounds the number of digits. -/
def decimal_digits : Nat → Nat → List Int
  | 0, _ => []
  | fuel + 1, n =>
    if n < 10 then [48 + (n : Int)]
    else decimal_digits fuel (n / 10) ++ [48 + ((n % 10 : Nat) : Int)]

/-- The characters `sprintf` writes for one `%d` conversion (`'-'` is 45). -/
def sprintf_d (x : Int) : List Int :=
  if x < 0 then 45 :: decimal_digits ((-x).toNat + 1) (-x).toNat
  else decimal_digits (x.toNat + 1) x.toNat

/-- `format_move(position, move_str)`: the characters written to `move_str`,
the terminating NUL included (`"pass"` is 112, 97, 115, 115). -/
def format_move (position : Int) : List Int :=
  if position = -1 then [112, 97, 115, 115, 0]
  else
    let row := position.tdiv BOARD_SIZE
    let col := position.tmod BOARD_SIZE
    let row := row + 1
    let col := col + 1
    sprintf_d row ++ sprintf_d col ++ [0]

/-- `opponent_get_move_string(loc, ms)` of the local opponent: the four
characters written to `ms` (`'\n'` is 10). -/
def opponent_get_move_string (loc : Int) : List Int :=
  let new_loc := loc - (9 + 2 * loc.tdiv 10)
  let row := new_loc.tdiv 8
  let col := new_loc.tmod 8
  [row + 48, col + 48, 10, 0]

/-- The two messages per worker that end the workers: an empty batch and the
command -1. -/
def terminate_messages (size : Int) : List Msg :=
  (worker_ranks (size - 1)).flatMap fun worker => [Msg.int worker 0 0, Msg.int worker 1 (-1)]

/-- What one pass through the command loop of `run_master` leaves behind: the
flag `running`, the move string handed to `comms_send_move` (if any) and the
master process. -/
structure Step where
  running : Int
  reply : Option (List Int)
  ms : Master
deriving DecidableEq, Repr

/-- One pass through the `while (running == 1)` loop of `run_master`, for a
command `cmd` that `comms_get_cmd` delivered together with the buffer
`opponent_move`; `send_ok` tells whether `comms_send_move` succeeds.  (The
log file is not modelled.) -/
def run_master_step (clk : Nat → Int) (cmd : String) (opponent_move : List Int)
    (send_ok : Bool) (my_colour time_limit : Int) (ms : Master) : Option Step :=
  match get_loc opponent_move with
  | none => none
  | some opp_move =>
    if cmd = "game_over" then
      some ⟨0, none, { ms with sent := ms.sent ++ terminate_messages ms.size }⟩
    else if cmd = "gen_move" then
      match gen_move clk my_colour time_limit ms with
      | none => none
      | some (move, ms1) =>
        if send_ok = true then some ⟨1, some (format_move move), ms1⟩
        else
          some ⟨0, some (format_move move),
            { ms1 with sent := ms1.sent ++ terminate_messages ms1.size }⟩
    else if cmd = "play_move" then
      (play_move opp_move my_colour ms).map fun ms1 => ⟨1, none, ms1⟩
    else some ⟨1, none, ms⟩

/-- The statement `moves[(*number_of_moves)++] = m` on the array `moves`;
`none` stands for a write outside the array. -/
def store_move (st : List Int × Int) (m : Int) : Option (List Int × Int) :=
  (writeCell st.1 st.2 m).map fun a => (a, st.2 + 1)

/-- Body of the `dy` loop of `legal_moves` on the array: the state is the
array `moves`, the counter `number_of_moves` and the flag `moveFound`. -/
def legal_moves_dy_at (b : Board) (my_colour opp_colour i j dx : Int)
    (st : (List Int × Int) × Bool) (dy : Int) : Option ((List Int × Int) × Bool) :=
  if st.2 = true then some st
  else if dx = 0 ∧ dy = 0 then some st
  else
    match check_direction b i j dx dy my_colour opp_colour with
    | none => none
    | some r =>
      if r ≠ 0 then (store_move st.1 (i * BOARD_SIZE + j)).map fun s => (s, true)
      else some st

/-- Body of the `j` loop of `legal_moves` on the array: one cell. -/
def legal_moves_cell_at (b : Board) (my_colour opp_colour i : Int)
    (st : List Int × Int) (j : Int) : Option (List Int × Int) :=
  match readCell b (i * BOARD_SIZE + j) with
  | none => none
  | some v =>
    if v ≠ EMPTY then some st
    else
      (deltas.foldlM
        (fun s dx => deltas.foldlM (legal_moves_dy_at b my_colour opp_colour i j dx) s)
        (st, false)).map Prod.fst

/-- `legal_moves(moves, &number_of_moves, my_colour)` with its output
parameters: the array `moves` after the call, the sentinel written at
`moves[number_of_moves]` included, and the value of `number_of_moves`. -/
def legal_moves_array (b : Board) (my_colour : Int) (moves : List Int) :
    Option (List Int × Int) :=
  let opp_colour := if my_colour = WHITE then BLACK else WHITE
  match indices.foldlM
      (fun st i => indices.foldlM (legal_moves_cell_at b my_colour opp_colour i) st)
      (moves, 0) with
  | none => none
  | some (moves1, number_of_moves) =>
    (writeCell moves1 number_of_moves (-1)).map fun a => (a, number_of_moves)

/-- The 64 cell indices in scan order. -/
def all_cells : List Int :=
  indices.flatMap fun i => indices.flatMap fun j => [i * BOARD_SIZE + j]

/-! ## The local opponent -/

abbrev O_EMPTY : Int := 0
abbrev O_BLACK : Int := 1
abbrev O_WHITE : Int := 2
abbrev O_OUTER : Int := 3

/-- The array `O_ALLDIRECTIONS` of the local opponent. -/
abbrev O_ALLDIRECTIONS : List Int := [-11, -10, -9, -1, 1, 9, 10, 11]

/-- One `for (i = lo; ...; i++) opponent_board[i] = f(i)` loop of
`opponent_initialise_board`, for `n` consecutive squares from `i`. -/
def opponent_fill (f : Int → Int) : Nat → Int → Board → Option Board
  | 0, _, ob => some ob
  | n + 1, i, ob =>
    match writeCell ob i (f i) with
    | none => none
    | some ob1 => opponent_fill f n (i + 1) ob1

/-- `opponent_initialise_board()`; `fresh` is the block of 100 `int`s returned
by `malloc`. -/
def opponent_initialise_board (fresh : Board) : Option Board :=
  (opponent_fill (fun _ => O_OUTER) 10 0 fresh).bind fun b1 =>
  (opponent_fill
    (fun i => if i.tmod 10 ≥ 1 ∧ i.tmod 10 ≤ 8 then O_EMPTY else O_OUTER) 80 10 b1).bind fun b2 =>
  (opponent_fill (fun _ => O_OUTER) 10 90 b2).bind fun b3 =>
  (writeCell b3 44 O_WHITE).bind fun b4 =>
  (writeCell b4 45 O_BLACK).bind fun b5 =>
  (writeCell b5 54 O_BLACK).bind fun b6 =>
  writeCell b6 55 O_WHITE

/-- `opponent_opponent(player)` (the message on `stdout` is not modelled). -/
def opponent_opponent (player : Int) : Int :=
  if player = O_WHITE then O_BLACK
  else if player = O_BLACK then O_WHITE
  else O_EMPTY

/-- `opponent_validp(move)`. -/
def opponent_validp (move : Int) : Int :=
  if move ≥ 11 ∧ move ≤ 88 ∧ move.tmod 10 ≥ 1 ∧ move.tmod 10 ≤ 8 then 1 else 0

/-- `opponent_findbracketingpiece(square, dir, player)` on the board `ob`; the
first argument bounds the number of squares the `while` loop visits. -/
def opponent_findbracketingpiece (ob : Board) (dir player : Int) : Nat → Int → Option Int
  | 0, _ => none
  | fuel + 1, square =>
    match readCell ob square with
    | none => none
    | some v =>
      if v = opponent_opponent player then
        opponent_findbracketingpiece ob dir player fuel (square + dir)
      else if v = player then some square
      else some 0

/-- `opponent_wouldflip(move, dir, player)`. -/
def opponent_wouldflip (ob : Board) (move dir player : Int) : Option Int :=
  let c := move + dir
  match readCell ob c with
  | none => none
  | some v =>
    if v = opponent_opponent player then
      opponent_findbracketingpiece ob dir player WALK_FUEL (c + dir)
    else some 0

/-- The `while (i <= 7 && !opponent_wouldflip(...)) i++` loop of
`opponent_legalp` over the remaining directions, and the test `i == 8` that
follows it: 1 when a direction would flip, 0 when the loop runs out. -/
def opponent_legalp_loop (ob : Board) (move player : Int) : List Int → Option Int
  | [] => some 0
  | dir :: rest =>
    match opponent_wouldflip ob move dir player with
    | none => none
    | some r => if r ≠ 0 then some 1 else opponent_legalp_loop ob move player rest

/-- `opponent_legalp(move, player)`. -/
def opponent_legalp (ob : Board) (move player : Int) : Option Int :=
  if opponent_validp move = 0 then some 0
  else
    match readCell ob move with
    | none => none
    | some v =>
      if v = O_EMPTY then opponent_legalp_loop ob move player O_ALLDIRECTIONS
      else some 0

/-- The `do ... while (c != bracketer)` loop of `opponent_makeflips`; the first
argument bounds the number of squares written. -/
def opponent_makeflips_loop (dir player bracketer : Int) : Nat → Board → Int → Option Board
  | 0, _, _ => none
  | fuel + 1, ob, c =>
    match writeCell ob c player with
    | none => none
    | some ob1 =>
      if c + dir ≠ bracketer then opponent_makeflips_loop dir player bracketer fuel ob1 (c + dir)
      else some ob1

/-- `opponent_makeflips(move, dir, player)`. -/
def opponent_makeflips (ob : Board) (move dir player : Int) : Option Board :=
  match opponent_wouldflip ob move dir player with
  | none => none
  | some bracketer =>
    if bracketer ≠ 0 then
      opponent_makeflips_loop dir player bracketer WALK_FUEL ob (move + dir)
    else some ob

/-- `opponent_makemove(move, player)`. -/
def opponent_makemove (ob : Board) (move player : Int) : Option Board :=
  match writeCell ob move player with
  | none => none
  | some ob0 =>
    O_ALLDIRECTIONS.foldlM (fun ob1 dir => opponent_makeflips ob1 move dir player) ob0

/-- Square of the opponent's 10x10 board that stands for row `i`, column `j`
of the 8x8 board; rows and columns -1 and 8 are the border. -/
def osq (i j : Int) : Int := 10 * (i + 1) + (j + 1)

/-- The opponent's board `ob` and the 8x8 board `b` correspond: square
`10 * (r + 1) + (c + 1)` holds what cell `8 * r + c` holds, and the border
squares hold `O_OUTER`. -/
def Corresponds (ob b : Board) : Prop :=
  ob.length = 100 ∧ b.length = 64 ∧
  ∀ i j : Int, -1 ≤ i → i ≤ 8 → -1 ≤ j → j ≤ 8 →
    readCell ob (osq i j) =
      if onBoard i j = true then readCell b (i * 8 + j) else some O_OUTER

/-- From `(i, j)` along `(dx, dy)`: `n` cells holding `o`, then a cell
holding `p`, all on the board. -/
def Run (b : Board) (p o i j dx dy : Int) (n : Nat) : Prop :=
  (∀ k : Nat, k < n → rayOn i j dx dy k ∧ readCell b (rayCell i j dx dy k) = some o) ∧
  rayOn i j dx dy n ∧ readCell b (rayCell i j dx dy n) = some p

/-! ## The skeleton engine (`random_player.c`) -/

abbrev RECV_FAILED : Int := 4
abbrev CLIENT_DISCONNECTED : Int := 5
/-- The probe outcomes `polls` deliver the results of `k` successive rounds of
`n` tasks: they start with `k` consecutive groups of outcomes (probes that find
nothing included), each group carrying `n` result records in all. -/
def Delivers (n : Nat) : Nat → List Poll → Prop
  | 0, _ => True
  | k + 1, polls =>
    ∃ round rest, polls = round ++ rest ∧ (poll_results round).length = n ∧ Delivers n k rest

/-- Every result record the probes carry has a move other than -1 and a score
above -999999, the initial best score of the collection loop; the results a
worker returns for tasks on cells are of this kind (`ResultOf_valid`). -/
def ValidResults (polls : List Poll) : Prop :=
  ∀ r ∈ poll_results polls, -999999 < r.score ∧ r.move ≠ -1

/-- Nine rounds in each of which worker 1 answers its single task for cell 3. -/
def nine_rounds : List Poll :=
  [some (1, [⟨3, 5⟩]), none, some (1, [⟨3, 5⟩]), some (1, [⟨3, 5⟩]), some (1, [⟨3, 5⟩]),
   some (1, [⟨3, 5⟩]), none, none, some (1, [⟨3, 5⟩]), some (1, [⟨3, 5⟩]), some (1, [⟨3, 5⟩]),
   some (1, [⟨3, 5⟩])]

/-- A late position with White to move: every cell is White except cells 9 and
15, which are Black, and cells 1 and 8, which are Empty. -/
def twin_board : Board :=
  [2, 0, 2, 2, 2, 2, 2, 2,
   0, 1, 2, 2, 2, 2, 2, 1,
   2, 2, 2, 2, 2, 2, 2, 2,
   2, 2, 2, 2, 2, 2, 2, 2,
   2, 2, 2, 2, 2, 2, 2, 2,
   2, 2, 2, 2, 2, 2, 2, 2,
   2, 2, 2, 2, 2, 2, 2, 2,
   2, 2, 2, 2, 2, 2, 2, 2]

/-- The opening position with one more White piece on cell 1. -/
def opening_plus_1 : Board :=
  [0, 2, 0, 0, 0, 0, 0, 0,
   0, 0, 0, 0, 0, 0, 0, 0,
   0, 0, 0, 0, 0, 0, 0, 0,
   0, 0, 0, 2, 1, 0, 0, 0,
   0, 0, 0, 1, 2, 0, 0, 0,
   0, 0, 0, 0, 0, 0, 0, 0,
   0, 0, 0, 0, 0, 0, 0, 0,
   0, 0, 0, 0, 0, 0, 0, 0]

/-- The opening position with one more White piece on cell 8. -/
def opening_plus_8 : Board :=
  [0, 0, 0, 0, 0, 0, 0, 0,
   2, 0, 0, 0, 0, 0, 0, 0,
   0, 0, 0, 0, 0, 0, 0, 0,
   0, 0, 0, 2, 1, 0, 0, 0,
   0, 0, 0, 1, 2, 0, 0, 0,
   0, 0, 0, 0, 0, 0, 0, 0,
   0, 0, 0, 0, 0, 0, 0, 0,
   0, 0, 0, 0, 0, 0, 0, 0]

/-- Nine rounds of results for the tasks of cell 1 (worker 1) and cell 8
(worker 2), each scored 5: in the first round the result of worker 2 is
received first, in the later rounds that of worker 1. -/
def race_polls : List Poll :=
  [some (2, [⟨8, 5⟩]), some (1, [⟨1, 5⟩]),
   some (1, [⟨1, 5⟩]), some (2, [⟨8, 5⟩]),
   some (1, [⟨1, 5⟩]), some (2, [⟨8, 5⟩]),
   some (1, [⟨1, 5⟩]), some (2, [⟨8, 5⟩]),
   some (1, [⟨1, 5⟩]), some (2, [⟨8, 5⟩]),
   some (1, [⟨1, 5⟩]), some (2, [⟨8, 5⟩]),
   some (1, [⟨1, 5⟩]), some (2, [⟨8, 5⟩]),
   some (1, [⟨1, 5⟩]), some (2, [⟨8, 5⟩]),
   some (1, [⟨1, 5⟩]), some (2, [⟨8, 5⟩])]

/-! ## Board access -/


theorem onBoard_iff (i j : Int) : onBoard i j = true ↔ 0 ≤ i ∧ i < 8 ∧ 0 ≤ j ∧ j < 8 := by
  simp [onBoard, and_assoc]

theorem readCell_eq (b : Board) (k : Int) (h0 : 0 ≤ k) (h1 : k < b.length) :
    readCell b k = some (b.getD k.toNat 0) := by
  have : k.toNat < b.length := by omega
  simp [readCell, h0, List.getD, this, List.get?_eq_getElem?]

theorem readCell_onBoard (b : Board) (hlen : b.length = 64) (i j : Int)
    (h : onBoard i j = true) : ∃ v, readCell b (i * 8 + j) = some v := by
  rw [onBoard_iff] at h
  exact ⟨_, readCell_eq b _ (by omega) (by omega)⟩


theorem ray_step (i dx : Int) (k : Nat) :
    i + ((k + 1 : Nat) : Int) * dx = i + dx + (k : Int) * dx := by
  rw [Int.ofNat_succ, Int.add_mul, Int.one_mul]; omega

theorem ray_zero (i dx : Int) : i + ((0 : Nat) : Int) * dx = i := by omega

theorem rayCell_succ (i j dx dy : Int) (k : Nat) :
    rayCell i j dx dy (k + 1) = rayCell (i + dx) (j + dy) dx dy k := by
  simp only [rayCell]; push_cast; ring

theorem rayOn_succ (i j dx dy : Int) (k : Nat) :
    rayOn i j dx dy (k + 1) ↔ rayOn (i + dx) (j + dy) dx dy k := by
  simp only [rayOn]
  have e1 : i + ((k + 1 : Nat) : Int) * dx = i + dx + (k : Int) * dx := by push_cast; ring
  have e2 : j + ((k + 1 : Nat) : Int) * dy = j + dy + (k : Int) * dy := by push_cast; ring
  rw [e1, e2]

theorem rayCell_zero (i j dx dy : Int) : rayCell i j dx dy 0 = i * 8 + j := by
  simp only [rayCell, BOARD_SIZE]
  omega

theorem rayOn_zero (i j dx dy : Int) : rayOn i j dx dy 0 ↔ onBoard i j = true := by
  unfold rayOn
  have e1 : i + ((0 : Nat) : Int) * dx = i := by omega
  have e2 : j + ((0 : Nat) : Int) * dy = j := by omega
  rw [e1, e2]

theorem check_loop_spec (b : Board) (hlen : b.length = 64) (dx dy my opp : Int)
    (hne : my ≠ opp) :
    ∀ (fuel : Nat) (i j : Int) (found : Bool),
      check_direction_loop b dx dy my opp fuel i j found = some 1 ↔
        ∃ n : Nat, n < fuel ∧ (found = true ∨ 1 ≤ n) ∧
          (∀ k : Nat, k < n → rayOn i j dx dy k ∧ readCell b (rayCell i j dx dy k) = some opp) ∧
          rayOn i j dx dy n ∧ readCell b (rayCell i j dx dy n) = some my := by
  intro fuel
  induction fuel with
  | zero =>
    intro i j found
    rw [check_direction_loop]
    constructor
    · intro h; exact Option.noConfusion h
    · rintro ⟨n, hn, -⟩; omega
  | succ f ih =>
    intro i j found
    rw [check_direction_loop]
    by_cases hb : onBoard i j = true
    · obtain ⟨v, hv⟩ := readCell_onBoard b hlen i j hb
      have h0 : readCell b (rayCell i j dx dy 0) = some v := by
        rw [rayCell_zero]; exact hv
      have hon0 : rayOn i j dx dy 0 := (rayOn_zero i j dx dy).mpr hb
      rw [if_pos hb]
      have hv8 : readCell b (i * BOARD_SIZE + j) = some v := hv
      rw [hv8]
      show (if v = opp then check_direction_loop b dx dy my opp f (i + dx) (j + dy) true
        else if v = my ∧ found = true then some 1 else some 0) = some 1 ↔ _
      by_cases hvo : v = opp
      · rw [if_pos hvo, ih]
        constructor
        · rintro ⟨n, hn, -, hall, hon, hmy⟩
          refine ⟨n + 1, by omega, Or.inr (by omega), ?_, ?_, ?_⟩
          · intro k hk
            cases k with
            | zero => exact ⟨hon0, by rw [h0, hvo]⟩
            | succ k =>
              have := hall k (by omega)
              rw [rayOn_succ, rayCell_succ]; exact this
          · rw [rayOn_succ]; exact hon
          · rw [rayCell_succ]; exact hmy
        · rintro ⟨n, hn, -, hall, hon, hmy⟩
          cases n with
          | zero =>
            exfalso
            rw [h0] at hmy
            exact hne ((Option.some.inj hmy).symm.trans hvo)
          | succ n =>
            refine ⟨n, by omega, Or.inl rfl, ?_, ?_, ?_⟩
            · intro k hk
              have := hall (k + 1) (by omega)
              rw [rayOn_succ, rayCell_succ] at this; exact this
            · rw [rayOn_succ] at hon; exact hon
            · rw [rayCell_succ] at hmy; exact hmy
      · rw [if_neg hvo]
        by_cases hc : v = my ∧ found = true
        · rw [if_pos hc]
          refine ⟨fun _ => ?_, fun _ => rfl⟩
          refine ⟨0, by omega, Or.inl hc.2, by intro k hk; omega, hon0, ?_⟩
          rw [h0, hc.1]
        · rw [if_neg hc]
          constructor
          · intro h
            exact absurd (Option.some.inj h) (by decide)
          · rintro ⟨n, hn, hf, hall, hon, hmy⟩
            exfalso
            cases n with
            | zero =>
              rw [h0] at hmy
              rcases hf with hf | hf
              · exact hc ⟨Option.some.inj hmy, hf⟩
              · omega
            | succ n =>
              have := (hall 0 (by omega)).2
              rw [h0] at this
              exact hvo (Option.some.inj this)
    · rw [if_neg hb]
      constructor
      · intro h
        exact absurd (Option.some.inj h) (by decide)
      · rintro ⟨n, hn, hf, hall, hon, hmy⟩
        exfalso
        cases n with
        | zero => exact hb ((rayOn_zero i j dx dy).mp hon)
        | succ n => exact hb ((rayOn_zero i j dx dy).mp (hall 0 (by omega)).1)


theorem writeCell_eq (b : Board) (k v : Int) (h0 : 0 ≤ k) (h1 : k < b.length) :
    writeCell b k v = some (b.set k.toNat v) := by
  have : k.toNat < b.length := by omega
  simp [writeCell, h0, this]

theorem readCell_set (b : Board) (k p v : Int) (h0 : 0 ≤ k) (h1 : k < b.length) :
    readCell (b.set k.toNat v) p = if p = k then some v else readCell b p := by
  unfold readCell
  simp only [List.get?_eq_getElem?]
  by_cases hp : 0 ≤ p
  · simp only [hp, if_true]
    by_cases hpk : p = k
    · subst hpk
      have : p.toNat < b.length := by omega
      simp [this]
    · have : k.toNat ≠ p.toNat := by omega
      simp [hpk, List.getElem?_set_ne this]
  · have : p ≠ k := by omega
    simp [hp, this]


theorem rayCell_inj (i j dx dy : Int) (hd : IsDir dx dy) (k k1 : Nat)
    (h1 : rayOn i j dx dy k) (h2 : rayOn i j dx dy k1)
    (h : rayCell i j dx dy k = rayCell i j dx dy k1) : k = k1 := by
  simp only [rayOn, onBoard_iff] at h1 h2
  simp only [rayCell, BOARD_SIZE] at h
  obtain ⟨hx, hy, hz⟩ := hd
  rcases hx with rfl | rfl | rfl <;> rcases hy with rfl | rfl | rfl <;>
    first
      | (exfalso; exact hz ⟨rfl, rfl⟩)
      | omega

theorem check_loop_total (b : Board) (hlen : b.length = 64) (dx dy my opp : Int) :
    ∀ (fuel : Nat) (i j : Int) (found : Bool),
      (∃ n : Nat, n < fuel ∧ ¬ rayOn i j dx dy n) →
        ∃ r, check_direction_loop b dx dy my opp fuel i j found = some r ∧ (r = 0 ∨ r = 1) := by
  intro fuel
  induction fuel with
  | zero => rintro i j found ⟨n, hn, -⟩; omega
  | succ f ih =>
    rintro i j found ⟨n, hn, hoff⟩
    rw [check_direction_loop]
    by_cases hb : onBoard i j = true
    · obtain ⟨v, hv⟩ := readCell_onBoard b hlen i j hb
      simp only [hb, if_true, hv]
      by_cases hvo : v = opp
      · rw [if_pos hvo]
        apply ih
        cases n with
        | zero => exact absurd ((rayOn_zero i j dx dy).mpr hb) hoff
        | succ n => exact ⟨n, by omega, fun h => hoff ((rayOn_succ i j dx dy n).mpr h)⟩
      · rw [if_neg hvo]
        by_cases hc : v = my ∧ found = true
        · rw [if_pos hc]; exact ⟨1, rfl, Or.inr rfl⟩
        · rw [if_neg hc]; exact ⟨0, rfl, Or.inl rfl⟩
    · simp only [hb]
      exact ⟨0, by simp, Or.inl rfl⟩

theorem scan_eq_check (b : Board) (row col dx dy colour opp : Int) :
    ∀ (fuel : Nat) (i j : Int) (found : Bool),
      make_move_scan b row col dx dy colour opp fuel i j found =
        (check_direction_loop b dx dy colour opp fuel i j found).bind
          (fun r => if r = 1 then flip_direction b row col dx dy colour else some b) := by
  intro fuel
  induction fuel with
  | zero => intro i j found; simp [make_move_scan, check_direction_loop]
  | succ f ih =>
    intro i j found
    rw [make_move_scan, check_direction_loop]
    by_cases hb : onBoard i j = true
    · simp only [hb, if_true]
      cases hv : readCell b (i * BOARD_SIZE + j) with
      | none => simp
      | some v =>
        simp only []
        by_cases hvo : v = opp
        · rw [if_pos hvo, if_pos hvo]; exact ih _ _ _
        · rw [if_neg hvo, if_neg hvo]
          by_cases hc : v = colour ∧ found = true
          · rw [if_pos hc, if_pos hc]; simp
          · rw [if_neg hc, if_neg hc]; simp
    · simp [hb]

theorem flip_loop_spec (dx dy my : Int) (hd : IsDir dx dy) :
    ∀ (n fuel : Nat) (b : Board) (i j : Int), b.length = 64 → n < fuel →
      (∀ k : Nat, k < n → rayOn i j dx dy k ∧ readCell b (rayCell i j dx dy k) ≠ some my) →
      (¬ rayOn i j dx dy n ∨ readCell b (rayCell i j dx dy n) = some my) →
      ∃ b1, flip_direction_loop dx dy my fuel b i j = some b1 ∧ b1.length = 64 ∧
        ∀ p : Int, readCell b1 p =
          if (∃ k : Nat, k < n ∧ p = rayCell i j dx dy k) then some my else readCell b p := by
  intro n
  induction n with
  | zero =>
    intro fuel b i j hlen hf _ hstop
    obtain ⟨f, rfl⟩ : ∃ f, fuel = f + 1 := ⟨fuel - 1, by omega⟩
    rw [flip_direction_loop]
    refine ⟨b, ?_, hlen, by intro p; simp⟩
    by_cases hb : onBoard i j = true
    · rcases hstop with h | h
      · exact absurd ((rayOn_zero i j dx dy).mpr hb) h
      · rw [rayCell_zero] at h
        simp [hb, h]
    · simp [hb]
  | succ n ih =>
    intro fuel b i j hlen hf hall hstop
    obtain ⟨f, rfl⟩ : ∃ f, fuel = f + 1 := ⟨fuel - 1, by omega⟩
    have h0 := hall 0 (by omega)
    have hb : onBoard i j = true := (rayOn_zero i j dx dy).mp h0.1
    have hb' := (onBoard_iff i j).mp hb
    obtain ⟨v, hv⟩ := readCell_onBoard b hlen i j hb
    have hvm : v ≠ my := by
      intro h; apply h0.2; rw [rayCell_zero, hv, h]
    have hw : writeCell b (i * 8 + j) my = some (b.set (i * 8 + j).toNat my) :=
      writeCell_eq b _ _ (by omega) (by omega)
    have hrd : ∀ p : Int, readCell (b.set (i * 8 + j).toNat my) p =
        if p = i * 8 + j then some my else readCell b p :=
      fun p => readCell_set b _ p my (by omega) (by omega)
    have hne : ∀ k : Nat, rayOn i j dx dy (k + 1) → rayCell i j dx dy (k + 1) ≠ i * 8 + j := by
      intro k hk heq
      have := rayCell_inj i j dx dy hd (k + 1) 0 hk h0.1 (by rw [heq, rayCell_zero])
      omega
    obtain ⟨b1, hb1, hlen1, hspec⟩ := ih f (b.set (i * 8 + j).toNat my) (i + dx) (j + dy)
      (by simp [hlen]) (by omega)
      (by
        intro k hk
        have := hall (k + 1) (by omega)
        refine ⟨(rayOn_succ i j dx dy k).mp this.1, ?_⟩
        rw [← rayCell_succ, hrd, if_neg (hne k this.1)]
        exact this.2)
      (by
        rcases hstop with h | h
        · exact Or.inl (fun h' => h ((rayOn_succ i j dx dy n).mpr h'))
        · right
          rw [← rayCell_succ, hrd]
          split
          · rfl
          · exact h)
    rw [flip_direction_loop]
    refine ⟨b1, ?_, hlen1, ?_⟩
    · simp only [hb, if_true]
      show (match readCell b (i * 8 + j) with
        | none => none
        | some v => if v ≠ my then
            match writeCell b (i * 8 + j) my with
            | none => none
            | some b1 => flip_direction_loop dx dy my f b1 (i + dx) (j + dy)
          else some b) = some b1
      rw [hv]
      simp only []
      rw [if_pos hvm, hw]
      exact hb1
    · intro p
      rw [hspec p, hrd p]
      by_cases hp : ∃ k : Nat, k < n ∧ p = rayCell (i + dx) (j + dy) dx dy k
      · rw [if_pos hp]
        obtain ⟨k, hk, hpk⟩ := hp
        rw [if_pos ⟨k + 1, by omega, by rw [rayCell_succ]; exact hpk⟩]
      · rw [if_neg hp]
        by_cases hp0 : p = i * 8 + j
        · rw [if_pos hp0, if_pos ⟨0, by omega, by rw [rayCell_zero]; exact hp0⟩]
        · rw [if_neg hp0, if_neg]
          rintro ⟨k, hk, hpk⟩
          cases k with
          | zero => exact hp0 (by rw [hpk, rayCell_zero])
          | succ k => exact hp ⟨k, by omega, by rw [hpk, rayCell_succ]⟩

theorem rayOn_le_seven (x y dx dy : Int) (hd : IsDir dx dy) (hxy : onBoard x y = true)
    (k : Nat) (h : rayOn x y dx dy k) : k ≤ 7 := by
  simp only [rayOn, onBoard_iff] at h
  rw [onBoard_iff] at hxy
  obtain ⟨hx, hy, hz⟩ := hd
  rcases hx with rfl | rfl | rfl <;> rcases hy with rfl | rfl | rfl <;>
    first
      | (exfalso; exact hz ⟨rfl, rfl⟩)
      | omega

theorem rayCell_disjoint (x y dx dy ex ey : Int) (hd : IsDir dx dy) (he : IsDir ex ey)
    (k k1 : Nat) (hk : 1 ≤ k) (hk1 : 1 ≤ k1)
    (h1 : rayOn x y dx dy k) (h2 : rayOn x y ex ey k1)
    (h : rayCell x y dx dy k = rayCell x y ex ey k1) : dx = ex ∧ dy = ey := by
  simp only [rayOn, onBoard_iff] at h1 h2
  simp only [rayCell, BOARD_SIZE] at h
  have hxy : (k : Int) * dx = (k1 : Int) * ex ∧ (k : Int) * dy = (k1 : Int) * ey := by
    generalize (k : Int) * dx = a at *
    generalize (k : Int) * dy = b at *
    generalize (k1 : Int) * ex = c at *
    generalize (k1 : Int) * ey = d at *
    omega
  obtain ⟨hx, hy, hz⟩ := hd
  obtain ⟨gx, gy, gz⟩ := he
  constructor
  · have := hxy.1
    rcases hx with rfl | rfl | rfl <;> rcases gx with rfl | rfl | rfl <;>
      first | rfl | (exfalso; omega)
  · have := hxy.2
    rcases hy with rfl | rfl | rfl <;> rcases gy with rfl | rfl | rfl <;>
      first | rfl | (exfalso; omega)

theorem Brackets_unique (b : Board) (c o x y dx dy : Int) (hne : c ≠ o) (n n1 : Nat)
    (h : Brackets b c o x y dx dy n) (h1 : Brackets b c o x y dx dy n1) : n = n1 := by
  obtain ⟨hn, hall, -, hc⟩ := h
  obtain ⟨hn1, hall1, -, hc1⟩ := h1
  by_contra hneq
  rcases Nat.lt_or_gt_of_ne hneq with hlt | hlt
  · have := (hall1 (n + 1) (by omega) (by omega)).2
    rw [hc] at this
    exact hne (Option.some.inj this)
  · have := (hall (n1 + 1) (by omega) (by omega)).2
    rw [hc1] at this
    exact hne (Option.some.inj this)

theorem check_direction_total (b : Board) (hlen : b.length = 64) (x y dx dy my opp : Int)
    (hd : IsDir dx dy) (hxy : onBoard x y = true) :
    ∃ r, check_direction b x y dx dy my opp = some r ∧ (r = 0 ∨ r = 1) := by
  apply check_loop_total b hlen
  refine ⟨7, by decide, ?_⟩
  intro h
  have := rayOn_le_seven x y dx dy hd hxy 8 ((rayOn_succ x y dx dy 7).mpr h)
  omega

theorem check_direction_spec (b : Board) (hlen : b.length = 64) (x y dx dy my opp : Int)
    (hd : IsDir dx dy) (hxy : onBoard x y = true) (hne : my ≠ opp) :
    check_direction b x y dx dy my opp = some 1 ↔ ValidDir b my opp x y dx dy := by
  unfold check_direction
  rw [check_loop_spec b hlen dx dy my opp hne]
  constructor
  · rintro ⟨n, -, hf, hall, hon, hmy⟩
    have hn : 1 ≤ n := by
      rcases hf with hf | hf
      · cases hf
      · exact hf
    refine ⟨n, hn, ?_, (rayOn_succ x y dx dy n).mpr hon, by rw [rayCell_succ]; exact hmy⟩
    intro k hk1 hkn
    obtain ⟨k, rfl⟩ : ∃ k0, k = k0 + 1 := ⟨k - 1, by omega⟩
    have := hall k (by omega)
    exact ⟨(rayOn_succ x y dx dy k).mpr this.1, by rw [rayCell_succ]; exact this.2⟩
  · rintro ⟨n, hn, hall, hon, hmy⟩
    have h7 := rayOn_le_seven x y dx dy hd hxy (n + 1) hon
    refine ⟨n, by simp only [WALK_FUEL]; omega, Or.inr hn, ?_, (rayOn_succ x y dx dy n).mp hon,
      by rw [← rayCell_succ]; exact hmy⟩
    intro k hk
    have := hall (k + 1) (by omega) (by omega)
    exact ⟨(rayOn_succ x y dx dy k).mp this.1, by rw [← rayCell_succ]; exact this.2⟩

theorem foldlM_cons_some {σ α : Type} (f : σ → α → Option σ) (s s1 : σ) (x : α) (xs : List α)
    (h : f s x = some s1) : (x :: xs).foldlM f s = xs.foldlM f s1 := by
  simp [List.foldlM_cons, h]


theorem nested_deltas {σ : Type} (f : Int → σ → Int → Option σ) (s : σ) :
    deltas.foldlM (fun st dx => deltas.foldlM (f dx) st) s =
      deltaPairs.foldlM (fun st d => f d.1 st d.2) s := by
  simp only [deltas, deltaPairs, List.foldlM_cons, List.foldlM_nil, bind_assoc, bind_pure]
  
theorem foldlM_append_some {α β : Type} (f : List α → β → Option (List α)) (g : β → List α)
    (l : List β) (h : ∀ x ∈ l, ∀ acc, f acc x = some (acc ++ g x)) (acc : List α) :
    l.foldlM f acc = some (acc ++ l.flatMap g) := by
  induction l generalizing acc with
  | nil => simp
  | cons x xs ih =>
    rw [List.foldlM_cons, h x (List.mem_cons_self _ _)]
    simp only [Option.bind_eq_bind, Option.some_bind]
    rw [ih (fun y hy => h y (List.mem_cons_of_mem _ hy))]
    simp


theorem dy_fold_found (b : Board) (my opp i j : Int) (l : List (Int × Int)) (mv : List Int) :
    l.foldlM (fun st d => legal_moves_dy b my opp i j d.1 st d.2) (mv, true) = some (mv, true) := by
  induction l with
  | nil => rfl
  | cons d ds ih =>
    rw [foldlM_cons_some _ _ (mv, true) d ds (by simp [legal_moves_dy])]
    exact ih

theorem dy_fold (b : Board) (hlen : b.length = 64) (my opp i j : Int)
    (hij : onBoard i j = true) (l : List (Int × Int))
    (hl : ∀ d ∈ l, (d.1 = 0 ∧ d.2 = 0) ∨ IsDir d.1 d.2) (mv : List Int) :
    l.foldlM (fun st d => legal_moves_dy b my opp i j d.1 st d.2) (mv, false) =
      some (if l.any (dirHit b my opp i j) = true then (mv ++ [i * BOARD_SIZE + j], true)
        else (mv, false)) := by
  induction l with
  | nil => simp
  | cons d ds ih =>
    have ih := ih (fun e he => hl e (List.mem_cons_of_mem _ he))
    rcases hl d (List.mem_cons_self _ _) with h0 | hd
    · have hh : dirHit b my opp i j d = false := by simp [dirHit, h0]
      rw [foldlM_cons_some _ _ (mv, false) d ds (by simp [legal_moves_dy, h0]), ih,
        List.any_cons, hh, Bool.false_or]
    · have hz : ¬(d.1 = 0 ∧ d.2 = 0) := hd.2.2
      obtain ⟨r, hr, hr01⟩ := check_direction_total b hlen i j d.1 d.2 my opp hd hij
      rcases hr01 with rfl | rfl
      · have hh : dirHit b my opp i j d = false := by simp [dirHit, hr]
        rw [foldlM_cons_some _ _ (mv, false) d ds (by simp [legal_moves_dy, hz, hr]), ih,
          List.any_cons, hh, Bool.false_or]
      · have hh : dirHit b my opp i j d = true := by simp [dirHit, hr, hz]
        rw [foldlM_cons_some _ _ (mv ++ [i * BOARD_SIZE + j], true) d ds
          (by simp [legal_moves_dy, hz, hr]), dy_fold_found,
          List.any_cons, hh, Bool.true_or, if_pos rfl]

theorem deltaPairs_dir : ∀ d ∈ deltaPairs, (d.1 = 0 ∧ d.2 = 0) ∨ IsDir d.1 d.2 := by
  intro d hd
  simp only [deltaPairs, List.mem_cons, List.mem_singleton, List.not_mem_nil, or_false] at hd
  rcases hd with rfl | rfl | rfl | rfl | rfl | rfl | rfl | rfl | rfl <;> simp [IsDir]

theorem mem_indices_onBoard (i j : Int) (hi : i ∈ indices) (hj : j ∈ indices) :
    onBoard i j = true := by
  simp only [indices, List.mem_cons, List.mem_singleton, List.not_mem_nil, or_false] at hi hj
  rw [onBoard_iff]; omega

theorem legal_moves_cell_eq (b : Board) (hlen : b.length = 64) (my opp i j : Int)
    (hi : i ∈ indices) (hj : j ∈ indices) (moves : List Int) :
    legal_moves_cell b my opp i moves j =
      some (moves ++ if legalAt b my opp i j = true then [i * BOARD_SIZE + j] else []) := by
  have hij := mem_indices_onBoard i j hi hj
  obtain ⟨v, hv⟩ := readCell_onBoard b hlen i j hij
  unfold legal_moves_cell
  simp only [BOARD_SIZE] at hv ⊢
  rw [hv]
  simp only []
  by_cases hve : v = EMPTY
  · subst hve
    rw [if_neg (by simp), nested_deltas, dy_fold b hlen my opp i j hij _ deltaPairs_dir]
    have : legalAt b my opp i j = anyDirection b my opp i j := by
      simp [legalAt, hv]
    rw [this]
    unfold anyDirection
    split <;> simp
  · rw [if_pos hve]
    have : legalAt b my opp i j = false := by
      simp [legalAt, hv, hve]
    simp [this]

theorem legal_moves_eq (b : Board) (hlen : b.length = 64) (my : Int) :
    legal_moves b my = some (legalList b my (if my = WHITE then BLACK else WHITE)) := by
  unfold legal_moves legalList
  simp only []
  rw [foldlM_append_some _
    (fun i => indices.flatMap fun j =>
      if legalAt b my (if my = WHITE then BLACK else WHITE) i j = true
        then [i * BOARD_SIZE + j] else [])]
  · rw [List.nil_append]
  · intro i hi acc
    exact foldlM_append_some _ _ _ (fun j hj acc1 => legal_moves_cell_eq b hlen my _ i j hi hj acc1) acc

theorem mem_deltaPairs_of_isDir (dx dy : Int) (hd : IsDir dx dy) : (dx, dy) ∈ deltaPairs := by
  obtain ⟨hx, hy, -⟩ := hd
  rcases hx with rfl | rfl | rfl <;> rcases hy with rfl | rfl | rfl <;> simp [deltaPairs]

theorem anyDirection_iff (b : Board) (hlen : b.length = 64) (my opp i j : Int)
    (hij : onBoard i j = true) (hne : my ≠ opp) :
    anyDirection b my opp i j = true ↔
      ∃ dx dy : Int, IsDir dx dy ∧ ValidDir b my opp i j dx dy := by
  unfold anyDirection
  rw [List.any_eq_true]
  constructor
  · rintro ⟨d, hd, hhit⟩
    simp only [dirHit, Bool.and_eq_true, Bool.not_eq_true', decide_eq_false_iff_not,
      beq_iff_eq] at hhit
    rcases deltaPairs_dir d hd with h0 | hdir
    · exact absurd h0 hhit.1
    · exact ⟨d.1, d.2, hdir, (check_direction_spec b hlen i j d.1 d.2 my opp hdir hij hne).mp hhit.2⟩
  · rintro ⟨dx, dy, hdir, hv⟩
    refine ⟨(dx, dy), mem_deltaPairs_of_isDir dx dy hdir, ?_⟩
    simp only [dirHit, Bool.and_eq_true, Bool.not_eq_true', decide_eq_false_iff_not, beq_iff_eq]
    exact ⟨hdir.2.2, (check_direction_spec b hlen i j dx dy my opp hdir hij hne).mpr hv⟩

theorem mem_indices_iff (i : Int) : i ∈ indices ↔ 0 ≤ i ∧ i < 8 := by
  simp only [indices, List.mem_cons, List.mem_singleton, List.not_mem_nil, or_false]
  omega

theorem mem_legalList (b : Board) (my opp m : Int) :
    m ∈ legalList b my opp ↔
      ∃ i j : Int, onBoard i j = true ∧ m = i * BOARD_SIZE + j ∧ legalAt b my opp i j = true := by
  unfold legalList
  simp only [List.mem_flatMap]
  constructor
  · rintro ⟨i, hi, j, hj, hm⟩
    by_cases hl : legalAt b my opp i j = true
    · rw [if_pos hl] at hm
      exact ⟨i, j, mem_indices_onBoard i j hi hj, by simpa using hm, hl⟩
    · rw [if_neg hl] at hm
      simp at hm
  · rintro ⟨i, j, hij, hm, hl⟩
    rw [onBoard_iff] at hij
    refine ⟨i, (mem_indices_iff i).mpr ⟨hij.1, hij.2.1⟩, j,
      (mem_indices_iff j).mpr ⟨hij.2.2.1, hij.2.2.2⟩, ?_⟩
    rw [if_pos hl]
    simp [hm]

theorem mem_legalList_iff (b : Board) (hlen : b.length = 64) (my opp m : Int) (hne : my ≠ opp) :
    m ∈ legalList b my opp ↔ LegalCell b my opp m := by
  rw [mem_legalList]
  unfold LegalCell
  constructor
  · rintro ⟨i, j, hij, hm, hl⟩
    simp only [legalAt, Bool.and_eq_true, beq_iff_eq] at hl
    exact ⟨i, j, hij, hm, by rw [hm]; exact hl.1,
      (anyDirection_iff b hlen my opp i j hij hne).mp hl.2⟩
  · rintro ⟨i, j, hij, hm, he, hv⟩
    refine ⟨i, j, hij, hm, ?_⟩
    simp only [legalAt, Bool.and_eq_true, beq_iff_eq]
    exact ⟨by rw [← hm]; exact he, (anyDirection_iff b hlen my opp i j hij hne).mpr hv⟩

/-- C1: on every 64-cell board and for `c` Black or White (`o` being the other
of the two), `legal_moves` returns a list whose members are exactly the cells
that are empty and have a direction along which one or more `o` cells are
followed by a `c` cell before the board ends; every returned cell is empty and
the list is empty exactly when no such cell exists.  The function only reads
the board: its result carries no board. -/
theorem legal_moves_exact (b : Board) (c o : Int) (hlen : b.length = 64)
    (hc : (c = BLACK ∧ o = WHITE) ∨ (c = WHITE ∧ o = BLACK)) :
    ∃ moves : List Int, legal_moves b c = some moves ∧
      (∀ m : Int, m ∈ moves ↔ LegalCell b c o m) ∧
      (∀ m : Int, m ∈ moves → readCell b m = some EMPTY) ∧
      (moves = [] ↔ ¬ ∃ m : Int, LegalCell b c o m) := by
  have hopp : (if c = WHITE then BLACK else WHITE) = o := by
    rcases hc with ⟨rfl, rfl⟩ | ⟨rfl, rfl⟩ <;> simp
  have hne : c ≠ o := by
    rcases hc with ⟨rfl, rfl⟩ | ⟨rfl, rfl⟩ <;> decide
  have hmem : ∀ m : Int, m ∈ legalList b c o ↔ LegalCell b c o m :=
    fun m => mem_legalList_iff b hlen c o m hne
  refine ⟨legalList b c o, by rw [legal_moves_eq b hlen c, hopp], hmem, ?_, ?_⟩
  · intro m hm
    obtain ⟨x, y, -, -, he, -⟩ := (hmem m).mp hm
    exact he
  · rw [List.eq_nil_iff_forall_not_mem]
    constructor
    · rintro h ⟨m, hm⟩
      exact h m ((hmem m).mpr hm)
    · intro h m hm
      exact h ⟨m, (hmem m).mp hm⟩

theorem Brackets_congr (b b1 : Board) (c o x y dx dy : Int) (n : Nat)
    (h : ∀ k : Nat, 1 ≤ k → rayOn x y dx dy k →
      readCell b1 (rayCell x y dx dy k) = readCell b (rayCell x y dx dy k)) :
    Brackets b1 c o x y dx dy n → Brackets b c o x y dx dy n := by
  rintro ⟨hn, hall, hon, hc⟩
  refine ⟨hn, fun k hk1 hkn => ⟨(hall k hk1 hkn).1, ?_⟩, hon, ?_⟩
  · rw [← h k hk1 (hall k hk1 hkn).1]; exact (hall k hk1 hkn).2
  · rw [← h (n + 1) (by omega) hon]; exact hc

theorem Flips_congr (b b1 : Board) (c o x y dx dy p : Int)
    (h : ∀ k : Nat, 1 ≤ k → rayOn x y dx dy k →
      readCell b1 (rayCell x y dx dy k) = readCell b (rayCell x y dx dy k)) :
    Flips b1 c o x y dx dy p ↔ Flips b c o x y dx dy p := by
  constructor
  · rintro ⟨n, k, hb, hk⟩
    exact ⟨n, k, Brackets_congr b b1 c o x y dx dy n h hb, hk⟩
  · rintro ⟨n, k, hb, hk⟩
    exact ⟨n, k, Brackets_congr b1 b c o x y dx dy n (fun k hk1 hon => (h k hk1 hon).symm) hb, hk⟩

theorem make_move_dy_spec (b : Board) (hlen : b.length = 64) (row col c o dx dy : Int)
    (hd : IsDir dx dy) (hrc : onBoard row col = true) (hne : c ≠ o) :
    ∃ b1, make_move_dy row col c o dx b dy = some b1 ∧ b1.length = 64 ∧
      ∀ p : Int, (Flips b c o row col dx dy p → readCell b1 p = some c) ∧
        (¬ Flips b c o row col dx dy p → readCell b1 p = readCell b p) := by
  unfold make_move_dy
  rw [if_neg hd.2.2, scan_eq_check]
  obtain ⟨r, hr, h01⟩ := check_direction_total b hlen row col dx dy c o hd hrc
  have hspec := check_direction_spec b hlen row col dx dy c o hd hrc hne
  unfold check_direction at hr
  rw [hr]
  simp only [Option.some_bind]
  rcases h01 with rfl | rfl
  · have hnv : ¬ ValidDir b c o row col dx dy := by
      intro hv
      have := hspec.mpr hv
      unfold check_direction at this
      rw [hr] at this
      simp at this
    refine ⟨b, by simp, hlen, fun p => ⟨?_, fun _ => rfl⟩⟩
    rintro ⟨n, k, hb, -⟩
    exact absurd ⟨n, hb⟩ hnv
  · have hv : ValidDir b c o row col dx dy := hspec.mp (by unfold check_direction; exact hr)
    obtain ⟨n, hbr⟩ := hv
    obtain ⟨hn, hall, hon, hc⟩ := hbr
    have h7 := rayOn_le_seven row col dx dy hd hrc (n + 1) hon
    obtain ⟨b1, hb1, hlen1, hrd⟩ := flip_loop_spec dx dy c hd n WALK_FUEL b (row + dx) (col + dy)
      hlen (by simp only [WALK_FUEL]; omega)
      (by
        intro k hk
        have := hall (k + 1) (by omega) (by omega)
        refine ⟨(rayOn_succ row col dx dy k).mp this.1, ?_⟩
        rw [← rayCell_succ, this.2]
        intro h
        exact hne (Option.some.inj h).symm)
      (Or.inr (by rw [← rayCell_succ]; exact hc))
    refine ⟨b1, by simpa [flip_direction] using hb1, hlen1, fun p => ?_⟩
    have hiff : (∃ k : Nat, k < n ∧ p = rayCell (row + dx) (col + dy) dx dy k) ↔
        Flips b c o row col dx dy p := by
      constructor
      · rintro ⟨k, hk, hp⟩
        exact ⟨n, k + 1, ⟨hn, hall, hon, hc⟩, by omega, by omega, by rw [rayCell_succ]; exact hp⟩
      · rintro ⟨n1, k, hb1', hk1, hkn, hp⟩
        have := Brackets_unique b c o row col dx dy hne n n1 ⟨hn, hall, hon, hc⟩ hb1'
        subst this
        obtain ⟨k, rfl⟩ : ∃ k0, k = k0 + 1 := ⟨k - 1, by omega⟩
        exact ⟨k, by omega, by rw [← rayCell_succ]; exact hp⟩
    constructor
    · intro hf
      rw [hrd p, if_pos (hiff.mpr hf)]
    · intro hf
      rw [hrd p, if_neg (fun h => hf (hiff.mp h))]

theorem Flips_rayOn (b : Board) (c o x y dx dy p : Int) (h : Flips b c o x y dx dy p) :
    ∃ k : Nat, 1 ≤ k ∧ rayOn x y dx dy k ∧ p = rayCell x y dx dy k := by
  obtain ⟨n, k, ⟨-, hall, -, -⟩, hk1, hkn, hp⟩ := h
  exact ⟨k, hk1, (hall k hk1 hkn).1, hp⟩

theorem make_move_fold (b : Board) (c o row col m : Int) (hne : c ≠ o)
    (hrc : onBoard row col = true) (hm : m = row * 8 + col) :
    ∀ (l done : List (Int × Int)) (bt : Board),
      (∀ d ∈ l, (d.1 = 0 ∧ d.2 = 0) ∨ IsDir d.1 d.2) → l.Nodup → (∀ d ∈ l, d ∉ done) →
      MoveInv b c o row col m done bt →
      ∃ b1, l.foldlM (fun b2 d => make_move_dy row col c o d.1 b2 d.2) bt = some b1 ∧
        MoveInv b c o row col m (l ++ done) b1 := by
  intro l
  induction l with
  | nil => intro done bt _ _ _ hinv; exact ⟨bt, rfl, by simpa using hinv⟩
  | cons d ds ih =>
    intro done bt hl hnd hfresh hinv
    have hnd' := List.nodup_cons.mp hnd
    have hfresh' : ∀ e ∈ ds, e ∉ d :: done := by
      intro e he hmem
      rcases List.mem_cons.mp hmem with rfl | h
      · exact hnd'.1 he
      · exact hfresh e (List.mem_cons_of_mem _ he) h
    have hl' : ∀ e ∈ ds, (e.1 = 0 ∧ e.2 = 0) ∨ IsDir e.1 e.2 :=
      fun e he => hl e (List.mem_cons_of_mem _ he)
    have hperm : ∀ (b1 : Board), MoveInv b c o row col m (ds ++ d :: done) b1 →
        MoveInv b c o row col m (d :: ds ++ done) b1 := by
      intro b1 ⟨h1, h2⟩
      refine ⟨h1, fun p => ?_⟩
      have e : (∃ e ∈ d :: ds ++ done, IsDir e.1 e.2 ∧ Flips b c o row col e.1 e.2 p) ↔
          (∃ e ∈ ds ++ d :: done, IsDir e.1 e.2 ∧ Flips b c o row col e.1 e.2 p) := by
        constructor <;> rintro ⟨e, he, h⟩ <;> refine ⟨e, ?_, h⟩ <;>
          simp only [List.mem_append, List.mem_cons, List.cons_append] at he ⊢ <;> tauto
      rw [e]; exact h2 p
    rcases hl d (List.mem_cons_self _ _) with h0 | hd
    · -- the pair (0, 0) is skipped
      have hstep : make_move_dy row col c o d.1 bt d.2 = some bt := by
        simp [make_move_dy, h0]
      rw [foldlM_cons_some _ bt bt d ds hstep]
      have hinv' : MoveInv b c o row col m (d :: done) bt := by
        obtain ⟨h1, h2⟩ := hinv
        refine ⟨h1, fun p => ?_⟩
        have e : (∃ e ∈ d :: done, IsDir e.1 e.2 ∧ Flips b c o row col e.1 e.2 p) ↔
            (∃ e ∈ done, IsDir e.1 e.2 ∧ Flips b c o row col e.1 e.2 p) := by
          constructor
          · rintro ⟨e, he, h⟩
            rcases List.mem_cons.mp he with rfl | he
            · exact absurd h0 h.1.2.2
            · exact ⟨e, he, h⟩
          · rintro ⟨e, he, h⟩
            exact ⟨e, List.mem_cons_of_mem _ he, h⟩
        rw [e]; exact h2 p
      obtain ⟨b1, hb1, hinv1⟩ := ih (d :: done) bt hl' hnd'.2 hfresh' hinv'
      exact ⟨b1, hb1, hperm b1 hinv1⟩
    · obtain ⟨hlen, hcells⟩ := hinv
      have hray : ∀ k : Nat, 1 ≤ k → rayOn row col d.1 d.2 k →
          readCell bt (rayCell row col d.1 d.2 k) = readCell b (rayCell row col d.1 d.2 k) := by
        intro k hk hon
        apply (hcells _).2
        rintro (h | ⟨e, he, hedir, hflip⟩)
        · have h00 : rayOn row col d.1 d.2 0 := (rayOn_zero _ _ _ _).mpr hrc
          have := rayCell_inj row col d.1 d.2 hd k 0 hon h00 (by rw [h, rayCell_zero, hm])
          omega
        · obtain ⟨k1, hk1, hon1, hp⟩ := Flips_rayOn b c o row col e.1 e.2 _ hflip
          have := rayCell_disjoint row col d.1 d.2 e.1 e.2 hd hedir k k1 hk hk1 hon hon1 hp
          have hde : d = e := Prod.ext this.1 this.2
          exact hfresh d (List.mem_cons_self _ _) (hde ▸ he)
      obtain ⟨b2, hstep, hlen2, hspec⟩ := make_move_dy_spec bt hlen row col c o d.1 d.2 hd hrc hne
      rw [foldlM_cons_some _ bt b2 d ds hstep]
      have hinv' : MoveInv b c o row col m (d :: done) b2 := by
        refine ⟨hlen2, fun p => ?_⟩
        have hfl := Flips_congr b bt c o row col d.1 d.2 p hray
        constructor
        · rintro (h | ⟨e, he, hedir, hflip⟩)
          · by_cases hf : Flips bt c o row col d.1 d.2 p
            · exact (hspec p).1 hf
            · rw [(hspec p).2 hf]; exact (hcells p).1 (Or.inl h)
          · by_cases hf : Flips bt c o row col d.1 d.2 p
            · exact (hspec p).1 hf
            · rw [(hspec p).2 hf]
              rcases List.mem_cons.mp he with rfl | he
              · exact absurd (hfl.mpr hflip) hf
              · exact (hcells p).1 (Or.inr ⟨e, he, hedir, hflip⟩)
        · intro hnot
          have hf : ¬ Flips bt c o row col d.1 d.2 p := by
            intro hf
            exact hnot (Or.inr ⟨d, List.mem_cons_self _ _, hd, hfl.mp hf⟩)
          rw [(hspec p).2 hf]
          apply (hcells p).2
          rintro (h | ⟨e, he, h⟩)
          · exact hnot (Or.inl h)
          · exact hnot (Or.inr ⟨e, List.mem_cons_of_mem _ he, h⟩)
      obtain ⟨b1, hb1, hinv1⟩ := ih (d :: done) b2 hl' hnd'.2 hfresh' hinv'
      exact ⟨b1, hb1, hperm b1 hinv1⟩

theorem tdiv_tmod_cell (m : Int) (h0 : 0 ≤ m) (h1 : m < 64) :
    onBoard (m.tdiv 8) (m.tmod 8) = true ∧ m = m.tdiv 8 * 8 + m.tmod 8 := by
  rw [Int.tdiv_eq_ediv h0 (by decide), Int.tmod_eq_emod h0 (by decide), onBoard_iff]
  omega

/-- The effect of `make_move` on any 64-cell board, for any cell index in
0..63 and any colour value: the call returns, and in the new board the cell
`m` and every cell flipped by a valid direction hold `c`, all others are
unchanged. -/
theorem make_move_spec (b : Board) (hlen : b.length = 64) (m c : Int) (h0 : 0 ≤ m)
    (h1 : m < 64) :
    ∃ b1, make_move m c b = some b1 ∧ b1.length = 64 ∧
      ∀ p : Int,
        ((p = m ∨ ∃ dx dy : Int, IsDir dx dy ∧
            Flips b c (if c = WHITE then BLACK else WHITE) (m.tdiv 8) (m.tmod 8) dx dy p) →
          readCell b1 p = some c) ∧
        (¬(p = m ∨ ∃ dx dy : Int, IsDir dx dy ∧
            Flips b c (if c = WHITE then BLACK else WHITE) (m.tdiv 8) (m.tmod 8) dx dy p) →
          readCell b1 p = readCell b p) := by
  obtain ⟨hrc, hm⟩ := tdiv_tmod_cell m h0 h1
  have hne : c ≠ (if c = WHITE then BLACK else WHITE) := by
    by_cases h : c = WHITE
    · rw [if_pos h, h]; decide
    · rw [if_neg h]; exact h
  have hw : writeCell b (m.tdiv 8 * 8 + m.tmod 8) c = some (b.set m.toNat c) := by
    rw [← hm]; exact writeCell_eq b m c h0 (by omega)
  have hinv0 : MoveInv b c (if c = WHITE then BLACK else WHITE) (m.tdiv 8) (m.tmod 8) m []
      (b.set m.toNat c) := by
    refine ⟨by simp [hlen], fun p => ?_⟩
    rw [readCell_set b m p c h0 (by omega)]
    constructor
    · rintro (h | ⟨e, he, -⟩)
      · rw [if_pos h]
      · simp at he
    · intro h
      rw [if_neg (fun hp => h (Or.inl hp))]
  obtain ⟨b1, hb1, hlen1, hcells⟩ := make_move_fold b c _ (m.tdiv 8) (m.tmod 8) m hne hrc hm
    deltaPairs [] (b.set m.toNat c) deltaPairs_dir (by decide) (by simp) hinv0
  refine ⟨b1, ?_, hlen1, fun p => ?_⟩
  · unfold make_move
    simp only [BOARD_SIZE]
    rw [hw]
    simp only []
    rw [nested_deltas]
    exact hb1
  · have e : (∃ d ∈ deltaPairs ++ [], IsDir d.1 d.2 ∧
          Flips b c (if c = WHITE then BLACK else WHITE) (m.tdiv 8) (m.tmod 8) d.1 d.2 p) ↔
        (∃ dx dy : Int, IsDir dx dy ∧
          Flips b c (if c = WHITE then BLACK else WHITE) (m.tdiv 8) (m.tmod 8) dx dy p) := by
      constructor
      · rintro ⟨d, -, h⟩; exact ⟨d.1, d.2, h⟩
      · rintro ⟨dx, dy, hd, h⟩
        exact ⟨(dx, dy), by simpa using mem_deltaPairs_of_isDir dx dy hd, hd, h⟩
    rw [← e]
    exact hcells p

theorem cell_coords_unique (m x y : Int) (hxy : onBoard x y = true) (hm : m = x * 8 + y) :
    0 ≤ m ∧ m < 64 ∧ m.tdiv 8 = x ∧ m.tmod 8 = y := by
  rw [onBoard_iff] at hxy
  have h0 : 0 ≤ m := by omega
  rw [Int.tdiv_eq_ediv h0 (by decide), Int.tmod_eq_emod h0 (by decide)]
  omega

theorem mem_legal_moves_range (b : Board) (hlen : b.length = 64) (c m : Int)
    (moves : List Int) (hmoves : legal_moves b c = some moves) (hm : m ∈ moves) :
    0 ≤ m ∧ m < 64 ∧ readCell b m = some EMPTY := by
  rw [legal_moves_eq b hlen c] at hmoves
  have := Option.some.inj hmoves
  subst this
  obtain ⟨i, j, hij, hmij, hl⟩ := (mem_legalList b c _ m).mp hm
  have := cell_coords_unique m i j hij hmij
  refine ⟨this.1, this.2.1, ?_⟩
  simp only [legalAt, Bool.and_eq_true, beq_iff_eq] at hl
  rw [hmij]; exact hl.1

theorem getElem?_of_readCell (b : Board) (i : Nat) : b[i]? = readCell b (i : Int) := by
  simp [readCell, List.get?_eq_getElem?]

theorem count_le_of_cells (c o : Int) (hne : c ≠ o) :
    ∀ (b b1 : List Int), b1.length = b.length →
      (∀ i : Nat, b1[i]? = some c ∨ b1[i]? = b[i]?) →
      b.count c ≤ b1.count c ∧ b1.count o ≤ b.count o := by
  intro b
  induction b with
  | nil =>
    intro b1 hlen _
    have : b1 = [] := List.length_eq_zero.mp hlen
    subst this; simp
  | cons x xs ih =>
    intro b1 hlen h
    cases b1 with
    | nil => simp at hlen
    | cons y ys =>
      have htl := ih ys (by simpa using hlen) (fun i => by simpa using h (i + 1))
      have hhd : y = c ∨ y = x := by simpa using h 0
      simp only [List.count_cons, beq_iff_eq]
      rcases hhd with rfl | rfl
      · have : ¬ (y = o) := hne
        simp only [this, if_false, if_true]
        constructor
        · split <;> omega
        · split <;> omega
      · constructor
        · split <;> omega
        · split <;> omega

theorem count_lt_of_cells (c : Int) :
    ∀ (b b1 : List Int), b1.length = b.length →
      (∀ i : Nat, b1[i]? = some c ∨ b1[i]? = b[i]?) →
      (∃ i : Nat, b1[i]? = some c ∧ b[i]? ≠ some c) →
      b.count c < b1.count c := by
  intro b
  induction b with
  | nil =>
    intro b1 hlen _ hex
    have : b1 = [] := List.length_eq_zero.mp hlen
    subst this
    obtain ⟨i, hi, -⟩ := hex
    simp at hi
  | cons x xs ih =>
    intro b1 hlen h hex
    cases b1 with
    | nil => simp at hlen
    | cons y ys =>
      have htl : ∀ i : Nat, ys[i]? = some c ∨ ys[i]? = xs[i]? := fun i => by simpa using h (i + 1)
      have hhd : y = c ∨ y = x := by simpa using h 0
      have hle := (count_le_of_cells c (c + 1) (by omega) xs ys (by simpa using hlen) htl).1
      simp only [List.count_cons, beq_iff_eq]
      obtain ⟨i, hi, hni⟩ := hex
      cases i with
      | zero =>
        have hy : y = c := by simpa using hi
        have hx : ¬ (x = c) := by simpa using hni
        simp only [hy, hx, if_true, if_false]
        omega
      | succ i =>
        have := ih ys (by simpa using hlen) htl ⟨i, by simpa using hi, by simpa using hni⟩
        rcases hhd with rfl | rfl
        · simp only [if_true]; split <;> omega
        · split <;> omega

/-- C3: for `c` Black or White (`o` the other of the two) and a move `m`
returned by `legal_moves` for `c`, `make_move` returns the board in which cell
`m` holds `c`, every cell strictly between `m` and the first `c` cell of a
direction that is valid on the board before the move holds `c`, and every
other cell is unchanged. -/
theorem make_move_effect (b : Board) (c o m : Int) (moves : List Int) (hlen : b.length = 64)
    (hc : (c = BLACK ∧ o = WHITE) ∨ (c = WHITE ∧ o = BLACK))
    (hmoves : legal_moves b c = some moves) (hm : m ∈ moves) :
    ∃ b1, make_move m c b = some b1 ∧ b1.length = 64 ∧
      readCell b1 m = some c ∧
      (∀ x y dx dy p : Int, onBoard x y = true → m = x * 8 + y → IsDir dx dy →
        Flips b c o x y dx dy p → readCell b1 p = some c) ∧
      (∀ x y p : Int, onBoard x y = true → m = x * 8 + y → p ≠ m →
        (¬ ∃ dx dy : Int, IsDir dx dy ∧ Flips b c o x y dx dy p) →
        readCell b1 p = readCell b p) := by
  have hopp : (if c = WHITE then BLACK else WHITE) = o := by
    rcases hc with ⟨rfl, rfl⟩ | ⟨rfl, rfl⟩ <;> simp
  obtain ⟨h0, h1, -⟩ := mem_legal_moves_range b hlen c m moves hmoves hm
  obtain ⟨b1, hb1, hlen1, hcells⟩ := make_move_spec b hlen m c h0 h1
  rw [hopp] at hcells
  refine ⟨b1, hb1, hlen1, (hcells m).1 (Or.inl rfl), ?_, ?_⟩
  · intro x y dx dy p hxy hmxy hd hf
    obtain ⟨-, -, hx, hy⟩ := cell_coords_unique m x y hxy hmxy
    apply (hcells p).1
    right
    exact ⟨dx, dy, hd, by rw [hx, hy]; exact hf⟩
  · intro x y p hxy hmxy hpm hnf
    obtain ⟨-, -, hx, hy⟩ := cell_coords_unique m x y hxy hmxy
    apply (hcells p).2
    rintro (h | ⟨dx, dy, hd, hf⟩)
    · exact hpm h
    · exact hnf ⟨dx, dy, hd, by rw [← hx, ← hy]; exact hf⟩

/-- C2: for `c` Black or White (`o` the other of the two) and a move `m`
returned by `legal_moves` for `c`, `make_move` returns a board with strictly
more `c` cells and no more `o` cells than before (whatever the cells of the
board hold). -/
theorem make_move_counts (b : Board) (c o m : Int) (moves : List Int) (hlen : b.length = 64)
    (hc : (c = BLACK ∧ o = WHITE) ∨ (c = WHITE ∧ o = BLACK))
    (hmoves : legal_moves b c = some moves) (hm : m ∈ moves) :
    ∃ b1, make_move m c b = some b1 ∧ b.count c < b1.count c ∧ b1.count o ≤ b.count o := by
  have hne : c ≠ o := by
    rcases hc with ⟨rfl, rfl⟩ | ⟨rfl, rfl⟩ <;> decide
  have hce : c ≠ EMPTY := by
    rcases hc with ⟨rfl, -⟩ | ⟨rfl, -⟩ <;> decide
  obtain ⟨h0, h1, hempty⟩ := mem_legal_moves_range b hlen c m moves hmoves hm
  obtain ⟨b1, hb1, hlen1, hspec⟩ := make_move_spec b hlen m c h0 h1
  have hcs : ∀ i : Nat, b1[i]? = some c ∨ b1[i]? = b[i]? := by
    intro i
    rw [getElem?_of_readCell, getElem?_of_readCell]
    by_cases h : ((i : Int) = m ∨ ∃ dx dy : Int, IsDir dx dy ∧
        Flips b c (if c = WHITE then BLACK else WHITE) (m.tdiv 8) (m.tmod 8) dx dy i)
    · exact Or.inl ((hspec i).1 h)
    · exact Or.inr ((hspec i).2 h)
  refine ⟨b1, hb1, ?_, (count_le_of_cells c o hne b b1 (by rw [hlen1, hlen]) hcs).2⟩
  apply count_lt_of_cells c b b1 (by rw [hlen1, hlen]) hcs
  refine ⟨m.toNat, ?_, ?_⟩
  · rw [getElem?_of_readCell, Int.toNat_of_nonneg h0]
    exact (hspec m).1 (Or.inl rfl)
  · rw [getElem?_of_readCell, Int.toNat_of_nonneg h0, hempty]
    intro h
    exact hce (Option.some.inj h).symm

theorem copy_curr_board_eq (b : Board) (hlen : b.length = 64) : copy_curr_board b = some b := by
  unfold copy_curr_board
  have e : (BOARD_SIZE * BOARD_SIZE).toNat = 64 := by decide
  simp only [e]
  rw [if_pos (by omega)]
  congr 1
  exact List.take_of_length_le (by omega)

theorem restore_board_eq (snap b : Board) (hs : snap.length = 64) (hlen : b.length = 64) :
    restore_board snap b = some snap := by
  unfold restore_board
  have e : (BOARD_SIZE * BOARD_SIZE).toNat = 64 := by decide
  simp only [e]
  rw [if_pos ⟨by omega, by omega⟩]
  congr 1
  rw [List.take_of_length_le (by omega), List.drop_of_length_le (by omega)]
  simp

theorem memset_board_eq (b : Board) (hlen : b.length = 64) :
    memset_board b = some (List.replicate 64 EMPTY) := by
  unfold memset_board
  have e : (BOARD_SIZE * BOARD_SIZE).toNat = 64 := by decide
  simp only [e]
  rw [if_pos (by omega), List.drop_of_length_le (by omega)]
  simp

theorem place_opening_replicate :
    place_opening (List.replicate 64 EMPTY) = some opening_board := by
  decide

/-- C4: for a move `m` returned by `legal_moves`, taking a snapshot with
`copy_curr_board`, applying the move with `make_temp_move` and restoring the
snapshot with `restore_board` gives back exactly the board before the
snapshot. -/
theorem snapshot_roundtrip (b : Board) (c m : Int) (moves : List Int) (hlen : b.length = 64)
    (hmoves : legal_moves b c = some moves) (hm : m ∈ moves) :
    ∃ (snap : Board) (r : Int) (b1 : Board), copy_curr_board b = some snap ∧
      make_temp_move m c b = some (r, b1) ∧ restore_board snap b1 = some b := by
  obtain ⟨h0, h1, -⟩ := mem_legal_moves_range b hlen c m moves hmoves hm
  obtain ⟨b1, hb1, hlen1, -⟩ := make_move_spec b hlen m c h0 h1
  refine ⟨b, 1, b1, copy_curr_board_eq b hlen, ?_, restore_board_eq b b1 hlen hlen1⟩
  unfold make_temp_move
  rw [if_pos (by omega), hb1]
  rfl

/-- C5: whatever the 64 cells of the board hold, `reset_board` and
`initialise_board` leave cells 27 and 36 White, cells 28 and 35 Black and
every other cell Empty. -/
theorem reset_board_opening (b : Board) (hlen : b.length = 64) :
    ∃ b1, reset_board b = some b1 ∧ initialise_board b = some b1 ∧ b1.length = 64 ∧
      ∀ p : Int, 0 ≤ p → p < 64 →
        readCell b1 p = some
          (if p = 27 ∨ p = 36 then WHITE else if p = 28 ∨ p = 35 then BLACK else EMPTY) := by
  have h : (memset_board b).bind place_opening = some opening_board := by
    rw [memset_board_eq b hlen]
    exact place_opening_replicate
  refine ⟨opening_board, h, h, by decide, ?_⟩
  intro p h0 h1
  obtain ⟨n, rfl⟩ : ∃ n : Nat, p = n := ⟨p.toNat, by omega⟩
  have hn : n < 64 := by omega
  rw [← getElem?_of_readCell]
  interval_cases n <;> rfl

theorem evaluate_board_state_of (b : Board) (c : Int) (k : Counts) (l1 l2 : List Int)
    (hc : evaluate_counts b c ((c + 1).tmod 2) = some k)
    (h1 : legal_moves b c = some l1) (h2 : legal_moves b ((c + 1).tmod 2) = some l2) :
    evaluate_board_state b c =
      some (weighted_score (k.my_player_pieces - k.opponent_pieces)
        (k.my_player_edges - k.opponent_edges) (k.my_player_corners - k.opponent_corners)
        ((l1.length : Int) - (l2.length : Int))
        (BOARD_SIZE * BOARD_SIZE - k.my_player_pieces - k.opponent_pieces)) := by
  unfold evaluate_board_state
  dsimp only
  rw [hc, h1, h2]

theorem flatMap_sublist {α β : Type} (f g : α → List β) (l : List α)
    (h : ∀ x ∈ l, (f x).Sublist (g x)) : (l.flatMap f).Sublist (l.flatMap g) := by
  induction l with
  | nil => exact List.Sublist.refl _
  | cons x xs ih =>
    rw [List.flatMap_cons, List.flatMap_cons]
    exact List.Sublist.append (h x (List.mem_cons_self _ _))
      (ih (fun y hy => h y (List.mem_cons_of_mem _ hy)))

theorem legalList_sublist (b : Board) (my opp : Int) :
    (legalList b my opp).Sublist all_cells := by
  unfold legalList all_cells
  apply flatMap_sublist
  intro i _
  apply flatMap_sublist
  intro j _
  split
  · exact List.Sublist.refl _
  · exact List.nil_sublist _

theorem all_cells_sorted : all_cells.Pairwise (fun x y => x < y) := by
  have e : all_cells = (List.range 64).map (fun n : Nat => (n : Int)) := by decide
  rw [e]
  exact (List.pairwise_lt_range 64).map _ (fun a b h => Int.ofNat_lt.mpr h)

theorem mem_all_cells (i j : Int) (h : onBoard i j = true) : i * BOARD_SIZE + j ∈ all_cells := by
  rw [onBoard_iff] at h
  unfold all_cells
  rw [List.mem_flatMap]
  refine ⟨i, (mem_indices_iff i).mpr ⟨h.1, h.2.1⟩, ?_⟩
  rw [List.mem_flatMap]
  exact ⟨j, (mem_indices_iff j).mpr ⟨h.2.2.1, h.2.2.2⟩, List.mem_singleton.mpr rfl⟩

theorem legalList_sorted (b : Board) (my opp : Int) :
    (legalList b my opp).Pairwise (fun x y => x < y) :=
  List.Pairwise.sublist (legalList_sublist b my opp) all_cells_sorted

theorem readCell_mem (b : Board) (q v : Int) (h : readCell b q = some v) : v ∈ b := by
  unfold readCell at h
  by_cases h0 : 0 ≤ q
  · rw [if_pos h0] at h
    exact List.get?_mem h
  · rw [if_neg h0] at h
    exact absurd h (by simp)

theorem legalList_nil (b : Board) (hlen : b.length = 64) (my opp : Int) (hne : my ≠ opp)
    (h : opp ∉ b ∨ my ∉ b) : legalList b my opp = [] := by
  rw [List.eq_nil_iff_forall_not_mem]
  intro m hm
  obtain ⟨i, j, hij, _, hat⟩ := (mem_legalList b my opp m).mp hm
  have hany : anyDirection b my opp i j = true := by
    unfold legalAt at hat
    rw [Bool.and_eq_true] at hat
    exact hat.2
  obtain ⟨dx, dy, hd, n, hn, hbr, _, hmy⟩ := (anyDirection_iff b hlen my opp i j hij hne).mp hany
  rcases h with h | h
  · exact h (readCell_mem b _ _ (hbr 1 (le_refl _) hn).2)
  · exact h (readCell_mem b _ _ hmy)

theorem legal_moves_nil (b : Board) (hlen : b.length = 64) (my : Int)
    (h : (if my = WHITE then BLACK else WHITE) ∉ b ∨ my ∉ b) : legal_moves b my = some [] := by
  rw [legal_moves_eq b hlen my, legalList_nil b hlen my _ _ h]
  by_cases h1 : my = WHITE
  · rw [if_pos h1, h1]; decide
  · rw [if_neg h1]; exact h1

theorem sorted_ext (l1 l2 : List Int) (h1 : l1.Pairwise (fun x y => x < y))
    (h2 : l2.Pairwise (fun x y => x < y)) (h : ∀ m, m ∈ l1 ↔ m ∈ l2) : l1 = l2 := by
  have n1 : l1.Nodup := h1.imp (fun h => ne_of_lt h)
  have n2 : l2.Nodup := h2.imp (fun h => ne_of_lt h)
  have hp : l1.Perm l2 := (List.perm_ext_iff_of_nodup n1 n2).mpr h
  exact List.eq_of_perm_of_sorted hp (h1.imp (fun h => le_of_lt h)) (h2.imp (fun h => le_of_lt h))

theorem legalList_of_candidates (b : Board) (hlen : b.length = 64) (my opp : Int)
    (hne : my ≠ opp) (cand : List Int)
    (hsorted : cand.Pairwise (fun x y => x < y))
    (hrange : ∀ m ∈ cand, 0 ≤ m ∧ m < 64)
    (hnear : ∀ q ∈ all_cells, readCell b q = some opp →
      ∀ d ∈ deltaPairs, onBoard (q.tdiv 8 - d.1) (q.tmod 8 - d.2) = true →
        (q.tdiv 8 - d.1) * 8 + (q.tmod 8 - d.2) ∈ cand) :
    legalList b my opp = cand.filter (fun m => legalAt b my opp (m.tdiv 8) (m.tmod 8)) := by
  apply sorted_ext _ _ (legalList_sorted b my opp) (hsorted.filter _)
  intro m
  rw [mem_legalList, List.mem_filter]
  constructor
  · rintro ⟨i, j, hij, hm, hat⟩
    simp only [BOARD_SIZE] at hm
    obtain ⟨_, _, hi, hj⟩ := cell_coords_unique m i j hij hm
    have hany : anyDirection b my opp i j = true := by
      unfold legalAt at hat
      rw [Bool.and_eq_true] at hat
      exact hat.2
    obtain ⟨dx, dy, hd, n, hn, hbr, _⟩ := (anyDirection_iff b hlen my opp i j hij hne).mp hany
    obtain ⟨hon, hread⟩ := hbr 1 (le_refl _) hn
    simp only [rayOn, rayCell, Nat.cast_one, one_mul, BOARD_SIZE] at hon hread
    obtain ⟨_, _, hq1, hq2⟩ := cell_coords_unique _ (i + dx) (j + dy) hon rfl
    have := hnear _ (mem_all_cells _ _ hon) hread (dx, dy) (mem_deltaPairs_of_isDir dx dy hd)
    simp only [hq1, hq2, add_sub_cancel_right] at this
    refine ⟨?_, by rw [hi, hj]; exact hat⟩
    rw [hm]
    exact this hij
  · rintro ⟨hc, hat⟩
    obtain ⟨h0, h1⟩ := hrange m hc
    obtain ⟨hon, hm⟩ := tdiv_tmod_cell m h0 h1
    exact ⟨m.tdiv 8, m.tmod 8, hon, hm, hat⟩

theorem opening_legal_black : legal_moves opening_board BLACK = some [19, 26, 37, 44] := by
  rw [legal_moves_eq _ (by decide),
    legalList_of_candidates opening_board (by decide) BLACK _ (by decide)
      [18, 19, 20, 26, 27, 28, 29, 34, 35, 36, 37, 43, 44, 45] (by decide) (by decide)
      (by decide!)]
  decide!

/-- C6: on the opening board `legal_moves` for Black returns exactly the four
cells 19, 26, 37 and 44, and `make_move` of any one of them leaves 4 Black
cells and 1 White cell. -/
theorem opening_moves_black :
    legal_moves opening_board BLACK = some [19, 26, 37, 44] ∧
    ∀ m ∈ ([19, 26, 37, 44] : List Int),
      (make_move m BLACK opening_board).map (fun b1 => (b1.count BLACK, b1.count WHITE)) =
        some (4, 1) := by
  constructor
  · exact opening_legal_black
  · decide!

theorem legal_moves_exact_witness :
    opening_board.length = 64 ∧ ((BLACK = BLACK ∧ WHITE = WHITE) ∨ (BLACK = WHITE ∧ WHITE = BLACK)) ∧
    ∃ moves : List Int, legal_moves opening_board BLACK = some moves ∧
      (∀ m : Int, m ∈ moves ↔ LegalCell opening_board BLACK WHITE m) ∧
      (∀ m : Int, m ∈ moves → readCell opening_board m = some EMPTY) ∧
      (moves = [] ↔ ¬ ∃ m : Int, LegalCell opening_board BLACK WHITE m) :=
  ⟨by decide, Or.inl ⟨rfl, rfl⟩,
    legal_moves_exact opening_board BLACK WHITE (by decide) (Or.inl ⟨rfl, rfl⟩)⟩

theorem make_move_counts_witness :
    opening_board.length = 64 ∧ legal_moves opening_board BLACK = some [19, 26, 37, 44] ∧
    (19 : Int) ∈ ([19, 26, 37, 44] : List Int) ∧
    ∃ b1, make_move 19 BLACK opening_board = some b1 ∧
      opening_board.count BLACK < b1.count BLACK ∧ b1.count WHITE ≤ opening_board.count WHITE :=
  ⟨by decide, opening_legal_black, by decide,
    make_move_counts opening_board BLACK WHITE 19 [19, 26, 37, 44] (by decide)
      (Or.inl ⟨rfl, rfl⟩) opening_legal_black (by decide)⟩

theorem make_move_effect_witness :
    opening_board.length = 64 ∧ legal_moves opening_board BLACK = some [19, 26, 37, 44] ∧
    (26 : Int) ∈ ([19, 26, 37, 44] : List Int) ∧
    ∃ b1, make_move 26 BLACK opening_board = some b1 ∧ b1.length = 64 ∧
      readCell b1 26 = some BLACK ∧
      (∀ x y dx dy p : Int, onBoard x y = true → 26 = x * 8 + y → IsDir dx dy →
        Flips opening_board BLACK WHITE x y dx dy p → readCell b1 p = some BLACK) ∧
      (∀ x y p : Int, onBoard x y = true → 26 = x * 8 + y → p ≠ 26 →
        (¬ ∃ dx dy : Int, IsDir dx dy ∧ Flips opening_board BLACK WHITE x y dx dy p) →
        readCell b1 p = readCell opening_board p) :=
  ⟨by decide, opening_legal_black, by decide,
    make_move_effect opening_board BLACK WHITE 26 [19, 26, 37, 44] (by decide)
      (Or.inl ⟨rfl, rfl⟩) opening_legal_black (by decide)⟩

theorem snapshot_roundtrip_witness :
    opening_board.length = 64 ∧ legal_moves opening_board BLACK = some [19, 26, 37, 44] ∧
    (37 : Int) ∈ ([19, 26, 37, 44] : List Int) ∧
    ∃ (snap : Board) (r : Int) (b1 : Board), copy_curr_board opening_board = some snap ∧
      make_temp_move 37 BLACK opening_board = some (r, b1) ∧
      restore_board snap b1 = some opening_board :=
  ⟨by decide, opening_legal_black, by decide,
    snapshot_roundtrip opening_board BLACK 37 [19, 26, 37, 44] (by decide) opening_legal_black
      (by decide)⟩

theorem reset_board_opening_witness :
    (List.replicate 64 WHITE).length = 64 ∧
    ∃ b1, reset_board (List.replicate 64 WHITE) = some b1 ∧
      initialise_board (List.replicate 64 WHITE) = some b1 ∧ b1.length = 64 ∧
      ∀ p : Int, 0 ≤ p → p < 64 →
        readCell b1 p = some
          (if p = 27 ∨ p = 36 then WHITE else if p = 28 ∨ p = 35 then BLACK else EMPTY) :=
  ⟨by decide, reset_board_opening (List.replicate 64 WHITE) (by decide)⟩

theorem foldlM_counted {σ α : Type} (f : σ → α → Option σ) (I : Nat → σ → Prop) (step : Nat)
    (l : List α)
    (h : ∀ x ∈ l, ∀ k s, I k s → ∃ s1, f s x = some s1 ∧ I (k + step) s1) :
    ∀ k s, I k s → ∃ s1, l.foldlM f s = some s1 ∧ I (k + l.length * step) s1 := by
  induction l with
  | nil => intro k s hI; exact ⟨s, rfl, by simpa using hI⟩
  | cons x xs ih =>
    intro k s hI
    obtain ⟨s1, hs1, hI1⟩ := h x (List.mem_cons_self _ _) k s hI
    obtain ⟨s2, hs2, hI2⟩ := ih (fun y hy => h y (List.mem_cons_of_mem _ hy)) (k + step) s1 hI1
    refine ⟨s2, by rw [foldlM_cons_some f s s1 x xs hs1]; exact hs2, ?_⟩
    have e : k + (xs.length + 1) * step = k + step + xs.length * step := by ring
    rw [List.length_cons, e]; exact hI2

theorem evaluate_cell_total (b : Board) (hlen : b.length = 64) (my opp i j : Int)
    (hi : i ∈ indices) (hj : j ∈ indices) (k : Nat) (c : Counts) (hc : CountsBounded k c) :
    ∃ c1, evaluate_cell b my opp i c j = some c1 ∧ CountsBounded (k + 1) c1 := by
  obtain ⟨v, hv⟩ := readCell_onBoard b hlen i j (mem_indices_onBoard i j hi hj)
  unfold evaluate_cell
  simp only [BOARD_SIZE]
  rw [hv]
  simp only []
  obtain ⟨h1, h2, h3, h4, h5, h6⟩ := hc
  split
  · split
    · refine ⟨_, rfl, ?_⟩
      simp only [CountsBounded]; push_cast; omega
    · split
      · refine ⟨_, rfl, ?_⟩
        simp only [CountsBounded]; push_cast; omega
      · refine ⟨_, rfl, ?_⟩
        simp only [CountsBounded]; push_cast; omega
  · split
    · split
      · refine ⟨_, rfl, ?_⟩
        simp only [CountsBounded]; push_cast; omega
      · split
        · refine ⟨_, rfl, ?_⟩
          simp only [CountsBounded]; push_cast; omega
        · refine ⟨_, rfl, ?_⟩
          simp only [CountsBounded]; push_cast; omega
    · refine ⟨_, rfl, ?_⟩
      simp only [CountsBounded]; push_cast; omega

theorem evaluate_counts_total (b : Board) (hlen : b.length = 64) (my opp : Int) :
    ∃ c, evaluate_counts b my opp = some c ∧ CountsBounded 64 c := by
  unfold evaluate_counts
  have h := foldlM_counted
    (fun c i => indices.foldlM (evaluate_cell b my opp i) c) CountsBounded 8 indices
    (fun i hi k c hc => by
      have := foldlM_counted (evaluate_cell b my opp i) CountsBounded 1 indices
        (fun j hj k c hc => evaluate_cell_total b hlen my opp i j hi hj k c hc) k c hc
      simpa using this)
    0 ⟨0, 0, 0, 0, 0, 0⟩ (by simp [CountsBounded])
  simpa using h

theorem length_flatMap_le {α β : Type} (g : α → List β) (n : Nat) (l : List α)
    (h : ∀ x ∈ l, (g x).length ≤ n) : (l.flatMap g).length ≤ l.length * n := by
  induction l with
  | nil => simp
  | cons x xs ih =>
    have h1 := h x (List.mem_cons_self _ _)
    have h2 := ih (fun y hy => h y (List.mem_cons_of_mem _ hy))
    simp only [List.flatMap_cons, List.length_append, List.length_cons]
    have e : (xs.length + 1) * n = xs.length * n + n := by ring
    omega

theorem legalList_length (b : Board) (my opp : Int) : (legalList b my opp).length ≤ 64 := by
  unfold legalList
  have h8 : indices.length = 8 := rfl
  have := length_flatMap_le
    (fun i : Int => indices.flatMap fun j =>
      if legalAt b my opp i j = true then [i * BOARD_SIZE + j] else []) 8 indices
    (fun i _ => by
      have := length_flatMap_le
        (fun j : Int => if legalAt b my opp i j = true then [i * BOARD_SIZE + j] else []) 1 indices
        (fun j _ => by
          show (if legalAt b my opp i j = true then [i * BOARD_SIZE + j] else []).length ≤ 1
          split
          · exact Nat.le_refl _
          · exact Nat.zero_le _)
      rw [h8] at this
      exact this)
  rw [h8] at this
  exact this

theorem tdiv_bounds (a n : Int) (hn : 0 < n) :
    (0 ≤ a → 0 ≤ a.tdiv n ∧ a.tdiv n ≤ a) ∧ (a ≤ 0 → a ≤ a.tdiv n ∧ a.tdiv n ≤ 0) := by
  constructor
  · intro ha
    rw [Int.tdiv_eq_ediv ha (Int.le_of_lt hn)]
    exact ⟨Int.ediv_nonneg ha (Int.le_of_lt hn), Int.ediv_le_self n ha⟩
  · intro ha
    have e : a.tdiv n = -((-a).tdiv n) := by rw [Int.neg_tdiv, Int.neg_neg]
    have hna : 0 ≤ -a := by omega
    rw [e, Int.tdiv_eq_ediv hna (Int.le_of_lt hn)]
    have h1 := Int.ediv_nonneg hna (Int.le_of_lt hn)
    have h2 := Int.ediv_le_self n hna
    omega

theorem mul_table (d : Dbl) (k m : Nat)
    (h : (List.range 65).all (fun n => round53 (n * d.mant) / 2 ^ d.exp == n * k / m) = true)
    (x : Int) (h0 : -64 ≤ x) (h1 : x ≤ 64) :
    mul_double_to_int x d = (x * (k : Int)).tdiv (m : Int) := by
  rw [List.all_eq_true] at h
  have key : ∀ n : Nat, n ≤ 64 → round53 (n * d.mant) / 2 ^ d.exp = n * k / m := fun n hn =>
    beq_iff_eq.mp (h n (by rw [List.mem_range]; omega))
  unfold mul_double_to_int
  by_cases hx : 0 ≤ x
  · rw [if_pos hx]
    obtain ⟨n, rfl⟩ := Int.eq_ofNat_of_zero_le hx
    rw [Int.toNat_ofNat, key n (by omega)]
    rw [Int.tdiv_eq_ediv (Int.mul_nonneg (Int.ofNat_zero_le _) (Int.ofNat_zero_le _))
      (Int.ofNat_zero_le _)]
    rw [← Int.ofNat_mul, ← Int.ofNat_ediv]
  · rw [if_neg hx]
    obtain ⟨n, hn⟩ := Int.eq_ofNat_of_zero_le (show 0 ≤ -x by omega)
    have e : x = -(n : Int) := by omega
    subst e
    rw [Int.neg_neg, Int.toNat_ofNat, key n (by omega), Int.neg_mul, Int.neg_tdiv]
    rw [Int.tdiv_eq_ediv (Int.mul_nonneg (Int.ofNat_zero_le _) (Int.ofNat_zero_le _))
      (Int.ofNat_zero_le _)]
    rw [← Int.ofNat_mul, ← Int.ofNat_ediv]

theorem mul_0_1 (x : Int) (h0 : -64 ≤ x) (h1 : x ≤ 64) :
    mul_double_to_int x D_0_1 = x.tdiv 10 := by
  have h := mul_table D_0_1 1 10 (by decide!) x h0 h1
  rwa [Nat.cast_one, mul_one] at h

theorem mul_0_5 (x : Int) (h0 : -64 ≤ x) (h1 : x ≤ 64) :
    mul_double_to_int x D_0_5 = x.tdiv 2 := by
  have h := mul_table D_0_5 1 2 (by decide!) x h0 h1
  rwa [Nat.cast_one, mul_one] at h

theorem mul_1_5 (x : Int) (h0 : -64 ≤ x) (h1 : x ≤ 64) :
    mul_double_to_int x D_1_5 = (x * 3).tdiv 2 :=
  mul_table D_1_5 3 2 (by decide!) x h0 h1

theorem mul_0_3 (x : Int) (h0 : -64 ≤ x) (h1 : x ≤ 64) :
    mul_double_to_int x D_0_3 = (x * 3).tdiv 10 :=
  mul_table D_0_3 3 10 (by decide!) x h0 h1

/-- On differences of magnitude at most 64 the weighting is the integer
formula with truncated quotients. -/
theorem weighted_score_eq (p e c m s : Int) (hp : -64 ≤ p ∧ p ≤ 64) (he : -64 ≤ e ∧ e ≤ 64)
    (hm : -64 ≤ m ∧ m ≤ 64) :
    weighted_score p e c m s =
      if s > 42 then p.tdiv 10 + e * 5 + c * 25 + m * 3
      else if s > 21 then p.tdiv 2 + e * 3 + c * 15 + m * 2
      else p * 2 + (e * 3).tdiv 2 + c * 10 + (m * 3).tdiv 10 := by
  unfold weighted_score
  rw [mul_0_1 p hp.1 hp.2, mul_0_5 p hp.1 hp.2, mul_1_5 e he.1 he.2, mul_0_3 m hm.1 hm.2]
  rfl

theorem weighted_score_bound (p e c m s : Int) (hp : -64 ≤ p ∧ p ≤ 64) (he : -64 ≤ e ∧ e ≤ 64)
    (hc : -64 ≤ c ∧ c ≤ 64) (hm : -64 ≤ m ∧ m ≤ 64) :
    -2500 ≤ weighted_score p e c m s ∧ weighted_score p e c m s ≤ 2500 := by
  rw [weighted_score_eq p e c m s hp he hm]
  have t1 := tdiv_bounds p 10 (by decide)
  have t2 := tdiv_bounds p 2 (by decide)
  have t3 := tdiv_bounds (e * 3) 2 (by decide)
  have t4 := tdiv_bounds (m * 3) 10 (by decide)
  split
  · rcases le_total 0 p with h | h
    · have := t1.1 h; omega
    · have := t1.2 h; omega
  · split
    · rcases le_total 0 p with h | h
      · have := t2.1 h; omega
      · have := t2.2 h; omega
    · rcases le_total 0 (e * 3) with h | h <;> rcases le_total 0 (m * 3) with h' | h'
      · have := t3.1 h; have := t4.1 h'; omega
      · have := t3.1 h; have := t4.2 h'; omega
      · have := t3.2 h; have := t4.1 h'; omega
      · have := t3.2 h; have := t4.2 h'; omega

theorem weights_trend :
    (D_0_1.val < D_0_5.val ∧ D_0_5.val < 2) ∧ ((3 : ℚ) < 5 ∧ D_1_5.val < 3) ∧
    ((15 : ℚ) < 25 ∧ (10 : ℚ) < 15) ∧ ((2 : ℚ) < 3 ∧ D_0_3.val < 2) := by
  simp only [Dbl.val, D_0_1, D_0_5, D_1_5, D_0_3]
  norm_num

theorem evaluate_board_state_total (b : Board) (hlen : b.length = 64) (c : Int) :
    ∃ v, evaluate_board_state b c = some v ∧ -2500 ≤ v ∧ v ≤ 2500 := by
  unfold evaluate_board_state
  simp only []
  obtain ⟨cs, hcs, h1, h2, h3, h4, h5, h6⟩ := evaluate_counts_total b hlen c ((c + 1).tmod 2)
  rw [hcs, legal_moves_eq b hlen c, legal_moves_eq b hlen ((c + 1).tmod 2)]
  simp only []
  refine ⟨_, rfl, ?_⟩
  have l1 := legalList_length b c (if c = WHITE then BLACK else WHITE)
  have l2 := legalList_length b ((c + 1).tmod 2)
    (if (c + 1).tmod 2 = WHITE then BLACK else WHITE)
  apply weighted_score_bound <;> omega

theorem legalList_range (b : Board) (my opp m : Int) (hm : m ∈ legalList b my opp) :
    0 ≤ m ∧ m < 64 := by
  obtain ⟨i, j, hij, hmij, -⟩ := (mem_legalList b my opp m).mp hm
  have := cell_coords_unique m i j hij hmij
  exact ⟨this.1, this.2.1⟩

theorem make_temp_move_total (b : Board) (hlen : b.length = 64) (m c : Int) (h0 : 0 ≤ m)
    (h1 : m < 64) : ∃ b1, make_temp_move m c b = some (1, b1) ∧ b1.length = 64 := by
  obtain ⟨b1, hb1, hlen1, -⟩ := make_move_spec b hlen m c h0 h1
  refine ⟨b1, ?_, hlen1⟩
  unfold make_temp_move
  rw [if_pos (by omega), hb1]
  rfl

theorem leaf_value_total (c : Int) (w : World) (hlen : w.board.length = 64) :
    ∃ v, leaf_value c w = some (v, w) ∧ -2500 ≤ v ∧ v ≤ 2500 := by
  obtain ⟨v, hv, hb⟩ := evaluate_board_state_total w.board hlen c
  exact ⟨v, by simp [leaf_value, hv], hb⟩

theorem max_loop_frame (child : Int → Int → World → Option (Int × World)) (c : Int)
    (hchild : ∀ a be w1, w1.board.length = 64 →
      ∃ r w2, child a be w1 = some (r, w2) ∧ SameGlobals w1 w2) :
    ∀ moves : List Int, (∀ m ∈ moves, 0 ≤ m ∧ m < 64) →
      ∀ (al be best : Int) (w : World), w.board.length = 64 →
        ∃ r w1, minimax_max_loop child c moves al be best w = some (r, w1) ∧
          SameGlobals w w1 := by
  intro moves
  induction moves with
  | nil => intro _ al be best w _; exact ⟨best, w, rfl, rfl, rfl, rfl⟩
  | cons m rest ih =>
    intro hr al be best w hlen
    obtain ⟨h0, h1⟩ := hr m (List.mem_cons_self _ _)
    obtain ⟨b1, hb1, hlen1⟩ := make_temp_move_total w.board hlen m c h0 h1
    obtain ⟨s, w2, hs, hg1, hg2, hg3⟩ := hchild al be { w with board := b1 } hlen1
    have hres : restore_board w.board w2.board = some w.board :=
      restore_board_eq w.board w2.board hlen (by rw [hg1]; exact hlen1)
    rw [minimax_max_loop, copy_curr_board_eq w.board hlen]
    simp only [hb1, hs, hres]
    have hg : SameGlobals w { w2 with board := w.board } := ⟨rfl, hg2, hg3⟩
    by_cases hcut : be ≤
        (if al < (if s > best then s else best) then (if s > best then s else best) else al)
    · rw [if_pos hcut]
      exact ⟨_, _, rfl, hg⟩
    · rw [if_neg hcut]
      obtain ⟨r, w1, hr1, hg1', hg2', hg3'⟩ :=
        ih (fun x hx => hr x (List.mem_cons_of_mem _ hx))
          (if al < (if s > best then s else best) then (if s > best then s else best) else al)
          be (if s > best then s else best) { w2 with board := w.board } hlen
      exact ⟨r, w1, hr1, hg1'.trans hg.1, hg2'.trans hg.2.1, hg3'.trans hg.2.2⟩

theorem min_loop_frame (child : Int → Int → World → Option (Int × World)) (c : Int)
    (hchild : ∀ a be w1, w1.board.length = 64 →
      ∃ r w2, child a be w1 = some (r, w2) ∧ SameGlobals w1 w2) :
    ∀ moves : List Int, (∀ m ∈ moves, 0 ≤ m ∧ m < 64) →
      ∀ (al be best : Int) (w : World), w.board.length = 64 →
        ∃ r w1, minimax_min_loop child c moves al be best w = some (r, w1) ∧
          SameGlobals w w1 := by
  intro moves
  induction moves with
  | nil => intro _ al be best w _; exact ⟨best, w, rfl, rfl, rfl, rfl⟩
  | cons m rest ih =>
    intro hr al be best w hlen
    obtain ⟨h0, h1⟩ := hr m (List.mem_cons_self _ _)
    obtain ⟨b1, hb1, hlen1⟩ := make_temp_move_total w.board hlen m c h0 h1
    obtain ⟨s, w2, hs, hg1, hg2, hg3⟩ := hchild al be { w with board := b1 } hlen1
    have hres : restore_board w.board w2.board = some w.board :=
      restore_board_eq w.board w2.board hlen (by rw [hg1]; exact hlen1)
    rw [minimax_min_loop, copy_curr_board_eq w.board hlen]
    simp only [hb1, hs, hres]
    have hg : SameGlobals w { w2 with board := w.board } := ⟨rfl, hg2, hg3⟩
    by_cases hcut :
        (if be > (if s < best then s else best) then (if s < best then s else best) else be) ≤ al
    · rw [if_pos hcut]
      exact ⟨_, _, rfl, hg⟩
    · rw [if_neg hcut]
      obtain ⟨r, w1, hr1, hg1', hg2', hg3'⟩ :=
        ih (fun x hx => hr x (List.mem_cons_of_mem _ hx)) al
          (if be > (if s < best then s else best) then (if s < best then s else best) else be)
          (if s < best then s else best) { w2 with board := w.board } hlen
      exact ⟨r, w1, hr1, hg1'.trans hg.1, hg2'.trans hg.2.1, hg3'.trans hg.2.2⟩

/-- `minimax` returns for every integer depth once the nesting bound covers
the depth, and leaves the board, `start` and `time_limit` as they were. -/
theorem minimax_frame (clk : Nat → Int) :
    ∀ (fuel : Nat) (depth al be : Int) (mx : Bool) (root curr : Int) (w : World),
      w.board.length = 64 → (depth ≤ 0 ∨ depth > 10 ∨ depth < fuel) → 1 ≤ fuel →
      ∃ r w1, minimax clk fuel depth al be mx root curr w = some (r, w1) ∧
        SameGlobals w w1 := by
  intro fuel
  induction fuel with
  | zero => intro _ _ _ _ _ _ _ _ _ h; omega
  | succ f ih =>
    intro depth al be mx root curr w hlen hd _
    rw [minimax]
    by_cases hleaf : depth ≤ 0 ∨ depth > 10
    · rw [if_pos hleaf]
      obtain ⟨v, hv, -⟩ := leaf_value_total root w hlen
      exact ⟨v, w, hv, rfl, rfl, rfl⟩
    · rw [if_neg hleaf]
      have hf : 1 ≤ f := by
        rcases Nat.eq_zero_or_pos f with h | h
        · subst h; push_cast at hd; omega
        · exact h
      have hd' : depth - 1 ≤ 0 ∨ depth - 1 > 10 ∨ depth - 1 < f := by
        push_cast at hd; omega
      have hlen2 : (check_if_time_up clk w).2.board.length = 64 := hlen
      have hg2 : SameGlobals w (check_if_time_up clk w).2 := ⟨rfl, rfl, rfl⟩
      simp only []
      by_cases hup : (check_if_time_up clk w).1 = true
      · rw [if_pos hup]
        obtain ⟨v, hv, -⟩ := leaf_value_total root (check_if_time_up clk w).2 hlen2
        exact ⟨v, _, hv, hg2⟩
      · rw [if_neg hup, legal_moves_eq _ hlen2 curr]
        simp only []
        by_cases hnone : ((legalList (check_if_time_up clk w).2.board curr
            (if curr = WHITE then BLACK else WHITE)).length : Int) ≤ 0
        · rw [if_pos hnone, legal_moves_eq _ hlen2 ((curr + 1).tmod 2)]
          simp only []
          by_cases hnone2 : ((legalList (check_if_time_up clk w).2.board ((curr + 1).tmod 2)
              (if (curr + 1).tmod 2 = WHITE then BLACK else WHITE)).length : Int) ≤ 0
          · rw [if_pos hnone2]
            obtain ⟨v, hv, -⟩ := leaf_value_total root (check_if_time_up clk w).2 hlen2
            exact ⟨v, _, hv, hg2⟩
          · rw [if_neg hnone2]
            obtain ⟨r, w1, hr, hg⟩ := ih (depth - 1) al be (!mx) root ((curr + 1).tmod 2)
              (check_if_time_up clk w).2 hlen2 hd' hf
            exact ⟨r, w1, hr, hg⟩
        · rw [if_neg hnone]
          by_cases hmx : mx = true
          · rw [if_pos hmx]
            obtain ⟨r, w1, hr, hg⟩ := max_loop_frame
              (fun a b w1 => minimax clk f (depth - 1) a b false root ((curr + 1).tmod 2) w1)
              curr (fun a b w1 h1 => ih (depth - 1) a b false root _ w1 h1 hd' hf)
              _ (fun m hm => legalList_range _ _ _ m hm) al be (-9999999)
              (check_if_time_up clk w).2 hlen2
            exact ⟨r, w1, hr, hg⟩
          · rw [if_neg hmx]
            obtain ⟨r, w1, hr, hg⟩ := min_loop_frame
              (fun a b w1 => minimax clk f (depth - 1) a b true root ((curr + 1).tmod 2) w1)
              curr (fun a b w1 h1 => ih (depth - 1) a b true root _ w1 h1 hd' hf)
              _ (fun m hm => legalList_range _ _ _ m hm) al be 9999999
              (check_if_time_up clk w).2 hlen2
            exact ⟨r, w1, hr, hg⟩

theorem make_move_cells (b : Board) (hlen : b.length = 64) (m c : Int) (h0 : 0 ≤ m)
    (h1 : m < 64) :
    ∃ b1, make_move m c b = some b1 ∧ b1.length = 64 ∧ ∀ v ∈ b1, v = c ∨ v ∈ b := by
  obtain ⟨b1, hb1, hlen1, hspec⟩ := make_move_spec b hlen m c h0 h1
  refine ⟨b1, hb1, hlen1, ?_⟩
  intro v hv
  obtain ⟨i, hi, hiv⟩ := List.getElem_of_mem hv
  have hget : b1[i]? = some v := by rw [List.getElem?_eq_getElem hi, hiv]
  rw [getElem?_of_readCell] at hget
  by_cases h : ((i : Int) = m ∨ ∃ dx dy : Int, IsDir dx dy ∧
      Flips b c (if c = WHITE then BLACK else WHITE) (m.tdiv 8) (m.tmod 8) dx dy i)
  · left
    have := (hspec i).1 h
    rw [hget] at this
    exact Option.some.inj this
  · right
    have := (hspec i).2 h
    rw [hget, ← getElem?_of_readCell] at this
    exact List.getElem?_mem this.symm

theorem evaluate_moves_frame (clk : Nat → Int) (move c depth al be : Int) (w : World)
    (hlen : w.board.length = 64) (h0 : 0 ≤ move) (h1 : move < 64) :
    ∃ r w1, evaluate_moves clk move c depth al be w = some (r, w1) ∧ SameGlobals w w1 := by
  obtain ⟨b1, hb1, hlen1⟩ := make_temp_move_total w.board hlen move c h0 h1
  obtain ⟨s, w2, hs, hg1, hg2, hg3⟩ := minimax_frame clk SEARCH_FUEL (depth - 1) al be false c
    ((c + 1).tmod 2) { w with board := b1 } hlen1 (by simp only [SEARCH_FUEL]; omega)
    (by decide)
  have hres : restore_board w.board w2.board = some w.board :=
    restore_board_eq w.board w2.board hlen (by rw [hg1]; exact hlen1)
  unfold evaluate_moves
  rw [copy_curr_board_eq w.board hlen]
  simp only [hb1, hs, hres]
  exact ⟨_, _, rfl, rfl, hg2, hg3⟩

theorem best_legal_move_loop_frame (clk : Nat → Int) (c depth be : Int) :
    ∀ moves : List Int, (∀ m ∈ moves, 0 ≤ m ∧ m < 64) →
      ∀ (al bm bs : Int) (w : World), w.board.length = 64 →
        ∃ r w1, best_legal_move_loop clk c depth be moves al bm bs w = some (r, w1) ∧
          SameGlobals w w1 := by
  intro moves
  induction moves with
  | nil => intro _ al bm bs w _; exact ⟨bm, w, rfl, rfl, rfl, rfl⟩
  | cons m rest ih =>
    intro hr al bm bs w hlen
    obtain ⟨h0, h1⟩ := hr m (List.mem_cons_self _ _)
    have hlen2 : (check_if_time_up clk w).2.board.length = 64 := hlen
    obtain ⟨b1, hb1, hlen1⟩ := make_temp_move_total (check_if_time_up clk w).2.board hlen2 m c h0 h1
    obtain ⟨s, w2, hs, hg1, hg2, hg3⟩ := minimax_frame clk SEARCH_FUEL (depth - 1) al be false c
      ((c + 1).tmod 2) { (check_if_time_up clk w).2 with board := b1 } hlen1
      (by simp only [SEARCH_FUEL]; omega) (by decide)
    have hres : restore_board (check_if_time_up clk w).2.board w2.board =
        some (check_if_time_up clk w).2.board :=
      restore_board_eq _ w2.board hlen2 (by rw [hg1]; exact hlen1)
    rw [best_legal_move_loop]
    simp only []
    by_cases hup : (check_if_time_up clk w).1 = true
    · rw [if_pos hup]
      exact ⟨_, _, rfl, rfl, rfl, rfl⟩
    · rw [if_neg hup, copy_curr_board_eq _ hlen2]
      simp only [hb1, hs, hres]
      have hg : SameGlobals w { w2 with board := (check_if_time_up clk w).2.board } :=
        ⟨rfl, hg2, hg3⟩
      by_cases hbetter : s > bs
      · rw [if_pos hbetter]
        obtain ⟨r, w1, hr1, hg1', hg2', hg3'⟩ :=
          ih (fun x hx => hr x (List.mem_cons_of_mem _ hx)) (if al < s then s else al) m s
            { w2 with board := (check_if_time_up clk w).2.board } hlen
        exact ⟨r, w1, hr1, hg1'.trans hg.1, hg2'.trans hg.2.1, hg3'.trans hg.2.2⟩
      · rw [if_neg hbetter]
        obtain ⟨r, w1, hr1, hg1', hg2', hg3'⟩ :=
          ih (fun x hx => hr x (List.mem_cons_of_mem _ hx)) al bm bs
            { w2 with board := (check_if_time_up clk w).2.board } hlen
        exact ⟨r, w1, hr1, hg1'.trans hg.1, hg2'.trans hg.2.1, hg3'.trans hg.2.2⟩

theorem best_legal_move_frame (clk : Nat → Int) (c depth al be : Int) (w : World)
    (hlen : w.board.length = 64) :
    ∃ r w1, best_legal_move clk c depth al be w = some (r, w1) ∧ SameGlobals w w1 := by
  unfold best_legal_move
  rw [legal_moves_eq _ hlen c]
  simp only []
  by_cases hnone : ((legalList w.board c (if c = WHITE then BLACK else WHITE)).length : Int) ≤ 0
  · rw [if_pos hnone]
    exact ⟨_, _, rfl, rfl, rfl, rfl⟩
  · rw [if_neg hnone]
    exact best_legal_move_loop_frame clk c depth be _ (fun m hm => legalList_range _ _ _ m hm)
      al _ _ w hlen

/-- C7: the predicate "the board has exactly 64 cells and every cell is
Empty, Black or White" holds after `initialise_board`, and `reset_board`,
`make_move` and `make_temp_move` (for a cell in 0..63 and a colour value in
0, 1, 2, the values the program passes), `restore_board` of a snapshot that
satisfies it, `minimax`, `evaluate_moves` and `best_legal_move` all return
and leave a board that satisfies it. -/
theorem board_invariant_preserved :
    (∀ fresh : Board, fresh.length = 64 → ∃ b, initialise_board fresh = some b ∧ BoardOK b) ∧
    (∀ b : Board, BoardOK b → ∃ b1, reset_board b = some b1 ∧ BoardOK b1) ∧
    (∀ (b : Board) (m c : Int), BoardOK b → 0 ≤ m → m < 64 →
      (c = EMPTY ∨ c = BLACK ∨ c = WHITE) →
      (∃ b1, make_move m c b = some b1 ∧ BoardOK b1) ∧
      (∃ r b1, make_temp_move m c b = some (r, b1) ∧ BoardOK b1)) ∧
    (∀ snap b : Board, BoardOK snap → BoardOK b →
      ∃ b1, restore_board snap b = some b1 ∧ BoardOK b1) ∧
    (∀ (clk : Nat → Int) (depth al be : Int) (mx : Bool) (root curr : Int) (w : World),
      BoardOK w.board →
      ∃ r w1, minimax clk SEARCH_FUEL depth al be mx root curr w = some (r, w1) ∧
        BoardOK w1.board) ∧
    (∀ (clk : Nat → Int) (move c depth al be : Int) (w : World),
      BoardOK w.board → 0 ≤ move → move < 64 →
      ∃ r w1, evaluate_moves clk move c depth al be w = some (r, w1) ∧ BoardOK w1.board) ∧
    (∀ (clk : Nat → Int) (c depth al be : Int) (w : World), BoardOK w.board →
      ∃ r w1, best_legal_move clk c depth al be w = some (r, w1) ∧ BoardOK w1.board) := by
  have hopen : BoardOK opening_board := ⟨by decide, by decide⟩
  have hinit : ∀ b : Board, b.length = 64 →
      (memset_board b).bind place_opening = some opening_board := by
    intro b hlen
    rw [memset_board_eq b hlen]
    exact place_opening_replicate
  have hmove : ∀ (b : Board) (m c : Int), BoardOK b → 0 ≤ m → m < 64 →
      (c = EMPTY ∨ c = BLACK ∨ c = WHITE) → ∃ b1, make_move m c b = some b1 ∧ BoardOK b1 := by
    intro b m c hb h0 h1 hc
    obtain ⟨b1, hb1, hlen1, hcells⟩ := make_move_cells b hb.1 m c h0 h1
    refine ⟨b1, hb1, hlen1, fun v hv => ?_⟩
    rcases hcells v hv with h | h
    · rw [h]; exact hc
    · exact hb.2 v h
  refine ⟨fun fresh hlen => ⟨opening_board, hinit fresh hlen, hopen⟩,
    fun b hb => ⟨opening_board, hinit b hb.1, hopen⟩, ?_, ?_, ?_, ?_, ?_⟩
  · intro b m c hb h0 h1 hc
    obtain ⟨b1, hb1, hok⟩ := hmove b m c hb h0 h1 hc
    refine ⟨⟨b1, hb1, hok⟩, 1, b1, ?_, hok⟩
    unfold make_temp_move
    rw [if_pos (by omega), hb1]
    rfl
  · intro snap b hs hb
    exact ⟨snap, restore_board_eq snap b hs.1 hb.1, hs⟩
  · intro clk depth al be mx root curr w hb
    obtain ⟨r, w1, hr, hg, -, -⟩ := minimax_frame clk SEARCH_FUEL depth al be mx root curr w hb.1
      (by simp only [SEARCH_FUEL]; omega) (by decide)
    exact ⟨r, w1, hr, by rw [hg]; exact hb⟩
  · intro clk move c depth al be w hb h0 h1
    obtain ⟨r, w1, hr, hg, -, -⟩ := evaluate_moves_frame clk move c depth al be w hb.1 h0 h1
    exact ⟨r, w1, hr, by rw [hg]; exact hb⟩
  · intro clk c depth al be w hb
    obtain ⟨r, w1, hr, hg, -, -⟩ := best_legal_move_frame clk c depth al be w hb.1
    exact ⟨r, w1, hr, by rw [hg]; exact hb⟩

/-- C9 (code defect): when `minimax` is at a maximizing node with Black to
move, a depth in 1..10, the deadline not yet reached and at least one legal
move, the recursive call it makes after applying each move has depth `depth - 1`
and the inverted flag, but its side to move is `(BLACK + 1) % 2 = 0 = EMPTY`,
not White. -/
theorem minimax_black_child_side (clk : Nat → Int) (fuel : Nat) (depth al be root : Int)
    (w : World) (moves : List Int) (hd : 1 ≤ depth ∧ depth ≤ 10)
    (hup : (check_if_time_up clk w).1 = false)
    (hmoves : legal_moves w.board BLACK = some moves) (hne : moves ≠ []) :
    minimax clk (fuel + 1) depth al be true root BLACK w =
      minimax_max_loop (fun a b w1 => minimax clk fuel (depth - 1) a b false root EMPTY w1)
        BLACK moves al be (-9999999) (check_if_time_up clk w).2 := by
  have hlen : ¬ ((moves.length : Int) ≤ 0) := by
    cases moves with
    | nil => exact absurd rfl hne
    | cons m rest => simp only [List.length_cons]; push_cast; omega
  have hb : (check_if_time_up clk w).2.board = w.board := rfl
  rw [minimax, if_neg (by omega)]
  simp only []
  rw [if_neg (by rw [hup]; simp), hb, hmoves]
  simp only []
  rw [if_neg hlen, if_pos trivial]
  rfl

theorem row_legal_black : legal_moves row_board BLACK = some [3] := by
  rw [legal_moves_eq _ (by decide),
    legalList_of_candidates row_board (by decide) BLACK _ (by decide)
      [0, 1, 2, 3, 8, 9, 10, 11] (by decide) (by decide) (by decide!)]
  decide!

theorem minimax_black_child_side_witness :
    ((1 : Int) ≤ 2 ∧ (2 : Int) ≤ 10) ∧
    (check_if_time_up frozen_clock ⟨row_board, 0, 1000, 0⟩).1 = false ∧
    legal_moves row_board BLACK = some [3] ∧ ([3] : List Int) ≠ [] ∧
    minimax frozen_clock (10 + 1) 2 (-999999) 999999 true BLACK BLACK ⟨row_board, 0, 1000, 0⟩ =
      minimax_max_loop
        (fun a b w1 => minimax frozen_clock 10 (2 - 1) a b false BLACK EMPTY w1)
        BLACK [3] (-999999) 999999 (-9999999)
        (check_if_time_up frozen_clock ⟨row_board, 0, 1000, 0⟩).2 :=
  ⟨by decide, by decide, row_legal_black, by decide,
    minimax_black_child_side frozen_clock 10 2 (-999999) 999999 BLACK ⟨row_board, 0, 1000, 0⟩ [3]
      (by decide) (by decide) row_legal_black (by decide)⟩

theorem minimax_leaf (clk : Nat → Int) (fuel : Nat) (depth al be : Int) (mx : Bool)
    (root curr : Int) (w : World) (hd : depth ≤ 0 ∨ depth > 10) :
    minimax clk (fuel + 1) depth al be mx root curr w = leaf_value root w := by
  rw [minimax, if_pos hd]

theorem minimax_step_pass (clk : Nat → Int) (fuel : Nat) (depth al be : Int) (mx : Bool)
    (root curr : Int) (w w1 : World) (m : Int) (ms : List Int)
    (hd : ¬(depth ≤ 0 ∨ depth > 10)) (hup : check_if_time_up clk w = (false, w1))
    (hm : legal_moves w1.board curr = some [])
    (ho : legal_moves w1.board ((curr + 1).tmod 2) = some (m :: ms)) :
    minimax clk (fuel + 1) depth al be mx root curr w =
      minimax clk fuel (depth - 1) al be (!mx) root ((curr + 1).tmod 2) w1 := by
  rw [minimax, if_neg hd]
  simp only [hup, hm, ho]
  rw [if_neg (by decide), if_pos (by decide), if_neg (by simp only [List.length_cons]; omega)]

theorem minimax_step_min (clk : Nat → Int) (fuel : Nat) (depth al be : Int)
    (root curr : Int) (w w1 : World) (m : Int) (ms : List Int)
    (hd : ¬(depth ≤ 0 ∨ depth > 10)) (hup : check_if_time_up clk w = (false, w1))
    (hm : legal_moves w1.board curr = some (m :: ms)) :
    minimax clk (fuel + 1) depth al be false root curr w =
      minimax_min_loop
        (fun a b w2 => minimax clk fuel (depth - 1) a b true root ((curr + 1).tmod 2) w2)
        curr (m :: ms) al be 9999999 w1 := by
  rw [minimax, if_neg hd]
  simp only [hup, hm]
  rw [if_neg (by decide), if_neg (by simp only [List.length_cons]; omega), if_neg (by decide)]

theorem min_loop_step (child : Int → Int → World → Option (Int × World)) (c m : Int)
    (rest : List Int) (al be best s : Int) (w w2 : World) (b1 : Board) (r : Int)
    (hcopy : copy_curr_board w.board = some w.board)
    (hmove : make_temp_move m c w.board = some (r, b1))
    (hchild : child al be { w with board := b1 } = some (s, w2))
    (hres : restore_board w.board w2.board = some w.board) :
    minimax_min_loop child c (m :: rest) al be best w =
      if (if be > (if s < best then s else best) then (if s < best then s else best) else be) ≤ al
      then some ((if s < best then s else best), { w2 with board := w.board })
      else minimax_min_loop child c rest al
        (if be > (if s < best then s else best) then (if s < best then s else best) else be)
        (if s < best then s else best) { w2 with board := w.board } := by
  rw [minimax_min_loop, hcopy]
  simp only [hmove, hchild, hres]

theorem frozen_not_up (b : Board) (n : Nat) :
    check_if_time_up frozen_clock ⟨b, 0, 1000, n⟩ = (false, ⟨b, 0, 1000, n + 1⟩) := by
  simp [check_if_time_up, frozen_clock]

theorem lone_legal_empty : legal_moves lone_white_board ((BLACK + 1).tmod 2) = some [0, 2] := by
  rw [legal_moves_eq _ (by decide),
    legalList_of_candidates lone_white_board (by decide) _ _ (by decide)
      [0, 1, 2, 8, 9, 10] (by decide) (by decide) (by decide!)]
  decide!

theorem cleared_leaf (w : World) (h : w.board = List.replicate 64 0) :
    leaf_value WHITE w = some (0, w) := by
  rw [leaf_value, h, evaluate_board_state_of _ _ ⟨0, 0, 0, 0, 0, 0⟩ [] [] (by decide!)
    (legal_moves_nil _ (by decide) WHITE (Or.inl (by decide)))
    (legal_moves_nil _ (by decide) ((WHITE + 1).tmod 2) (Or.inl (by decide)))]
  rfl

/-- C10 (code defect): on the board whose only piece is a White piece on cell
1 neither Black nor White has a legal move and `evaluate_board_state` for root
White is 5, yet `minimax` at depth 2 with Black to move returns 0: the pass
test is made for colour `(BLACK + 1) % 2 = 0`, which has moves, and the search
goes on to remove the White piece. -/
theorem minimax_terminal_board_differs :
    legal_moves lone_white_board BLACK = some [] ∧
    legal_moves lone_white_board WHITE = some [] ∧
    evaluate_board_state lone_white_board WHITE = some 5 ∧
    (minimax frozen_clock SEARCH_FUEL 2 (-999999) 999999 true WHITE BLACK
      ⟨lone_white_board, 0, 1000, 0⟩).map Prod.fst = some 0 := by
  have hB : legal_moves lone_white_board BLACK = some [] :=
    legal_moves_nil _ (by decide) BLACK (Or.inr (by decide))
  have hW : legal_moves lone_white_board WHITE = some [] :=
    legal_moves_nil _ (by decide) WHITE (Or.inl (by decide))
  have hlen : lone_white_board.length = 64 := by decide
  have hm0 : make_temp_move 0 ((BLACK + 1).tmod 2) lone_white_board =
      some (1, List.replicate 64 0) := by decide!
  have hm2 : make_temp_move 2 ((BLACK + 1).tmod 2) lone_white_board =
      some (1, List.replicate 64 0) := by decide!
  have hcopy : copy_curr_board lone_white_board = some lone_white_board :=
    copy_curr_board_eq _ hlen
  have hres : restore_board lone_white_board (List.replicate 64 0) = some lone_white_board :=
    restore_board_eq _ _ hlen (by decide)
  refine ⟨hB, hW, ?_, ?_⟩
  · rw [evaluate_board_state_of _ _ ⟨1, 0, 1, 0, 0, 0⟩ [] [] (by decide!) hW hB]
    decide!
  · rw [show SEARCH_FUEL = 10 + 1 by rfl,
      minimax_step_pass frozen_clock 10 2 _ _ true WHITE BLACK _ _ 0 [2] (by decide)
        (frozen_not_up lone_white_board 0) hB lone_legal_empty]
    show Option.map Prod.fst (minimax frozen_clock (9 + 1) (2 - 1) (-999999) 999999 false WHITE
      ((BLACK + 1).tmod 2) ⟨lone_white_board, 0, 1000, 1⟩) = some 0
    rw [minimax_step_min frozen_clock 9 (2 - 1) _ _ WHITE _ _ _ 0 [2] (by decide)
        (frozen_not_up lone_white_board 1) lone_legal_empty,
      min_loop_step _ _ 0 [2] _ _ _ 0 _ _ _ 1 hcopy hm0
        (by rw [minimax_leaf _ _ _ _ _ _ _ _ _ (by decide)]; exact cleared_leaf _ rfl) hres,
      if_neg (by decide),
      min_loop_step _ _ 2 [] _ _ _ 0 _ _ _ 1 hcopy hm2
        (by rw [minimax_leaf _ _ _ _ _ _ _ _ _ (by decide)]; exact cleared_leaf _ rfl) hres,
      if_neg (by decide), minimax_min_loop]
    rfl

theorem max_step_arith (al0 be a best pbest s v : Int) (ha : a < be)
    (hinv : MaxInv al0 a best pbest) (hv : -2500 ≤ v ∧ v ≤ 2500) (hs : -2500 ≤ s ∧ s ≤ 2500)
    (hrel : ABRel a be v s) :
    (be ≤ (if a < (if s > best then s else best) then (if s > best then s else best) else a) →
      be ≤ (if s > best then s else best) ∧ be ≤ (if v > pbest then v else pbest) ∧
      al0 < be ∧
      -2500 ≤ (if s > best then s else best) ∧ (if s > best then s else best) ≤ 2500 ∧
      -2500 ≤ (if v > pbest then v else pbest) ∧ (if v > pbest then v else pbest) ≤ 2500) ∧
    (¬ be ≤ (if a < (if s > best then s else best) then (if s > best then s else best) else a) →
      MaxInv al0 (if a < (if s > best then s else best) then (if s > best then s else best) else a)
        (if s > best then s else best) (if v > pbest then v else pbest) ∧
      (if v > pbest then v else pbest) ≠ -9999999 ∧
      pbest ≤ (if v > pbest then v else pbest)) := by
  unfold MaxInv at hinv ⊢
  unfold ABRel at hrel
  split_ifs <;> omega

theorem max_final_arith (al0 be a best pbest : Int) (ha : a < be)
    (hinv : MaxInv al0 a best pbest) (hp : pbest ≠ -9999999) :
    ABRel al0 be pbest best ∧ -2500 ≤ best ∧ best ≤ 2500 ∧ -2500 ≤ pbest ∧ pbest ≤ 2500 := by
  unfold MaxInv at hinv
  unfold ABRel
  omega

theorem min_step_arith (al be0 b best pbest s v : Int) (hb : al < b)
    (hinv : MinInv be0 b best pbest) (hv : -2500 ≤ v ∧ v ≤ 2500) (hs : -2500 ≤ s ∧ s ≤ 2500)
    (hrel : ABRel al b v s) :
    ((if b > (if s < best then s else best) then (if s < best then s else best) else b) ≤ al →
      (if s < best then s else best) ≤ al ∧ (if v < pbest then v else pbest) ≤ al ∧
      al < be0 ∧
      -2500 ≤ (if s < best then s else best) ∧ (if s < best then s else best) ≤ 2500 ∧
      -2500 ≤ (if v < pbest then v else pbest) ∧ (if v < pbest then v else pbest) ≤ 2500) ∧
    (¬ (if b > (if s < best then s else best) then (if s < best then s else best) else b) ≤ al →
      MinInv be0 (if b > (if s < best then s else best) then (if s < best then s else best) else b)
        (if s < best then s else best) (if v < pbest then v else pbest) ∧
      (if v < pbest then v else pbest) ≠ 9999999 ∧
      (if v < pbest then v else pbest) ≤ pbest) := by
  unfold MinInv at hinv ⊢
  unfold ABRel at hrel
  split_ifs <;> omega

theorem min_final_arith (al be0 b best pbest : Int) (hb : al < b)
    (hinv : MinInv be0 b best pbest) (hp : pbest ≠ 9999999) :
    ABRel al be0 pbest best ∧ -2500 ≤ best ∧ best ≤ 2500 ∧ -2500 ≤ pbest ∧ pbest ≤ 2500 := by
  unfold MinInv at hinv
  unfold ABRel
  omega

theorem NeverUp_of_same (clk : Nat → Int) (w w1 : World) (h : SameGlobals w w1)
    (hn : NeverUp clk w) : NeverUp clk w1 := by
  intro n
  rw [h.2.1, h.2.2]
  exact hn n

theorem plain_max_loop_total (child : Board → Option Int) (c : Int) (b : Board)
    (hlen : b.length = 64)
    (hpl : ∀ b1 : Board, b1.length = 64 → ∃ v, child b1 = some v ∧ -2500 ≤ v ∧ v ≤ 2500) :
    ∀ moves : List Int, (∀ m ∈ moves, 0 ≤ m ∧ m < 64) → ∀ pbest : Int,
      ∃ V, plain_max_loop child c b moves pbest = some V ∧ pbest ≤ V ∧
        (V = pbest ∨ (-2500 ≤ V ∧ V ≤ 2500)) := by
  intro moves
  induction moves with
  | nil => intro _ pbest; exact ⟨pbest, rfl, le_refl _, Or.inl rfl⟩
  | cons m rest ih =>
    intro hr pbest
    obtain ⟨h0, h1⟩ := hr m (List.mem_cons_self _ _)
    obtain ⟨b1, hb1, hlen1⟩ := make_temp_move_total b hlen m c h0 h1
    obtain ⟨v, hv, hvb⟩ := hpl b1 hlen1
    obtain ⟨V, hV, hle, hVb⟩ := ih (fun x hx => hr x (List.mem_cons_of_mem _ hx))
      (if v > pbest then v else pbest)
    refine ⟨V, ?_, ?_, ?_⟩
    · rw [plain_max_loop]
      simp only [hb1, hv]
      exact hV
    · split_ifs at hle <;> omega
    · split_ifs at hle hVb <;> omega

theorem plain_min_loop_total (child : Board → Option Int) (c : Int) (b : Board)
    (hlen : b.length = 64)
    (hpl : ∀ b1 : Board, b1.length = 64 → ∃ v, child b1 = some v ∧ -2500 ≤ v ∧ v ≤ 2500) :
    ∀ moves : List Int, (∀ m ∈ moves, 0 ≤ m ∧ m < 64) → ∀ pbest : Int,
      ∃ V, plain_min_loop child c b moves pbest = some V ∧ V ≤ pbest ∧
        (V = pbest ∨ (-2500 ≤ V ∧ V ≤ 2500)) := by
  intro moves
  induction moves with
  | nil => intro _ pbest; exact ⟨pbest, rfl, le_refl _, Or.inl rfl⟩
  | cons m rest ih =>
    intro hr pbest
    obtain ⟨h0, h1⟩ := hr m (List.mem_cons_self _ _)
    obtain ⟨b1, hb1, hlen1⟩ := make_temp_move_total b hlen m c h0 h1
    obtain ⟨v, hv, hvb⟩ := hpl b1 hlen1
    obtain ⟨V, hV, hle, hVb⟩ := ih (fun x hx => hr x (List.mem_cons_of_mem _ hx))
      (if v < pbest then v else pbest)
    refine ⟨V, ?_, ?_, ?_⟩
    · rw [plain_min_loop]
      simp only [hb1, hv]
      exact hV
    · split_ifs at hle <;> omega
    · split_ifs at hle hVb <;> omega

theorem max_loop_rel (clk : Nat → Int)
    (child_ab : Int → Int → World → Option (Int × World)) (child_pl : Board → Option Int)
    (c al0 be : Int) (hwin : al0 < be)
    (hchild : ∀ (a : Int) (w1 : World), a < be → w1.board.length = 64 → NeverUp clk w1 →
      ∃ s w2 v, child_ab a be w1 = some (s, w2) ∧ SameGlobals w1 w2 ∧
        child_pl w1.board = some v ∧ (-2500 ≤ v ∧ v ≤ 2500) ∧ (-2500 ≤ s ∧ s ≤ 2500) ∧
        ABRel a be v s) :
    ∀ moves : List Int, (∀ m ∈ moves, 0 ≤ m ∧ m < 64) →
      ∀ (a best pbest : Int) (w : World), w.board.length = 64 → NeverUp clk w → a < be →
        MaxInv al0 a best pbest →
        ∃ r w1 V, minimax_max_loop child_ab c moves a be best w = some (r, w1) ∧
          SameGlobals w w1 ∧ plain_max_loop child_pl c w.board moves pbest = some V ∧
          ((moves ≠ [] ∨ pbest ≠ -9999999) →
            ABRel al0 be V r ∧ (-2500 ≤ r ∧ r ≤ 2500) ∧ (-2500 ≤ V ∧ V ≤ 2500)) := by
  intro moves
  induction moves with
  | nil =>
    intro _ a best pbest w _ _ ha hinv
    refine ⟨best, w, pbest, rfl, ⟨rfl, rfl, rfl⟩, rfl, ?_⟩
    intro h
    have hp : pbest ≠ -9999999 := by
      rcases h with h | h
      · exact absurd rfl h
      · exact h
    have := max_final_arith al0 be a best pbest ha hinv hp
    exact ⟨this.1, ⟨this.2.1, this.2.2.1⟩, this.2.2.2⟩
  | cons m rest ih =>
    intro hr a best pbest w hlen hnever ha hinv
    obtain ⟨h0, h1⟩ := hr m (List.mem_cons_self _ _)
    have hr' : ∀ x ∈ rest, 0 ≤ x ∧ x < 64 := fun x hx => hr x (List.mem_cons_of_mem _ hx)
    obtain ⟨b1, hb1, hlen1⟩ := make_temp_move_total w.board hlen m c h0 h1
    obtain ⟨s, w2, v, hs, ⟨hg1, hg2, hg3⟩, hv, hvb, hsb, hrel⟩ :=
      hchild a { w with board := b1 } ha hlen1 hnever
    have hv' : child_pl b1 = some v := hv
    have hres : restore_board w.board w2.board = some w.board :=
      restore_board_eq w.board w2.board hlen (by rw [hg1]; exact hlen1)
    have hg : SameGlobals w { w2 with board := w.board } := ⟨rfl, hg2, hg3⟩
    have harith := max_step_arith al0 be a best pbest s v ha hinv hvb hsb hrel
    have hpl : ∀ b2 : Board, b2.length = 64 →
        ∃ v2, child_pl b2 = some v2 ∧ -2500 ≤ v2 ∧ v2 ≤ 2500 := by
      intro b2 hlen2
      obtain ⟨_, _, v2, _, _, hv2, hv2b, _, _⟩ :=
        hchild al0 { w with board := b2 } hwin hlen2 hnever
      exact ⟨v2, hv2, hv2b⟩
    rw [minimax_max_loop, copy_curr_board_eq w.board hlen, plain_max_loop]
    simp only [hb1, hs, hres, hv']
    by_cases hcut : be ≤
        (if a < (if s > best then s else best) then (if s > best then s else best) else a)
    · rw [if_pos hcut]
      obtain ⟨V, hV, hle, hVb⟩ := plain_max_loop_total child_pl c w.board hlen hpl rest hr'
        (if v > pbest then v else pbest)
      have hc := harith.1 hcut
      refine ⟨_, _, V, rfl, hg, hV, fun _ => ⟨?_, ⟨hc.2.2.2.1, hc.2.2.2.2.1⟩, ?_⟩⟩
      · unfold ABRel; omega
      · omega
    · rw [if_neg hcut]
      have hc := harith.2 hcut
      obtain ⟨r, w1, V, hr1, ⟨hg1', hg2', hg3'⟩, hV, hfin⟩ := ih hr' _ _ _
        { w2 with board := w.board } hlen (NeverUp_of_same clk w _ hg hnever)
        (by omega) hc.1
      exact ⟨r, w1, V, hr1, ⟨hg1'.trans hg.1, hg2'.trans hg.2.1, hg3'.trans hg.2.2⟩, hV,
        fun _ => hfin (Or.inr hc.2.1)⟩

theorem min_loop_rel (clk : Nat → Int)
    (child_ab : Int → Int → World → Option (Int × World)) (child_pl : Board → Option Int)
    (c al be0 : Int) (hwin : al < be0)
    (hchild : ∀ (b : Int) (w1 : World), al < b → w1.board.length = 64 → NeverUp clk w1 →
      ∃ s w2 v, child_ab al b w1 = some (s, w2) ∧ SameGlobals w1 w2 ∧
        child_pl w1.board = some v ∧ (-2500 ≤ v ∧ v ≤ 2500) ∧ (-2500 ≤ s ∧ s ≤ 2500) ∧
        ABRel al b v s) :
    ∀ moves : List Int, (∀ m ∈ moves, 0 ≤ m ∧ m < 64) →
      ∀ (b best pbest : Int) (w : World), w.board.length = 64 → NeverUp clk w → al < b →
        MinInv be0 b best pbest →
        ∃ r w1 V, minimax_min_loop child_ab c moves al b best w = some (r, w1) ∧
          SameGlobals w w1 ∧ plain_min_loop child_pl c w.board moves pbest = some V ∧
          ((moves ≠ [] ∨ pbest ≠ 9999999) →
            ABRel al be0 V r ∧ (-2500 ≤ r ∧ r ≤ 2500) ∧ (-2500 ≤ V ∧ V ≤ 2500)) := by
  intro moves
  induction moves with
  | nil =>
    intro _ b best pbest w _ _ hb hinv
    refine ⟨best, w, pbest, rfl, ⟨rfl, rfl, rfl⟩, rfl, ?_⟩
    intro h
    have hp : pbest ≠ 9999999 := by
      rcases h with h | h
      · exact absurd rfl h
      · exact h
    have := min_final_arith al be0 b best pbest hb hinv hp
    exact ⟨this.1, ⟨this.2.1, this.2.2.1⟩, this.2.2.2⟩
  | cons m rest ih =>
    intro hr b best pbest w hlen hnever hb hinv
    obtain ⟨h0, h1⟩ := hr m (List.mem_cons_self _ _)
    have hr' : ∀ x ∈ rest, 0 ≤ x ∧ x < 64 := fun x hx => hr x (List.mem_cons_of_mem _ hx)
    obtain ⟨b1, hb1, hlen1⟩ := make_temp_move_total w.board hlen m c h0 h1
    obtain ⟨s, w2, v, hs, ⟨hg1, hg2, hg3⟩, hv, hvb, hsb, hrel⟩ :=
      hchild b { w with board := b1 } hb hlen1 hnever
    have hv' : child_pl b1 = some v := hv
    have hres : restore_board w.board w2.board = some w.board :=
      restore_board_eq w.board w2.board hlen (by rw [hg1]; exact hlen1)
    have hg : SameGlobals w { w2 with board := w.board } := ⟨rfl, hg2, hg3⟩
    have harith := min_step_arith al be0 b best pbest s v hb hinv hvb hsb hrel
    have hpl : ∀ b2 : Board, b2.length = 64 →
        ∃ v2, child_pl b2 = some v2 ∧ -2500 ≤ v2 ∧ v2 ≤ 2500 := by
      intro b2 hlen2
      obtain ⟨_, _, v2, _, _, hv2, hv2b, _, _⟩ :=
        hchild be0 { w with board := b2 } hwin hlen2 hnever
      exact ⟨v2, hv2, hv2b⟩
    rw [minimax_min_loop, copy_curr_board_eq w.board hlen, plain_min_loop]
    simp only [hb1, hs, hres, hv']
    by_cases hcut :
        (if b > (if s < best then s else best) then (if s < best then s else best) else b) ≤ al
    · rw [if_pos hcut]
      obtain ⟨V, hV, hle, hVb⟩ := plain_min_loop_total child_pl c w.board hlen hpl rest hr'
        (if v < pbest then v else pbest)
      have hc := harith.1 hcut
      refine ⟨_, _, V, rfl, hg, hV, fun _ => ⟨?_, ⟨hc.2.2.2.1, hc.2.2.2.2.1⟩, ?_⟩⟩
      · unfold ABRel; omega
      · omega
    · rw [if_neg hcut]
      have hc := harith.2 hcut
      obtain ⟨r, w1, V, hr1, ⟨hg1', hg2', hg3'⟩, hV, hfin⟩ := ih hr' _ _ _
        { w2 with board := w.board } hlen (NeverUp_of_same clk w _ hg hnever)
        (by omega) hc.1
      exact ⟨r, w1, V, hr1, ⟨hg1'.trans hg.1, hg2'.trans hg.2.1, hg3'.trans hg.2.2⟩, hV,
        fun _ => hfin (Or.inr hc.2.1)⟩

theorem check_if_time_up_never (clk : Nat → Int) (w : World) (hn : NeverUp clk w) :
    (check_if_time_up clk w).1 = false ∧ SameGlobals w (check_if_time_up clk w).2 := by
  refine ⟨?_, rfl, rfl, rfl⟩
  simp only [check_if_time_up, decide_eq_false_iff_not]
  exact hn w.clock_calls

theorem ABRel_refl (al be v : Int) : ABRel al be v v := by
  unfold ABRel; omega

/-- Alpha-beta against plain minimax, for every nesting bound that covers the
depth: `minimax` returns, restores the globals, and its value is related to the
plain value by `ABRel`; both values lie in the range of the evaluator. -/
theorem minimax_rel (clk : Nat → Int) :
    ∀ (fuel : Nat) (depth al be : Int) (mx : Bool) (root curr : Int) (w : World),
      w.board.length = 64 → NeverUp clk w → 0 ≤ depth → depth ≤ 10 → depth < fuel → al < be →
      ∃ r w1 v, minimax clk fuel depth al be mx root curr w = some (r, w1) ∧
        SameGlobals w w1 ∧ plain_minimax depth.toNat mx root curr w.board = some v ∧
        (-2500 ≤ v ∧ v ≤ 2500) ∧ (-2500 ≤ r ∧ r ≤ 2500) ∧ ABRel al be v r := by
  intro fuel
  induction fuel with
  | zero => intro depth _ _ _ _ _ _ _ _ h0 _ hlt _; push_cast at hlt; omega
  | succ f ih =>
    intro depth al be mx root curr w hlen hnever h0 h10 hlt hwin
    rw [minimax]
    by_cases hleaf : depth ≤ 0 ∨ depth > 10
    · rw [if_pos hleaf]
      have hd0 : depth = 0 := by omega
      subst hd0
      obtain ⟨v, hv, hvb⟩ := evaluate_board_state_total w.board hlen root
      refine ⟨v, w, v, by simp [leaf_value, hv], ⟨rfl, rfl, rfl⟩, ?_, hvb, hvb, ABRel_refl _ _ _⟩
      simp [plain_minimax, hv]
    · rw [if_neg hleaf]
      obtain ⟨hup, hg2⟩ := check_if_time_up_never clk w hnever
      have hlen2 : (check_if_time_up clk w).2.board.length = 64 := hlen
      have hb2 : (check_if_time_up clk w).2.board = w.board := rfl
      have hnever2 := NeverUp_of_same clk w _ hg2 hnever
      have hdn : depth.toNat = (depth - 1).toNat + 1 := by omega
      have hd1 : 0 ≤ depth - 1 := by omega
      have hd2 : depth - 1 ≤ 10 := by omega
      have hd3 : depth - 1 < (f : Int) := by push_cast at hlt; omega
      simp only []
      rw [if_neg (by rw [hup]; simp), hdn, plain_minimax, ← hb2, legal_moves_eq _ hlen2 curr]
      simp only []
      by_cases hnone : ((legalList (check_if_time_up clk w).2.board curr
          (if curr = WHITE then BLACK else WHITE)).length : Int) ≤ 0
      · rw [if_pos hnone, if_pos hnone, legal_moves_eq _ hlen2 ((curr + 1).tmod 2)]
        simp only []
        by_cases hnone2 : ((legalList (check_if_time_up clk w).2.board ((curr + 1).tmod 2)
            (if (curr + 1).tmod 2 = WHITE then BLACK else WHITE)).length : Int) ≤ 0
        · rw [if_pos hnone2, if_pos hnone2]
          obtain ⟨v, hv, hvb⟩ := evaluate_board_state_total _ hlen2 root
          exact ⟨v, _, v, by simp [leaf_value, hv], hg2, hv, hvb, hvb, ABRel_refl _ _ _⟩
        · rw [if_neg hnone2, if_neg hnone2]
          obtain ⟨r, w1, v, hr, hg, hv, hvb, hrb, hrel⟩ := ih (depth - 1) al be (!mx) root
            ((curr + 1).tmod 2) (check_if_time_up clk w).2 hlen2 hnever2 hd1 hd2 hd3 hwin
          exact ⟨r, w1, v, hr, ⟨hg.1.trans hg2.1, hg.2.1.trans hg2.2.1, hg.2.2.trans hg2.2.2⟩,
            hv, hvb, hrb, hrel⟩
      · rw [if_neg hnone, if_neg hnone]
        have hne : legalList (check_if_time_up clk w).2.board curr
            (if curr = WHITE then BLACK else WHITE) ≠ [] := by
          intro h
          rw [h] at hnone
          simp at hnone
        by_cases hmx : mx = true
        · rw [if_pos hmx, if_pos hmx]
          obtain ⟨r, w1, V, hr, hg, hV, hfin⟩ := max_loop_rel clk
            (fun a b w1 => minimax clk f (depth - 1) a b false root ((curr + 1).tmod 2) w1)
            (plain_minimax (depth - 1).toNat false root ((curr + 1).tmod 2))
            curr al be hwin
            (fun a w1 ha hl hn => ih (depth - 1) a be false root _ w1 hl hn hd1 hd2 hd3 ha)
            _ (fun m hm => legalList_range _ _ _ m hm) al (-9999999) (-9999999)
            (check_if_time_up clk w).2 hlen2 hnever2 hwin (Or.inl ⟨rfl, rfl, rfl⟩)
          obtain ⟨hrel, hrb, hVb⟩ := hfin (Or.inl hne)
          exact ⟨r, w1, V, hr, ⟨hg.1.trans hg2.1, hg.2.1.trans hg2.2.1, hg.2.2.trans hg2.2.2⟩,
            hV, hVb, hrb, hrel⟩
        · rw [if_neg hmx, if_neg hmx]
          obtain ⟨r, w1, V, hr, hg, hV, hfin⟩ := min_loop_rel clk
            (fun a b w1 => minimax clk f (depth - 1) a b true root ((curr + 1).tmod 2) w1)
            (plain_minimax (depth - 1).toNat true root ((curr + 1).tmod 2))
            curr al be hwin
            (fun b w1 hb hl hn => ih (depth - 1) al b true root _ w1 hl hn hd1 hd2 hd3 hb)
            _ (fun m hm => legalList_range _ _ _ m hm) be 9999999 9999999
            (check_if_time_up clk w).2 hlen2 hnever2 hwin (Or.inl ⟨rfl, rfl, rfl⟩)
          obtain ⟨hrel, hrb, hVb⟩ := hfin (Or.inl hne)
          exact ⟨r, w1, V, hr, ⟨hg.1.trans hg2.1, hg.2.1.trans hg2.2.1, hg.2.2.trans hg2.2.2⟩,
            hV, hVb, hrb, hrel⟩

/-- C8: with the deadline never reached, a 64-cell board, a depth in 0..10 and
a window `al < be`, `minimax` returns a value `r` and plain minimax (the same
recursion without the `beta <= alpha` cutoff) a value `v` such that `r = v`
when `al < v < be`, `r ≤ al` when `v ≤ al` and `r ≥ be` when `v ≥ be`; with the
full window (-999999, 999999) the two values are equal. -/
theorem alpha_beta_refines_plain (clk : Nat → Int) (depth al be : Int) (mx : Bool)
    (root curr : Int) (w : World) (hlen : w.board.length = 64) (hnever : NeverUp clk w)
    (hd : 0 ≤ depth ∧ depth ≤ 10) (hwin : al < be) :
    ∃ r w1 v, minimax clk SEARCH_FUEL depth al be mx root curr w = some (r, w1) ∧
      plain_minimax depth.toNat mx root curr w.board = some v ∧
      (al < v ∧ v < be → r = v) ∧ (v ≤ al → r ≤ al) ∧ (be ≤ v → be ≤ r) ∧
      (al = -999999 ∧ be = 999999 → r = v) := by
  obtain ⟨r, w1, v, hr, -, hv, hvb, -, hrel⟩ := minimax_rel clk SEARCH_FUEL depth al be mx root
    curr w hlen hnever hd.1 hd.2 (by simp only [SEARCH_FUEL]; push_cast; omega) hwin
  refine ⟨r, w1, v, hr, hv, hrel.1, hrel.2.1, hrel.2.2, ?_⟩
  rintro ⟨rfl, rfl⟩
  exact hrel.1 ⟨by omega, by omega⟩

theorem NeverUp_frozen (b : Board) (n : Nat) : NeverUp frozen_clock ⟨b, 0, 1000, n⟩ := by
  intro k
  simp [frozen_clock]

theorem board_invariant_preserved_witness :
    BoardOK opening_board ∧ (0 : Int) ≤ 19 ∧ (19 : Int) < 64 ∧
    (BLACK = EMPTY ∨ BLACK = BLACK ∨ BLACK = WHITE) ∧
    ∃ b1, make_move 19 BLACK opening_board = some b1 ∧ BoardOK b1 :=
  ⟨⟨by decide, by decide⟩, by decide, by decide, Or.inr (Or.inl rfl),
    (board_invariant_preserved.2.2.1 opening_board 19 BLACK ⟨by decide, by decide⟩ (by decide)
      (by decide) (Or.inr (Or.inl rfl))).1⟩

theorem alpha_beta_refines_plain_witness :
    row_board.length = 64 ∧ NeverUp frozen_clock ⟨row_board, 0, 1000, 0⟩ ∧
    ((0 : Int) ≤ 2 ∧ (2 : Int) ≤ 10) ∧ (-999999 : Int) < 999999 ∧
    ∃ r w1 v, minimax frozen_clock SEARCH_FUEL 2 (-999999) 999999 true BLACK BLACK
        ⟨row_board, 0, 1000, 0⟩ = some (r, w1) ∧
      plain_minimax (2 : Int).toNat true BLACK BLACK row_board = some v ∧
      ((-999999 : Int) < v ∧ v < 999999 → r = v) ∧ (v ≤ -999999 → r ≤ -999999) ∧
      (999999 ≤ v → 999999 ≤ r) ∧
      ((-999999 : Int) = -999999 ∧ (999999 : Int) = 999999 → r = v) :=
  ⟨by decide, fun k => by simp [frozen_clock], by decide, by decide,
    alpha_beta_refines_plain frozen_clock 2 (-999999) 999999 true BLACK BLACK
      ⟨row_board, 0, 1000, 0⟩ (by decide) (fun k => by simp [frozen_clock]) (by decide)
      (by decide)⟩

/-- C12: when `depth ≤ 0`, or `depth > 10`, or the deadline has passed at
entry, `minimax` returns the static evaluation of the current board for the
root colour `root`, whatever the window, the maximizing flag and the side to
move; the board is unchanged, and the only state that moves is the count of
`clock()` calls when the deadline was tested. -/
theorem minimax_leaf_cases (clk : Nat → Int) (fuel : Nat) (depth al be : Int) (mx : Bool)
    (root curr : Int) (w : World) (hlen : w.board.length = 64)
    (h : depth ≤ 0 ∨ depth > 10 ∨ (check_if_time_up clk w).1 = true) :
    ∃ v w1, minimax clk (fuel + 1) depth al be mx root curr w = some (v, w1) ∧
      evaluate_board_state w.board root = some v ∧ w1.board = w.board ∧
      (w1 = w ∨ w1 = (check_if_time_up clk w).2) := by
  obtain ⟨v, hv, -⟩ := evaluate_board_state_total w.board hlen root
  rw [minimax]
  by_cases hleaf : depth ≤ 0 ∨ depth > 10
  · rw [if_pos hleaf]
    exact ⟨v, w, by simp [leaf_value, hv], hv, rfl, Or.inl rfl⟩
  · rw [if_neg hleaf]
    have hup : (check_if_time_up clk w).1 = true := by
      rcases h with h | h | h
      · exact absurd (Or.inl h) hleaf
      · exact absurd (Or.inr h) hleaf
      · exact h
    simp only []
    rw [if_pos hup]
    have hb : (check_if_time_up clk w).2.board = w.board := rfl
    exact ⟨v, (check_if_time_up clk w).2, by simp [leaf_value, hb, hv], hv, rfl, Or.inr rfl⟩

theorem minimax_leaf_cases_witness :
    opening_board.length = 64 ∧
    ((3 : Int) ≤ 0 ∨ (3 : Int) > 10 ∨
      (check_if_time_up (fun _ => 5000000) ⟨opening_board, 0, 4, 0⟩).1 = true) ∧
    ∃ v w1, minimax (fun _ => 5000000) (10 + 1) 3 (-999999) 999999 true WHITE BLACK
        ⟨opening_board, 0, 4, 0⟩ = some (v, w1) ∧
      evaluate_board_state opening_board WHITE = some v ∧ w1.board = opening_board ∧
      (w1 = ⟨opening_board, 0, 4, 0⟩ ∨
        w1 = (check_if_time_up (fun _ => 5000000) ⟨opening_board, 0, 4, 0⟩).2) :=
  ⟨by decide, Or.inr (Or.inr (by decide)),
    minimax_leaf_cases (fun _ => 5000000) 10 3 (-999999) 999999 true WHITE BLACK
      ⟨opening_board, 0, 4, 0⟩ (by decide) (Or.inr (Or.inr (by decide)))⟩

theorem best_legal_move_loop_mem (clk : Nat → Int) (c depth be : Int) :
    ∀ (moves : List Int) (al bm bs : Int) (w : World) (r : Int) (w1 : World),
      best_legal_move_loop clk c depth be moves al bm bs w = some (r, w1) →
      r = bm ∨ r ∈ moves := by
  intro moves
  induction moves with
  | nil =>
    intro al bm bs w r w1 h
    simp only [best_legal_move_loop, Option.some.injEq, Prod.mk.injEq] at h
    exact Or.inl h.1.symm
  | cons m rest ih =>
    intro al bm bs w r w1 h
    rw [best_legal_move_loop] at h
    simp only [] at h
    by_cases hup : (check_if_time_up clk w).1 = true
    · rw [if_pos hup] at h
      simp only [Option.some.injEq, Prod.mk.injEq] at h
      exact Or.inl h.1.symm
    · rw [if_neg hup] at h
      cases hc : copy_curr_board (check_if_time_up clk w).2.board with
      | none => rw [hc] at h; simp at h
      | some cp =>
        rw [hc] at h
        simp only [] at h
        cases hm : make_temp_move m c (check_if_time_up clk w).2.board with
        | none => rw [hm] at h; simp at h
        | some mb =>
          obtain ⟨x, b1⟩ := mb
          rw [hm] at h
          simp only [] at h
          cases hs : minimax clk SEARCH_FUEL (depth - 1) al be false c ((c + 1).tmod 2)
              { (check_if_time_up clk w).2 with board := b1 } with
          | none => rw [hs] at h; simp at h
          | some sw =>
            obtain ⟨s, w2⟩ := sw
            rw [hs] at h
            simp only [] at h
            cases hr : restore_board cp w2.board with
            | none => rw [hr] at h; simp at h
            | some b3 =>
              rw [hr] at h
              simp only [] at h
              by_cases hbetter : s > bs
              · rw [if_pos hbetter] at h
                rcases ih _ _ _ _ _ _ h with h1 | h1
                · exact Or.inr (h1 ▸ List.mem_cons_self _ _)
                · exact Or.inr (List.mem_cons_of_mem _ h1)
              · rw [if_neg hbetter] at h
                rcases ih _ _ _ _ _ _ h with h1 | h1
                · exact Or.inl h1
                · exact Or.inr (List.mem_cons_of_mem _ h1)

/-- On a 64-cell board `best_legal_move` returns: -1 when the colour has no
legal move, and otherwise one of its legal moves, whatever the deadline does. -/
theorem best_legal_move_mem (clk : Nat → Int) (c depth al be : Int) (w : World)
    (hlen : w.board.length = 64) (moves : List Int) (hmoves : legal_moves w.board c = some moves) :
    ∃ r w1, best_legal_move clk c depth al be w = some (r, w1) ∧ SameGlobals w w1 ∧
      (moves = [] → r = -1) ∧ (moves ≠ [] → r ∈ moves) := by
  obtain ⟨r, w1, h, hg⟩ := best_legal_move_frame clk c depth al be w hlen
  refine ⟨r, w1, h, hg, ?_, ?_⟩
  · intro he
    subst he
    unfold best_legal_move at h
    rw [hmoves] at h
    simp at h
    exact h.1.symm
  · intro hne
    unfold best_legal_move at h
    rw [hmoves] at h
    simp only [] at h
    have hpos : ¬ ((moves.length : Int) ≤ 0) := by
      cases moves with
      | nil => exact absurd rfl hne
      | cons a l => simp only [List.length_cons]; push_cast; omega
    rw [if_neg hpos] at h
    rcases best_legal_move_loop_mem clk c depth be moves al _ _ w r w1 h with h1 | h1
    · cases moves with
      | nil => exact absurd rfl hne
      | cons a l => rw [h1]; exact List.mem_cons_self _ _
    · exact h1

theorem depths_from_append (d : Int) (n : Nat) (l : List Int) :
    (l ++ [d]) ++ depths_from (d + 1) n = l ++ depths_from d (n + 1) := by
  simp [depths_from]

/-- The driver loop with no worker: it returns, the returned move is the one
it was entered with or a legal move, nothing is sent, and when the deadline is
never reached the root search runs at every remaining depth below 10. -/
theorem driver_loop_sequential (clk : Nat → Int) (c : Int) (moves avail : List Int) (b : Board)
    (hlen : b.length = 64) (hmoves : legal_moves b c = some moves) (hne : moves ≠ []) :
    ∀ (n fuel : Nat) (depth bm md : Int) (ms : Master),
      depth + (n : Int) = 10 → n < fuel → ms.size - 1 ≤ 0 → ms.w.board = b →
      ∃ r md1 ms1, driver_loop clk c avail fuel depth bm md ms = some (r, md1, ms1) ∧
        SameGlobals ms.w ms1.w ∧ ms1.size = ms.size ∧ ms1.polls = ms.polls ∧
        ms1.sent = ms.sent ∧ (r = bm ∨ r ∈ moves) ∧
        (NeverUp clk ms.w → ms1.searched = ms.searched ++ depths_from depth n) := by
  intro n
  induction n with
  | zero =>
    intro fuel depth bm md ms hd hf _ _
    obtain ⟨f, rfl⟩ : ∃ f, fuel = f + 1 := ⟨fuel - 1, by omega⟩
    rw [driver_loop, if_neg (by push_cast at hd; omega)]
    exact ⟨bm, md, ms, rfl, ⟨rfl, rfl, rfl⟩, rfl, rfl, rfl, Or.inl rfl, fun _ => by simp [depths_from]⟩
  | succ n ih =>
    intro fuel depth bm md ms hd hf hsz hb
    obtain ⟨f, rfl⟩ : ∃ f, fuel = f + 1 := ⟨fuel - 1, by omega⟩
    rw [driver_loop, if_pos (by push_cast at hd; omega)]
    simp only []
    by_cases hup : (check_if_time_up clk ms.w).1 = true
    · rw [if_pos hup]
      refine ⟨bm, md, _, rfl, ⟨rfl, rfl, rfl⟩, rfl, rfl, rfl, Or.inl rfl, ?_⟩
      intro hn
      rw [(check_if_time_up_never clk ms.w hn).1] at hup
      exact absurd hup (by decide)
    · rw [if_neg hup, if_pos hsz]
      have hb2 : (check_if_time_up clk ms.w).2.board = b := hb
      obtain ⟨mv, w1, hbl, hg, -, hmem⟩ := best_legal_move_mem clk c depth (-999999) 999999
        (check_if_time_up clk ms.w).2 (by rw [hb2]; exact hlen) moves (by rw [hb2]; exact hmoves)
      rw [hbl]
      simp only []
      have hg0 : SameGlobals ms.w (check_if_time_up clk w1).2 :=
        ⟨hg.1, hg.2.1, hg.2.2⟩
      by_cases hup1 : (check_if_time_up clk w1).1 = false
      · rw [if_pos hup1]
        obtain ⟨r, md1, ms1, hr, hg1, hs1, hp1, hse1, hm1, hsr1⟩ :=
          ih f (depth + 1) mv depth
            { ms with w := (check_if_time_up clk w1).2, searched := ms.searched ++ [depth] }
            (by push_cast at hd ⊢; omega) (by omega) hsz (by rw [← hb]; exact hg0.1)
        refine ⟨r, md1, ms1, hr, ?_, hs1, hp1, hse1, ?_, ?_⟩
        · exact ⟨hg1.1.trans hg0.1, hg1.2.1.trans hg0.2.1, hg1.2.2.trans hg0.2.2⟩
        · rcases hm1 with h1 | h1
          · exact Or.inr (h1 ▸ hmem hne)
          · exact Or.inr h1
        · intro hn
          rw [hsr1 (NeverUp_of_same clk ms.w _ hg0 hn)]
          exact depths_from_append depth n ms.searched
      · rw [if_neg hup1]
        refine ⟨mv, md, _, rfl, hg0, rfl, rfl, rfl, Or.inr (hmem hne), ?_⟩
        intro hn
        have hn1 : NeverUp clk w1 := NeverUp_of_same clk ms.w w1 ⟨hg.1, hg.2.1, hg.2.2⟩ hn
        rw [(check_if_time_up_never clk w1 hn1).1] at hup1
        exact absurd rfl hup1


/-- C11 (fails for Black to move): on `pass_board` Black has no legal move
and White has one, yet `minimax` at depth 2 with Black to move returns 185,
the static evaluation of the unchanged board, where `minimax` at depth 1 with
White to move and the flag inverted returns 204: the code looks for the moves
of colour `(BLACK + 1) % 2 = 0`, finds none, and takes the position for
terminal. -/
theorem minimax_black_pass_diverges :
    legal_moves pass_board BLACK = some [] ∧ legal_moves pass_board WHITE = some [0] ∧
    (minimax frozen_clock SEARCH_FUEL 2 (-999999) 999999 false WHITE BLACK
      ⟨pass_board, 0, 1000, 0⟩).map Prod.fst = some 185 ∧
    (minimax frozen_clock SEARCH_FUEL 1 (-999999) 999999 true WHITE WHITE
      ⟨pass_board, 0, 1000, 0⟩).map Prod.fst = some 204 := by
  decide!

/-- C18 (fails with no worker): from `edge_board` with White to move, whose
legal moves are 37 and 39, the depth-1 search alone returns cell 39; when the
deadline passes at the first test inside the depth-2 search (the seventh
`clock()` call), after depth 1 completed in time, `minimax_strategy` returns
cell 37, the first legal move, which the interrupted depth-2 search handed
back. -/
theorem partial_depth_overwrites_best :
    legal_moves edge_board WHITE = some [37, 39] ∧
    (best_legal_move frozen_clock WHITE 1 (-999999) 999999 ⟨edge_board, 0, 5, 0⟩).map Prod.fst
      = some 39 ∧
    (minimax_strategy (late_clock 6) WHITE 5 ⟨⟨edge_board, 0, 0, 0⟩, 1, [], [], []⟩).map
      (fun r => (r.1, r.2.searched)) = some (37, [1, 2]) := by
  decide!

/-- C17 (fails for Black): from `reply_board` with Black to move, whose legal
moves are 18 and 19, `best_legal_move` at depth 2 returns cell 18, although
with White to reply the depth-1 value of cell 18 is 192 and that of cell 19 is
196: the replies are searched for colour `(BLACK + 1) % 2 = 0`, which has no
move, so both root moves score their static value 196 and the first is
kept. -/
theorem best_legal_move_black_reply :
    legal_moves reply_board BLACK = some [18, 19] ∧
    (best_legal_move frozen_clock BLACK 2 (-999999) 999999 ⟨reply_board, 0, 1000, 0⟩).map
      Prod.fst = some 18 ∧
    (make_temp_move 18 BLACK reply_board).bind
      (fun r => plain_minimax 1 false BLACK WHITE r.2) = some 192 ∧
    (make_temp_move 19 BLACK reply_board).bind
      (fun r => plain_minimax 1 false BLACK WHITE r.2) = some 196 := by
  decide!

/-- C16 (fails with a worker): White's first search from `after_19_board`
is cut by the deadline before the results of its three tasks are received and
returns cell 18, which is played; Black answers at cell 26; in the next search
the pending results are taken for those of the new tasks and cell 18, now
occupied, is returned, while White's legal moves are 20 and 34. -/
theorem stale_result_returned :
    ((gen_move stale_clock WHITE 2 ⟨⟨after_19_board, 0, 0, 0⟩, 2, [stale_batch], [], []⟩).bind
      fun r1 => (play_move 26 WHITE r1.2).bind
      fun m2 => (legal_moves m2.w.board WHITE).bind
      fun moves => (minimax_strategy stale_clock WHITE 2 m2).map
      fun r2 => (r1.1, decide (r1.2.polls = [stale_batch]), moves, r2.1)) =
    some (18, true, [20, 34], 18) := by
  decide!


theorem pass_legal_black : legal_moves pass_board BLACK = some [] := by
  decide!

theorem opening_counts_black :
    evaluate_counts opening_board BLACK ((BLACK + 1).tmod 2) = some ⟨2, 60, 0, 24, 0, 4⟩ := by
  decide!

theorem opening_legal_empty :
    legal_moves opening_board ((BLACK + 1).tmod 2) = some [18, 20, 29, 34, 43, 45] := by
  rw [legal_moves_eq _ (by decide),
    legalList_of_candidates opening_board (by decide) _ _ (by decide)
      [18, 19, 20, 26, 27, 28, 29, 34, 35, 36, 37, 43, 44, 45] (by decide) (by decide)
      (by decide!)]
  decide!

theorem opening_eval_black : evaluate_board_state opening_board BLACK = some (-192) := by
  rw [evaluate_board_state_of _ _ _ _ _ opening_counts_black opening_legal_black
    opening_legal_empty]
  decide!

/-- C13 (fails for root colour Black): on the opening board, where each side
has 2 pieces, none on the border, the scan of `evaluate_board_state(BLACK)`
runs with opponent colour `(BLACK + 1) % 2 = 0`, so its opponent counters
hold the 60 Empty cells, the 24 Empty border cells and the 4 Empty corners,
and the opponent's mobility is the move list of colour 0. -/
theorem evaluator_components_black :
    evaluate_counts opening_board BLACK ((BLACK + 1).tmod 2) = some ⟨2, 60, 0, 24, 0, 4⟩ ∧
    legal_moves opening_board ((BLACK + 1).tmod 2) = some [18, 20, 29, 34, 43, 45] ∧
    opening_board.count BLACK = 2 ∧ opening_board.count WHITE = 2 ∧
    opening_board.count EMPTY = 60 :=
  ⟨opening_counts_black, opening_legal_empty, by decide, by decide, by decide⟩

/-- C14 (fails for root colour Black): the opening board has 60 Empty cells,
yet `evaluate_board_state(BLACK)` returns -192, the value of the endgame
weights on its components (the phase is chosen from 64 - 2 - 60 = 2); the
opening weights on the same components give -231. -/
theorem evaluator_phase_black :
    opening_board.count EMPTY = 60 ∧
    evaluate_board_state opening_board BLACK = some (-192) ∧
    weighted_score (2 - 60) (0 - 24) (0 - 4) (4 - 6) (64 - 2 - 60) = -192 ∧
    weighted_score (2 - 60) (0 - 24) (0 - 4) (4 - 6) 60 = -231 :=
  ⟨by decide, opening_eval_black, by decide!, by decide!⟩

/-- C15: on a 64-cell board `evaluate_board_state` returns, from the piece,
edge, corner and mobility differences `p`, `e`, `c`, `m` of its scan and the
phase count `n` it computes, `trunc(p/10) + 5e + 25c + 3m` when `n > 42`,
`trunc(p/2) + 3e + 15c + 2m` when `21 < n ≤ 42`, and
`2p + trunc(3e/2) + 10c + trunc(3m/10)` otherwise, each quotient truncated
toward zero before the sum; the piece weight 0.1, 0.5, 2 increases and the
edge (5, 3, 1.5), corner (25, 15, 10) and mobility (3, 2, 0.3) weights
decrease from opening to endgame. -/
theorem evaluate_phase_formula (b : Board) (hlen : b.length = 64) (r : Int) :
    (∃ cs my_moves opp_moves,
      evaluate_counts b r ((r + 1).tmod 2) = some cs ∧ legal_moves b r = some my_moves ∧
      legal_moves b ((r + 1).tmod 2) = some opp_moves ∧
      evaluate_board_state b r = some
        (if 64 - cs.my_player_pieces - cs.opponent_pieces > 42 then
          (cs.my_player_pieces - cs.opponent_pieces).tdiv 10 +
            (cs.my_player_edges - cs.opponent_edges) * 5 +
            (cs.my_player_corners - cs.opponent_corners) * 25 +
            ((my_moves.length : Int) - (opp_moves.length : Int)) * 3
        else if 64 - cs.my_player_pieces - cs.opponent_pieces > 21 then
          (cs.my_player_pieces - cs.opponent_pieces).tdiv 2 +
            (cs.my_player_edges - cs.opponent_edges) * 3 +
            (cs.my_player_corners - cs.opponent_corners) * 15 +
            ((my_moves.length : Int) - (opp_moves.length : Int)) * 2
        else
          (cs.my_player_pieces - cs.opponent_pieces) * 2 +
            ((cs.my_player_edges - cs.opponent_edges) * 3).tdiv 2 +
            (cs.my_player_corners - cs.opponent_corners) * 10 +
            (((my_moves.length : Int) - (opp_moves.length : Int)) * 3).tdiv 10)) ∧
    (D_0_1.val < D_0_5.val ∧ D_0_5.val < 2) ∧ ((3 : ℚ) < 5 ∧ D_1_5.val < 3) ∧
    ((15 : ℚ) < 25 ∧ (10 : ℚ) < 15) ∧ ((2 : ℚ) < 3 ∧ D_0_3.val < 2) := by
  refine ⟨?_, weights_trend⟩
  obtain ⟨cs, hcs, h1, h2, h3, h4, h5, h6⟩ := evaluate_counts_total b hlen r ((r + 1).tmod 2)
  have l1 := legalList_length b r (if r = WHITE then BLACK else WHITE)
  have l2 := legalList_length b ((r + 1).tmod 2)
    (if (r + 1).tmod 2 = WHITE then BLACK else WHITE)
  refine ⟨cs, _, _, hcs, legal_moves_eq b hlen r, legal_moves_eq b hlen ((r + 1).tmod 2), ?_⟩
  unfold evaluate_board_state
  simp only []
  rw [hcs, legal_moves_eq b hlen r, legal_moves_eq b hlen ((r + 1).tmod 2)]
  simp only []
  rw [weighted_score_eq _ _ _ _ _ (by omega) (by omega) (by omega)]
  rfl

theorem evaluate_phase_formula_witness :
    opening_board.length = 64 ∧
    ((∃ cs my_moves opp_moves,
      evaluate_counts opening_board WHITE ((WHITE + 1).tmod 2) = some cs ∧
      legal_moves opening_board WHITE = some my_moves ∧
      legal_moves opening_board ((WHITE + 1).tmod 2) = some opp_moves ∧
      evaluate_board_state opening_board WHITE = some
        (if 64 - cs.my_player_pieces - cs.opponent_pieces > 42 then
          (cs.my_player_pieces - cs.opponent_pieces).tdiv 10 +
            (cs.my_player_edges - cs.opponent_edges) * 5 +
            (cs.my_player_corners - cs.opponent_corners) * 25 +
            ((my_moves.length : Int) - (opp_moves.length : Int)) * 3
        else if 64 - cs.my_player_pieces - cs.opponent_pieces > 21 then
          (cs.my_player_pieces - cs.opponent_pieces).tdiv 2 +
            (cs.my_player_edges - cs.opponent_edges) * 3 +
            (cs.my_player_corners - cs.opponent_corners) * 15 +
            ((my_moves.length : Int) - (opp_moves.length : Int)) * 2
        else
          (cs.my_player_pieces - cs.opponent_pieces) * 2 +
            ((cs.my_player_edges - cs.opponent_edges) * 3).tdiv 2 +
            (cs.my_player_corners - cs.opponent_corners) * 10 +
            (((my_moves.length : Int) - (opp_moves.length : Int)) * 3).tdiv 10)) ∧
    (D_0_1.val < D_0_5.val ∧ D_0_5.val < 2) ∧ ((3 : ℚ) < 5 ∧ D_1_5.val < 3) ∧
    ((15 : ℚ) < 25 ∧ (10 : ℚ) < 15) ∧ ((2 : ℚ) < 3 ∧ D_0_3.val < 2)) :=
  ⟨by decide, evaluate_phase_formula opening_board (by decide) WHITE⟩

theorem idle_round_none (size : Int) (h : size ≤ 1) : idle_round size = [] := by
  have : (size - 1).toNat = 0 := by omega
  simp [idle_round, worker_ranks, this]

theorem driver_loop_searched (clk : Nat → Int) (c : Int) (avail : List Int) :
    ∀ (fuel : Nat) (depth bm md : Int) (ms : Master) (r md1 : Int) (ms1 : Master),
      1 ≤ depth → depth ≤ 10 →
      driver_loop clk c avail fuel depth bm md ms = some (r, md1, ms1) →
      ∃ k : Nat, depth + (k : Int) ≤ 10 ∧ ms1.searched = ms.searched ++ depths_from depth k := by
  intro fuel
  induction fuel with
  | zero => intro depth bm md ms r md1 ms1 _ _ h; simp [driver_loop] at h
  | succ f ih =>
    intro depth bm md ms r md1 ms1 h1 h10 h
    rw [driver_loop] at h
    by_cases hd : depth < 10
    · rw [if_pos hd] at h
      simp only [] at h
      by_cases hup : (check_if_time_up clk ms.w).1 = true
      · rw [if_pos hup] at h
        simp only [Option.some.injEq, Prod.mk.injEq] at h
        refine ⟨0, by simpa using h10, ?_⟩
        rw [← h.2.2]
        simp [depths_from]
      · rw [if_neg hup] at h
        by_cases hsz : ms.size - 1 ≤ 0
        · rw [if_pos hsz] at h
          cases hb : best_legal_move clk c depth (-999999) 999999 (check_if_time_up clk ms.w).2 with
          | none => rw [hb] at h; simp at h
          | some mw =>
            obtain ⟨mv, w1⟩ := mw
            rw [hb] at h
            simp only [] at h
            by_cases hup1 : (check_if_time_up clk w1).1 = false
            · rw [if_pos hup1] at h
              obtain ⟨k, hk, hs⟩ := ih _ _ _ _ _ _ _ (by omega) (by omega) h
              refine ⟨k + 1, by push_cast; omega, ?_⟩
              rw [hs]
              exact depths_from_append depth k ms.searched
            · rw [if_neg hup1] at h
              simp only [Option.some.injEq, Prod.mk.injEq] at h
              refine ⟨1, by push_cast; omega, ?_⟩
              rw [← h.2.2]
              simp [depths_from]
        · rw [if_neg hsz] at h
          cases hdl : dispatch_loop avail c depth (-999999) 999999
              (((avail.length : Int) + (ms.size - 1) - 1).tdiv (ms.size - 1))
              (worker_ranks (ms.size - 1)) 0 ms.sent with
          | none => rw [hdl] at h; simp at h
          | some ds =>
            obtain ⟨nsent, sent1⟩ := ds
            rw [hdl] at h
            simp only [] at h
            cases hcl : collect_loop clk (ms.size - 1) nsent ms.polls
                ⟨-1, -999999, -999999, 0, sent1⟩ (check_if_time_up clk ms.w).2 with
            | none => rw [hcl] at h; simp at h
            | some cr =>
              obtain ⟨s, w1, polls1⟩ := cr
              rw [hcl] at h
              simp only [] at h
              by_cases hgo : (check_if_time_up clk w1).1 = false ∧ s.curr_best_move ≠ -1
              · rw [if_pos hgo] at h
                obtain ⟨k, hk, hs⟩ := ih _ _ _ _ _ _ _ (by omega) (by omega) h
                refine ⟨k + 1, by push_cast; omega, ?_⟩
                rw [hs]
                exact depths_from_append depth k ms.searched
              · rw [if_neg hgo] at h
                simp only [Option.some.injEq, Prod.mk.injEq] at h
                refine ⟨1, by push_cast; omega, ?_⟩
                rw [← h.2.2]
                simp [depths_from]
    · rw [if_neg hd] at h
      simp only [Option.some.injEq, Prod.mk.injEq] at h
      refine ⟨0, by simpa using h10, ?_⟩
      rw [← h.2.2]
      simp [depths_from]

/-- With no worker and at least one legal move, `minimax_strategy` returns one
of the legal moves of the colour, whatever the deadline does; it leaves the
board as it was and sends nothing; and when the deadline is never reached it
runs the root search at the depths 1 to 9, in this order. -/
theorem minimax_strategy_sequential (clk : Nat → Int) (c time : Int) (ms : Master)
    (hlen : ms.w.board.length = 64) (moves : List Int)
    (hmoves : legal_moves ms.w.board c = some moves) (hne : moves ≠ []) (hsz : ms.size ≤ 1) :
    ∃ r ms1, minimax_strategy clk c time ms = some (r, ms1) ∧ r ∈ moves ∧
      ms1.w.board = ms.w.board ∧ ms1.sent = ms.sent ∧
      (NeverUp clk ⟨ms.w.board, clk ms.w.clock_calls, time, 0⟩ →
        ms1.searched = ms.searched ++ [1, 2, 3, 4, 5, 6, 7, 8, 9]) := by
  obtain ⟨a, l, rfl⟩ : ∃ a l, moves = a :: l := by
    cases moves with
    | nil => exact absurd rfl hne
    | cons a l => exact ⟨a, l, rfl⟩
  unfold minimax_strategy
  rw [hmoves]
  simp only []
  rw [if_neg (by simp only [List.length_cons]; push_cast; omega)]
  have hread : readCell (a :: l) 0 = some a := by simp [readCell]
  rw [hread]
  simp only []
  obtain ⟨r, md1, ms1, hr, hg, hs1, -, hse1, hm1, hsr1⟩ :=
    driver_loop_sequential clk c (a :: l) (a :: l) ms.w.board hlen hmoves hne 9 DRIVER_FUEL 1 a 0
      { ms with w := { ms.w with start := clk ms.w.clock_calls, time_limit := time,
                                 clock_calls := ms.w.clock_calls + 1 } }
      (by norm_num) (by decide) (by simpa using hsz) rfl
  rw [hr]
  simp only []
  refine ⟨r, _, rfl, ?_, hg.1, ?_, ?_⟩
  · rcases hm1 with h | h
    · rw [h]; exact List.mem_cons_self _ _
    · exact h
  · simp only []
    rw [idle_round_none ms1.size (by rw [hs1]; exact hsz), List.append_nil]
    exact hse1
  · intro hn
    simp only []
    rw [hsr1 (fun n => hn n)]
    rfl


/-- C19 as stated fails: from the opening position with Black to move, no
worker and a clock that never advances, the depths at which the driver runs
the root search are 1 to 9; depth 10 is not among them. -/
theorem driver_stops_before_depth_10 :
    ∃ r ms1, minimax_strategy frozen_clock BLACK 1000
        ⟨⟨opening_board, 0, 0, 0⟩, 1, [], [], []⟩ = some (r, ms1) ∧
      ms1.searched = [1, 2, 3, 4, 5, 6, 7, 8, 9] ∧ (10 : Int) ∉ ms1.searched := by
  obtain ⟨r, ms1, h, -, -, -, hs⟩ :=
    minimax_strategy_sequential frozen_clock BLACK 1000 ⟨⟨opening_board, 0, 0, 0⟩, 1, [], [], []⟩
      (by decide) [19, 26, 37, 44] opening_legal_black (by decide) (by decide)
  have hs1 := hs (fun n => by simp [frozen_clock])
  refine ⟨r, ms1, h, hs1, ?_⟩
  rw [hs1]
  decide

/-- C20: when the colour has no legal move, `minimax_strategy` returns -1 and
leaves the whole state of the master as it was: `start` and `time_limit` are
not assigned and `clock()` is not called, no search is run, and no message is
sent. -/
theorem minimax_strategy_pass (clk : Nat → Int) (c time : Int) (ms : Master)
    (h : legal_moves ms.w.board c = some []) :
    minimax_strategy clk c time ms = some (-1, ms) := by
  unfold minimax_strategy
  rw [h]
  rfl

theorem minimax_strategy_pass_witness :
    legal_moves pass_board BLACK = some [] ∧
    minimax_strategy frozen_clock BLACK 5 ⟨⟨pass_board, 0, 0, 0⟩, 3, [], [], []⟩ =
      some (-1, ⟨⟨pass_board, 0, 0, 0⟩, 3, [], [], []⟩) :=
  ⟨pass_legal_black,
    minimax_strategy_pass frozen_clock BLACK 5 ⟨⟨pass_board, 0, 0, 0⟩, 3, [], [], []⟩
      pass_legal_black⟩

theorem best_loop_argmax (clk : Nat → Int) (c depth : Int) (b : Board) (hlen : b.length = 64)
    (hd : 1 ≤ depth ∧ depth ≤ 10) :
    ∀ (rest pre : List Int) (al bm bs : Int) (w : World),
      w.board = b → NeverUp clk w → (∀ m ∈ rest, 0 ≤ m ∧ m < 64) →
      ((pre = [] ∧ bs = -9999999 ∧ al = -999999) ∨
        (bs = al ∧ -2500 ≤ al ∧ al ≤ 2500 ∧
          EarliestBest (root_move_value c (depth - 1).toNat b) pre bm al)) →
      ∃ r w1 al1 bs1, best_legal_move_loop clk c depth 999999 rest al bm bs w = some (r, w1) ∧
        ((pre ++ rest = [] ∧ bs1 = -9999999 ∧ al1 = -999999) ∨
          (bs1 = al1 ∧ -2500 ≤ al1 ∧ al1 ≤ 2500 ∧
            EarliestBest (root_move_value c (depth - 1).toNat b) (pre ++ rest) r al1)) := by
  intro rest
  induction rest with
  | nil =>
    intro pre al bm bs w _ _ _ hinv
    refine ⟨bm, w, al, bs, rfl, ?_⟩
    simpa using hinv
  | cons m rest ih =>
    intro pre al bm bs w hb hn hr hinv
    obtain ⟨h0, h1⟩ := hr m (List.mem_cons_self _ _)
    obtain ⟨hup, hg2⟩ := check_if_time_up_never clk w hn
    have hb2 : (check_if_time_up clk w).2.board = b := hb
    have hlen2 : (check_if_time_up clk w).2.board.length = 64 := by rw [hb2]; exact hlen
    obtain ⟨b1, hb1, hlen1⟩ := make_temp_move_total (check_if_time_up clk w).2.board hlen2 m c h0 h1
    have hal : al < 999999 := by
      rcases hinv with ⟨-, -, h⟩ | ⟨-, -, h, -⟩ <;> omega
    have hn2 : NeverUp clk { (check_if_time_up clk w).2 with board := b1 } :=
      NeverUp_of_same clk w _ ⟨rfl, rfl, rfl⟩ hn |> fun h => by
        intro n; exact h n
    obtain ⟨s, w2, V, hs, hg, hV, hVb, -, hrel⟩ := minimax_rel clk SEARCH_FUEL (depth - 1) al 999999
      false c ((c + 1).tmod 2) { (check_if_time_up clk w).2 with board := b1 } hlen1 hn2
      (by omega) (by omega) (by simp only [SEARCH_FUEL]; push_cast; omega) hal
    have hres : restore_board (check_if_time_up clk w).2.board w2.board =
        some (check_if_time_up clk w).2.board :=
      restore_board_eq _ w2.board hlen2 (by rw [hg.1]; exact hlen1)
    have hval : root_move_value c (depth - 1).toNat b m = some V := by
      unfold root_move_value
      rw [← hb2, hb1]
      exact hV
    rw [best_legal_move_loop]
    simp only []
    rw [if_neg (by rw [hup]; decide), copy_curr_board_eq _ hlen2]
    simp only [hb1, hs, hres]
    have hb3 : ({ w2 with board := (check_if_time_up clk w).2.board } : World).board = b := hb2
    have hn3 : NeverUp clk { w2 with board := (check_if_time_up clk w).2.board } := by
      intro n
      have := hn n
      have e1 : w2.start = w.start := hg.2.1
      have e2 : w2.time_limit = w.time_limit := hg.2.2
      simpa [e1, e2] using this
    have hr' : ∀ x ∈ rest, 0 ≤ x ∧ x < 64 := fun x hx => hr x (List.mem_cons_of_mem _ hx)
    have happ : pre ++ m :: rest = (pre ++ [m]) ++ rest := by simp
    rw [happ]
    rcases hinv with ⟨hpre, hbs, hal0⟩ | ⟨hbs, hlo, hhi, i, hi, hvi, hall, hbefore⟩
    · -- first move of the loop
      subst hpre hbs hal0
      have hsV : s = V := hrel.1 ⟨by omega, by omega⟩
      subst hsV
      rw [if_pos (by omega), if_pos (by omega)]
      apply ih [m] s m s _ hb3 hn3 hr'
      refine Or.inr ⟨rfl, hVb.1, hVb.2, 0, by simp, hval, ?_, ?_⟩
      · intro x hx
        simp only [List.nil_append, List.mem_singleton] at hx
        subst hx
        exact ⟨s, hval, le_refl _⟩
      · intro j x hj
        omega
    · rw [hbs]
      by_cases hbetter : s > al
      · rw [if_pos hbetter, if_pos hbetter]
        have hVal : al < V := by
          by_contra hle
          have := hrel.2.1 (by omega)
          omega
        have hsV : s = V := hrel.1 ⟨hVal, by omega⟩
        subst hsV
        apply ih (pre ++ [m]) s m s _ hb3 hn3 hr'
        refine Or.inr ⟨rfl, hVb.1, hVb.2, pre.length, by simp, hval, ?_, ?_⟩
        · intro x hx
          rcases List.mem_append.1 hx with hx | hx
          · obtain ⟨u, hu, hule⟩ := hall x hx
            exact ⟨u, hu, by omega⟩
          · simp only [List.mem_singleton] at hx
            subst hx
            exact ⟨s, hval, le_refl _⟩
        · intro j x hj hjx
          rw [List.getElem?_append_left hj] at hjx
          obtain ⟨u, hu, hule⟩ := hall x (List.getElem?_mem hjx)
          exact ⟨u, hu, by omega⟩
      · rw [if_neg hbetter]
        have hVal : V ≤ al := by
          by_contra hgt
          have := hrel.1 ⟨by omega, by omega⟩
          omega
        have hilt : i < pre.length := by
          by_contra hge
          rw [List.getElem?_eq_none (by omega)] at hi
          exact absurd hi (by simp)
        apply ih (pre ++ [m]) al bm al _ hb3 hn3 hr'
        refine Or.inr ⟨rfl, hlo, hhi, i, ?_, hvi, ?_, ?_⟩
        · rw [List.getElem?_append_left hilt]; exact hi
        · intro x hx
          rcases List.mem_append.1 hx with hx | hx
          · exact hall x hx
          · simp only [List.mem_singleton] at hx
            subst hx
            exact ⟨V, hval, hVal⟩
        · intro j x hj hjx
          rw [List.getElem?_append_left (by omega)] at hjx
          exact hbefore j x hj hjx

/-- With the deadline never reached and the full window, `best_legal_move`
at a depth in 1..10 returns the earliest legal move whose value is maximal,
the value of a move being the plain minimax value, one ply shallower and
minimizing, of the position after it with colour `(c + 1) % 2` to move. -/
theorem best_legal_move_argmax (clk : Nat → Int) (c depth : Int) (w : World)
    (hlen : w.board.length = 64) (hn : NeverUp clk w) (hd : 1 ≤ depth ∧ depth ≤ 10)
    (moves : List Int) (hmoves : legal_moves w.board c = some moves) (hne : moves ≠ []) :
    ∃ r w1 v, best_legal_move clk c depth (-999999) 999999 w = some (r, w1) ∧
      EarliestBest (root_move_value c (depth - 1).toNat w.board) moves r v := by
  have hrange : ∀ m ∈ moves, 0 ≤ m ∧ m < 64 := by
    intro m hm
    rw [legal_moves_eq _ hlen c] at hmoves
    injection hmoves with hmoves
    rw [← hmoves] at hm
    exact legalList_range _ _ _ m hm
  obtain ⟨r, w1, al1, bs1, h, hfin⟩ := best_loop_argmax clk c depth w.board hlen hd moves []
    (-999999) (moves.headD 0) (-9999999) w rfl hn hrange (Or.inl ⟨rfl, rfl, rfl⟩)
  have hpos : ¬ ((moves.length : Int) ≤ 0) := by
    cases moves with
    | nil => exact absurd rfl hne
    | cons a l => simp only [List.length_cons]; push_cast; omega
  refine ⟨r, w1, al1, ?_, ?_⟩
  · unfold best_legal_move
    rw [hmoves]
    simp only []
    rw [if_neg hpos]
    exact h
  · rcases hfin with ⟨he, -, -⟩ | ⟨-, -, -, hbest⟩
    · exact absurd (by simpa using he) hne
    · simpa using hbest

theorem refresh_alpha_spec (task : MoveTask) (probe : Option Int) :
    (refresh_alpha task probe).move = task.move ∧
    (refresh_alpha task probe).player_colour = task.player_colour ∧
    (refresh_alpha task probe).depth = task.depth ∧
    (refresh_alpha task probe).beta = task.beta ∧
    (refresh_alpha task probe).alpha =
      (match probe with
       | some new_alpha => max task.alpha new_alpha
       | none => task.alpha) ∧
    task.alpha ≤ (refresh_alpha task probe).alpha := by
  cases probe with
  | none => simp [refresh_alpha]
  | some u =>
    simp only [refresh_alpha]
    by_cases h : u > task.alpha
    · rw [if_pos h]
      refine ⟨rfl, rfl, rfl, rfl, ?_, ?_⟩
      · show u = max task.alpha u
        rw [max_eq_right (le_of_lt h)]
      · show task.alpha ≤ u
        omega
    · rw [if_neg h]
      refine ⟨rfl, rfl, rfl, rfl, ?_, le_refl _⟩
      show task.alpha = max task.alpha u
      rw [max_eq_left (by omega)]

theorem refreshed_tasks_length (tasks : List MoveTask) :
    ∀ probes, (refreshed_tasks tasks probes).length = tasks.length := by
  induction tasks with
  | nil => intro _; rfl
  | cons t ts ih => intro probes; simp [refreshed_tasks, ih]

theorem worker_eval_loop_spec (clk : Nat → Int) :
    ∀ (tasks : List MoveTask) (w : World) (probes : List (Option Int))
      (results : List MoveResult) (evaluated : List (MoveTask × Board)),
      w.board.length = 64 → (∀ t ∈ tasks, 0 ≤ t.move ∧ t.move < 64) →
      ∃ rs w1, worker_eval_loop clk tasks w probes results evaluated =
          some (results ++ rs,
            evaluated ++ (refreshed_tasks tasks probes).map (fun t => (t, w.board)),
            w1, probes.drop tasks.length) ∧
        SameGlobals w w1 ∧
        List.Forall₂ (ResultOf clk w) (refreshed_tasks tasks probes) rs := by
  intro tasks
  induction tasks with
  | nil =>
    intro w probes results evaluated _ _
    exact ⟨[], w, by simp [worker_eval_loop, refreshed_tasks], ⟨rfl, rfl, rfl⟩, List.Forall₂.nil⟩
  | cons t ts ih =>
    intro w probes results evaluated hlen hr
    obtain ⟨hm0, hm1⟩ := hr t (List.mem_cons_self _ _)
    have hsp := refresh_alpha_spec t (probes.headD none)
    obtain ⟨score, w1, he, hg⟩ := evaluate_moves_frame clk (refresh_alpha t (probes.headD none)).move
      (refresh_alpha t (probes.headD none)).player_colour
      (refresh_alpha t (probes.headD none)).depth (refresh_alpha t (probes.headD none)).alpha
      (refresh_alpha t (probes.headD none)).beta w hlen (by rw [hsp.1]; exact hm0)
      (by rw [hsp.1]; exact hm1)
    obtain ⟨rs, w2, hl, hg2, hall⟩ := ih w1 probes.tail
      (results ++ [⟨(refresh_alpha t (probes.headD none)).move, score⟩])
      (evaluated ++ [(refresh_alpha t (probes.headD none), w.board)])
      (by rw [hg.1]; exact hlen) (fun x hx => hr x (List.mem_cons_of_mem _ hx))
    refine ⟨⟨(refresh_alpha t (probes.headD none)).move, score⟩ :: rs, w2, ?_, ?_, ?_⟩
    · rw [worker_eval_loop]
      simp only [he]
      rw [hl, hg.1]
      simp [refreshed_tasks, List.drop_succ_cons]
    · exact ⟨hg2.1.trans hg.1, hg2.2.1.trans hg.2.1, hg2.2.2.trans hg.2.2⟩
    · refine List.Forall₂.cons ⟨rfl, w, w1, ⟨rfl, rfl, rfl⟩, he⟩ ?_
      refine List.Forall₂.imp ?_ hall
      rintro a b ⟨h1, wi, wj, hgi, hev⟩
      exact ⟨h1, wi, wj, ⟨hgi.1.trans hg.1, hgi.2.1.trans hg.2.1, hgi.2.2.trans hg.2.2⟩, hev⟩


theorem refreshed_tasks_get (tasks : List MoveTask) :
    ∀ (probes : List (Option Int)) (i : Nat),
      (refreshed_tasks tasks probes)[i]? =
        (tasks[i]?).map fun t => refresh_alpha t ((probes[i]?).getD none) := by
  induction tasks with
  | nil => intro probes i; simp [refreshed_tasks]
  | cons t ts ih =>
    intro probes i
    cases i with
    | zero => cases probes <;> simp [refreshed_tasks]
    | succ k =>
      simp only [refreshed_tasks, List.getElem?_cons_succ]
      rw [ih]
      cases probes <;> simp

/-- A run round of a worker with a positive batch size: it takes the first
`n` tasks of its queue, evaluates each on its own board with the refreshed
alpha, and sends the count and the results. -/
theorem worker_step_run (clk : Nat → Int) (wk : Worker) (n command : Int)
    (sizes commands : List Int) (hs : wk.batch_sizes = n :: sizes)
    (hc : wk.commands = command :: commands) (hcmd : command ≠ -1) (hn : 0 < n)
    (hq : n.toNat ≤ wk.task_queue.length) (hlen : wk.w.board.length = 64)
    (hr : ∀ t ∈ wk.task_queue.take n.toNat, 0 ≤ t.move ∧ t.move < 64) :
    ∃ rs w1, worker_step clk wk = some
        { wk with
          batch_sizes := sizes
          commands := commands
          w := w1
          task_queue := wk.task_queue.drop n.toNat
          alpha_probes := wk.alpha_probes.drop n.toNat
          sent := wk.sent ++ [WorkerMsg.count n] ++ rs.map WorkerMsg.result
          evaluated := wk.evaluated ++
            (refreshed_tasks (wk.task_queue.take n.toNat) wk.alpha_probes).map
              (fun t => (t, wk.w.board)) } ∧
      SameGlobals wk.w w1 ∧ (rs.length : Int) = n ∧
      List.Forall₂ (ResultOf clk wk.w)
        (refreshed_tasks (wk.task_queue.take n.toNat) wk.alpha_probes) rs := by
  obtain ⟨rs, w1, hl, hg, hall⟩ := worker_eval_loop_spec clk (wk.task_queue.take n.toNat) wk.w
    wk.alpha_probes [] [] hlen hr
  have hlen_rs : rs.length = n.toNat := by
    rw [← hall.length_eq, refreshed_tasks_length, List.length_take]
    omega
  refine ⟨rs, w1, ?_, hg, by omega, hall⟩
  unfold worker_step
  rw [hs, hc]
  simp only []
  rw [if_neg hcmd, if_neg (by omega), if_neg (by omega), hl]
  simp only [List.nil_append, List.length_take]
  have e1 : min n.toNat wk.task_queue.length = n.toNat := by omega
  have e2 : ((rs.length : Nat) : Int) = n := by omega
  rw [e1, e2]

/-- C27: in a run round with a positive batch size the task passed to
`evaluate_moves` for the `i`-th received task has the move, colour, depth and
beta of that task, and as alpha the larger of the dispatched alpha and the
update value when probe `i` finds an update pending, the dispatched alpha
otherwise; the alpha passed is never below the dispatched one. -/
theorem worker_alpha_refresh (clk : Nat → Int) (wk : Worker) (n command : Int)
    (sizes commands : List Int) (hs : wk.batch_sizes = n :: sizes)
    (hc : wk.commands = command :: commands) (hcmd : command ≠ -1) (hn : 0 < n)
    (hq : n.toNat ≤ wk.task_queue.length) (hlen : wk.w.board.length = 64)
    (hr : ∀ t ∈ wk.task_queue.take n.toNat, 0 ≤ t.move ∧ t.move < 64) :
    ∃ wk1 passed, worker_step clk wk = some wk1 ∧ wk1.evaluated = wk.evaluated ++ passed ∧
      (passed.length : Int) = n ∧
      ∀ (i : Nat) (t : MoveTask), (i : Int) < n → wk.task_queue[i]? = some t →
        ∃ t1, passed[i]? = some (t1, wk.w.board) ∧ t1.move = t.move ∧
          t1.player_colour = t.player_colour ∧ t1.depth = t.depth ∧ t1.beta = t.beta ∧
          t1.alpha =
            (match (wk.alpha_probes[i]?).getD none with
             | some new_alpha => max t.alpha new_alpha
             | none => t.alpha) ∧
          t.alpha ≤ t1.alpha := by
  obtain ⟨rs, w1, h, -, -, -⟩ := worker_step_run clk wk n command sizes commands hs hc hcmd hn hq
    hlen hr
  refine ⟨_, _, h, rfl, ?_, ?_⟩
  · rw [List.length_map, refreshed_tasks_length, List.length_take]
    omega
  · intro i t hi ht
    have hti : (wk.task_queue.take n.toNat)[i]? = some t := by
      rw [List.getElem?_take_of_lt (by omega)]
      exact ht
    have hsp := refresh_alpha_spec t ((wk.alpha_probes[i]?).getD none)
    refine ⟨refresh_alpha t ((wk.alpha_probes[i]?).getD none), ?_, hsp.1, hsp.2.1, hsp.2.2.1,
      hsp.2.2.2.1, hsp.2.2.2.2.1, hsp.2.2.2.2.2⟩
    rw [List.getElem?_map, refreshed_tasks_get, hti]
    rfl

theorem worker_alpha_refresh_witness :
    (fresh_worker [2] [0] [⟨18, 2, 1, -999999, 999999⟩, ⟨20, 2, 1, -999999, 999999⟩]
      [none, some 5]).batch_sizes = [2] ∧
    (fresh_worker [2] [0] [⟨18, 2, 1, -999999, 999999⟩, ⟨20, 2, 1, -999999, 999999⟩]
      [none, some 5]).commands = [0] ∧ (0 : Int) ≠ -1 ∧ (0 : Int) < 2 ∧
    ∃ wk1 passed, worker_step ticking_clock
        (fresh_worker [2] [0] [⟨18, 2, 1, -999999, 999999⟩, ⟨20, 2, 1, -999999, 999999⟩]
          [none, some 5]) = some wk1 ∧
      wk1.evaluated = [] ++ passed ∧ (passed.length : Int) = 2 ∧
      ∀ (i : Nat) (t : MoveTask), (i : Int) < 2 →
        ([⟨18, 2, 1, -999999, 999999⟩, ⟨20, 2, 1, -999999, 999999⟩] : List MoveTask)[i]? =
          some t →
        ∃ t1, passed[i]? = some (t1, opening_board) ∧ t1.move = t.move ∧
          t1.player_colour = t.player_colour ∧ t1.depth = t.depth ∧ t1.beta = t.beta ∧
          t1.alpha =
            (match (([none, some 5] : List (Option Int))[i]?).getD none with
             | some new_alpha => max t.alpha new_alpha
             | none => t.alpha) ∧
          t.alpha ≤ t1.alpha :=
  ⟨rfl, rfl, by decide, by decide,
    worker_alpha_refresh ticking_clock
      (fresh_worker [2] [0] [⟨18, 2, 1, -999999, 999999⟩, ⟨20, 2, 1, -999999, 999999⟩]
        [none, some 5]) 2 0 [] [] rfl rfl (by decide) (by decide) (by decide) (by decide)
      (by decide)⟩

/-- C28: a run round with batch size `n > 0` takes exactly the first `n`
tasks pending on the task channel and sends the count `n` followed by `n`
results; the `i`-th result carries the move of the `i`-th task and the score
`evaluate_moves` returns, on the worker's globals, for that task's move,
colour, depth, refreshed alpha and beta; the worker keeps running. -/
theorem worker_batch_results (clk : Nat → Int) (wk : Worker) (n command : Int)
    (sizes commands : List Int) (hs : wk.batch_sizes = n :: sizes)
    (hc : wk.commands = command :: commands) (hcmd : command ≠ -1) (hn : 0 < n)
    (hq : n.toNat ≤ wk.task_queue.length) (hlen : wk.w.board.length = 64)
    (hr : ∀ t ∈ wk.task_queue.take n.toNat, 0 ≤ t.move ∧ t.move < 64) :
    ∃ wk1 rs, worker_step clk wk = some wk1 ∧
      wk1.sent = wk.sent ++ WorkerMsg.count n :: rs.map WorkerMsg.result ∧
      (rs.length : Int) = n ∧ wk1.task_queue = wk.task_queue.drop n.toNat ∧
      wk1.running = wk.running ∧ wk1.w.board = wk.w.board ∧
      List.Forall₂ (ResultOf clk wk.w)
        (refreshed_tasks (wk.task_queue.take n.toNat) wk.alpha_probes) rs := by
  obtain ⟨rs, w1, h, hg, hlen_rs, hall⟩ := worker_step_run clk wk n command sizes commands hs hc
    hcmd hn hq hlen hr
  exact ⟨_, rs, h, by simp, hlen_rs, rfl, rfl, hg.1, hall⟩

theorem worker_batch_results_witness :
    (fresh_worker [1] [0] [⟨0, 2, 1, -999999, 999999⟩] []).batch_sizes = [1] ∧
    (fresh_worker [1] [0] [⟨0, 2, 1, -999999, 999999⟩] []).commands = [0] ∧
    (0 : Int) ≠ -1 ∧ (0 : Int) < 1 ∧
    ∃ wk1 rs, worker_step ticking_clock (fresh_worker [1] [0] [⟨0, 2, 1, -999999, 999999⟩] []) =
        some wk1 ∧
      wk1.sent = [] ++ WorkerMsg.count 1 :: rs.map WorkerMsg.result ∧
      (rs.length : Int) = 1 ∧
      wk1.task_queue = ([⟨0, 2, 1, -999999, 999999⟩] : List MoveTask).drop (1 : Int).toNat ∧
      wk1.running = 1 ∧ wk1.w.board = opening_board ∧
      List.Forall₂ (ResultOf ticking_clock ⟨opening_board, 0, 0, 0⟩)
        (refreshed_tasks (([⟨0, 2, 1, -999999, 999999⟩] : List MoveTask).take (1 : Int).toNat)
          []) rs :=
  ⟨rfl, rfl, by decide, by decide,
    worker_batch_results ticking_clock (fresh_worker [1] [0] [⟨0, 2, 1, -999999, 999999⟩] [])
      1 0 [] [] rfl rfl (by decide) (by decide) (by decide) (by decide) (by decide)⟩

/-- C29 (amended): a round with batch size 0 (or below) and a command other
than terminate is a no-op: the worker consumes the two integers, sends
nothing, evaluates nothing, and is still running with its globals and pending
tasks as they were. -/
theorem worker_idle_round (clk : Nat → Int) (wk : Worker) (n command : Int)
    (sizes commands : List Int) (hs : wk.batch_sizes = n :: sizes)
    (hc : wk.commands = command :: commands) (hcmd : command ≠ -1) (hn : n ≤ 0) :
    worker_step clk wk = some { wk with batch_sizes := sizes, commands := commands } := by
  unfold worker_step
  rw [hs, hc]
  simp only []
  rw [if_neg hcmd, if_pos hn]

theorem worker_idle_round_witness :
    (fresh_worker [0, 3] [0, 0] [] []).batch_sizes = [0, 3] ∧
    (fresh_worker [0, 3] [0, 0] [] []).commands = [0, 0] ∧ (0 : Int) ≠ -1 ∧ (0 : Int) ≤ 0 ∧
    worker_step ticking_clock (fresh_worker [0, 3] [0, 0] [] []) =
      some { fresh_worker [0, 3] [0, 0] [] [] with batch_sizes := [3], commands := [0] } :=
  ⟨rfl, rfl, by decide, by decide,
    worker_idle_round ticking_clock (fresh_worker [0, 3] [0, 0] [] []) 0 0 [3] [0] rfl rfl
      (by decide) (by decide)⟩

/-- C29 as stated fails: a fresh worker that receives batch size 0 with the run
command 0 sends no message, so no result count 0 goes back; it is still
running. -/
theorem worker_idle_round_sends_nothing :
    (worker_step ticking_clock (fresh_worker [0] [0] [] [])).map
      (fun k => (k.sent, k.running)) = some ([], 1) ∧
    ([] : List WorkerMsg) ≠ [WorkerMsg.count 0] := by
  constructor
  · rfl
  · decide


/-- A worker never changes its board: after any round the board is the one
before it, and every evaluation of the round was made on that board. -/
theorem worker_step_board (clk : Nat → Int) (wk wk1 : Worker) (hlen : wk.w.board.length = 64)
    (hr : ∀ t ∈ wk.task_queue, 0 ≤ t.move ∧ t.move < 64)
    (h : worker_step clk wk = some wk1) :
    wk1.w.board = wk.w.board ∧
    ∃ passed, wk1.evaluated = wk.evaluated ++ passed ∧ ∀ e ∈ passed, e.2 = wk.w.board := by
  cases hs : wk.batch_sizes with
  | nil => simp [worker_step, hs] at h
  | cons n sizes =>
    cases hc : wk.commands with
    | nil => simp [worker_step, hs, hc] at h
    | cons command commands =>
      by_cases hcmd : command = -1
      · simp only [worker_step, hs, hc, if_pos hcmd, Option.some.injEq] at h
        subst h
        exact ⟨rfl, [], by simp, by simp⟩
      · by_cases hn : n ≤ 0
        · rw [worker_idle_round clk wk n command sizes commands hs hc hcmd hn] at h
          injection h with h
          subst h
          exact ⟨rfl, [], by simp, by simp⟩
        · by_cases hq : wk.task_queue.length < n.toNat
          · simp only [worker_step, hs, hc, if_neg hcmd, if_neg hn, if_pos hq] at h
            exact absurd h (by simp)
          · obtain ⟨rs, w1, h1, hg, -, -⟩ := worker_step_run clk wk n command sizes commands hs hc
              hcmd (by omega) (by omega) hlen
              (fun t ht => hr t (List.mem_of_mem_take ht))
            rw [h1] at h
            injection h with h
            subst h
            refine ⟨hg.1, _, rfl, ?_⟩
            intro e he
            simp only [List.mem_map] at he
            obtain ⟨t, -, rfl⟩ := he
            rfl

/-- C24 (fails): the master, playing White, is told Black's opening move 19 and
its board becomes `after_19_board`; its search from there sends worker 1 the
tasks for the moves 18, 20 and 34; the worker, whose board nothing has touched
since `initialise_board`, evaluates the three tasks on the opening board. -/
theorem worker_board_stays_opening :
    (play_move 19 WHITE ⟨⟨opening_board, 0, 0, 0⟩, 2, [], [], []⟩).map (fun m => m.w.board) =
      some after_19_board ∧
    (minimax_strategy stale_clock WHITE 2 ⟨⟨after_19_board, 0, 0, 0⟩, 2, [], [], []⟩).map
      (fun r => r.2.sent.take 5) =
      some [Msg.int 1 0 3, Msg.int 1 1 0, Msg.task 1 ⟨18, 2, 1, -999999, 999999⟩,
        Msg.task 1 ⟨20, 2, 1, -999999, 999999⟩, Msg.task 1 ⟨34, 2, 1, -999999, 999999⟩] ∧
    after_19_board ≠ opening_board ∧
    ∃ wk1, worker_step ticking_clock
        (fresh_worker [3] [0] [⟨18, 2, 1, -999999, 999999⟩, ⟨20, 2, 1, -999999, 999999⟩,
          ⟨34, 2, 1, -999999, 999999⟩] []) = some wk1 ∧
      wk1.evaluated.map Prod.snd = [opening_board, opening_board, opening_board] ∧
      wk1.w.board = opening_board := by
  refine ⟨by decide!, by decide!, by decide, ?_⟩
  obtain ⟨rs, w1, h, hg, -, -⟩ := worker_step_run ticking_clock
    (fresh_worker [3] [0] [⟨18, 2, 1, -999999, 999999⟩, ⟨20, 2, 1, -999999, 999999⟩,
      ⟨34, 2, 1, -999999, 999999⟩] []) 3 0 [] [] rfl rfl (by decide) (by decide) (by decide)
    (by decide) (by decide)
  exact ⟨_, h, rfl, hg.1⟩

/-- C23 (fails): on `pass_board` with White to move the only root move is
cell 0 and the sequential path scores it 204 at depth 1; with one worker the
task for cell 0 is evaluated by the worker on its own board, the opening
position, the result carries the score 25, and 25 is the best score the
coordinator retains. -/
theorem worker_pool_score_differs :
    legal_moves pass_board WHITE = some [0] ∧
    (evaluate_moves frozen_clock 0 WHITE 1 (-999999) 999999 ⟨pass_board, 0, 1000, 0⟩).map
      Prod.fst = some 204 ∧
    dispatch_loop [0] WHITE 1 (-999999) 999999 1 (worker_ranks 1) 0 [] =
      some (1, [Msg.int 1 0 1, Msg.int 1 1 0, Msg.task 1 ⟨0, 2, 1, -999999, 999999⟩]) ∧
    (worker_step ticking_clock (fresh_worker [1] [0] [⟨0, 2, 1, -999999, 999999⟩] [])).map
      (fun k => k.sent) = some [WorkerMsg.count 1, WorkerMsg.result ⟨0, 25⟩] ∧
    (collect_loop frozen_clock 1 1 [some (1, [⟨0, 25⟩])] ⟨-1, -999999, -999999, 0, []⟩
      ⟨pass_board, 0, 1000, 0⟩).map
      (fun r => (r.1.curr_best_move, r.1.best_possible_score)) = some (0, 25) := by
  refine ⟨by decide!, by decide!, by decide!, by decide!, by decide!⟩

/-- C21: when the colour has a legal move and the deadline has passed at the
first test of the driver loop (the `clock()` reading after the one stored in
`start` exceeds it by more than `time - 1` seconds), `minimax_strategy`
returns the first element of the move list, which is a cell and not -1,
without running a search, whatever the number of workers. -/
theorem minimax_strategy_deadline_at_entry (clk : Nat → Int) (c time : Int) (ms : Master)
    (hlen : ms.w.board.length = 64) (a : Int) (l : List Int)
    (hmoves : legal_moves ms.w.board c = some (a :: l))
    (hup : clk (ms.w.clock_calls + 1) - clk ms.w.clock_calls > (time - 1) * CLOCKS_PER_SEC) :
    ∃ ms1, minimax_strategy clk c time ms = some (a, ms1) ∧ a ≠ -1 ∧ 0 ≤ a ∧ a < 64 ∧
      ms1.w.board = ms.w.board ∧ ms1.searched = ms.searched ∧
      ms1.sent = ms.sent ++ idle_round ms.size := by
  have hrange := mem_legal_moves_range ms.w.board hlen c a (a :: l) hmoves
    (List.mem_cons_self _ _)
  unfold minimax_strategy
  rw [hmoves]
  simp only []
  rw [if_neg (by simp only [List.length_cons]; push_cast; omega)]
  have hread : readCell (a :: l) 0 = some a := by simp [readCell]
  rw [hread]
  simp only [DRIVER_FUEL]
  rw [driver_loop, if_pos (by decide)]
  simp only []
  rw [if_pos (by simp only [check_if_time_up, decide_eq_true_eq]; exact hup)]
  exact ⟨_, rfl, by omega, hrange.1, hrange.2.1, rfl, rfl, rfl⟩

theorem minimax_strategy_deadline_at_entry_witness :
    opening_board.length = 64 ∧ legal_moves opening_board BLACK = some (19 :: [26, 37, 44]) ∧
    ticking_clock (0 + 1) - ticking_clock 0 > (1 - 1) * CLOCKS_PER_SEC ∧
    ∃ ms1, minimax_strategy ticking_clock BLACK 1 ⟨⟨opening_board, 0, 0, 0⟩, 3, [], [], []⟩ =
        some (19, ms1) ∧ (19 : Int) ≠ -1 ∧ (0 : Int) ≤ 19 ∧ (19 : Int) < 64 ∧
      ms1.w.board = opening_board ∧ ms1.searched = [] ∧ ms1.sent = [] ++ idle_round 3 :=
  ⟨by decide, opening_legal_black, by decide,
    minimax_strategy_deadline_at_entry ticking_clock BLACK 1
      ⟨⟨opening_board, 0, 0, 0⟩, 3, [], [], []⟩ (by decide) 19 [26, 37, 44] opening_legal_black
      (by decide)⟩

theorem receive_results_append (nw : Int) (a b : List MoveResult) :
    ∀ s : Collect, receive_results nw (a ++ b) s = receive_results nw b (receive_results nw a s) := by
  induction a with
  | nil => intro s; rfl
  | cons r rest ih =>
    intro s
    simp only [List.cons_append, receive_results]
    split <;> exact ih _

/-- What the collection loop has done when it ends: it consumed a prefix of
the probe outcomes and its locals are those of `receive_results` on the
results these carried. -/
theorem collect_loop_consumed (clk : Nat → Int) (nw nsent : Int) :
    ∀ (polls : List Poll) (init : Collect) (w : World) (s : Collect) (w1 : World)
      (rest : List Poll),
      collect_loop clk nw nsent polls init w = some (s, w1, rest) →
      ∃ consumed, polls = consumed ++ rest ∧
        s = receive_results nw (poll_results consumed) init := by
  intro polls
  induction polls with
  | nil =>
    intro init w s w1 rest h
    rw [collect_loop] at h
    by_cases hc : init.tasks_compl < nsent
    · rw [if_pos hc] at h
      simp only [] at h
      by_cases hup : (check_if_time_up clk w).1 = true
      · rw [if_pos hup] at h
        simp only [Option.some.injEq, Prod.mk.injEq] at h
        exact ⟨[], by simp [h.2.2], by simp [poll_results, receive_results, h.1]⟩
      · rw [if_neg hup] at h
        exact absurd h (by simp)
    · rw [if_neg hc] at h
      simp only [Option.some.injEq, Prod.mk.injEq] at h
      exact ⟨[], by simp [h.2.2], by simp [poll_results, receive_results, h.1]⟩
  | cons p ps ih =>
    intro init w s w1 rest h
    rw [collect_loop] at h
    by_cases hc : init.tasks_compl < nsent
    · rw [if_pos hc] at h
      simp only [] at h
      by_cases hup : (check_if_time_up clk w).1 = true
      · rw [if_pos hup] at h
        simp only [Option.some.injEq, Prod.mk.injEq] at h
        exact ⟨[], by simp [h.2.2], by simp [poll_results, receive_results, h.1]⟩
      · rw [if_neg hup] at h
        cases p with
        | none =>
          simp only [] at h
          obtain ⟨consumed, hp, hs⟩ := ih _ _ _ _ _ h
          refine ⟨none :: consumed, by simp [hp], ?_⟩
          rw [hs]
          simp [poll_results]
        | some wr =>
          obtain ⟨wid, results⟩ := wr
          simp only [] at h
          obtain ⟨consumed, hp, hs⟩ := ih _ _ _ _ _ h
          refine ⟨some (wid, results) :: consumed, by simp [hp], ?_⟩
          rw [hs]
          have : poll_results (some (wid, results) :: consumed) =
              results ++ poll_results consumed := by
            simp [poll_results]
          rw [this, receive_results_append]
    · rw [if_neg hc] at h
      simp only [Option.some.injEq, Prod.mk.injEq] at h
      exact ⟨[], by simp [h.2.2], by simp [poll_results, receive_results, h.1]⟩

/-- The locals after `receive_results`: every result is counted; the best score
is at least every score received and at least the initial one; and either no
score exceeded the initial best and nothing changed, or the retained pair is
the first result whose score is the largest received. -/
theorem receive_results_spec (nw : Int) :
    ∀ (rs : List MoveResult) (init : Collect),
      (receive_results nw rs init).tasks_compl = init.tasks_compl + rs.length ∧
      init.best_possible_score ≤ (receive_results nw rs init).best_possible_score ∧
      (∀ r ∈ rs, r.score ≤ (receive_results nw rs init).best_possible_score) ∧
      (((∀ r ∈ rs, r.score ≤ init.best_possible_score) ∧
          (receive_results nw rs init).curr_best_move = init.curr_best_move ∧
          (receive_results nw rs init).best_possible_score = init.best_possible_score ∧
          (receive_results nw rs init).alpha = init.alpha) ∨
        (∃ (i : Nat) (r : MoveResult), rs[i]? = some r ∧
          init.best_possible_score < r.score ∧
          (receive_results nw rs init).curr_best_move = r.move ∧
          (receive_results nw rs init).best_possible_score = r.score ∧
          (receive_results nw rs init).alpha = r.score ∧
          ∀ (j : Nat) (r1 : MoveResult), j < i → rs[j]? = some r1 → r1.score < r.score)) := by
  intro rs
  induction rs with
  | nil =>
    intro init
    simp [receive_results]
  | cons r rest ih =>
    intro init
    rw [receive_results]
    by_cases h : r.score > init.best_possible_score
    · rw [if_pos h]
      obtain ⟨h1, h2, h3, h4⟩ := ih
        { curr_best_move := r.move, best_possible_score := r.score, alpha := r.score,
          tasks_compl := init.tasks_compl + 1,
          sent := init.sent ++ (worker_ranks nw).map fun k => Msg.int k 5 r.score }
      simp only [] at h1 h2 h3 h4
      refine ⟨by rw [h1]; simp only [List.length_cons]; push_cast; omega, by omega, ?_, ?_⟩
      · intro x hx
        rcases List.mem_cons.1 hx with rfl | hx
        · exact h2
        · exact h3 x hx
      · right
        rcases h4 with ⟨ha, hb, hc, hd⟩ | ⟨i, r1, hi, hlt, hb, hc, hd, he⟩
        · refine ⟨0, r, by simp, h, hb, hc, hd, ?_⟩
          intro j r1 hj
          omega
        · refine ⟨i + 1, r1, by simpa using hi, by omega, hb, hc, hd, ?_⟩
          intro j r2 hj hr2
          cases j with
          | zero =>
            simp only [List.getElem?_cons_zero, Option.some.injEq] at hr2
            subst hr2
            exact hlt
          | succ k =>
            simp only [List.getElem?_cons_succ] at hr2
            exact he k r2 (by omega) hr2
    · rw [if_neg h]
      obtain ⟨h1, h2, h3, h4⟩ := ih { init with tasks_compl := init.tasks_compl + 1 }
      simp only [] at h1 h2 h3 h4
      refine ⟨by rw [h1]; simp only [List.length_cons]; push_cast; omega, h2, ?_, ?_⟩
      · intro x hx
        rcases List.mem_cons.1 hx with rfl | hx
        · omega
        · exact h3 x hx
      · rcases h4 with ⟨ha, hb, hc, hd⟩ | ⟨i, r1, hi, hlt, hb, hc, hd, he⟩
        · left
          refine ⟨?_, hb, hc, hd⟩
          intro x hx
          rcases List.mem_cons.1 hx with rfl | hx
          · omega
          · exact ha x hx
        · right
          refine ⟨i + 1, r1, by simpa using hi, hlt, hb, hc, hd, ?_⟩
          intro j r2 hj hr2
          cases j with
          | zero =>
            simp only [List.getElem?_cons_zero, Option.some.injEq] at hr2
            subst hr2
            omega
          | succ k =>
            simp only [List.getElem?_cons_succ] at hr2
            exact he k r2 (by omega) hr2

/-- C25: when the collection loop of one depth ends, having processed the
results `rs` in arrival order, each with a score above -999999 (every score
of the evaluator is), the retained move and best score are those of the first
result whose score is the maximum over `rs`: every processed score is at most
the retained one and every earlier score is strictly below it, so a later
result with an equal score has not replaced it.  Every processed result is
counted as a completed task. -/
theorem collection_keeps_first_best (clk : Nat → Int) (nw nsent : Int) (polls : List Poll)
    (sent1 : List Msg) (w : World) (s : Collect) (w1 : World) (rest : List Poll)
    (h : collect_loop clk nw nsent polls ⟨-1, -999999, -999999, 0, sent1⟩ w = some (s, w1, rest))
    (hscore : ∀ r ∈ poll_results polls, -999999 < r.score) :
    ∃ consumed, polls = consumed ++ rest ∧
      s.tasks_compl = ((poll_results consumed).length : Int) ∧
      (poll_results consumed = [] → s.curr_best_move = -1) ∧
      (poll_results consumed ≠ [] →
        ∃ (i : Nat) (r : MoveResult), (poll_results consumed)[i]? = some r ∧
          s.curr_best_move = r.move ∧ s.best_possible_score = r.score ∧
          (∀ r1 ∈ poll_results consumed, r1.score ≤ r.score) ∧
          ∀ (j : Nat) (r1 : MoveResult), j < i → (poll_results consumed)[j]? = some r1 →
            r1.score < r.score) := by
  obtain ⟨consumed, hp, hs⟩ := collect_loop_consumed clk nw nsent polls _ w s w1 rest h
  obtain ⟨h1, h2, h3, h4⟩ := receive_results_spec nw (poll_results consumed)
    ⟨-1, -999999, -999999, 0, sent1⟩
  rw [← hs] at h1 h2 h3 h4
  simp only [] at h1 h2 h3 h4
  refine ⟨consumed, hp, by omega, ?_, ?_⟩
  · intro he
    rw [hs, he]
    rfl
  · intro hne
    rcases h4 with ⟨ha, -, -, -⟩ | ⟨i, r, hi, -, hb, hc, -, he⟩
    · exfalso
      obtain ⟨x, hx⟩ := List.exists_mem_of_ne_nil _ hne
      have hx1 := ha x hx
      have hx2 := hscore x (by
        rw [hp]
        simp only [poll_results, List.flatMap_append, List.mem_append]
        exact Or.inl hx)
      omega
    · exact ⟨i, r, hi, hb, hc, fun r1 hr1 => by rw [← hc]; exact h3 r1 hr1, he⟩


theorem receive_results_sent (nw : Int) :
    ∀ (rs : List MoveResult) (init : Collect),
      (receive_results nw rs init).sent =
        init.sent ++ (improvements rs init.best_possible_score).flatMap
          (fun a => (worker_ranks nw).map fun k => Msg.int k 5 a) := by
  intro rs
  induction rs with
  | nil => intro init; simp [receive_results, improvements]
  | cons r rest ih =>
    intro init
    rw [receive_results, improvements]
    by_cases h : r.score > init.best_possible_score
    · rw [if_pos h, if_pos h, ih]
      simp
    · rw [if_neg h, if_neg h, ih]

theorem receive_results_alpha (nw : Int) :
    ∀ (rs : List MoveResult) (init : Collect), init.alpha = init.best_possible_score →
      (receive_results nw rs init).alpha = (receive_results nw rs init).best_possible_score := by
  intro rs
  induction rs with
  | nil => intro init h; exact h
  | cons r rest ih =>
    intro init h
    rw [receive_results]
    split
    · exact ih _ rfl
    · exact ih _ h

theorem improvements_spec :
    ∀ (rs : List MoveResult) (b : Int),
      (improvements rs b).Pairwise (· < ·) ∧
      ∀ a ∈ improvements rs b, b < a ∧
        ∃ n : Nat, 0 < n ∧ n ≤ rs.length ∧ (∃ r ∈ rs.take n, r.score = a) ∧
          ∀ r ∈ rs.take n, r.score ≤ a ∨ r.score ≤ b := by
  intro rs
  induction rs with
  | nil => intro b; simp [improvements]
  | cons r rest ih =>
    intro b
    rw [improvements]
    by_cases h : r.score > b
    · rw [if_pos h]
      obtain ⟨hp, ha⟩ := ih r.score
      refine ⟨List.pairwise_cons.2 ⟨fun a ha1 => (ha a ha1).1, hp⟩, ?_⟩
      intro a ha1
      rcases List.mem_cons.1 ha1 with rfl | ha1
      · exact ⟨h, 1, by omega, by simp, ⟨r, by simp, rfl⟩, by simp⟩
      · obtain ⟨hlt, n, hn0, hn, ⟨x, hx, hxa⟩, hall⟩ := ha a ha1
        refine ⟨by omega, n + 1, by omega, by simp only [List.length_cons]; omega,
          ⟨x, by simp only [List.take_succ_cons]; exact List.mem_cons_of_mem _ hx, hxa⟩, ?_⟩
        intro y hy
        simp only [List.take_succ_cons] at hy
        rcases List.mem_cons.1 hy with rfl | hy
        · left; omega
        · rcases hall y hy with h1 | h1
          · left; exact h1
          · left; omega
    · rw [if_neg h]
      obtain ⟨hp, ha⟩ := ih b
      refine ⟨hp, ?_⟩
      intro a ha1
      obtain ⟨hlt, n, hn0, hn, ⟨x, hx, hxa⟩, hall⟩ := ha a ha1
      refine ⟨hlt, n + 1, by omega, by simp only [List.length_cons]; omega,
        ⟨x, by simp only [List.take_succ_cons]; exact List.mem_cons_of_mem _ hx, hxa⟩, ?_⟩
      intro y hy
      simp only [List.take_succ_cons] at hy
      rcases List.mem_cons.1 hy with rfl | hy
      · right; omega
      · exact hall y hy

theorem worker_ranks_eq (nw : Int) :
    worker_ranks nw = (List.range nw.toNat).map (fun k : Nat => (k : Int) + 1) := by
  unfold worker_ranks
  generalize List.range nw.toNat = l
  induction l with
  | nil => rfl
  | cons a l ih => simpa using ih

theorem worker_ranks_nodup (nw : Int) : (worker_ranks nw).Nodup := by
  rw [worker_ranks_eq]
  have hinj : Function.Injective (fun k : Nat => (k : Int) + 1) := by
    intro a b hab
    simp only [add_left_inj, Nat.cast_inj] at hab
    exact hab
  exact List.Nodup.map hinj (List.nodup_range _)

theorem alphas_to_broadcast (k a : Int) :
    ∀ l : List Int, l.Nodup →
      alphas_to k (l.map fun j => Msg.int j 5 a) = if k ∈ l then [a] else [] := by
  intro l
  induction l with
  | nil => intro _; simp [alphas_to]
  | cons x xs ih =>
    intro hnd
    obtain ⟨hx, hxs⟩ := List.nodup_cons.1 hnd
    have ih1 := ih hxs
    simp only [alphas_to] at ih1 ⊢
    simp only [List.map_cons, List.filterMap_cons]
    by_cases hk : x = k
    · subst hk
      simp only [and_self, if_true, List.mem_cons, true_or]
      rw [ih1, if_neg hx]
    · simp only [hk, false_and, if_false]
      rw [ih1]
      have : (k ∈ x :: xs) ↔ k ∈ xs := by
        simp only [List.mem_cons]
        constructor
        · rintro (h | h)
          · exact absurd h.symm hk
          · exact h
        · intro h; exact Or.inr h
      simp only [this]

theorem alphas_to_improvements (nw k : Int) (hk : k ∈ worker_ranks nw) :
    ∀ l : List Int,
      alphas_to k (l.flatMap fun a => (worker_ranks nw).map fun j => Msg.int j 5 a) = l := by
  intro l
  induction l with
  | nil => simp [alphas_to]
  | cons a rest ih =>
    have h1 := alphas_to_broadcast k a (worker_ranks nw) (worker_ranks_nodup nw)
    rw [if_pos hk] at h1
    simp only [alphas_to] at h1 ih ⊢
    simp only [List.flatMap_cons, List.filterMap_append]
    rw [h1, ih]
    rfl

/-- C26: during the collection loop of one depth, entered with alpha and best
score -999999, the alpha values sent to any worker form a strictly increasing
sequence above -999999; each one is the largest score among the results
received up to the one that triggered it; and the alpha the loop ends with is
at least all of them and at least -999999, so alpha is never lowered. -/
theorem alpha_broadcasts_increase (clk : Nat → Int) (nw nsent : Int) (polls : List Poll)
    (sent1 : List Msg) (w : World) (s : Collect) (w1 : World) (rest : List Poll)
    (h : collect_loop clk nw nsent polls ⟨-1, -999999, -999999, 0, sent1⟩ w =
      some (s, w1, rest)) :
    ∃ consumed new, polls = consumed ++ rest ∧ s.sent = sent1 ++ new ∧ -999999 ≤ s.alpha ∧
      ∀ k ∈ worker_ranks nw,
        (alphas_to k new).Pairwise (· < ·) ∧
        ∀ a ∈ alphas_to k new, -999999 < a ∧ a ≤ s.alpha ∧
          ∃ n : Nat, 0 < n ∧ n ≤ (poll_results consumed).length ∧
            (∃ r ∈ (poll_results consumed).take n, r.score = a) ∧
            ∀ r ∈ (poll_results consumed).take n, r.score ≤ a := by
  obtain ⟨consumed, hp, hs⟩ := collect_loop_consumed clk nw nsent polls _ w s w1 rest h
  obtain ⟨-, h2, h3, -⟩ := receive_results_spec nw (poll_results consumed)
    ⟨-1, -999999, -999999, 0, sent1⟩
  have hal := receive_results_alpha nw (poll_results consumed) ⟨-1, -999999, -999999, 0, sent1⟩ rfl
  have hsent := receive_results_sent nw (poll_results consumed) ⟨-1, -999999, -999999, 0, sent1⟩
  rw [← hs] at h2 h3 hal hsent
  simp only [] at h2 h3 hsent
  refine ⟨consumed, _, hp, hsent, by omega, ?_⟩
  intro k hk
  rw [alphas_to_improvements nw k hk]
  obtain ⟨hpw, hall⟩ := improvements_spec (poll_results consumed) (-999999)
  refine ⟨hpw, ?_⟩
  intro a ha
  obtain ⟨hlt, n, hn0, hn, ⟨x, hx, hxa⟩, hle⟩ := hall a ha
  refine ⟨hlt, ?_, n, hn0, hn, ⟨x, hx, hxa⟩, ?_⟩
  · rw [hal, ← hxa]
    exact h3 x (List.mem_of_mem_take hx)
  · intro r hr
    rcases hle r hr with h1 | h1
    · exact h1
    · omega

theorem range_map_getD (l : List Int) (s k : Nat) (hk : s + k ≤ l.length) :
    (List.range k).map (fun j => l.getD (s + j) 0) = (l.drop s).take k := by
  apply List.ext_getElem?
  intro i
  by_cases hi : i < k
  · rw [List.getElem?_map, List.getElem?_range hi, List.getElem?_take_of_lt hi,
      List.getElem?_drop]
    simp only [Option.map_some']
    rw [List.getD_eq_getElem?_getD, List.getElem?_eq_getElem (by omega)]
    rfl
  · rw [List.getElem?_eq_none (by simp; omega), List.getElem?_eq_none (by simp; omega)]

theorem send_batch_eq (moves : List Int) (worker c d al be : Int) (s k : Nat)
    (hk : s + k ≤ moves.length) :
    send_batch moves worker c d al be (s : Int) (k : Int) =
      some (((moves.drop s).take k).map fun m => Msg.task worker ⟨m, c, d, al, be⟩) := by
  unfold send_batch
  rw [Int.toNat_ofNat, ← range_map_getD moves s k hk, List.map_map]
  have hmem : ∀ j ∈ List.range k, s + j < moves.length := by
    intro j hj
    rw [List.mem_range] at hj
    omega
  generalize List.range k = l at hmem ⊢
  induction l with
  | nil => rfl
  | cons a l ih =>
    have ha := hmem a (List.mem_cons_self _ _)
    have hread : readCell moves ((s : Int) + (a : Int)) = some (moves.getD (s + a) 0) := by
      have e : ((s : Int) + (a : Int)) = ((s + a : Nat) : Int) := by push_cast; rfl
      rw [e, readCell_eq moves _ (by omega) (by push_cast; omega)]
      rfl
    have ih1 := ih (fun j hj => hmem j (List.mem_cons_of_mem _ hj))
    simp only [List.bind_eq_flatMap, List.flatMap_cons, List.pure_def, List.singleton_append,
      List.mapM_cons, hread, Option.map_some', List.map_cons, Function.comp] at ih1 ⊢
    rw [ih1]
    rfl


theorem batches_from_done (moves : List Int) (c d al be : Int) (t : Nat) :
    ∀ (ws : List Int) (off : Nat), moves.length ≤ off →
      batches_from moves c d al be t ws off = [] := by
  intro ws
  induction ws with
  | nil => intro _ _; rfl
  | cons w ws ih =>
    intro off h
    rw [batches_from, ih (off + t) (by omega), List.drop_eq_nil_of_le h]
    simp [batch_messages]

theorem dispatch_loop_eq (moves : List Int) (c d al be : Int) (t : Nat) (ht : 0 < t) :
    ∀ (ws : List Int) (off : Nat) (sent : List Msg),
      dispatch_loop moves c d al be (t : Int) ws ((min off moves.length : Nat) : Int) sent =
        some (((min (off + ws.length * t) moves.length : Nat) : Int),
          sent ++ batches_from moves c d al be t ws off) := by
  intro ws
  induction ws with
  | nil => intro off sent; simp [dispatch_loop, batches_from]
  | cons w ws ih =>
    intro off sent
    rw [dispatch_loop]
    simp only []
    by_cases hoff : off < moves.length
    · have hmin : min off moves.length = off := by omega
      rw [hmin, if_pos (by omega)]
      have hk : (if (off : Int) + (t : Int) ≤ (moves.length : Int) then (t : Int)
          else (moves.length : Int) - (off : Int)) = ((min t (moves.length - off) : Nat) : Int) := by
        split <;> omega
      rw [hk, if_neg (by omega),
        send_batch_eq moves w c d al be off (min t (moves.length - off)) (by omega)]
      simp only []
      have hn : (off : Int) + ((min t (moves.length - off) : Nat) : Int) =
          ((min (off + t) moves.length : Nat) : Int) := by omega
      rw [hn, ih (off + t)]
      have hslice : List.take (min t (moves.length - off)) (List.drop off moves) =
          List.take t (List.drop off moves) := by
        by_cases htl : t ≤ moves.length - off
        · rw [Nat.min_eq_left htl]
        · rw [Nat.min_eq_right (by omega), List.take_of_length_le (by simp),
            List.take_of_length_le (by simp; omega)]
      have hlen : (List.take t (List.drop off moves)).length = min t (moves.length - off) := by
        simp [List.length_take, List.length_drop]
      have hne : List.take t (List.drop off moves) ≠ [] := by
        intro h
        rw [h] at hlen
        simp only [List.length_nil] at hlen
        omega
      rw [hslice, batches_from, batch_messages, if_neg hne, hlen]
      have e : off + t + ws.length * t = off + (ws.length + 1) * t := by ring
      rw [e]
      simp
    · have hmin : min off moves.length = moves.length := by omega
      rw [hmin, if_neg (by omega), batches_from_done moves c d al be t (w :: ws) off (by omega)]
      simp only [List.append_nil, Option.some.injEq, Prod.mk.injEq, and_true]
      congr 1
      have : moves.length ≤ off + (w :: ws).length * t := by
        have := Nat.zero_le ((w :: ws).length * t)
        omega
      omega

theorem batches_from_ranks (moves : List Int) (c d al be : Int) (t : Nat) :
    ∀ (m a : Nat),
      batches_from moves c d al be t ((List.range' a m).map fun k : Nat => (k : Int) + 1) (a * t) =
        (List.range' a m).flatMap fun i =>
          batch_messages c d al be ((i : Int) + 1) (move_slice moves t (i + 1)) := by
  intro m
  induction m with
  | zero => intro a; rfl
  | succ m ih =>
    intro a
    simp only [List.range'_succ, List.map_cons, batches_from, List.flatMap_cons]
    have e : a * t + t = (a + 1) * t := by ring
    rw [e, ih (a + 1)]
    simp [move_slice]

theorem slices_cover (moves : List Int) (t : Nat) :
    ∀ m : Nat, (List.range m).flatMap (fun i => move_slice moves t (i + 1)) =
      moves.take (m * t) := by
  intro m
  induction m with
  | zero => simp
  | succ m ih =>
    rw [List.range_succ, List.flatMap_append, ih]
    simp only [List.flatMap_cons, List.flatMap_nil, List.append_nil, move_slice,
      Nat.add_sub_cancel]
    have : (m + 1) * t = m * t + t := by ring
    rw [this, List.take_add]

theorem ceil_div_covers (n nw : Nat) (hw : 0 < nw) : n ≤ nw * ((n + nw - 1) / nw) := by
  have h1 := Nat.div_add_mod (n + nw - 1) nw
  have h2 := Nat.mod_lt (n + nw - 1) hw
  omega

/-- C22: with `n ≥ 1` root moves, `number_of_workers ≥ 1` and
`t = (n + number_of_workers - 1) / number_of_workers`, the dispatch loop sends
all `n` tasks: to each worker `k`, in rank order, nothing when its slice
`moves[(k-1)t .. min(kt, n) - 1]` is empty, which is when `(k-1)t ≥ n`, and
otherwise the size of the slice, the run command and one task per move of the
slice, in order.  No slice holds more than `t` moves, and the slices of the
workers 1, 2, ... put end to end are the root moves, so every root move is
sent exactly once, in `legal_moves` order, and the batch sizes sum to `n`. -/
theorem dispatch_slices (moves : List Int) (c depth al be number_of_workers : Int)
    (sent : List Msg) (hn : 1 ≤ moves.length) (hw : 1 ≤ number_of_workers) :
    dispatch_loop moves c depth al be
        (((moves.length : Int) + number_of_workers - 1).tdiv number_of_workers)
        (worker_ranks number_of_workers) 0 sent =
      some ((moves.length : Int),
        sent ++ (List.range number_of_workers.toNat).flatMap fun i =>
          batch_messages c depth al be ((i : Int) + 1)
            (move_slice moves
              (((moves.length : Int) + number_of_workers - 1).tdiv number_of_workers).toNat
              (i + 1))) ∧
    (∀ k : Nat, (move_slice moves
        (((moves.length : Int) + number_of_workers - 1).tdiv number_of_workers).toNat k).length ≤
      (((moves.length : Int) + number_of_workers - 1).tdiv number_of_workers).toNat) ∧
    (∀ k : Nat, 1 ≤ k → (move_slice moves
        (((moves.length : Int) + number_of_workers - 1).tdiv number_of_workers).toNat k = [] ↔
      moves.length ≤ (k - 1) *
        (((moves.length : Int) + number_of_workers - 1).tdiv number_of_workers).toNat)) ∧
    (List.range number_of_workers.toNat).flatMap (fun i => move_slice moves
        (((moves.length : Int) + number_of_workers - 1).tdiv number_of_workers).toNat (i + 1)) =
      moves ∧
    ((List.range number_of_workers.toNat).map (fun i => (move_slice moves
        (((moves.length : Int) + number_of_workers - 1).tdiv number_of_workers).toNat
        (i + 1)).length)).sum = moves.length := by
  obtain ⟨nw, rfl⟩ : ∃ nw : Nat, number_of_workers = (nw : Int) :=
    ⟨number_of_workers.toNat, by omega⟩
  have hnw : 0 < nw := by omega
  have ht_eq : ((moves.length : Int) + (nw : Int) - 1).tdiv (nw : Int) =
      (((moves.length + nw - 1) / nw : Nat) : Int) := by
    rw [Int.tdiv_eq_ediv (by omega) (by omega)]
    have : (moves.length : Int) + (nw : Int) - 1 = ((moves.length + nw - 1 : Nat) : Int) := by
      omega
    rw [this]
    rfl
  have hcov := ceil_div_covers moves.length nw hnw
  have ht : 0 < (moves.length + nw - 1) / nw := by
    rcases Nat.eq_zero_or_pos ((moves.length + nw - 1) / nw) with h | h
    · rw [h] at hcov; omega
    · exact h
  rw [ht_eq]
  simp only [Int.toNat_ofNat]
  have hcover : (List.range nw).flatMap (fun i => move_slice moves
      ((moves.length + nw - 1) / nw) (i + 1)) = moves := by
    rw [slices_cover, List.take_of_length_le hcov]
  refine ⟨?_, ?_, ?_, hcover, ?_⟩
  · have h := dispatch_loop_eq moves c depth al be _ ht (worker_ranks (nw : Int)) 0 sent
    simp only [Nat.zero_min, Nat.cast_zero, Nat.zero_add] at h
    rw [h, worker_ranks_eq, Int.toNat_ofNat, List.range_eq_range']
    have hb := batches_from_ranks moves c depth al be ((moves.length + nw - 1) / nw) nw 0
    simp only [Nat.zero_mul] at hb
    rw [hb]
    simp only [List.length_map, List.length_range', Option.some.injEq, Prod.mk.injEq, and_true]
    congr 1
    exact Nat.min_eq_right hcov
  · intro k
    simp only [move_slice, List.length_take]
    omega
  · intro k hk
    simp only [move_slice, List.take_eq_nil_iff, List.drop_eq_nil_iff]
    constructor
    · rintro (h | h)
      · omega
      · exact h
    · intro h; exact Or.inr h
  · have hl := congrArg List.length hcover
    rw [List.length_flatMap] at hl
    simpa [Function.comp] using hl

/-- One iteration of the driver loop with no worker and the deadline never
reached: depth `d` is searched and the loop goes on to depth `d + 1` with the
earliest best root move of depth `d` as best move and `d` as completed depth. -/
theorem driver_loop_step (clk : Nat → Int) (c : Int) (avail moves : List Int) (b : Board)
    (hlen : b.length = 64) (hmoves : legal_moves b c = some moves) (hne : moves ≠ [])
    (f : Nat) (d bm md : Int) (ms : Master) (hd : 1 ≤ d ∧ d < 10) (hsz : ms.size - 1 ≤ 0)
    (hb : ms.w.board = b) (hn : NeverUp clk ms.w) :
    ∃ m v ms1, driver_loop clk c avail (f + 1) d bm md ms = driver_loop clk c avail f (d + 1) m d ms1 ∧
      ms1.size = ms.size ∧ ms1.w.board = b ∧ NeverUp clk ms1.w ∧
      EarliestBest (root_move_value c (d - 1).toNat b) moves m v := by
  obtain ⟨hup, hg⟩ := check_if_time_up_never clk ms.w hn
  have hn1 := NeverUp_of_same clk ms.w _ hg hn
  have hb1 : (check_if_time_up clk ms.w).2.board = b := hb
  obtain ⟨m, w1, v, hbl, hbest⟩ := best_legal_move_argmax clk c d (check_if_time_up clk ms.w).2
    (by rw [hb1]; exact hlen) hn1 ⟨hd.1, by omega⟩ moves (by rw [hb1]; exact hmoves) hne
  obtain ⟨m', w1', hbl', hg1⟩ := best_legal_move_frame clk c d (-999999) 999999
    (check_if_time_up clk ms.w).2 (by rw [hb1]; exact hlen)
  rw [hbl] at hbl'
  simp only [Option.some.injEq, Prod.mk.injEq] at hbl'
  obtain ⟨-, rfl⟩ := hbl'
  have hn2 := NeverUp_of_same clk _ w1 hg1 hn1
  obtain ⟨hup2, hg2⟩ := check_if_time_up_never clk w1 hn2
  refine ⟨m, v, { ms with w := (check_if_time_up clk w1).2, searched := ms.searched ++ [d] },
    ?_, rfl, ?_, NeverUp_of_same clk w1 _ hg2 hn2, ?_⟩
  · rw [driver_loop, if_pos hd.2]
    simp only []
    rw [if_neg (by rw [hup]; decide), if_pos hsz, hbl]
    simp only []
    rw [if_pos hup2]
  · show (check_if_time_up clk w1).2.board = b
    rw [hg2.1, hg1.1, hb1]
  · rw [hb1] at hbest
    exact hbest

theorem driver_loop_reaches (clk : Nat → Int) (c : Int) (avail moves : List Int) (b : Board)
    (hlen : b.length = 64) (hmoves : legal_moves b c = some moves) (hne : moves ≠ []) :
    ∀ (j f : Nat) (d bm md : Int) (ms : Master), 1 ≤ d → d + (j : Int) < 10 →
      ms.size - 1 ≤ 0 → ms.w.board = b → NeverUp clk ms.w →
      ∃ m v ms1, driver_loop clk c avail (f + (j + 1)) d bm md ms =
          driver_loop clk c avail f (d + j + 1) m (d + j) ms1 ∧
        ms1.size = ms.size ∧ ms1.w.board = b ∧ NeverUp clk ms1.w ∧
        EarliestBest (root_move_value c (d + j - 1).toNat b) moves m v := by
  intro j
  induction j with
  | zero =>
    intro f d bm md ms h1 h10 hsz hb hn
    obtain ⟨m, v, ms1, h, hs, hb1, hn1, hbest⟩ := driver_loop_step clk c avail moves b hlen hmoves
      hne f d bm md ms ⟨h1, by simpa using h10⟩ hsz hb hn
    refine ⟨m, v, ms1, ?_, hs, hb1, hn1, ?_⟩
    · simpa using h
    · simpa using hbest
  | succ j ih =>
    intro f d bm md ms h1 h10 hsz hb hn
    push_cast at h10
    obtain ⟨m, v, ms1, h, hs, hb1, hn1, -⟩ := ih (f + 1) d bm md ms h1 (by omega) hsz hb hn
    obtain ⟨m2, v2, ms2, h2, hs2, hb2, hn2, hbest2⟩ := driver_loop_step clk c avail moves b hlen
      hmoves hne f (d + j + 1) m (d + j) ms1 ⟨by omega, by omega⟩ (by rw [hs]; exact hsz) hb1 hn1
    refine ⟨m2, v2, ms2, ?_, hs2.trans hs, hb2, hn2, ?_⟩
    · have e : f + (j + 1 + 1) = f + 1 + (j + 1) := by omega
      rw [e, h, h2]
      push_cast
      simp only [add_assoc]
    · push_cast
      have e3 : d + ((j : Int) + 1) - 1 = d + j + 1 - 1 := by ring
      rw [e3]
      exact hbest2


theorem dispatch_slices_witness :
    1 ≤ ([19, 26, 37, 44] : List Int).length ∧ (1 : Int) ≤ 3 ∧
    dispatch_loop [19, 26, 37, 44] BLACK 1 (-999999) 999999 ((((4 : Nat) : Int) + 3 - 1).tdiv 3)
        (worker_ranks 3) 0 [] =
      some (4,
        [Msg.int 1 0 2, Msg.int 1 1 0, Msg.task 1 ⟨19, 1, 1, -999999, 999999⟩,
          Msg.task 1 ⟨26, 1, 1, -999999, 999999⟩, Msg.int 2 0 2, Msg.int 2 1 0,
          Msg.task 2 ⟨37, 1, 1, -999999, 999999⟩, Msg.task 2 ⟨44, 1, 1, -999999, 999999⟩]) :=
  ⟨by decide, by decide,
    (dispatch_slices [19, 26, 37, 44] BLACK 1 (-999999) 999999 3 [] (by decide) (by decide)).1⟩

theorem collection_keeps_first_best_witness :
    collect_loop frozen_clock 2 3 [some (1, [⟨18, 4⟩, ⟨20, 7⟩]), none, some (2, [⟨34, 7⟩]), none]
        ⟨-1, -999999, -999999, 0, []⟩ ⟨opening_board, 0, 1000, 0⟩ =
      some (⟨20, 7, 7, 3, [Msg.int 1 5 4, Msg.int 2 5 4, Msg.int 1 5 7, Msg.int 2 5 7]⟩,
        ⟨opening_board, 0, 1000, 3⟩, [none]) ∧
    (∀ r ∈ poll_results [some (1, [⟨18, 4⟩, ⟨20, 7⟩]), none, some (2, [⟨34, 7⟩]), none],
      -999999 < r.score) ∧
    ∃ consumed,
      [some (1, [⟨18, 4⟩, ⟨20, 7⟩]), none, some (2, [⟨34, 7⟩]), none] = consumed ++ [none] ∧
      (3 : Int) = ((poll_results consumed).length : Int) ∧
      (poll_results consumed = [] → (20 : Int) = -1) ∧
      (poll_results consumed ≠ [] →
        ∃ (i : Nat) (r : MoveResult), (poll_results consumed)[i]? = some r ∧
          (20 : Int) = r.move ∧ (7 : Int) = r.score ∧
          (∀ r1 ∈ poll_results consumed, r1.score ≤ r.score) ∧
          ∀ (j : Nat) (r1 : MoveResult), j < i → (poll_results consumed)[j]? = some r1 →
            r1.score < r.score) :=
  ⟨rfl, by decide,
    collection_keeps_first_best frozen_clock 2 3
      [some (1, [⟨18, 4⟩, ⟨20, 7⟩]), none, some (2, [⟨34, 7⟩]), none] []
      ⟨opening_board, 0, 1000, 0⟩ _ _ _ rfl (by decide)⟩

theorem alpha_broadcasts_increase_witness :
    collect_loop frozen_clock 2 2 [none, some (2, [⟨26, 3⟩]), some (1, [⟨19, 9⟩])]
        ⟨-1, -999999, -999999, 0, []⟩ ⟨opening_board, 0, 1000, 0⟩ =
      some (⟨19, 9, 9, 2, [Msg.int 1 5 3, Msg.int 2 5 3, Msg.int 1 5 9, Msg.int 2 5 9]⟩,
        ⟨opening_board, 0, 1000, 3⟩, []) ∧
    ∃ consumed new, [none, some (2, [⟨26, 3⟩]), some (1, [⟨19, 9⟩])] = consumed ++ [] ∧
      [Msg.int 1 5 3, Msg.int 2 5 3, Msg.int 1 5 9, Msg.int 2 5 9] = [] ++ new ∧
      (-999999 : Int) ≤ 9 ∧
      ∀ k ∈ worker_ranks 2,
        (alphas_to k new).Pairwise (· < ·) ∧
        ∀ a ∈ alphas_to k new, -999999 < a ∧ a ≤ 9 ∧
          ∃ n : Nat, 0 < n ∧ n ≤ (poll_results consumed).length ∧
            (∃ r ∈ (poll_results consumed).take n, r.score = a) ∧
            ∀ r ∈ (poll_results consumed).take n, r.score ≤ a :=
  ⟨rfl,
    alpha_broadcasts_increase frozen_clock 2 2 [none, some (2, [⟨26, 3⟩]), some (1, [⟨19, 9⟩])] []
      ⟨opening_board, 0, 1000, 0⟩ _ _ _ rfl⟩

theorem max_loop_range (child : Int → Int → World → Option (Int × World)) (c : Int)
    (hchild : ∀ a be w1, w1.board.length = 64 →
      ∃ r w2, child a be w1 = some (r, w2) ∧ SameGlobals w1 w2 ∧ -2500 ≤ r ∧ r ≤ 2500) :
    ∀ moves : List Int, (∀ m ∈ moves, 0 ≤ m ∧ m < 64) →
      ∀ (al be best : Int) (w : World), w.board.length = 64 →
        (best = -9999999 ∨ (-2500 ≤ best ∧ best ≤ 2500)) →
        ∃ r w1, minimax_max_loop child c moves al be best w = some (r, w1) ∧
          SameGlobals w w1 ∧ (moves = [] → r = best) ∧
          (moves ≠ [] → -2500 ≤ r ∧ r ≤ 2500) := by
  intro moves
  induction moves with
  | nil =>
    intro _ al be best w _ _
    exact ⟨best, w, rfl, ⟨rfl, rfl, rfl⟩, fun _ => rfl, fun h => absurd rfl h⟩
  | cons m rest ih =>
    intro hr al be best w hlen hbest
    obtain ⟨h0, h1⟩ := hr m (List.mem_cons_self _ _)
    obtain ⟨b1, hb1, hlen1⟩ := make_temp_move_total w.board hlen m c h0 h1
    obtain ⟨s, w2, hs, ⟨hg1, hg2, hg3⟩, hs0, hs1⟩ := hchild al be { w with board := b1 } hlen1
    have hres : restore_board w.board w2.board = some w.board :=
      restore_board_eq w.board w2.board hlen (by rw [hg1]; exact hlen1)
    rw [minimax_max_loop, copy_curr_board_eq w.board hlen]
    simp only [hb1, hs, hres]
    have hg : SameGlobals w { w2 with board := w.board } := ⟨rfl, hg2, hg3⟩
    have hb1r : -2500 ≤ (if s > best then s else best) ∧ (if s > best then s else best) ≤ 2500 := by
      split <;> omega
    by_cases hcut : be ≤
        (if al < (if s > best then s else best) then (if s > best then s else best) else al)
    · rw [if_pos hcut]
      exact ⟨_, _, rfl, hg, fun h => by simp at h, fun _ => hb1r⟩
    · rw [if_neg hcut]
      obtain ⟨r, w1, hr1, ⟨hg1', hg2', hg3'⟩, he, hne⟩ :=
        ih (fun x hx => hr x (List.mem_cons_of_mem _ hx))
          (if al < (if s > best then s else best) then (if s > best then s else best) else al)
          be (if s > best then s else best) { w2 with board := w.board } hlen (Or.inr hb1r)
      refine ⟨r, w1, hr1, ⟨hg1'.trans hg.1, hg2'.trans hg.2.1, hg3'.trans hg.2.2⟩,
        fun h => by simp at h, fun _ => ?_⟩
      cases rest with
      | nil => rw [he rfl]; exact hb1r
      | cons x xs => exact hne (by simp)

theorem min_loop_range (child : Int → Int → World → Option (Int × World)) (c : Int)
    (hchild : ∀ a be w1, w1.board.length = 64 →
      ∃ r w2, child a be w1 = some (r, w2) ∧ SameGlobals w1 w2 ∧ -2500 ≤ r ∧ r ≤ 2500) :
    ∀ moves : List Int, (∀ m ∈ moves, 0 ≤ m ∧ m < 64) →
      ∀ (al be best : Int) (w : World), w.board.length = 64 →
        (best = 9999999 ∨ (-2500 ≤ best ∧ best ≤ 2500)) →
        ∃ r w1, minimax_min_loop child c moves al be best w = some (r, w1) ∧
          SameGlobals w w1 ∧ (moves = [] → r = best) ∧
          (moves ≠ [] → -2500 ≤ r ∧ r ≤ 2500) := by
  intro moves
  induction moves with
  | nil =>
    intro _ al be best w _ _
    exact ⟨best, w, rfl, ⟨rfl, rfl, rfl⟩, fun _ => rfl, fun h => absurd rfl h⟩
  | cons m rest ih =>
    intro hr al be best w hlen hbest
    obtain ⟨h0, h1⟩ := hr m (List.mem_cons_self _ _)
    obtain ⟨b1, hb1, hlen1⟩ := make_temp_move_total w.board hlen m c h0 h1
    obtain ⟨s, w2, hs, ⟨hg1, hg2, hg3⟩, hs0, hs1⟩ := hchild al be { w with board := b1 } hlen1
    have hres : restore_board w.board w2.board = some w.board :=
      restore_board_eq w.board w2.board hlen (by rw [hg1]; exact hlen1)
    rw [minimax_min_loop, copy_curr_board_eq w.board hlen]
    simp only [hb1, hs, hres]
    have hg : SameGlobals w { w2 with board := w.board } := ⟨rfl, hg2, hg3⟩
    have hb1r : -2500 ≤ (if s < best then s else best) ∧ (if s < best then s else best) ≤ 2500 := by
      split <;> omega
    by_cases hcut :
        (if be > (if s < best then s else best) then (if s < best then s else best) else be) ≤ al
    · rw [if_pos hcut]
      exact ⟨_, _, rfl, hg, fun h => by simp at h, fun _ => hb1r⟩
    · rw [if_neg hcut]
      obtain ⟨r, w1, hr1, ⟨hg1', hg2', hg3'⟩, he, hne⟩ :=
        ih (fun x hx => hr x (List.mem_cons_of_mem _ hx)) al
          (if be > (if s < best then s else best) then (if s < best then s else best) else be)
          (if s < best then s else best) { w2 with board := w.board } hlen (Or.inr hb1r)
      refine ⟨r, w1, hr1, ⟨hg1'.trans hg.1, hg2'.trans hg.2.1, hg3'.trans hg.2.2⟩,
        fun h => by simp at h, fun _ => ?_⟩
      cases rest with
      | nil => rw [he rfl]; exact hb1r
      | cons x xs => exact hne (by simp)

theorem leaf_value_range (c : Int) (w : World) (hlen : w.board.length = 64) :
    ∃ v, leaf_value c w = some (v, w) ∧ -2500 ≤ v ∧ v ≤ 2500 := by
  obtain ⟨v, hv, hr⟩ := evaluate_board_state_total w.board hlen c
  exact ⟨v, by simp [leaf_value, hv], hr⟩

/-- Whatever the deadline does, `minimax` on a 64-cell board returns, restores
the globals, and its value lies in the range -2500..2500 of the evaluator. -/
theorem minimax_range (clk : Nat → Int) :
    ∀ (fuel : Nat) (depth al be : Int) (mx : Bool) (root curr : Int) (w : World),
      w.board.length = 64 → (depth ≤ 0 ∨ depth > 10 ∨ depth < fuel) → 1 ≤ fuel →
      ∃ r w1, minimax clk fuel depth al be mx root curr w = some (r, w1) ∧
        SameGlobals w w1 ∧ -2500 ≤ r ∧ r ≤ 2500 := by
  intro fuel
  induction fuel with
  | zero => intro _ _ _ _ _ _ _ _ _ h; omega
  | succ f ih =>
    intro depth al be mx root curr w hlen hd _
    rw [minimax]
    by_cases hleaf : depth ≤ 0 ∨ depth > 10
    · rw [if_pos hleaf]
      obtain ⟨v, hv, hr⟩ := leaf_value_range root w hlen
      exact ⟨v, w, hv, ⟨rfl, rfl, rfl⟩, hr⟩
    · rw [if_neg hleaf]
      have hf : 1 ≤ f := by
        rcases Nat.eq_zero_or_pos f with h | h
        · subst h; push_cast at hd; omega
        · exact h
      have hd' : depth - 1 ≤ 0 ∨ depth - 1 > 10 ∨ depth - 1 < f := by
        push_cast at hd; omega
      have hlen2 : (check_if_time_up clk w).2.board.length = 64 := hlen
      have hg2 : SameGlobals w (check_if_time_up clk w).2 := ⟨rfl, rfl, rfl⟩
      simp only []
      by_cases hup : (check_if_time_up clk w).1 = true
      · rw [if_pos hup]
        obtain ⟨v, hv, hr⟩ := leaf_value_range root (check_if_time_up clk w).2 hlen2
        exact ⟨v, _, hv, hg2, hr⟩
      · rw [if_neg hup, legal_moves_eq _ hlen2 curr]
        simp only []
        by_cases hnone : ((legalList (check_if_time_up clk w).2.board curr
            (if curr = WHITE then BLACK else WHITE)).length : Int) ≤ 0
        · rw [if_pos hnone, legal_moves_eq _ hlen2 ((curr + 1).tmod 2)]
          simp only []
          by_cases hnone2 : ((legalList (check_if_time_up clk w).2.board ((curr + 1).tmod 2)
              (if (curr + 1).tmod 2 = WHITE then BLACK else WHITE)).length : Int) ≤ 0
          · rw [if_pos hnone2]
            obtain ⟨v, hv, hr⟩ := leaf_value_range root (check_if_time_up clk w).2 hlen2
            exact ⟨v, _, hv, hg2, hr⟩
          · rw [if_neg hnone2]
            obtain ⟨r, w1, hr, hg, hrange⟩ := ih (depth - 1) al be (!mx) root ((curr + 1).tmod 2)
              (check_if_time_up clk w).2 hlen2 hd' hf
            exact ⟨r, w1, hr, hg, hrange⟩
        · rw [if_neg hnone]
          have hne : legalList (check_if_time_up clk w).2.board curr
              (if curr = WHITE then BLACK else WHITE) ≠ [] := by
            intro h
            rw [h] at hnone
            exact hnone (by simp)
          by_cases hmx : mx = true
          · rw [if_pos hmx]
            obtain ⟨r, w1, hr, hg, -, hrange⟩ := max_loop_range
              (fun a b w1 => minimax clk f (depth - 1) a b false root ((curr + 1).tmod 2) w1)
              curr (fun a b w1 h1 => ih (depth - 1) a b false root _ w1 h1 hd' hf)
              _ (fun m hm => legalList_range _ _ _ m hm) al be (-9999999)
              (check_if_time_up clk w).2 hlen2 (Or.inl rfl)
            exact ⟨r, w1, hr, hg, hrange hne⟩
          · rw [if_neg hmx]
            obtain ⟨r, w1, hr, hg, -, hrange⟩ := min_loop_range
              (fun a b w1 => minimax clk f (depth - 1) a b true root ((curr + 1).tmod 2) w1)
              curr (fun a b w1 h1 => ih (depth - 1) a b true root _ w1 h1 hd' hf)
              _ (fun m hm => legalList_range _ _ _ m hm) al be 9999999
              (check_if_time_up clk w).2 hlen2 (Or.inl rfl)
            exact ⟨r, w1, hr, hg, hrange hne⟩

/-- Whatever the deadline does, `evaluate_moves` for a cell on a 64-cell
board returns a score in the range -2500..2500 and restores the globals. -/
theorem evaluate_moves_range (clk : Nat → Int) (move c depth al be : Int) (w : World)
    (hlen : w.board.length = 64) (h0 : 0 ≤ move) (h1 : move < 64) :
    ∃ r w1, evaluate_moves clk move c depth al be w = some (r, w1) ∧ SameGlobals w w1 ∧
      -2500 ≤ r ∧ r ≤ 2500 := by
  obtain ⟨b1, hb1, hlen1⟩ := make_temp_move_total w.board hlen move c h0 h1
  obtain ⟨s, w2, hs, ⟨hg1, hg2, hg3⟩, hrange⟩ := minimax_range clk SEARCH_FUEL (depth - 1) al be
    false c ((c + 1).tmod 2) { w with board := b1 } hlen1 (by simp only [SEARCH_FUEL]; omega)
    (by decide)
  have hres : restore_board w.board w2.board = some w.board :=
    restore_board_eq w.board w2.board hlen (by rw [hg1]; exact hlen1)
  refine ⟨s, { w2 with board := w.board }, ?_, ⟨rfl, hg2, hg3⟩, hrange⟩
  unfold evaluate_moves
  rw [copy_curr_board_eq w.board hlen]
  simp only [hb1, hs, hres]

theorem sprintf_d_digit (x : Int) (h0 : 0 ≤ x) (h1 : x ≤ 9) : sprintf_d x = [48 + x] := by
  obtain ⟨n, rfl⟩ := Int.eq_ofNat_of_zero_le h0
  have hn : n < 10 := by omega
  unfold sprintf_d
  rw [if_neg (by omega), Int.toNat_ofNat, decimal_digits, if_pos hn]

theorem get_loc_cons (c0 c1 : Int) (rest : List Int) :
    get_loc (c0 :: c1 :: rest) =
      some (if c0 = 112 ∨ ¬(49 ≤ c0 ∧ c0 ≤ 56) ∨ ¬(49 ≤ c1 ∧ c1 ≤ 56) then -1
        else 8 * (c0 - 48 - 1) + (c1 - 48 - 1)) := by
  have e0 : readCell (c0 :: c1 :: rest) 0 = some c0 := by
    rw [readCell_eq _ _ (by omega) (by simp only [List.length_cons]; omega)]; rfl
  have e1 : readCell (c0 :: c1 :: rest) 1 = some c1 := by
    rw [readCell_eq _ _ (by omega) (by simp only [List.length_cons]; omega)]; rfl
  unfold get_loc
  simp only [e0, e1]
  by_cases hp : c0 = 112
  · rw [if_pos hp, if_pos (Or.inl hp)]
  · rw [if_neg hp]
    by_cases hr : c0 - 48 - 1 < 0 ∨ c0 - 48 - 1 ≥ BOARD_SIZE ∨ c1 - 48 - 1 < 0 ∨
        c1 - 48 - 1 ≥ BOARD_SIZE
    · rw [if_pos hr, if_pos]
      simp only [BOARD_SIZE] at hr
      omega
    · rw [if_neg hr, if_neg]
      · simp only [BOARD_SIZE]; rw [Int.mul_comm]
      · simp only [BOARD_SIZE] at hr
        omega

/-- C31: for every move buffer, `get_loc` returns -1 when the first character
is `'p'` or one of the first two characters is not a digit `'1'..'8'`, and
`8 * (row - 1) + (col - 1)` otherwise; the result lies in -1..63; and a
`play_move` command whose buffer decodes to -1 leaves the master process,
its board included, unchanged and the loop running. -/
theorem get_loc_decodes (c0 c1 : Int) (rest : List Int) :
    (∃ r, get_loc (c0 :: c1 :: rest) = some r ∧ -1 ≤ r ∧ r ≤ 63 ∧
      ((c0 = 112 ∨ ¬(49 ≤ c0 ∧ c0 ≤ 56) ∨ ¬(49 ≤ c1 ∧ c1 ≤ 56)) → r = -1) ∧
      (¬(c0 = 112 ∨ ¬(49 ≤ c0 ∧ c0 ≤ 56) ∨ ¬(49 ≤ c1 ∧ c1 ≤ 56)) →
        r = 8 * ((c0 - 48) - 1) + ((c1 - 48) - 1))) ∧
    (get_loc (c0 :: c1 :: rest) = some (-1) →
      ∀ (clk : Nat → Int) (send_ok : Bool) (my_colour time_limit : Int) (ms : Master),
        run_master_step clk "play_move" (c0 :: c1 :: rest) send_ok my_colour time_limit ms =
          some ⟨1, none, ms⟩) := by
  refine ⟨⟨_, get_loc_cons c0 c1 rest, ?_, ?_, ?_, ?_⟩, ?_⟩
  · split <;> omega
  · split <;> omega
  · intro h; rw [if_pos h]
  · intro h; rw [if_neg h]
  · intro h clk send_ok my_colour time_limit ms
    unfold run_master_step
    rw [h]
    simp only [play_move]
    rw [if_neg (by decide), if_neg (by decide), if_pos trivial, if_pos (by decide)]
    rfl

theorem get_loc_decodes_witness :
    get_loc [112, 97, 115, 115, 0] = some (-1) ∧
    run_master_step frozen_clock "play_move" [112, 97, 115, 115, 0] true WHITE 5
      ⟨⟨after_19_board, 0, 0, 0⟩, 1, [], [], []⟩ =
        some ⟨1, none, ⟨⟨after_19_board, 0, 0, 0⟩, 1, [], [], []⟩⟩ :=
  ⟨by decide, (get_loc_decodes 112 97 [115, 115, 0]).2 (by decide) frozen_clock true WHITE 5
    ⟨⟨after_19_board, 0, 0, 0⟩, 1, [], [], []⟩⟩

/-- C32: for every cell index `p` in 0..63 `format_move` writes exactly two
characters, the digit of `p / 8 + 1` and the digit of `p % 8 + 1`, and
`get_loc` decodes them to `p`; for the pass sentinel -1 it writes `"pass"`,
which `get_loc` decodes to -1. -/
theorem format_move_roundtrip :
    (∀ p : Int, 0 ≤ p → p < 64 →
      format_move p = [48 + (p.tdiv 8 + 1), 48 + (p.tmod 8 + 1), 0] ∧
      1 ≤ p.tdiv 8 + 1 ∧ p.tdiv 8 + 1 ≤ 8 ∧ 1 ≤ p.tmod 8 + 1 ∧ p.tmod 8 + 1 ≤ 8 ∧
      get_loc (format_move p) = some p) ∧
    format_move (-1) = [112, 97, 115, 115, 0] ∧
    get_loc (format_move (-1)) = some (-1) := by
  refine ⟨?_, rfl, by decide⟩
  intro p h0 h1
  have hd : p.tdiv 8 = p / 8 := Int.tdiv_eq_ediv h0 (by omega)
  have hm : p.tmod 8 = p % 8 := Int.tmod_eq_emod h0 (by omega)
  have hf : format_move p = [48 + (p.tdiv 8 + 1), 48 + (p.tmod 8 + 1), 0] := by
    unfold format_move
    rw [if_neg (by omega)]
    simp only [BOARD_SIZE]
    rw [sprintf_d_digit _ (by omega) (by omega), sprintf_d_digit _ (by omega) (by omega)]
    rfl
  refine ⟨hf, by omega, by omega, by omega, by omega, ?_⟩
  rw [hf, get_loc_cons, if_neg (by omega)]
  congr 1
  omega

theorem format_move_roundtrip_witness :
    format_move 19 = [51, 52, 0] ∧ get_loc (format_move 19) = some 19 :=
  ⟨(format_move_roundtrip.1 19 (by decide) (by decide)).1,
    (format_move_roundtrip.1 19 (by decide) (by decide)).2.2.2.2.2⟩

/-- C35 (code defect): for the playable square `10 * R + C` of the local
opponent (`R = r + 1`, `C = c + 1`, `r` and `c` in 0..7) the string written by
`opponent_get_move_string` holds the 0-based digits of `r` and `c`; `get_loc`
reads them as 1-based, so it returns -1 for every square of the first row or
column and the cell `8 * (r - 1) + (c - 1)` otherwise, never the cell
`8 * r + c` the opponent played. -/
theorem opponent_string_misread :
    ∀ r c : Fin 8,
      opponent_get_move_string (10 * ((r.val : Int) + 1) + ((c.val : Int) + 1)) =
        [(r.val : Int) + 48, (c.val : Int) + 48, 10, 0] ∧
      get_loc (opponent_get_move_string (10 * ((r.val : Int) + 1) + ((c.val : Int) + 1))) =
        some (if r.val = 0 ∨ c.val = 0 then -1
          else 8 * ((r.val : Int) - 1) + ((c.val : Int) - 1)) ∧
      get_loc (opponent_get_move_string (10 * ((r.val : Int) + 1) + ((c.val : Int) + 1))) ≠
        some (8 * (r.val : Int) + (c.val : Int)) := by
  decide


theorem dy_at_found (b : Board) (my opp i j : Int) (l : List (Int × Int))
    (st : List Int × Int) :
    l.foldlM (fun s d => legal_moves_dy_at b my opp i j d.1 s d.2) (st, true) =
      some (st, true) := by
  induction l with
  | nil => rfl
  | cons d ds ih =>
    rw [foldlM_cons_some _ _ (st, true) d ds (by simp [legal_moves_dy_at])]
    exact ih

theorem dy_at_fold (b : Board) (hlen : b.length = 64) (my opp i j : Int)
    (hij : onBoard i j = true) (l : List (Int × Int))
    (hl : ∀ d ∈ l, (d.1 = 0 ∧ d.2 = 0) ∨ IsDir d.1 d.2) (st : List Int × Int) :
    l.foldlM (fun s d => legal_moves_dy_at b my opp i j d.1 s d.2) (st, false) =
      if l.any (dirHit b my opp i j) = true then
        (store_move st (i * BOARD_SIZE + j)).map fun s => (s, true)
      else some (st, false) := by
  induction l with
  | nil => simp
  | cons d ds ih =>
    have ih := ih (fun e he => hl e (List.mem_cons_of_mem _ he))
    rcases hl d (List.mem_cons_self _ _) with h0 | hd
    · have hh : dirHit b my opp i j d = false := by simp [dirHit, h0]
      rw [foldlM_cons_some _ _ (st, false) d ds (by simp [legal_moves_dy_at, h0]), ih,
        List.any_cons, hh, Bool.false_or]
    · have hz : ¬(d.1 = 0 ∧ d.2 = 0) := hd.2.2
      obtain ⟨r, hr, hr01⟩ := check_direction_total b hlen i j d.1 d.2 my opp hd hij
      rcases hr01 with rfl | rfl
      · have hh : dirHit b my opp i j d = false := by simp [dirHit, hr]
        rw [foldlM_cons_some _ _ (st, false) d ds (by simp [legal_moves_dy_at, hz, hr]), ih,
          List.any_cons, hh, Bool.false_or]
      · have hh : dirHit b my opp i j d = true := by simp [dirHit, hr, hz]
        rw [List.any_cons, hh, Bool.true_or, if_pos rfl]
        cases hs : store_move st (i * BOARD_SIZE + j) with
        | none =>
          rw [List.foldlM_cons]
          simp [legal_moves_dy_at, hz, hr, hs]
        | some s =>
          rw [foldlM_cons_some _ _ (s, true) d ds (by simp [legal_moves_dy_at, hz, hr, hs]),
            dy_at_found]
          rfl

theorem legal_moves_cell_at_eq (b : Board) (hlen : b.length = 64) (my opp i j : Int)
    (hi : i ∈ indices) (hj : j ∈ indices) (st : List Int × Int) :
    legal_moves_cell_at b my opp i st j =
      (if legalAt b my opp i j = true then [i * BOARD_SIZE + j] else []).foldlM store_move st := by
  have hij := mem_indices_onBoard i j hi hj
  obtain ⟨v, hv⟩ := readCell_onBoard b hlen i j hij
  unfold legal_moves_cell_at
  simp only [BOARD_SIZE] at hv ⊢
  rw [hv]
  simp only []
  by_cases hve : v = EMPTY
  · subst hve
    rw [if_neg (by simp), nested_deltas, dy_at_fold b hlen my opp i j hij _ deltaPairs_dir]
    have : legalAt b my opp i j = anyDirection b my opp i j := by
      simp [legalAt, hv]
    rw [this]
    unfold anyDirection
    split
    · simp only [BOARD_SIZE, List.foldlM_cons, List.foldlM_nil]
      cases store_move st (i * 8 + j) <;> rfl
    · rfl
  · rw [if_pos hve]
    have : legalAt b my opp i j = false := by
      simp [legalAt, hv, hve]
    simp [this]

theorem foldlM_store_flat {β : Type} (g : β → List Int)
    (f : (List Int × Int) → β → Option (List Int × Int)) (l : List β)
    (h : ∀ x ∈ l, ∀ st, f st x = (g x).foldlM store_move st) :
    ∀ st, l.foldlM f st = (l.flatMap g).foldlM store_move st := by
  induction l with
  | nil => intro st; rfl
  | cons x xs ih =>
    intro st
    have ih := ih (fun y hy => h y (List.mem_cons_of_mem _ hy))
    rw [List.foldlM_cons, List.flatMap_cons, List.foldlM_append, h x (List.mem_cons_self _ _)]
    congr 1
    funext s
    exact ih s

theorem set_overlay (pre buf : List Int) (x : Int) (h : pre.length < buf.length) :
    (pre ++ buf.drop pre.length).set pre.length x =
      (pre ++ [x]) ++ buf.drop ((pre ++ [x]).length) := by
  have e : buf.drop pre.length = buf[pre.length] :: buf.drop (pre.length + 1) :=
    List.drop_eq_getElem_cons h
  rw [List.set_append_right _ _ (le_refl _), Nat.sub_self, e, List.set_cons_zero]
  simp

theorem store_fold (buf : List Int) :
    ∀ (l pre : List Int), pre.length + l.length ≤ buf.length →
      l.foldlM store_move (pre ++ buf.drop pre.length, (pre.length : Int)) =
        some ((pre ++ l) ++ buf.drop (pre ++ l).length, ((pre ++ l).length : Int)) := by
  intro l
  induction l with
  | nil => intro pre _; simp
  | cons x xs ih =>
    intro pre h
    rw [List.length_cons] at h
    have hlt : pre.length < buf.length := by omega
    have hw : store_move (pre ++ buf.drop pre.length, (pre.length : Int)) x =
        some ((pre ++ [x]) ++ buf.drop (pre ++ [x]).length, ((pre ++ [x]).length : Int)) := by
      unfold store_move
      simp only []
      rw [writeCell_eq _ _ _ (by omega) (by simp; omega), Int.toNat_ofNat,
        set_overlay pre buf x hlt]
      simp
    rw [foldlM_cons_some _ _ _ x xs hw, ih (pre ++ [x]) (by simp; omega)]
    simp

theorem cells_fold_eq (b : Board) (hlen : b.length = 64) (my : Int) (buf : List Int) :
    indices.foldlM
      (fun st i => indices.foldlM
        (legal_moves_cell_at b my (if my = WHITE then BLACK else WHITE) i) st) (buf, 0) =
      (legalList b my (if my = WHITE then BLACK else WHITE)).foldlM store_move (buf, 0) := by
  unfold legalList
  rw [foldlM_store_flat
    (fun i => indices.flatMap fun j =>
      if legalAt b my (if my = WHITE then BLACK else WHITE) i j = true
        then [i * BOARD_SIZE + j] else [])]
  intro i hi st
  exact foldlM_store_flat _ _ _
    (fun j hj st1 => legal_moves_cell_at_eq b hlen my _ i j hi hj st1) st

theorem store_all (buf l : List Int) (hbuf : l.length < buf.length) :
    l.foldlM store_move (buf, 0) = some (l ++ List.drop l.length buf, (l.length : Int)) := by
  have h2 := store_fold buf l [] (by simp; omega)
  simp only [List.length_nil, List.drop_zero, List.nil_append, Nat.cast_zero] at h2
  exact h2

theorem store_sentinel (buf l : List Int) (hbuf : l.length < buf.length) :
    Option.map (fun a => (a, (l.length : Int)))
        (writeCell (l ++ List.drop l.length buf) (l.length : Int) (-1)) =
      some (l ++ -1 :: List.drop (l.length + 1) buf, (l.length : Int)) := by
  have h3 := set_overlay l buf (-1) hbuf
  rw [writeCell_eq _ _ _ (by omega) (by simp; omega), Int.toNat_ofNat, h3]
  simp

theorem legal_moves_array_of_fold (b : Board) (my : Int) (buf l : List Int)
    (h1 : indices.foldlM
      (fun st i => indices.foldlM
        (legal_moves_cell_at b my (if my = WHITE then BLACK else WHITE) i) st) (buf, 0) =
      l.foldlM store_move (buf, 0))
    (hbuf : l.length < buf.length) :
    legal_moves_array b my buf =
      some (l ++ -1 :: List.drop (l.length + 1) buf, (l.length : Int)) := by
  unfold legal_moves_array
  dsimp only
  rw [h1, store_all buf l hbuf]
  exact store_sentinel buf l hbuf

theorem legal_moves_array_eq (b : Board) (hlen : b.length = 64) (my : Int) (buf : List Int)
    (hbuf : (legalList b my (if my = WHITE then BLACK else WHITE)).length < buf.length) :
    legal_moves_array b my buf =
      some (legalList b my (if my = WHITE then BLACK else WHITE) ++ -1 ::
          buf.drop ((legalList b my (if my = WHITE then BLACK else WHITE)).length + 1),
        ((legalList b my (if my = WHITE then BLACK else WHITE)).length : Int)) :=
  legal_moves_array_of_fold b my buf _ (cells_fold_eq b hlen my buf) hbuf

theorem legalList_length_le (b : Board) (hlen : b.length = 64) (my opp : Int)
    (hne : my ≠ opp) (hopp : opp ≠ EMPTY) : (legalList b my opp).length ≤ 63 := by
  have hsub := legalList_sublist b my opp
  have hle := hsub.length_le
  have hall : all_cells.length = 64 := by decide
  by_contra hgt
  have heq : legalList b my opp = all_cells := hsub.eq_of_length (by omega)
  have h0 : (0 : Int) ∈ legalList b my opp := by
    rw [heq]; exact mem_all_cells 0 0 (by decide)
  obtain ⟨i, j, hij, _, hat⟩ := (mem_legalList b my opp 0).mp h0
  have hany : anyDirection b my opp i j = true := by
    unfold legalAt at hat
    rw [Bool.and_eq_true] at hat
    exact hat.2
  obtain ⟨dx, dy, hd, n, hn, hbr, _⟩ := (anyDirection_iff b hlen my opp i j hij hne).mp hany
  obtain ⟨hon, hread⟩ := hbr 1 (le_refl _) hn
  have hq : rayCell i j dx dy 1 ∈ legalList b my opp := by
    rw [heq]
    unfold rayCell
    exact mem_all_cells _ _ hon
  obtain ⟨i1, j1, _, hm1, hat1⟩ := (mem_legalList b my opp _).mp hq
  unfold legalAt at hat1
  rw [Bool.and_eq_true, beq_iff_eq] at hat1
  rw [← hm1, hread] at hat1
  exact hopp (Option.some.inj hat1.1)

theorem legal_moves_length_le (b : Board) (hlen : b.length = 64) (c : Int) (moves : List Int)
    (h : legal_moves b c = some moves) : moves.length ≤ 63 := by
  rw [legal_moves_eq b hlen c] at h
  rw [← Option.some.inj h]
  apply legalList_length_le b hlen
  · split <;> simp_all [WHITE, BLACK]
  · split <;> simp [WHITE, BLACK, EMPTY]

theorem evaluate_moves_negative (clk : Nat → Int) (move c depth al be : Int) (w : World)
    (hlen : w.board.length = 64) (h0 : move < 0) :
    ∃ r w1, evaluate_moves clk move c depth al be w = some (r, w1) ∧ SameGlobals w w1 := by
  have hb1 : make_temp_move move c w.board = some (0, w.board) := by
    unfold make_temp_move
    rw [if_neg (by omega)]
  obtain ⟨s, w2, hs, hg1, hg2, hg3⟩ := minimax_frame clk SEARCH_FUEL (depth - 1) al be false c
    ((c + 1).tmod 2) { w with board := w.board } hlen (by simp only [SEARCH_FUEL]; omega)
    (by decide)
  have hres : restore_board w.board w2.board = some w.board :=
    restore_board_eq w.board w2.board hlen (by rw [hg1]; exact hlen)
  unfold evaluate_moves
  rw [copy_curr_board_eq w.board hlen]
  simp only [hb1, hs, hres]
  exact ⟨_, _, rfl, rfl, hg2, hg3⟩

/-- C34: for every 64-cell board, every colour and every array of at least
`MAX_MOVES` entries, `legal_moves` returns; the cells it writes are the legal
cells, each once, in strictly increasing index order; `number_of_moves` is
their count `n`; and the array afterwards holds them in its first `n` entries
and the sentinel -1 at index `n`, the entries behind it unchanged. -/
theorem legal_moves_sorted_sentinel (b : Board) (hlen : b.length = 64) (c : Int)
    (buf : List Int) (hbuf : MAX_MOVES ≤ buf.length) :
    ∃ l : List Int, legal_moves b c = some l ∧
      legal_moves_array b c buf =
        some (l ++ -1 :: buf.drop (l.length + 1), (l.length : Int)) ∧
      (∀ m : Int, m ∈ l ↔ LegalCell b c (if c = WHITE then BLACK else WHITE) m) ∧
      l.Pairwise (fun x y => x < y) ∧ l.Nodup ∧
      (∀ k : Nat, k < l.length →
        readCell (l ++ -1 :: buf.drop (l.length + 1)) (k : Int) = l[k]?) ∧
      readCell (l ++ -1 :: buf.drop (l.length + 1)) (l.length : Int) = some (-1) := by
  have hle := legal_moves_length_le b hlen c _ (legal_moves_eq b hlen c)
  have hsorted := legalList_sorted b c (if c = WHITE then BLACK else WHITE)
  have hb : 64 ≤ buf.length := hbuf
  have hne : c ≠ (if c = WHITE then BLACK else WHITE) := by
    by_cases h : c = WHITE
    · rw [if_pos h, h]; decide
    · rw [if_neg h]; exact h
  refine ⟨_, legal_moves_eq b hlen c,
    legal_moves_array_eq b hlen c buf (by omega),
    fun m => mem_legalList_iff b hlen c _ m hne, hsorted,
    hsorted.imp (fun h => ne_of_lt h), ?_, ?_⟩
  · intro k hk
    rw [← getElem?_of_readCell, List.getElem?_append_left hk]
  · rw [← getElem?_of_readCell, List.getElem?_append_right (le_refl _), Nat.sub_self,
      List.getElem?_cons_zero]

theorem legal_moves_sorted_sentinel_witness :
    pass_board.length = 64 ∧ MAX_MOVES ≤ (List.replicate 64 (0 : Int)).length ∧
    ∃ l : List Int, legal_moves pass_board WHITE = some l ∧
      legal_moves_array pass_board WHITE (List.replicate 64 0) =
        some (l ++ -1 :: (List.replicate 64 (0 : Int)).drop (l.length + 1), (l.length : Int)) ∧
      (∀ m : Int, m ∈ l ↔ LegalCell pass_board WHITE (if WHITE = WHITE then BLACK else WHITE) m) ∧
      l.Pairwise (fun x y => x < y) ∧ l.Nodup ∧
      (∀ k : Nat, k < l.length →
        readCell (l ++ -1 :: (List.replicate 64 (0 : Int)).drop (l.length + 1)) (k : Int) =
          l[k]?) ∧
      readCell (l ++ -1 :: (List.replicate 64 (0 : Int)).drop (l.length + 1)) (l.length : Int) =
        some (-1) :=
  ⟨by decide, by decide,
    legal_moves_sorted_sentinel pass_board (by decide) WHITE (List.replicate 64 0) (by decide)⟩

/-- C37: for every 64-cell board, every colour argument (0 included) and
every array of `MAX_MOVES` = 64 entries, `legal_moves` completes without a
write outside the array: it finds at most 63 moves, so the sentinel goes to an
index of at most 63, and the array keeps its 64 entries. -/
theorem legal_moves_fits_buffer (b : Board) (hlen : b.length = 64) (c : Int)
    (buf : List Int) (hbuf : buf.length = MAX_MOVES) :
    ∃ (moves : List Int) (number_of_moves : Int),
      legal_moves_array b c buf = some (moves, number_of_moves) ∧
      0 ≤ number_of_moves ∧ number_of_moves ≤ 63 ∧ moves.length = MAX_MOVES ∧
      legal_moves b c = some (moves.take number_of_moves.toNat) := by
  have hle := legal_moves_length_le b hlen c _ (legal_moves_eq b hlen c)
  have hb : buf.length = 64 := hbuf
  refine ⟨_, _, legal_moves_array_eq b hlen c buf (by omega), by omega, by omega, ?_, ?_⟩
  · simp only [List.length_append, List.length_cons, List.length_drop, MAX_MOVES]
    omega
  · rw [Int.toNat_ofNat, List.take_left, legal_moves_eq b hlen c]

theorem legal_moves_fits_buffer_witness :
    pass_board.length = 64 ∧ (List.replicate 64 (0 : Int)).length = MAX_MOVES ∧
    ∃ (moves : List Int) (number_of_moves : Int),
      legal_moves_array pass_board 0 (List.replicate 64 0) = some (moves, number_of_moves) ∧
      0 ≤ number_of_moves ∧ number_of_moves ≤ 63 ∧ moves.length = MAX_MOVES ∧
      legal_moves pass_board 0 = some (moves.take number_of_moves.toNat) :=
  ⟨by decide, by decide,
    legal_moves_fits_buffer pass_board (by decide) 0 (List.replicate 64 0) (by decide)⟩

/-- C36: for every 64-cell board, every clock (whatever the deadline does),
depth, window, flag and colours, `minimax` returns with the board equal to the
board at entry; so do `evaluate_moves`, for every move argument below 64, and
`best_legal_move`. -/
theorem search_restores_board (clk : Nat → Int) (w : World) (hlen : w.board.length = 64) :
    (∀ (depth al be : Int) (mx : Bool) (root curr : Int),
      ∃ r w1, minimax clk SEARCH_FUEL depth al be mx root curr w = some (r, w1) ∧
        w1.board = w.board) ∧
    (∀ (move c depth al be : Int), move < 64 →
      ∃ r w1, evaluate_moves clk move c depth al be w = some (r, w1) ∧ w1.board = w.board) ∧
    (∀ (c depth al be : Int),
      ∃ r w1, best_legal_move clk c depth al be w = some (r, w1) ∧ w1.board = w.board) := by
  refine ⟨?_, ?_, ?_⟩
  · intro depth al be mx root curr
    obtain ⟨r, w1, h, hg, _⟩ := minimax_frame clk SEARCH_FUEL depth al be mx root curr w hlen
      (by simp only [SEARCH_FUEL]; omega) (by decide)
    exact ⟨r, w1, h, hg⟩
  · intro move c depth al be h1
    by_cases h0 : 0 ≤ move
    · obtain ⟨r, w1, h, hg, _⟩ := evaluate_moves_frame clk move c depth al be w hlen h0 h1
      exact ⟨r, w1, h, hg⟩
    · obtain ⟨r, w1, h, hg, _⟩ :=
        evaluate_moves_negative clk move c depth al be w hlen (by omega)
      exact ⟨r, w1, h, hg⟩
  · intro c depth al be
    obtain ⟨r, w1, h, hg, _⟩ := best_legal_move_frame clk c depth al be w hlen
    exact ⟨r, w1, h, hg⟩

theorem search_restores_board_witness :
    reply_board.length = 64 ∧
    (∃ r w1, minimax (late_clock 3) SEARCH_FUEL 4 (-999999) 999999 true BLACK BLACK
      ⟨reply_board, 0, 2, 0⟩ = some (r, w1) ∧ w1.board = reply_board) ∧
    (∃ r w1, evaluate_moves (late_clock 3) 18 BLACK 4 (-999999) 999999
      ⟨reply_board, 0, 2, 0⟩ = some (r, w1) ∧ w1.board = reply_board) ∧
    (∃ r w1, best_legal_move (late_clock 3) BLACK 4 (-999999) 999999
      ⟨reply_board, 0, 2, 0⟩ = some (r, w1) ∧ w1.board = reply_board) :=
  ⟨by decide,
    (search_restores_board (late_clock 3) ⟨reply_board, 0, 2, 0⟩ (by decide)).1
      4 (-999999) 999999 true BLACK BLACK,
    (search_restores_board (late_clock 3) ⟨reply_board, 0, 2, 0⟩ (by decide)).2.1
      18 BLACK 4 (-999999) 999999 (by decide),
    (search_restores_board (late_clock 3) ⟨reply_board, 0, 2, 0⟩ (by decide)).2.2
      BLACK 4 (-999999) 999999⟩

/-- C38: on every 64-cell board and for every root colour
`evaluate_board_state` returns a value of absolute value below 999999 (at
most 2500); so does `minimax`, whose value therefore never equals a window
bound -999999 / 999999 or an initial best value -9999999 / 9999999; and in
`best_legal_move` the first move evaluated, with score `s`, replaces the
initial best score -9999999 and the initial best move. -/
theorem scores_inside_window :
    (∀ (b : Board) (c : Int), b.length = 64 →
      ∃ v, evaluate_board_state b c = some v ∧ |v| < 999999 ∧ |v| ≤ 2500) ∧
    (∀ (clk : Nat → Int) (depth al be : Int) (mx : Bool) (root curr : Int) (w : World),
      w.board.length = 64 →
      ∃ r w1, minimax clk SEARCH_FUEL depth al be mx root curr w = some (r, w1) ∧
        |r| < 999999) ∧
    (∀ (clk : Nat → Int) (c depth al be bm m : Int) (rest : List Int) (w : World),
      w.board.length = 64 → 0 ≤ m → m < 64 → (check_if_time_up clk w).1 = false →
      ∃ s w3, |s| < 999999 ∧
        best_legal_move_loop clk c depth be (m :: rest) al bm (-9999999) w =
          best_legal_move_loop clk c depth be rest (if al < s then s else al) m s w3) := by
  refine ⟨?_, ?_, ?_⟩
  · intro b c hlen
    obtain ⟨v, hv, h0, h1⟩ := evaluate_board_state_total b hlen c
    exact ⟨v, hv, abs_lt.mpr ⟨by omega, by omega⟩, abs_le.mpr ⟨h0, h1⟩⟩
  · intro clk depth al be mx root curr w hlen
    obtain ⟨r, w1, h, _, h0, h1⟩ := minimax_range clk SEARCH_FUEL depth al be mx root curr w hlen
      (by simp only [SEARCH_FUEL]; omega) (by decide)
    exact ⟨r, w1, h, abs_lt.mpr ⟨by omega, by omega⟩⟩
  · intro clk c depth al be bm m rest w hlen h0 h1 hup
    have hlen2 : (check_if_time_up clk w).2.board.length = 64 := hlen
    obtain ⟨b1, hb1, hlen1⟩ := make_temp_move_total (check_if_time_up clk w).2.board hlen2 m c h0 h1
    obtain ⟨s, w2, hs, ⟨hg1, _, _⟩, hs0, hs1⟩ := minimax_range clk SEARCH_FUEL (depth - 1) al be
      false c ((c + 1).tmod 2) { (check_if_time_up clk w).2 with board := b1 } hlen1
      (by simp only [SEARCH_FUEL]; omega) (by decide)
    have hres : restore_board (check_if_time_up clk w).2.board w2.board =
        some (check_if_time_up clk w).2.board :=
      restore_board_eq _ w2.board hlen2 (by rw [hg1]; exact hlen1)
    refine ⟨s, { w2 with board := (check_if_time_up clk w).2.board },
      abs_lt.mpr ⟨by omega, by omega⟩, ?_⟩
    rw [best_legal_move_loop]
    simp only []
    rw [if_neg (by rw [hup]; decide), copy_curr_board_eq _ hlen2]
    simp only [hb1, hs, hres]
    rw [if_pos (by omega)]

theorem scores_inside_window_witness :
    reply_board.length = 64 ∧
    (∃ v, evaluate_board_state reply_board BLACK = some v ∧ |v| < 999999 ∧ |v| ≤ 2500) ∧
    (∃ s w3, |s| < 999999 ∧
      best_legal_move_loop frozen_clock BLACK 1 999999 [18, 19] (-999999) 18 (-9999999)
          ⟨reply_board, 0, 1000, 0⟩ =
        best_legal_move_loop frozen_clock BLACK 1 999999 [19]
          (if -999999 < s then s else -999999) 18 s w3) :=
  ⟨by decide, scores_inside_window.1 reply_board BLACK (by decide),
    scores_inside_window.2.2 frozen_clock BLACK 1 (-999999) 999999 18 18 [19]
      ⟨reply_board, 0, 1000, 0⟩ (by decide) (by decide) (by decide) (by decide)⟩

/-- C40: `minimax` terminates for every integer depth, board, window, flag
and colours.  For a depth outside 1..10 the call returns the leaf value
without a recursive call; for a depth in 1..10 a nesting bound of `depth + 1`
calls suffices, so 11 nested calls suffice for every depth; and each call
iterates over the list of `legal_moves`, which has at most 63 entries. -/
theorem minimax_terminates :
    (∀ (clk : Nat → Int) (fuel : Nat) (depth al be : Int) (mx : Bool) (root curr : Int)
        (w : World), (depth ≤ 0 ∨ depth > 10) →
      minimax clk (fuel + 1) depth al be mx root curr w = leaf_value root w) ∧
    (∀ (clk : Nat → Int) (fuel : Nat) (depth al be : Int) (mx : Bool) (root curr : Int)
        (w : World), w.board.length = 64 → 1 ≤ fuel →
      (depth ≤ 0 ∨ depth > 10 ∨ depth < fuel) →
      ∃ r w1, minimax clk fuel depth al be mx root curr w = some (r, w1)) ∧
    (∀ (clk : Nat → Int) (fuel : Nat) (depth al be : Int) (mx : Bool) (root curr : Int)
        (w : World), w.board.length = 64 → 11 ≤ fuel →
      ∃ r w1, minimax clk fuel depth al be mx root curr w = some (r, w1)) ∧
    (∀ (b : Board) (c : Int) (moves : List Int), b.length = 64 →
      legal_moves b c = some moves → moves.length ≤ 63) := by
  refine ⟨?_, ?_, ?_, ?_⟩
  · intro clk fuel depth al be mx root curr w hd
    rw [minimax, if_pos hd]
  · intro clk fuel depth al be mx root curr w hlen hf hd
    obtain ⟨r, w1, h, _⟩ := minimax_frame clk fuel depth al be mx root curr w hlen hd hf
    exact ⟨r, w1, h⟩
  · intro clk fuel depth al be mx root curr w hlen hf
    obtain ⟨r, w1, h, _⟩ := minimax_frame clk fuel depth al be mx root curr w hlen
      (by omega) (by omega)
    exact ⟨r, w1, h⟩
  · intro b c moves hlen h
    exact legal_moves_length_le b hlen c moves h

theorem minimax_terminates_witness :
    reply_board.length = 64 ∧
    (∃ r w1, minimax frozen_clock 11 (-3) (-999999) 999999 true BLACK BLACK
      ⟨reply_board, 0, 1000, 0⟩ = some (r, w1)) ∧
    (∃ r w1, minimax frozen_clock 11 12 (-999999) 999999 true BLACK BLACK
      ⟨reply_board, 0, 1000, 0⟩ = some (r, w1)) ∧
    (∃ r w1, minimax frozen_clock 11 10 (-999999) 999999 true BLACK BLACK
      ⟨reply_board, 0, 1000, 0⟩ = some (r, w1)) :=
  ⟨by decide,
    minimax_terminates.2.2.1 frozen_clock 11 (-3) (-999999) 999999 true BLACK BLACK
      ⟨reply_board, 0, 1000, 0⟩ (by decide) (by decide),
    minimax_terminates.2.2.1 frozen_clock 11 12 (-999999) 999999 true BLACK BLACK
      ⟨reply_board, 0, 1000, 0⟩ (by decide) (by decide),
    minimax_terminates.2.2.1 frozen_clock 11 10 (-999999) 999999 true BLACK BLACK
      ⟨reply_board, 0, 1000, 0⟩ (by decide) (by decide)⟩

theorem Run_succ (b : Board) (p o i j dx dy : Int) (n : Nat) :
    Run b p o i j dx dy (n + 1) ↔
      (onBoard i j = true ∧ readCell b (i * 8 + j) = some o) ∧
        Run b p o (i + dx) (j + dy) dx dy n := by
  unfold Run
  constructor
  · rintro ⟨hall, hon, hread⟩
    have h0 := hall 0 (by omega)
    rw [rayOn_zero, rayCell_zero] at h0
    refine ⟨h0, fun k hk => ?_, (rayOn_succ i j dx dy n).mp hon, by rw [← rayCell_succ]; exact hread⟩
    have := hall (k + 1) (by omega)
    exact ⟨(rayOn_succ i j dx dy k).mp this.1, by rw [← rayCell_succ]; exact this.2⟩
  · rintro ⟨h0, hall, hon, hread⟩
    refine ⟨fun k hk => ?_, (rayOn_succ i j dx dy n).mpr hon, by rw [rayCell_succ]; exact hread⟩
    cases k with
    | zero => rw [rayOn_zero, rayCell_zero]; exact h0
    | succ k =>
      have := hall k (by omega)
      exact ⟨(rayOn_succ i j dx dy k).mpr this.1, by rw [rayCell_succ]; exact this.2⟩

theorem Brackets_iff_Run (b : Board) (p o x y dx dy : Int) (n : Nat) :
    Brackets b p o x y dx dy n ↔ 1 ≤ n ∧ Run b p o (x + dx) (y + dy) dx dy n := by
  unfold Brackets Run
  constructor
  · rintro ⟨h1, hall, hon, hread⟩
    refine ⟨h1, fun k hk => ?_, (rayOn_succ x y dx dy n).mp hon, by rw [← rayCell_succ]; exact hread⟩
    have := hall (k + 1) (by omega) (by omega)
    exact ⟨(rayOn_succ x y dx dy k).mp this.1, by rw [← rayCell_succ]; exact this.2⟩
  · rintro ⟨h1, hall, hon, hread⟩
    refine ⟨h1, fun k hk1 hk => ?_, (rayOn_succ x y dx dy n).mpr hon,
      by rw [rayCell_succ]; exact hread⟩
    obtain ⟨k1, rfl⟩ : ∃ k1, k = k1 + 1 := ⟨k - 1, by omega⟩
    have := hall k1 (by omega)
    exact ⟨(rayOn_succ x y dx dy k1).mpr this.1, by rw [rayCell_succ]; exact this.2⟩

theorem opponent_opponent_eq (p : Int) (hp : p = O_BLACK ∨ p = O_WHITE) :
    opponent_opponent p = (if p = WHITE then BLACK else WHITE) ∧
    opponent_opponent p ≠ p ∧ opponent_opponent p ≠ O_OUTER ∧ p ≠ O_OUTER ∧
    opponent_opponent p ≠ EMPTY := by
  rcases hp with rfl | rfl <;> decide

theorem osq_step (i j dx dy : Int) : osq i j + (10 * dx + dy) = osq (i + dx) (j + dy) := by
  unfold osq; ring

theorem osq_inj (i j i1 j1 : Int) (h0 : -1 ≤ j) (h1 : j ≤ 8) (h2 : -1 ≤ j1) (h3 : j1 ≤ 8)
    (h : osq i j = osq i1 j1) : i = i1 ∧ j = j1 := by
  unfold osq at h
  omega

theorem IsDir_bounds (dx dy : Int) (hd : IsDir dx dy) :
    -1 ≤ dx ∧ dx ≤ 1 ∧ -1 ≤ dy ∧ dy ≤ 1 := by
  obtain ⟨hx, hy, _⟩ := hd
  omega

theorem findbracketingpiece_spec (ob b : Board) (hc : Corresponds ob b) (p : Int)
    (hp : p = O_BLACK ∨ p = O_WHITE) (dx dy : Int) (hd : IsDir dx dy) :
    ∀ (fuel : Nat) (i j : Int), -1 ≤ i → i ≤ 8 → -1 ≤ j → j ≤ 8 →
      (∃ n : Nat, n < fuel ∧ ¬ rayOn i j dx dy n) →
      ∃ res, opponent_findbracketingpiece ob (10 * dx + dy) p fuel (osq i j) = some res ∧
        ((res = 0 ∧ ¬ ∃ n, Run b p (opponent_opponent p) i j dx dy n) ∨
          (∃ n : Nat, Run b p (opponent_opponent p) i j dx dy n ∧
            res = osq (i + n * dx) (j + n * dy))) := by
  obtain ⟨_, hop, ho3, hp3, _⟩ := opponent_opponent_eq p hp
  obtain ⟨hdx0, hdx1, hdy0, hdy1⟩ := IsDir_bounds dx dy hd
  intro fuel
  induction fuel with
  | zero => intro i j _ _ _ _ ⟨n, hn, _⟩; omega
  | succ f ih =>
    intro i j hi0 hi1 hj0 hj1 ⟨n, hn, hoff⟩
    rw [opponent_findbracketingpiece, hc.2.2 i j hi0 hi1 hj0 hj1]
    by_cases hb : onBoard i j = true
    · rw [if_pos hb]
      have hb' := (onBoard_iff i j).mp hb
      obtain ⟨v, hv⟩ := readCell_onBoard b hc.2.1 i j hb
      rw [hv]
      simp only []
      by_cases hvo : v = opponent_opponent p
      · rw [if_pos hvo, osq_step]
        obtain ⟨m, rfl⟩ : ∃ m, n = m + 1 := by
          cases n with
          | zero => exact absurd ((rayOn_zero i j dx dy).mpr hb) hoff
          | succ m => exact ⟨m, rfl⟩
        obtain ⟨res, hres, hcase⟩ := ih (i + dx) (j + dy) (by omega) (by omega) (by omega)
          (by omega) ⟨m, by omega, fun h => hoff ((rayOn_succ i j dx dy m).mpr h)⟩
        refine ⟨res, hres, ?_⟩
        rcases hcase with ⟨h0, hno⟩ | ⟨m1, hrun, hres1⟩
        · left
          refine ⟨h0, ?_⟩
          rintro ⟨n1, hrun1⟩
          cases n1 with
          | zero =>
            have := hrun1.2.2
            rw [rayCell_zero, hv] at this
            exact hop (hvo ▸ Option.some.inj this)
          | succ n2 => exact hno ⟨n2, ((Run_succ b p _ i j dx dy n2).mp hrun1).2⟩
        · right
          refine ⟨m1 + 1, (Run_succ b p _ i j dx dy m1).mpr ⟨⟨hb, by rw [hv, hvo]⟩, hrun⟩, ?_⟩
          rw [hres1, ray_step, ray_step]
      · rw [if_neg hvo]
        by_cases hvp : v = p
        · rw [if_pos hvp]
          refine ⟨_, rfl, Or.inr ⟨0, ⟨fun k hk => by omega, (rayOn_zero i j dx dy).mpr hb,
            by rw [rayCell_zero, hv, hvp]⟩, by rw [ray_zero, ray_zero]⟩⟩
        · rw [if_neg hvp]
          refine ⟨0, rfl, Or.inl ⟨rfl, ?_⟩⟩
          rintro ⟨n1, hrun1⟩
          cases n1 with
          | zero =>
            have := hrun1.2.2
            rw [rayCell_zero, hv] at this
            exact hvp (Option.some.inj this)
          | succ n2 =>
            have := ((Run_succ b p _ i j dx dy n2).mp hrun1).1.2
            rw [hv] at this
            exact hvo (Option.some.inj this)
    · rw [if_neg hb]
      simp only []
      rw [if_neg (fun h => ho3 h.symm), if_neg (fun h => hp3 h.symm)]
      refine ⟨0, rfl, Or.inl ⟨rfl, ?_⟩⟩
      rintro ⟨n1, hrun1⟩
      cases n1 with
      | zero => exact hb ((rayOn_zero i j dx dy).mp hrun1.2.1)
      | succ n2 => exact hb ((Run_succ b p _ i j dx dy n2).mp hrun1).1.1

theorem wouldflip_spec (ob b : Board) (hc : Corresponds ob b) (p : Int)
    (hp : p = O_BLACK ∨ p = O_WHITE) (x y : Int) (hxy : onBoard x y = true) (dx dy : Int)
    (hd : IsDir dx dy) :
    ∃ res, opponent_wouldflip ob (osq x y) (10 * dx + dy) p = some res ∧
      ((res = 0 ∧ ¬ ValidDir b p (opponent_opponent p) x y dx dy) ∨
        (∃ n : Nat, Brackets b p (opponent_opponent p) x y dx dy n ∧
          res = osq (x + ((n : Int) + 1) * dx) (y + ((n : Int) + 1) * dy))) := by
  obtain ⟨_, hop, ho3, hp3, _⟩ := opponent_opponent_eq p hp
  obtain ⟨hdx0, hdx1, hdy0, hdy1⟩ := IsDir_bounds dx dy hd
  have hxy' := (onBoard_iff x y).mp hxy
  unfold opponent_wouldflip
  simp only []
  rw [osq_step, hc.2.2 (x + dx) (y + dy) (by omega) (by omega) (by omega) (by omega)]
  by_cases hb : onBoard (x + dx) (y + dy) = true
  · rw [if_pos hb]
    have hb' := (onBoard_iff _ _).mp hb
    obtain ⟨v, hv⟩ := readCell_onBoard b hc.2.1 _ _ hb
    rw [hv]
    simp only []
    by_cases hvo : v = opponent_opponent p
    · rw [if_pos hvo, osq_step]
      have hoff : ¬ rayOn (x + dx + dx) (y + dy + dy) dx dy 6 := by
        intro h
        have h8 : rayOn x y dx dy 8 :=
          (rayOn_succ x y dx dy 7).mpr ((rayOn_succ (x + dx) (y + dy) dx dy 6).mpr h)
        have := rayOn_le_seven x y dx dy hd hxy 8 h8
        omega
      obtain ⟨res, hres, hcase⟩ := findbracketingpiece_spec ob b hc p hp dx dy hd WALK_FUEL
        (x + dx + dx) (y + dy + dy) (by omega) (by omega) (by omega) (by omega)
        ⟨6, by decide, hoff⟩
      refine ⟨res, hres, ?_⟩
      rcases hcase with ⟨h0, hno⟩ | ⟨n, hrun, hres1⟩
      · left
        refine ⟨h0, ?_⟩
        rintro ⟨m, hm⟩
        obtain ⟨hm1, hrun⟩ := (Brackets_iff_Run b p _ x y dx dy m).mp hm
        obtain ⟨m1, rfl⟩ : ∃ m1, m = m1 + 1 := ⟨m - 1, by omega⟩
        exact hno ⟨m1, ((Run_succ b p _ _ _ dx dy m1).mp hrun).2⟩
      · right
        refine ⟨n + 1, (Brackets_iff_Run b p _ x y dx dy (n + 1)).mpr ⟨by omega,
          (Run_succ b p _ _ _ dx dy n).mpr ⟨⟨hb, by rw [hv, hvo]⟩, hrun⟩⟩, ?_⟩
        rw [hres1]
        push_cast
        congr 1 <;> ring
    · rw [if_neg hvo]
      refine ⟨0, rfl, Or.inl ⟨rfl, ?_⟩⟩
      rintro ⟨m, hm⟩
      obtain ⟨hm1, hrun⟩ := (Brackets_iff_Run b p _ x y dx dy m).mp hm
      obtain ⟨m1, rfl⟩ : ∃ m1, m = m1 + 1 := ⟨m - 1, by omega⟩
      have := ((Run_succ b p _ _ _ dx dy m1).mp hrun).1.2
      rw [hv] at this
      exact hvo (Option.some.inj this)
  · rw [if_neg hb]
    simp only []
    rw [if_neg (fun h => ho3 h.symm)]
    refine ⟨0, rfl, Or.inl ⟨rfl, ?_⟩⟩
    rintro ⟨m, hm⟩
    obtain ⟨hm1, hrun⟩ := (Brackets_iff_Run b p _ x y dx dy m).mp hm
    obtain ⟨m1, rfl⟩ : ∃ m1, m = m1 + 1 := ⟨m - 1, by omega⟩
    exact hb ((Run_succ b p _ _ _ dx dy m1).mp hrun).1.1

theorem mem_dirs_of_isDir (dx dy : Int) (hd : IsDir dx dy) :
    (dx, dy) ∈ deltaPairs.filter (fun d => !(decide (d.1 = 0 ∧ d.2 = 0))) := by
  obtain ⟨hx, hy, hz⟩ := hd
  rcases hx with rfl | rfl | rfl <;> rcases hy with rfl | rfl | rfl <;>
    first
      | (exfalso; exact hz ⟨rfl, rfl⟩)
      | decide

theorem isDir_of_mem_dirs (d : Int × Int)
    (h : d ∈ deltaPairs.filter (fun d => !(decide (d.1 = 0 ∧ d.2 = 0)))) : IsDir d.1 d.2 := by
  rw [List.mem_filter] at h
  rcases deltaPairs_dir d h.1 with h0 | h1
  · simp [h0] at h
  · exact h1

theorem all_directions_eq :
    O_ALLDIRECTIONS =
      (deltaPairs.filter (fun d => !(decide (d.1 = 0 ∧ d.2 = 0)))).map
        (fun d => 10 * d.1 + d.2) := by
  decide

theorem legalp_loop_spec (ob b : Board) (hc : Corresponds ob b) (p : Int)
    (hp : p = O_BLACK ∨ p = O_WHITE) (x y : Int) (hxy : onBoard x y = true) :
    ∀ L : List (Int × Int), (∀ d ∈ L, IsDir d.1 d.2) →
      ∃ res, opponent_legalp_loop ob (osq x y) p (L.map fun d => 10 * d.1 + d.2) = some res ∧
        (res ≠ 0 ↔ ∃ d ∈ L, ValidDir b p (opponent_opponent p) x y d.1 d.2) := by
  intro L
  induction L with
  | nil => intro _; exact ⟨0, rfl, by simp⟩
  | cons d ds ih =>
    intro hL
    obtain ⟨res, hres, hiff⟩ := ih (fun e he => hL e (List.mem_cons_of_mem _ he))
    obtain ⟨r, hr, hcase⟩ := wouldflip_spec ob b hc p hp x y hxy d.1 d.2
      (hL d (List.mem_cons_self _ _))
    rw [List.map_cons, opponent_legalp_loop, hr]
    simp only []
    rcases hcase with ⟨h0, hno⟩ | ⟨n, hbr, hr1⟩
    · rw [if_neg (by rw [h0]; simp)]
      refine ⟨res, hres, hiff.trans ?_⟩
      constructor
      · rintro ⟨e, he, hv⟩; exact ⟨e, List.mem_cons_of_mem _ he, hv⟩
      · rintro ⟨e, he, hv⟩
        rcases List.mem_cons.mp he with rfl | he1
        · exact absurd hv hno
        · exact ⟨e, he1, hv⟩
    · have hrn : r ≠ 0 := by
        have hon := hbr.2.2.1
        simp only [rayOn, onBoard_iff] at hon
        rw [hr1]; unfold osq
        push_cast at hon
        omega
      rw [if_pos hrn]
      exact ⟨1, rfl, fun _ => ⟨d, List.mem_cons_self _ _, n, hbr⟩, fun _ => by decide⟩

theorem legalp_spec (ob b : Board) (hc : Corresponds ob b) (p : Int)
    (hp : p = O_BLACK ∨ p = O_WHITE) (x y : Int) (hxy : onBoard x y = true) :
    ∃ res moves, opponent_legalp ob (osq x y) p = some res ∧ legal_moves b p = some moves ∧
      (res ≠ 0 ↔ x * 8 + y ∈ moves) := by
  obtain ⟨ho, hop, _, _, _⟩ := opponent_opponent_eq p hp
  have hxy' := (onBoard_iff x y).mp hxy
  obtain ⟨moves, hmoves, hmem, _, _⟩ := legal_moves_exact b p (opponent_opponent p) hc.2.1
    (by rcases hp with rfl | rfl
        · exact Or.inl ⟨rfl, by decide⟩
        · exact Or.inr ⟨rfl, by decide⟩)
  have hvalid : opponent_validp (osq x y) = 1 := by
    unfold opponent_validp osq
    rw [Int.tmod_eq_emod (by omega) (by omega), if_pos (by omega)]
  obtain ⟨v, hv⟩ := readCell_onBoard b hc.2.1 x y hxy
  have hread := hc.2.2 x y (by omega) (by omega) (by omega) (by omega)
  rw [if_pos hxy, hv] at hread
  obtain ⟨res, hres, hiff⟩ := legalp_loop_spec ob b hc p hp x y hxy _ isDir_of_mem_dirs
  rw [← all_directions_eq] at hres
  have hlegal : LegalCell b p (opponent_opponent p) (x * 8 + y) ↔
      (v = EMPTY ∧ ∃ dx dy : Int, IsDir dx dy ∧ ValidDir b p (opponent_opponent p) x y dx dy) := by
    unfold LegalCell
    constructor
    · rintro ⟨x1, y1, h1, hm, hr, hdir⟩
      simp only [BOARD_SIZE] at hm
      have hx1 := (onBoard_iff x1 y1).mp h1
      obtain ⟨rfl, rfl⟩ : x1 = x ∧ y1 = y := by omega
      rw [hv] at hr
      exact ⟨Option.some.inj hr, hdir⟩
    · rintro ⟨hve, hdir⟩
      exact ⟨x, y, hxy, rfl, by rw [hv, hve], hdir⟩
  unfold opponent_legalp
  rw [hvalid, if_neg (by decide), hread]
  simp only []
  by_cases hve : v = O_EMPTY
  · rw [if_pos hve]
    refine ⟨res, moves, hres, hmoves, ?_⟩
    rw [hmem, hlegal, hiff]
    constructor
    · rintro ⟨d, hd, hvd⟩; exact ⟨hve, d.1, d.2, isDir_of_mem_dirs d hd, hvd⟩
    · rintro ⟨_, dx, dy, hd, hvd⟩; exact ⟨(dx, dy), mem_dirs_of_isDir dx dy hd, hvd⟩
  · rw [if_neg hve]
    refine ⟨0, moves, rfl, hmoves, ?_⟩
    rw [hmem, hlegal]
    constructor
    · intro h; exact absurd rfl h
    · rintro ⟨h, _⟩; exact absurd h hve

theorem makeflips_loop_spec (dir p : Int) (hdir : dir ≠ 0) :
    ∀ (cnt fuel : Nat) (ob : Board) (c : Int), cnt < fuel →
      (∀ k : Nat, k ≤ cnt → 0 ≤ c + k * dir ∧ c + k * dir < ob.length) →
      ∃ ob1, opponent_makeflips_loop dir p (c + ((cnt : Int) + 1) * dir) fuel ob c = some ob1 ∧
        ob1.length = ob.length ∧
        ∀ q : Int, readCell ob1 q =
          if (∃ k : Nat, k ≤ cnt ∧ q = c + k * dir) then some p else readCell ob q := by
  intro cnt
  induction cnt with
  | zero =>
    intro fuel ob c hf hin
    obtain ⟨f, rfl⟩ : ∃ f, fuel = f + 1 := ⟨fuel - 1, by omega⟩
    have h0 := hin 0 (Nat.le_refl _)
    rw [ray_zero] at h0
    rw [opponent_makeflips_loop, writeCell_eq ob c p h0.1 h0.2]
    simp only []
    rw [if_neg (by
      intro h
      have h1 : (((0 : Nat) : Int) + 1) * dir = dir := by omega
      rw [h1] at h
      exact h rfl)]
    refine ⟨_, rfl, List.length_set _ _ _, fun q => ?_⟩
    rw [readCell_set ob c q p h0.1 h0.2]
    by_cases hq : q = c
    · rw [if_pos hq, if_pos ⟨0, Nat.le_refl _, by rw [ray_zero]; exact hq⟩]
    · rw [if_neg hq, if_neg]
      rintro ⟨k, hk, hk1⟩
      obtain rfl : k = 0 := by omega
      rw [ray_zero] at hk1
      exact hq hk1
  | succ n ih =>
    intro fuel ob c hf hin
    obtain ⟨f, rfl⟩ : ∃ f, fuel = f + 1 := ⟨fuel - 1, by omega⟩
    have h0 := hin 0 (by omega)
    rw [ray_zero] at h0
    have hstep : ∀ k : Nat, c + dir + (k : Int) * dir = c + ((k + 1 : Nat) : Int) * dir := by
      intro k; exact (ray_step c dir k).symm
    have hb : c + dir + ((n : Int) + 1) * dir = c + (((n + 1 : Nat) : Int) + 1) * dir := by
      rw [Int.ofNat_succ, Int.add_mul (↑n + 1) 1 dir, Int.one_mul]; omega
    have hne : c + dir ≠ c + (((n + 1 : Nat) : Int) + 1) * dir := by
      intro h
      have h1 : ((n : Int) + 1) * dir = 0 := by
        rw [← hb] at h
        omega
      rcases Int.mul_eq_zero.mp h1 with h2 | h2
      · omega
      · exact hdir h2
    obtain ⟨ob1, hob1, hlen1, hspec⟩ := ih f (ob.set c.toNat p) (c + dir) (by omega)
      (by
        intro k hk
        rw [hstep k, List.length_set]
        exact hin (k + 1) (by omega))
    rw [hb] at hob1
    rw [opponent_makeflips_loop, writeCell_eq ob c p h0.1 h0.2]
    simp only []
    rw [if_pos hne]
    refine ⟨ob1, hob1, by rw [hlen1, List.length_set], fun q => ?_⟩
    rw [hspec q, readCell_set ob c q p h0.1 h0.2]
    by_cases h1 : ∃ k : Nat, k ≤ n ∧ q = c + dir + (k : Int) * dir
    · rw [if_pos h1, if_pos]
      obtain ⟨k, hk, hq⟩ := h1
      exact ⟨k + 1, by omega, by rw [hq, hstep k]⟩
    · rw [if_neg h1]
      by_cases hq : q = c
      · rw [if_pos hq, if_pos ⟨0, by omega, by rw [ray_zero]; exact hq⟩]
      · rw [if_neg hq, if_neg]
        rintro ⟨k, hk, hk1⟩
        cases k with
        | zero => rw [ray_zero] at hk1; exact hq hk1
        | succ k1 => exact h1 ⟨k1, by omega, by rw [hk1, hstep k1]⟩

theorem osq_ray (x y dx dy : Int) (k : Nat) :
    osq x y + (10 * dx + dy) + (k : Int) * (10 * dx + dy) =
      osq (x + ((k + 1 : Nat) : Int) * dx) (y + ((k + 1 : Nat) : Int) * dy) := by
  unfold osq; push_cast; ring

theorem makeflips_corr (ob b : Board) (hc : Corresponds ob b) (p : Int)
    (hp : p = O_BLACK ∨ p = O_WHITE) (x y : Int) (hxy : onBoard x y = true) (dx dy : Int)
    (hd : IsDir dx dy) :
    ∃ ob1 b1, opponent_makeflips ob (osq x y) (10 * dx + dy) p = some ob1 ∧
      make_move_dy x y p (opponent_opponent p) dx b dy = some b1 ∧ Corresponds ob1 b1 := by
  obtain ⟨_, hop, ho3, hp3, _⟩ := opponent_opponent_eq p hp
  obtain ⟨hdx0, hdx1, hdy0, hdy1⟩ := IsDir_bounds dx dy hd
  have hdir : 10 * dx + dy ≠ 0 := by
    obtain ⟨_, _, hz⟩ := hd
    intro h
    exact hz ⟨by omega, by omega⟩
  obtain ⟨b1, hb1, hlen1, hb1spec⟩ :=
    make_move_dy_spec b hc.2.1 x y p (opponent_opponent p) dx dy hd hxy (Ne.symm hop)
  obtain ⟨res, hres, hcase⟩ := wouldflip_spec ob b hc p hp x y hxy dx dy hd
  unfold opponent_makeflips
  rw [hres]
  simp only []
  rcases hcase with ⟨h0, hno⟩ | ⟨n, hbr, hres1⟩
  · rw [if_neg (by rw [h0]; simp)]
    refine ⟨ob, b1, rfl, hb1, hc.1, hlen1, fun i j hi0 hi1 hj0 hj1 => ?_⟩
    rw [hc.2.2 i j hi0 hi1 hj0 hj1]
    by_cases hb : onBoard i j = true
    · rw [if_pos hb, if_pos hb]
      exact ((hb1spec (i * 8 + j)).2 (fun ⟨m, _, hm, _⟩ => hno ⟨m, hm⟩)).symm
    · rw [if_neg hb, if_neg hb]
  · obtain ⟨hn1, hall, hon, hread⟩ := hbr
    have hn7 := rayOn_le_seven x y dx dy hd hxy (n + 1) hon
    have hcells : ∀ k : Nat, k + 1 ≤ n + 1 → onBoard (x + ((k + 1 : Nat) : Int) * dx)
        (y + ((k + 1 : Nat) : Int) * dy) = true := by
      intro k hk
      rcases Nat.lt_or_ge k n with h | h
      · exact (hall (k + 1) (by omega) (by omega)).1
      · obtain rfl : k = n := by omega
        exact hon
    have hrn : res ≠ 0 := by
      have := (onBoard_iff _ _).mp hon
      rw [hres1]; unfold osq
      push_cast at this
      omega
    obtain ⟨m, rfl⟩ : ∃ m, n = m + 1 := ⟨n - 1, by omega⟩
    have hbrk : res = osq x y + (10 * dx + dy) + ((m : Int) + 1) * (10 * dx + dy) := by
      rw [hres1]; unfold osq; push_cast; ring
    obtain ⟨ob1, hob1, hlen, hspec⟩ := makeflips_loop_spec (10 * dx + dy) p hdir m WALK_FUEL ob
      (osq x y + (10 * dx + dy)) (by simp only [WALK_FUEL]; omega)
      (by
        intro k hk
        rw [osq_ray]
        have := (onBoard_iff _ _).mp (hcells k (by omega))
        rw [hc.1]
        unfold osq
        omega)
    rw [if_pos hrn, hbrk, hob1]
    refine ⟨ob1, b1, rfl, hb1, by rw [hlen, hc.1], hlen1, fun i j hi0 hi1 hj0 hj1 => ?_⟩
    rw [hspec (osq i j), hc.2.2 i j hi0 hi1 hj0 hj1]
    have hbr : Brackets b p (opponent_opponent p) x y dx dy (m + 1) := ⟨hn1, hall, hon, hread⟩
    by_cases hb : onBoard i j = true
    · rw [if_pos hb, if_pos hb]
      by_cases hfl : Flips b p (opponent_opponent p) x y dx dy (i * 8 + j)
      · rw [(hb1spec _).1 hfl, if_pos]
        obtain ⟨n1, k1, hbr1, hk1, hk2, hq⟩ := hfl
        have hn : n1 = m + 1 := Brackets_unique b p _ x y dx dy (Ne.symm hop) n1 (m + 1) hbr1 hbr
        subst hn
        obtain ⟨k, rfl⟩ : ∃ k, k1 = k + 1 := ⟨k1 - 1, by omega⟩
        refine ⟨k, by omega, ?_⟩
        rw [osq_ray]
        have h1 := (onBoard_iff _ _).mp (hcells k (by omega))
        have h2 := (onBoard_iff _ _).mp hb
        simp only [rayCell, BOARD_SIZE] at hq
        have : i = x + ((k + 1 : Nat) : Int) * dx ∧ j = y + ((k + 1 : Nat) : Int) * dy := by
          omega
        rw [this.1, this.2]
      · rw [(hb1spec _).2 hfl, if_neg]
        rintro ⟨k, hk, hq⟩
        rw [osq_ray] at hq
        have h1 := (onBoard_iff _ _).mp (hcells k (by omega))
        obtain ⟨e1, e2⟩ := osq_inj _ _ _ _ hj0 hj1 (by omega) (by omega) hq
        exact hfl ⟨m + 1, k + 1, hbr, by omega, by omega, by
          simp only [rayCell, BOARD_SIZE]; rw [e1, e2]⟩
    · rw [if_neg hb, if_neg hb, if_neg]
      rintro ⟨k, hk, hq⟩
      rw [osq_ray] at hq
      have h1 := (onBoard_iff _ _).mp (hcells k (by omega))
      obtain ⟨e1, e2⟩ := osq_inj _ _ _ _ hj0 hj1 (by omega) (by omega) hq
      apply hb
      rw [e1, e2]
      exact hcells k (by omega)

theorem makeflips_fold_corr (p : Int) (hp : p = O_BLACK ∨ p = O_WHITE) (x y : Int)
    (hxy : onBoard x y = true) :
    ∀ (L : List (Int × Int)), (∀ d ∈ L, (d.1 = 0 ∧ d.2 = 0) ∨ IsDir d.1 d.2) →
      ∀ (ob b : Board), Corresponds ob b →
      ∃ ob1 b1,
        ((L.filter (fun d => !(decide (d.1 = 0 ∧ d.2 = 0)))).map
          (fun d => 10 * d.1 + d.2)).foldlM
            (fun ob2 dir => opponent_makeflips ob2 (osq x y) dir p) ob = some ob1 ∧
        L.foldlM (fun b2 d => make_move_dy x y p (opponent_opponent p) d.1 b2 d.2) b = some b1 ∧
        Corresponds ob1 b1 := by
  intro L
  induction L with
  | nil => intro _ ob b hc; exact ⟨ob, b, rfl, rfl, hc⟩
  | cons d ds ih =>
    intro hL ob b hc
    have ih := ih (fun e he => hL e (List.mem_cons_of_mem _ he))
    rcases hL d (List.mem_cons_self _ _) with h0 | hd
    · obtain ⟨ob1, b1, h1, h2, h3⟩ := ih ob b hc
      refine ⟨ob1, b1, ?_, ?_, h3⟩
      · rw [List.filter_cons_of_neg (by simp [h0])]
        exact h1
      · rw [foldlM_cons_some _ _ b d ds (by simp [make_move_dy, h0])]
        exact h2
    · obtain ⟨ob0, b0, h1, h2, h3⟩ := makeflips_corr ob b hc p hp x y hxy d.1 d.2 hd
      obtain ⟨ob1, b1, h4, h5, h6⟩ := ih ob0 b0 h3
      refine ⟨ob1, b1, ?_, ?_, h6⟩
      · rw [List.filter_cons_of_pos (by
          simp only [Bool.not_eq_true', decide_eq_false_iff_not]; exact hd.2.2), List.map_cons,
          foldlM_cons_some _ _ ob0 _ _ h1]
        exact h4
      · rw [foldlM_cons_some _ _ b0 d ds h2]
        exact h5

theorem makemove_corr (ob b : Board) (hc : Corresponds ob b) (p : Int)
    (hp : p = O_BLACK ∨ p = O_WHITE) (x y : Int) (hxy : onBoard x y = true) :
    ∃ ob1 b1, opponent_makemove ob (osq x y) p = some ob1 ∧
      make_move (x * 8 + y) p b = some b1 ∧ Corresponds ob1 b1 := by
  obtain ⟨ho, _, _, _, _⟩ := opponent_opponent_eq p hp
  have hxy' := (onBoard_iff x y).mp hxy
  obtain ⟨hm0, hm1, hrow, hcol⟩ := cell_coords_unique (x * 8 + y) x y hxy rfl
  have hq0 : 0 ≤ osq x y := by unfold osq; omega
  have hq1 : osq x y < ob.length := by rw [hc.1]; unfold osq; omega
  have hm1' : x * 8 + y < b.length := by rw [hc.2.1]; omega
  have hc0 : Corresponds (ob.set (osq x y).toNat p) (b.set (x * 8 + y).toNat p) := by
    refine ⟨by rw [List.length_set, hc.1], by rw [List.length_set, hc.2.1],
      fun i j hi0 hi1 hj0 hj1 => ?_⟩
    rw [readCell_set ob _ _ p hq0 hq1, hc.2.2 i j hi0 hi1 hj0 hj1]
    by_cases hb : onBoard i j = true
    · rw [if_pos hb, if_pos hb, readCell_set b _ _ p hm0 hm1']
      have hb' := (onBoard_iff i j).mp hb
      by_cases he : osq i j = osq x y
      · obtain ⟨e1, e2⟩ := osq_inj _ _ _ _ hj0 hj1 (by omega) (by omega) he
        rw [if_pos he, if_pos (by rw [e1, e2])]
      · rw [if_neg he, if_neg]
        intro h
        apply he
        have : i = x ∧ j = y := by omega
        rw [this.1, this.2]
    · rw [if_neg hb, if_neg hb, if_neg]
      intro he
      obtain ⟨e1, e2⟩ := osq_inj _ _ _ _ hj0 hj1 (by omega) (by omega) he
      apply hb
      rw [e1, e2]; exact hxy
  obtain ⟨ob1, b1, h1, h2, h3⟩ := makeflips_fold_corr p hp x y hxy deltaPairs deltaPairs_dir _ _ hc0
  refine ⟨ob1, b1, ?_, ?_, h3⟩
  · unfold opponent_makemove
    rw [writeCell_eq ob _ p hq0 hq1]
    simp only []
    rw [all_directions_eq]
    exact h1
  · unfold make_move
    simp only [BOARD_SIZE]
    rw [hrow, hcol, writeCell_eq b _ p hm0 hm1']
    simp only []
    rw [nested_deltas, ← ho]
    exact h2

theorem opponent_fill_spec (f : Int → Int) :
    ∀ (n : Nat) (i : Int) (ob : Board), 0 ≤ i → i + n ≤ ob.length →
      ∃ ob1, opponent_fill f n i ob = some ob1 ∧ ob1.length = ob.length ∧
        ∀ q : Int, readCell ob1 q =
          if i ≤ q ∧ q < i + n then some (f q) else readCell ob q := by
  intro n
  induction n with
  | zero =>
    intro i ob _ _
    refine ⟨ob, rfl, rfl, fun q => ?_⟩
    rw [if_neg (by push_cast; omega)]
  | succ n ih =>
    intro i ob h0 h1
    push_cast at h1
    obtain ⟨ob1, hob1, hlen1, hspec⟩ := ih (i + 1) (ob.set i.toNat (f i)) (by omega)
      (by rw [List.length_set]; omega)
    rw [opponent_fill, writeCell_eq ob i (f i) h0 (by omega)]
    refine ⟨ob1, hob1, by rw [hlen1, List.length_set], fun q => ?_⟩
    rw [hspec q, readCell_set ob i q (f i) h0 (by omega)]
    push_cast
    by_cases h2 : i + 1 ≤ q ∧ q < i + 1 + n
    · rw [if_pos h2, if_pos (by omega)]
    · rw [if_neg h2]
      by_cases h3 : q = i
      · rw [if_pos h3, if_pos (by omega), h3]
      · rw [if_neg h3, if_neg (by omega)]

theorem opponent_initialise_board_spec (fresh : Board) (h : fresh.length = 100) :
    ∃ ob, opponent_initialise_board fresh = some ob ∧ ob.length = 100 ∧
      ∀ q : Int, 0 ≤ q → q < 100 → readCell ob q = some
        (if q = 44 ∨ q = 55 then O_WHITE else if q = 45 ∨ q = 54 then O_BLACK
          else if 10 ≤ q ∧ q < 90 ∧ 1 ≤ q % 10 ∧ q % 10 ≤ 8 then O_EMPTY else O_OUTER) := by
  obtain ⟨b1, hb1, hl1, hs1⟩ := opponent_fill_spec (fun _ => O_OUTER) 10 0 fresh (by omega)
    (by rw [h]; decide)
  obtain ⟨b2, hb2, hl2, hs2⟩ := opponent_fill_spec
    (fun i => if i.tmod 10 ≥ 1 ∧ i.tmod 10 ≤ 8 then O_EMPTY else O_OUTER) 80 10 b1 (by omega)
    (by rw [hl1, h]; decide)
  obtain ⟨b3, hb3, hl3, hs3⟩ := opponent_fill_spec (fun _ => O_OUTER) 10 90 b2 (by omega)
    (by rw [hl2, hl1, h]; decide)
  have hlen3 : b3.length = 100 := by rw [hl3, hl2, hl1, h]
  have hw4 := writeCell_eq b3 44 O_WHITE (by omega) (by omega)
  have hw5 := writeCell_eq (b3.set (44 : Int).toNat O_WHITE) 45 O_BLACK (by omega)
    (by rw [List.length_set]; omega)
  have hw6 := writeCell_eq ((b3.set (44 : Int).toNat O_WHITE).set (45 : Int).toNat O_BLACK) 54
    O_BLACK (by omega) (by rw [List.length_set, List.length_set]; omega)
  have hw7 := writeCell_eq
    (((b3.set (44 : Int).toNat O_WHITE).set (45 : Int).toNat O_BLACK).set (54 : Int).toNat O_BLACK)
    55 O_WHITE (by omega) (by rw [List.length_set, List.length_set, List.length_set]; omega)
  refine ⟨(((b3.set (44 : Int).toNat O_WHITE).set (45 : Int).toNat O_BLACK).set
    (54 : Int).toNat O_BLACK).set (55 : Int).toNat O_WHITE, ?_, ?_, fun q hq0 hq1 => ?_⟩
  · unfold opponent_initialise_board
    rw [hb1, Option.some_bind, hb2, Option.some_bind, hb3, Option.some_bind, hw4,
      Option.some_bind, hw5, Option.some_bind, hw6, Option.some_bind, hw7]
  · rw [List.length_set, List.length_set, List.length_set, List.length_set, hlen3]
  · rw [readCell_set _ 55 q _ (by omega)
        (by rw [List.length_set, List.length_set, List.length_set]; omega),
      readCell_set _ 54 q _ (by omega) (by rw [List.length_set, List.length_set]; omega),
      readCell_set _ 45 q _ (by omega) (by rw [List.length_set]; omega),
      readCell_set _ 44 q _ (by omega) (by omega), hs3 q, hs2 q, hs1 q,
      Int.tmod_eq_emod hq0 (by omega)]
    simp only [O_WHITE, O_BLACK, O_EMPTY, O_OUTER]
    push_cast
    split_ifs <;> first | rfl | (exfalso; omega)

theorem opponent_opening_corr (fresh100 fresh64 : Board) (h100 : fresh100.length = 100)
    (h64 : fresh64.length = 64) :
    ∃ ob b, opponent_initialise_board fresh100 = some ob ∧ initialise_board fresh64 = some b ∧
      Corresponds ob b := by
  obtain ⟨ob, hob, hlen, hspec⟩ := opponent_initialise_board_spec fresh100 h100
  obtain ⟨b, _, hb, hblen, hbspec⟩ := reset_board_opening fresh64 h64
  refine ⟨ob, b, hob, hb, hlen, hblen, fun i j hi0 hi1 hj0 hj1 => ?_⟩
  rw [hspec (osq i j) (by unfold osq; omega) (by unfold osq; omega)]
  by_cases hon : onBoard i j = true
  · have hon' := (onBoard_iff i j).mp hon
    rw [if_pos hon, hbspec (i * 8 + j) (by omega) (by omega)]
    unfold osq
    simp only [O_WHITE, O_BLACK, O_EMPTY, O_OUTER, WHITE, BLACK, EMPTY]
    split_ifs <;> first | rfl | (exfalso; omega)
  · rw [if_neg hon]
    have hon' : ¬(0 ≤ i ∧ i < 8 ∧ 0 ≤ j ∧ j < 8) := fun h => hon ((onBoard_iff i j).mpr h)
    unfold osq
    simp only [O_WHITE, O_BLACK, O_EMPTY, O_OUTER]
    split_ifs <;> first | rfl | (exfalso; omega)

/-- C39: under the correspondence of cell `8 * r + c` with square
`10 * (r + 1) + (c + 1)`, the border squares holding `O_OUTER`, the local
opponent's board model simulates the 8x8 one: the boards the two
initialisations produce correspond; for corresponding boards and a player
Black or White, `opponent_legalp` is non-zero on a square exactly when
`legal_moves` lists its cell; and `opponent_makemove` and `make_move` on a
square and its cell (legal or not) again produce corresponding boards. -/
theorem opponent_simulates :
    (∀ fresh100 fresh64 : Board, fresh100.length = 100 → fresh64.length = 64 →
      ∃ ob b, opponent_initialise_board fresh100 = some ob ∧
        initialise_board fresh64 = some b ∧ Corresponds ob b) ∧
    (∀ (ob b : Board) (p r c : Int), Corresponds ob b → (p = O_BLACK ∨ p = O_WHITE) →
      onBoard r c = true →
      ∃ res moves, opponent_legalp ob (10 * (r + 1) + (c + 1)) p = some res ∧
        legal_moves b p = some moves ∧ (res ≠ 0 ↔ 8 * r + c ∈ moves)) ∧
    (∀ (ob b : Board) (p r c : Int), Corresponds ob b → (p = O_BLACK ∨ p = O_WHITE) →
      onBoard r c = true →
      ∃ ob1 b1, opponent_makemove ob (10 * (r + 1) + (c + 1)) p = some ob1 ∧
        make_move (8 * r + c) p b = some b1 ∧ Corresponds ob1 b1) := by
  refine ⟨opponent_opening_corr, ?_, ?_⟩
  · intro ob b p r c hc hp hrc
    rw [Int.mul_comm 8 r]
    exact legalp_spec ob b hc p hp r c hrc
  · intro ob b p r c hc hp hrc
    rw [Int.mul_comm 8 r]
    exact makemove_corr ob b hc p hp r c hrc

theorem opponent_simulates_witness :
    ∃ ob b, opponent_initialise_board (List.replicate 100 0) = some ob ∧
      initialise_board (List.replicate 64 0) = some b ∧ Corresponds ob b ∧
      (∃ res moves, opponent_legalp ob (10 * (2 + 1) + (3 + 1)) O_BLACK = some res ∧
        legal_moves b O_BLACK = some moves ∧ (res ≠ 0 ↔ 8 * 2 + 3 ∈ moves)) ∧
      (∃ ob1 b1, opponent_makemove ob (10 * (2 + 1) + (3 + 1)) O_BLACK = some ob1 ∧
        make_move (8 * 2 + 3) O_BLACK b = some b1 ∧ Corresponds ob1 b1) := by
  obtain ⟨ob, b, h1, h2, hc⟩ :=
    opponent_simulates.1 (List.replicate 100 0) (List.replicate 64 0) (by decide) (by decide)
  exact ⟨ob, b, h1, h2, hc, opponent_simulates.2.1 ob b O_BLACK 2 3 hc (Or.inl rfl) (by decide),
    opponent_simulates.2.2 ob b O_BLACK 2 3 hc (Or.inl rfl) (by decide)⟩

theorem poll_results_append (a b : List Poll) :
    poll_results (a ++ b) = poll_results a ++ poll_results b := by
  unfold poll_results
  exact List.flatMap_append a b _

theorem poll_results_cons_none (ps : List Poll) : poll_results (none :: ps) = poll_results ps :=
  rfl

theorem poll_results_cons_some (wid : Int) (results : List MoveResult) (ps : List Poll) :
    poll_results (some (wid, results) :: ps) = results ++ poll_results ps := rfl

theorem Delivers_idle (n : Nat) (idle : List Poll) (hidle : poll_results idle = []) :
    ∀ (k : Nat) (rest : List Poll), Delivers n k rest → Delivers n k (idle ++ rest) := by
  intro k rest h
  cases k with
  | zero => trivial
  | succ k =>
    obtain ⟨round, rest1, hr, hl, hd⟩ := h
    refine ⟨idle ++ round, rest1, by rw [hr, List.append_assoc], ?_, hd⟩
    rw [poll_results_append, hidle, List.nil_append]
    exact hl

/-- The collection loop when the deadline is never reached and the probes
deliver the results still awaited: it returns having received exactly these
results, and leaves the probes that follow. -/
theorem collect_loop_delivers (clk : Nat → Int) (nw nsent : Int) :
    ∀ (round rest : List Poll) (init : Collect) (w : World), NeverUp clk w →
      init.tasks_compl + ((poll_results round).length : Int) = nsent →
      ∃ s w1 idle, collect_loop clk nw nsent (round ++ rest) init w = some (s, w1, idle ++ rest) ∧
        SameGlobals w w1 ∧ poll_results idle = [] ∧
        s = receive_results nw (poll_results round) init := by
  intro round
  induction round with
  | nil =>
    intro rest init w hn hc
    have hge : ¬ init.tasks_compl < nsent := by
      have : ((poll_results ([] : List Poll)).length : Int) = 0 := rfl
      omega
    refine ⟨init, w, [], ?_, ⟨rfl, rfl, rfl⟩, rfl, rfl⟩
    rw [List.nil_append]
    show collect_loop clk nw nsent rest init w = some (init, w, rest)
    cases rest with
    | nil => rw [collect_loop, if_neg hge]
    | cons p ps => rw [collect_loop, if_neg hge]
  | cons p ps ih =>
    intro rest init w hn hc
    obtain ⟨hup, hg⟩ := check_if_time_up_never clk w hn
    have hn1 := NeverUp_of_same clk w _ hg hn
    by_cases hlt : init.tasks_compl < nsent
    · rw [List.cons_append, collect_loop, if_pos hlt]
      simp only []
      rw [if_neg (by rw [hup]; decide)]
      cases p with
      | none =>
        simp only []
        obtain ⟨s, w1, idle, h, hg1, hi, hs⟩ := ih rest init _ hn1
          (by rw [poll_results_cons_none] at hc; exact hc)
        refine ⟨s, w1, idle, h, ⟨hg1.1.trans hg.1, hg1.2.1.trans hg.2.1, hg1.2.2.trans hg.2.2⟩,
          hi, ?_⟩
        rw [poll_results_cons_none]
        exact hs
      | some wr =>
        obtain ⟨wid, results⟩ := wr
        simp only []
        have ht := (receive_results_spec nw results init).1
        obtain ⟨s, w1, idle, h, hg1, hi, hs⟩ := ih rest (receive_results nw results init) _ hn1
          (by
            rw [poll_results_cons_some, List.length_append] at hc
            rw [ht]
            push_cast at hc
            omega)
        refine ⟨s, w1, idle, h, ⟨hg1.1.trans hg.1, hg1.2.1.trans hg.2.1, hg1.2.2.trans hg.2.2⟩,
          hi, ?_⟩
        rw [poll_results_cons_some, receive_results_append]
        exact hs
    · have hz : (poll_results (p :: ps)).length = 0 := by omega
      have hnil : poll_results (p :: ps) = [] := List.length_eq_zero.mp hz
      refine ⟨init, w, p :: ps, ?_, ⟨rfl, rfl, rfl⟩, hnil, ?_⟩
      · rw [List.cons_append, collect_loop, if_neg hlt]
      · rw [hnil]; rfl

theorem receive_results_move (nw : Int) (rs : List MoveResult) (init : Collect)
    (hne : rs ≠ []) (hv : ∀ r ∈ rs, -999999 < r.score ∧ r.move ≠ -1)
    (hinit : init.best_possible_score = -999999) :
    (receive_results nw rs init).curr_best_move ≠ -1 := by
  obtain ⟨-, -, -, h⟩ := receive_results_spec nw rs init
  rcases h with ⟨hall, -⟩ | ⟨i, r, hi, -, hm, -⟩
  · exfalso
    cases rs with
    | nil => exact hne rfl
    | cons r rest =>
      have h1 := hall r (List.mem_cons_self _ _)
      have h2 := (hv r (List.mem_cons_self _ _)).1
      omega
  · rw [hm]
    exact (hv r (List.getElem?_mem hi)).2

theorem dispatch_loop_all (moves : List Int) (c depth al be nw : Int) (sent : List Msg)
    (hn : 1 ≤ moves.length) (hw : 1 ≤ nw) :
    ∃ sent1, dispatch_loop moves c depth al be (((moves.length : Int) + nw - 1).tdiv nw)
      (worker_ranks nw) 0 sent = some ((moves.length : Int), sent1) := by
  obtain ⟨k, rfl⟩ : ∃ k : Nat, nw = (k : Int) := ⟨nw.toNat, by omega⟩
  have hk : 0 < k := by omega
  have ht_eq : ((moves.length : Int) + (k : Int) - 1).tdiv (k : Int) =
      (((moves.length + k - 1) / k : Nat) : Int) := by
    rw [Int.tdiv_eq_ediv (by omega) (by omega)]
    have : (moves.length : Int) + (k : Int) - 1 = ((moves.length + k - 1 : Nat) : Int) := by
      omega
    rw [this]
    rfl
  have hcov := ceil_div_covers moves.length k hk
  have ht : 0 < (moves.length + k - 1) / k := by
    rcases Nat.eq_zero_or_pos ((moves.length + k - 1) / k) with h | h
    · rw [h] at hcov; omega
    · exact h
  have h := dispatch_loop_eq moves c depth al be _ ht (worker_ranks (k : Int)) 0 sent
  have hlen : (worker_ranks (k : Int)).length = k := by
    rw [worker_ranks_eq, List.length_map, List.length_range, Int.toNat_ofNat]
  rw [hlen] at h
  have e0 : ((min 0 moves.length : Nat) : Int) = 0 := by
    rw [Nat.zero_min]; rfl
  have e1 : min (0 + k * ((moves.length + k - 1) / k)) moves.length = moves.length := by
    rw [Nat.zero_add]; exact Nat.min_eq_right hcov
  rw [e0, e1] at h
  rw [ht_eq]
  exact ⟨_, h⟩

/-- One iteration of the driver loop with workers when the deadline is never
reached and the probes deliver the results of this round: depth `d` is searched
and the loop goes on to depth `d + 1`. -/
theorem driver_loop_worker_step (clk : Nat → Int) (c : Int) (avail : List Int)
    (hne : 1 ≤ avail.length) (f : Nat) (d bm md : Int) (ms : Master) (hd : d < 10)
    (hsz : 1 < ms.size) (hn : NeverUp clk ms.w) (k : Nat)
    (hdel : Delivers avail.length (k + 1) ms.polls) (hval : ValidResults ms.polls) :
    ∃ m ms1, driver_loop clk c avail (f + 1) d bm md ms =
        driver_loop clk c avail f (d + 1) m d ms1 ∧
      ms1.size = ms.size ∧ NeverUp clk ms1.w ∧ ms1.searched = ms.searched ++ [d] ∧
      Delivers avail.length k ms1.polls ∧ ValidResults ms1.polls := by
  obtain ⟨hup, hg⟩ := check_if_time_up_never clk ms.w hn
  have hn1 := NeverUp_of_same clk ms.w _ hg hn
  obtain ⟨round, rest, hpolls, hlen, hrest⟩ := hdel
  obtain ⟨sent1, hdisp⟩ := dispatch_loop_all avail c d (-999999) 999999 (ms.size - 1) ms.sent
    hne (by omega)
  obtain ⟨s, w1, idle, hcl, hg1, hidle, hs⟩ := collect_loop_delivers clk (ms.size - 1)
    (avail.length : Int) round rest ⟨-1, -999999, -999999, 0, sent1⟩ _ hn1
    (by rw [hlen]; simp only []; omega)
  have hn2 := NeverUp_of_same clk _ w1 hg1 hn1
  obtain ⟨hup2, hg2⟩ := check_if_time_up_never clk w1 hn2
  have hvr : ∀ r ∈ poll_results round, -999999 < r.score ∧ r.move ≠ -1 := by
    intro r hr
    apply hval r
    rw [hpolls, poll_results_append]
    exact List.mem_append_left _ hr
  have hmove : s.curr_best_move ≠ -1 := by
    rw [hs]
    apply receive_results_move _ _ _ _ hvr rfl
    intro h0
    rw [h0] at hlen
    simp only [List.length_nil] at hlen
    omega
  refine ⟨s.curr_best_move,
    { ms with w := (check_if_time_up clk w1).2, polls := idle ++ rest, sent := s.sent,
              searched := ms.searched ++ [d] }, ?_, rfl,
    NeverUp_of_same clk w1 _ hg2 hn2, rfl, Delivers_idle _ idle hidle k rest hrest, ?_⟩
  · rw [driver_loop, if_pos hd]
    simp only []
    rw [if_neg (by rw [hup]; decide), if_neg (by omega), hdisp]
    simp only []
    rw [hpolls, hcl]
    simp only []
    rw [if_pos ⟨hup2, hmove⟩]
  · intro r hr
    apply hval r
    rw [hpolls, poll_results_append]
    rw [poll_results_append, hidle, List.nil_append] at hr
    exact List.mem_append_right _ hr

/-- The driver loop with workers when the deadline is never reached and the
probes deliver the results of every remaining round: it returns after the root
search has run at every remaining depth below 10. -/
theorem driver_loop_workers (clk : Nat → Int) (c : Int) (avail : List Int)
    (hne : 1 ≤ avail.length) :
    ∀ (n fuel : Nat) (depth bm md : Int) (ms : Master),
      depth + (n : Int) = 10 → n < fuel → 1 < ms.size → NeverUp clk ms.w →
      Delivers avail.length n ms.polls → ValidResults ms.polls →
      ∃ r md1 ms1, driver_loop clk c avail fuel depth bm md ms = some (r, md1, ms1) ∧
        ms1.searched = ms.searched ++ depths_from depth n := by
  intro n
  induction n with
  | zero =>
    intro fuel depth bm md ms hd hf _ _ _ _
    obtain ⟨f, rfl⟩ : ∃ f, fuel = f + 1 := ⟨fuel - 1, by omega⟩
    refine ⟨bm, md, ms, ?_, ?_⟩
    · rw [driver_loop, if_neg (by omega)]
    · show ms.searched = ms.searched ++ []
      rw [List.append_nil]
  | succ n ih =>
    intro fuel depth bm md ms hd hf hsz hn hdel hval
    obtain ⟨f, rfl⟩ : ∃ f, fuel = f + 1 := ⟨fuel - 1, by omega⟩
    obtain ⟨m, ms1, hstep, hs1, hn1, hse1, hdel1, hval1⟩ := driver_loop_worker_step clk c avail
      hne f depth bm md ms (by omega) hsz hn n hdel hval
    obtain ⟨r, md1, ms2, h2, hse2⟩ := ih f (depth + 1) m depth ms1 (by omega) (by omega)
      (by omega) hn1 hdel1 hval1
    refine ⟨r, md1, ms2, by rw [hstep, h2], ?_⟩
    rw [hse2, hse1]
    exact depths_from_append depth n ms.searched

/-- C19 (amended): when at least one legal root move exists and the deadline is
never reached, `minimax_strategy` returns after running the root search once at
every depth 1, 2, ..., 9, in this order, and at no other depth (its loop is
`for (depth = 1; depth < 10; depth++)`): with no worker unconditionally, and
with workers provided the probes of the result channel deliver, round after
round, the results of the tasks sent (without them the collection loop never
ends).  On every path, whatever the deadline and the workers do, the depths
searched are 1, 2, ..., k in this order for some k ≤ 9. -/
theorem driver_depths_1_to_9 (clk : Nat → Int) (c time : Int) (ms : Master)
    (hlen : ms.w.board.length = 64) (moves : List Int)
    (hmoves : legal_moves ms.w.board c = some moves) (hne : moves ≠ []) :
    (NeverUp clk ⟨ms.w.board, clk ms.w.clock_calls, time, 0⟩ →
      (1 < ms.size → Delivers moves.length 9 ms.polls ∧ ValidResults ms.polls) →
      ∃ r ms1, minimax_strategy clk c time ms = some (r, ms1) ∧
        ms1.searched = ms.searched ++ [1, 2, 3, 4, 5, 6, 7, 8, 9]) ∧
    (∀ r ms1, minimax_strategy clk c time ms = some (r, ms1) →
      ∃ k : Nat, k ≤ 9 ∧ ms1.searched = ms.searched ++ depths_from 1 k) := by
  obtain ⟨a, l, rfl⟩ : ∃ a l, moves = a :: l := by
    cases moves with
    | nil => exact absurd rfl hne
    | cons a l => exact ⟨a, l, rfl⟩
  have hread : readCell (a :: l) 0 = some a := by
    rw [readCell_eq _ _ (by omega) (by simp only [List.length_cons]; omega)]; rfl
  have hpos : ¬ (((a :: l).length : Int) ≤ 0) := by
    simp only [List.length_cons]; omega
  constructor
  · intro hn hpolls
    by_cases hsz : ms.size ≤ 1
    · obtain ⟨r, ms1, h, -, -, -, hs⟩ :=
        minimax_strategy_sequential clk c time ms hlen (a :: l) hmoves hne hsz
      exact ⟨r, ms1, h, hs hn⟩
    · obtain ⟨hdel, hval⟩ := hpolls (by omega)
      obtain ⟨r, md1, ms1, hr, hs1⟩ := driver_loop_workers clk c (a :: l)
        (by simp only [List.length_cons]; omega) 9 DRIVER_FUEL 1 a 0
        { ms with w := { ms.w with start := clk ms.w.clock_calls, time_limit := time,
                                   clock_calls := ms.w.clock_calls + 1 } }
        (by decide) (by decide) (by show 1 < ms.size; omega) (fun n => hn n) hdel hval
      refine ⟨r, { ms1 with sent := ms1.sent ++ idle_round ms1.size }, ?_, hs1⟩
      unfold minimax_strategy
      rw [hmoves]
      simp only []
      rw [if_neg hpos, hread]
      simp only []
      rw [hr]
  · intro r ms1 h
    unfold minimax_strategy at h
    rw [hmoves] at h
    simp only [] at h
    rw [if_neg hpos, hread] at h
    simp only [] at h
    cases hd : driver_loop clk c (a :: l) DRIVER_FUEL 1 a 0
        { ms with w := { ms.w with start := clk ms.w.clock_calls, time_limit := time,
                                   clock_calls := ms.w.clock_calls + 1 } } with
    | none => rw [hd] at h; exact Option.noConfusion h
    | some res =>
      obtain ⟨r1, md1, ms2⟩ := res
      rw [hd] at h
      simp only [Option.some.injEq, Prod.mk.injEq] at h
      obtain ⟨k, hk, hs⟩ := driver_loop_searched clk c (a :: l) _ _ _ _ _ _ _ _ (by decide)
        (by decide) hd
      refine ⟨k, by omega, ?_⟩
      rw [← h.2]
      exact hs

theorem driver_depths_1_to_9_witness :
    row_board.length = 64 ∧ legal_moves row_board BLACK = some [3] ∧ ([3] : List Int) ≠ [] ∧
    NeverUp frozen_clock ⟨row_board, frozen_clock 0, 1000, 0⟩ ∧
    Delivers 1 9 nine_rounds ∧ ValidResults nine_rounds ∧
    ∃ r ms1, minimax_strategy frozen_clock BLACK 1000
        ⟨⟨row_board, 0, 0, 0⟩, 2, nine_rounds, [], []⟩ = some (r, ms1) ∧
      ms1.searched = [] ++ [1, 2, 3, 4, 5, 6, 7, 8, 9] :=
  have hd : Delivers 1 9 nine_rounds :=
    ⟨[some (1, [⟨3, 5⟩])], _, rfl, rfl, [none, some (1, [⟨3, 5⟩])], _, rfl, rfl,
      [some (1, [⟨3, 5⟩])], _, rfl, rfl, [some (1, [⟨3, 5⟩])], _, rfl, rfl,
      [some (1, [⟨3, 5⟩])], _, rfl, rfl, [none, none, some (1, [⟨3, 5⟩])], _, rfl, rfl,
      [some (1, [⟨3, 5⟩])], _, rfl, rfl, [some (1, [⟨3, 5⟩])], _, rfl, rfl,
      [some (1, [⟨3, 5⟩])], _, rfl, rfl, trivial⟩
  have hv : ValidResults nine_rounds := by
    unfold ValidResults
    decide
  ⟨by decide, row_legal_black, by decide, NeverUp_frozen row_board 0, hd, hv,
    (driver_depths_1_to_9 frozen_clock BLACK 1000 ⟨⟨row_board, 0, 0, 0⟩, 2, nine_rounds, [], []⟩
      (by decide) [3] row_legal_black (by decide)).1 (NeverUp_frozen row_board 0)
      (fun _ => ⟨hd, hv⟩)⟩

/-- In a process whose deadline test is always true (as in a worker, whose
`start` and `time_limit` stay zero), `evaluate_moves` returns the static value
of the position after the move, whatever the depth and the window. -/
theorem evaluate_moves_time_up (clk : Nat → Int) (w : World)
    (hup : ∀ n, clk n - w.start > (w.time_limit - 1) * CLOCKS_PER_SEC)
    (m c d al be r : Int) (b1 : Board) (v : Int) (hlen : w.board.length = 64)
    (hlen1 : b1.length = 64) (hmv : make_temp_move m c w.board = some (r, b1))
    (hev : evaluate_board_state b1 c = some v) :
    (evaluate_moves clk m c d al be w).map Prod.fst = some v := by
  unfold evaluate_moves
  rw [copy_curr_board_eq w.board hlen, hmv]
  simp only []
  have hmm : ∃ w2, minimax clk SEARCH_FUEL (d - 1) al be false c ((c + 1).tmod 2)
      { w with board := b1 } = some (v, w2) ∧ w2.board = b1 := by
    rw [minimax]
    by_cases hd : d - 1 ≤ 0 ∨ d - 1 > 10
    · rw [if_pos hd]
      unfold leaf_value
      rw [hev]
      exact ⟨_, rfl, rfl⟩
    · rw [if_neg hd]
      simp only []
      rw [if_pos (by
        simp only [check_if_time_up, decide_eq_true_eq]
        exact hup _)]
      unfold leaf_value
      show ∃ w2, (evaluate_board_state b1 c).map _ = some (v, w2) ∧ w2.board = b1
      rw [hev]
      exact ⟨_, rfl, rfl⟩
  obtain ⟨w2, h2, hb2⟩ := hmm
  rw [h2]
  simp only []
  rw [restore_board_eq w.board w2.board hlen (by rw [hb2]; exact hlen1)]
  rfl

/-- C30 (fails with workers): on `twin_board` with White to move the root moves
are cells 1 and 8; with two workers the task for cell 1 goes to worker 1 and
the task for cell 8 to worker 2.  A worker evaluates on its own board, the
opening position, with `start` and `time_limit` zero, so whatever the depth of
the task its score is the static value of its board after the move: 5 for
either cell.  With the deadline never reached and the result of worker 2
received first in round 1, that of worker 1 first afterwards, the coordinator
retains cell 8 at depth 1 and cell 1 at depth 2 (the moves `minimax_strategy`
returns when the deadline falls right after depth 1 and right after depth 2),
and the driver goes on to depth 9.  The depth-2 kernel score of cell 1, chosen
at depth 2, is 166; that of cell 8, chosen at depth 1, is 193. -/
theorem deeper_choice_worse_with_workers :
    legal_moves twin_board WHITE = some [1, 8] ∧
    (∀ (d al be : Int) (k : Nat),
      (evaluate_moves ticking_clock 1 WHITE d al be ⟨opening_board, 0, 0, k⟩).map Prod.fst =
        some 5 ∧
      (evaluate_moves ticking_clock 8 WHITE d al be ⟨opening_board, 0, 0, k⟩).map Prod.fst =
        some 5) ∧
    ((dispatch_loop [1, 8] WHITE 1 (-999999) 999999 1 (worker_ranks 2) 0 []).bind fun d =>
      (collect_loop frozen_clock 2 d.1 race_polls ⟨-1, -999999, -999999, 0, d.2⟩
        ⟨twin_board, 0, 1000, 2⟩).map fun r =>
          (d.2.take 6, r.1.curr_best_move, decide (r.2.2 = race_polls.drop 2))) =
      some ([Msg.int 1 0 1, Msg.int 1 1 0, Msg.task 1 ⟨1, 2, 1, -999999, 999999⟩,
        Msg.int 2 0 1, Msg.int 2 1 0, Msg.task 2 ⟨8, 2, 1, -999999, 999999⟩], 8, true) ∧
    ((dispatch_loop [1, 8] WHITE 2 (-999999) 999999 1 (worker_ranks 2) 0 []).bind fun d =>
      (collect_loop frozen_clock 2 d.1 (race_polls.drop 2) ⟨-1, -999999, -999999, 0, d.2⟩
        ⟨twin_board, 0, 1000, 6⟩).map fun r =>
          (d.2.take 6, r.1.curr_best_move, decide (r.2.2 = race_polls.drop 4))) =
      some ([Msg.int 1 0 1, Msg.int 1 1 0, Msg.task 1 ⟨1, 2, 2, -999999, 999999⟩,
        Msg.int 2 0 1, Msg.int 2 1 0, Msg.task 2 ⟨8, 2, 2, -999999, 999999⟩], 1, true) ∧
    (minimax_strategy frozen_clock WHITE 1000 ⟨⟨twin_board, 0, 0, 0⟩, 3, race_polls, [], []⟩).map
      (fun r => (r.1, r.2.searched)) = some (1, [1, 2, 3, 4, 5, 6, 7, 8, 9]) ∧
    (minimax_strategy (late_clock 5) WHITE 2 ⟨⟨twin_board, 0, 0, 0⟩, 3, race_polls, [], []⟩).map
      (fun r => (r.1, r.2.searched)) = some (8, [1]) ∧
    (minimax_strategy (late_clock 9) WHITE 2 ⟨⟨twin_board, 0, 0, 0⟩, 3, race_polls, [], []⟩).map
      (fun r => (r.1, r.2.searched)) = some (1, [1, 2]) ∧
    (evaluate_moves frozen_clock 1 WHITE 2 (-999999) 999999 ⟨twin_board, 0, 1000, 0⟩).map
      Prod.fst = some 166 ∧
    (evaluate_moves frozen_clock 8 WHITE 2 (-999999) 999999 ⟨twin_board, 0, 1000, 0⟩).map
      Prod.fst = some 193 := by
  have hup : ∀ (k : Nat) (n : Nat), ticking_clock n - (⟨opening_board, 0, 0, k⟩ : World).start >
      ((⟨opening_board, 0, 0, k⟩ : World).time_limit - 1) * CLOCKS_PER_SEC := by
    intro k n
    show ((n : Int) + 1) - 0 > (0 - 1) * 1000000
    omega
  refine ⟨by decide!, ?_, by decide!, by decide!, by decide!, by decide!, by decide!, by decide!,
    by decide!⟩
  intro d al be k
  exact ⟨evaluate_moves_time_up ticking_clock ⟨opening_board, 0, 0, k⟩ (hup k) 1 WHITE d al be 1
      opening_plus_1 5 (by show opening_board.length = 64; decide) (by decide)
      (by show make_temp_move 1 WHITE opening_board = some (1, opening_plus_1); decide!)
      (by decide!),
    evaluate_moves_time_up ticking_clock ⟨opening_board, 0, 0, k⟩ (hup k) 8 WHITE d al be 1
      opening_plus_8 5 (by show opening_board.length = 64; decide) (by decide)
      (by show make_temp_move 8 WHITE opening_board = some (1, opening_plus_8); decide!)
      (by decide!)⟩

/-- What a worker returns for a task whose move is a cell satisfies the
conditions of `ValidResults`: the move is not -1 and the score lies in the
range of the evaluator, above -999999. -/
theorem ResultOf_valid (clk : Nat → Int) (w : World) (t : MoveTask) (r : MoveResult)
    (hlen : w.board.length = 64) (h0 : 0 ≤ t.move) (h1 : t.move < 64)
    (h : ResultOf clk w t r) : -999999 < r.score ∧ r.move ≠ -1 := by
  obtain ⟨hm, wi, wj, hg, he⟩ := h
  obtain ⟨v, w1, hv, -, hlo, -⟩ := evaluate_moves_range clk t.move t.player_colour t.depth
    t.alpha t.beta wi (by rw [hg.1]; exact hlen) h0 h1
  rw [hv] at he
  have e : v = r.score := congrArg Prod.fst (Option.some.inj he)
  constructor
  · omega
  · rw [hm]; omega

end Othello
